import Mathlib

/-!
# GUSMap: EM / score kernels of the full-sib hidden Markov model

Shallow embedding of `src/em.c` and `src/score.c`.

* C `int` values are `Int`; loop counters, array offsets and the sizes `noFam`,
  `nInd[fam]`, `nSnps` (which the code only uses as loop bounds and strides) are
  `Nat`.  `nSnps - 1` is truncated subtraction, which agrees with C for
  `nSnps ≥ 1`.
* C `double` values are elements of an arbitrary linearly ordered field `α`
  (exact arithmetic; instantiate `α := ℝ` for the reals or `α := ℚ` to run the
  definitions).  `powl(x, n)` with an `int` exponent is `x ^ n` (`zpow`).
* The functions `log` and `exp` of `<math.h>` are a parameter (`Libm`);
  theorems that need them state the laws they use as hypotheses.
* A C loop `for (i = 0; i < n; i++)` is `forLoop n body init`; a `switch` whose
  case bodies can fall through is `switchFrom`.
* Flat arrays are functions on offsets.  The per-individual tables of the
  E-step (`alphaTilde`, `betaTilde`, `log_w`, `uProb`, `vProb`, `Iaa`, `Ibb`,
  `pAB`) are written once per round in the slot `indx = ind + indSum[fam]` and
  read back from the same slot; they are given as functions of `(fam, ind)`.
  The buffers `pAA`, `pBB` filled by `computeProb` through walking pointers are
  modelled as memory.
* The two drivers `EM_HMM` and `EM_HMM_UP` differ only in the table functions
  (`Qentry`, `Iindx` versus `Qentry_up`, `Iindx_up`) and in the `sexSpec`
  switch, which `EM_HMM_UP` does not have (its mask loop and sex-specific
  M-step are unconditional); both are instances of one loop body `emBody`.
-/

set_option linter.unusedSectionVars false

namespace GUSMap

/-! ## Control-flow helpers -/

/-- State-passing counted loop: `for (i = 0; i < n; i++) st = body i st`. -/
def forLoop {σ : Type} : Nat → (Nat → σ → σ) → σ → σ
  | 0, _, st => st
  | n + 1, body, st => body n (forLoop n body st)

/-- Run a C `switch` body starting at case label `k`: a case body that returns
yields `some v`; a case body whose `if / else if` chain is exhausted without a
`return` yields `none` and control falls through into the next case label.
After the last label control leaves the switch and `dflt` is returned.  The
first argument is the number of labels still ahead (including `k`). -/
def switchFrom {β : Type} (body : Nat → Option β) (dflt : β) : Nat → Nat → β
  | 0, _ => dflt
  | n + 1, k =>
    match body k with
    | some v => v
    | none => switchFrom body dflt n (k + 1)

/-- The explicit four-state accumulation
`sum = 0; for (s = 0; s < 4; s++) sum = sum + f(s);`. -/
def sum4 {α : Type} [Zero α] [Add α] (f : Int → α) : α :=
  forLoop 4 (fun s sum => sum + f (s : Int)) 0

/-! ## `em.c`: recombination counts and the known-phase class table -/

/-- The function `Tcount` of `em.c`. -/
def Tcount (s1 s2 : Int) : Int :=
  let sSum := s1 + s2 * 4
  if sSum = 0 ∨ sSum = 5 ∨ sSum = 10 ∨ sSum = 15 then 0
  else if sSum = 3 ∨ sSum = 6 ∨ sSum = 9 ∨ sSum = 12 then 2
  else 1

/-- Body of `case k:` inside `Iindx` (`em.c`). -/
def Iindx_case (elem : Int) (k : Nat) : Option Int :=
  match k with
  | 1 =>
    if elem = 1 then some 2
    else if elem = 2 ∨ elem = 3 then some 0
    else if elem = 4 then some 1
    else none
  | 2 =>
    if elem = 3 then some 2
    else if elem = 1 ∨ elem = 4 then some 0
    else if elem = 2 then some 1
    else none
  | 3 =>
    if elem = 2 then some 2
    else if elem = 1 ∨ elem = 4 then some 0
    else if elem = 3 then some 1
    else none
  | 4 =>
    if elem = 4 then some 2
    else if elem = 2 ∨ elem = 3 then some 0
    else if elem = 1 then some 1
    else none
  | 5 =>
    if elem = 1 ∨ elem = 2 then some 0
    else if elem = 3 ∨ elem = 4 then some 1
    else none
  | 6 =>
    if elem = 1 ∨ elem = 2 then some 1
    else if elem = 3 ∨ elem = 4 then some 0
    else none
  | 7 =>
    if elem = 1 ∨ elem = 2 then some 2
    else if elem = 3 ∨ elem = 4 then some 0
    else none
  | 8 =>
    if elem = 1 ∨ elem = 2 then some 0
    else if elem = 3 ∨ elem = 4 then some 2
    else none
  | 9 =>
    if elem = 1 ∨ elem = 3 then some 0
    else if elem = 2 ∨ elem = 4 then some 1
    else none
  | 10 =>
    if elem = 1 ∨ elem = 3 then some 1
    else if elem = 2 ∨ elem = 4 then some 0
    else none
  | 11 =>
    if elem = 1 ∨ elem = 3 then some 2
    else if elem = 2 ∨ elem = 4 then some 0
    else none
  | 12 =>
    if elem = 1 ∨ elem = 3 then some 0
    else if elem = 2 ∨ elem = 4 then some 2
    else none
  | 13 => some 1
  | 14 => some 0
  | 15 => some 0
  | 16 => some 2
  | _ => none

/-- The function `Iindx` of `em.c`: `switch (OPGP)` over the labels `1 .. 16`, then
`return -1`. -/
def Iindx (OPGP elem : Int) : Int :=
  if 1 ≤ OPGP ∧ OPGP ≤ 16 then
    switchFrom (Iindx_case elem) (-1) (17 - OPGP.toNat) OPGP.toNat
  else -1

/-- Body of `case k:` inside `Iindx_up` (`em.c`). -/
def Iindx_up_case (elem : Int) (k : Nat) : Option Int :=
  match k with
  | 1 =>
    if elem = 1 then some 2
    else if elem = 2 ∨ elem = 3 then some 0
    else if elem = 4 then some 1
    else none
  | 2 =>
    if elem = 1 ∨ elem = 2 then some 0
    else if elem = 3 ∨ elem = 4 then some 1
    else none
  | 3 =>
    if elem = 1 ∨ elem = 2 then some 2
    else if elem = 3 ∨ elem = 4 then some 0
    else none
  | 4 =>
    if elem = 1 ∨ elem = 3 then some 0
    else if elem = 2 ∨ elem = 4 then some 1
    else none
  | 5 =>
    if elem = 1 ∨ elem = 3 then some 2
    else if elem = 2 ∨ elem = 4 then some 0
    else none
  | _ => none

/-- The function `Iindx_up` of `em.c`: `switch (config)` over the labels `1 .. 5`, then
`return -1`. -/
def Iindx_up (config elem : Int) : Int :=
  if 1 ≤ config ∧ config ≤ 5 then
    switchFrom (Iindx_up_case elem) (-1) (6 - config.toNat) config.toNat
  else -1

/-! ## `score.c`: emission selection and transition matrices -/

section Tables

variable {α : Type}

/-- Body of `case k:` inside `Qentry` (`score.c`). -/
def Qentry_case (Kaa Kab Kbb : α) (elem : Int) (k : Nat) : Option α :=
  match k with
  | 1 =>
    if elem = 1 then some Kbb
    else if elem = 2 ∨ elem = 3 then some Kab
    else if elem = 4 then some Kaa
    else none
  | 2 =>
    if elem = 3 then some Kbb
    else if elem = 1 ∨ elem = 4 then some Kab
    else if elem = 2 then some Kaa
    else none
  | 3 =>
    if elem = 2 then some Kbb
    else if elem = 1 ∨ elem = 4 then some Kab
    else if elem = 3 then some Kaa
    else none
  | 4 =>
    if elem = 4 then some Kbb
    else if elem = 2 ∨ elem = 3 then some Kab
    else if elem = 1 then some Kaa
    else none
  | 5 =>
    if elem = 1 ∨ elem = 2 then some Kab
    else if elem = 3 ∨ elem = 4 then some Kaa
    else none
  | 6 =>
    if elem = 1 ∨ elem = 2 then some Kaa
    else if elem = 3 ∨ elem = 4 then some Kab
    else none
  | 7 =>
    if elem = 1 ∨ elem = 2 then some Kbb
    else if elem = 3 ∨ elem = 4 then some Kab
    else none
  | 8 =>
    if elem = 1 ∨ elem = 2 then some Kab
    else if elem = 3 ∨ elem = 4 then some Kbb
    else none
  | 9 =>
    if elem = 1 ∨ elem = 3 then some Kab
    else if elem = 2 ∨ elem = 4 then some Kaa
    else none
  | 10 =>
    if elem = 1 ∨ elem = 3 then some Kaa
    else if elem = 2 ∨ elem = 4 then some Kab
    else none
  | 11 =>
    if elem = 1 ∨ elem = 3 then some Kbb
    else if elem = 2 ∨ elem = 4 then some Kab
    else none
  | 12 =>
    if elem = 1 ∨ elem = 3 then some Kab
    else if elem = 2 ∨ elem = 4 then some Kbb
    else none
  | 13 => some Kaa
  | 14 => some Kab
  | 15 => some Kab
  | 16 => some Kbb
  | _ => none

/-- The function `Qentry` of `score.c`: `switch (OPGP)` over the labels `1 .. 16`, then
`return -1`. -/
def Qentry [Neg α] [One α] (OPGP : Int) (Kaa Kab Kbb : α) (elem : Int) : α :=
  if 1 ≤ OPGP ∧ OPGP ≤ 16 then
    switchFrom (Qentry_case Kaa Kab Kbb elem) (-1) (17 - OPGP.toNat) OPGP.toNat
  else -1

/-- Body of `case k:` inside `Qentry_up` (`score.c`). -/
def Qentry_up_case (Kaa Kab Kbb : α) (elem : Int) (k : Nat) : Option α :=
  match k with
  | 1 =>
    if elem = 1 then some Kbb
    else if elem = 2 ∨ elem = 3 then some Kab
    else if elem = 4 then some Kaa
    else none
  | 2 =>
    if elem = 1 ∨ elem = 2 then some Kab
    else if elem = 3 ∨ elem = 4 then some Kaa
    else none
  | 3 =>
    if elem = 1 ∨ elem = 2 then some Kbb
    else if elem = 3 ∨ elem = 4 then some Kab
    else none
  | 4 =>
    if elem = 1 ∨ elem = 3 then some Kab
    else if elem = 2 ∨ elem = 4 then some Kaa
    else none
  | 5 =>
    if elem = 1 ∨ elem = 3 then some Kbb
    else if elem = 2 ∨ elem = 4 then some Kab
    else none
  | _ => none

/-- The function `Qentry_up` of `score.c`: `switch (config)` over the labels `1 .. 5`, then
`return -1`. -/
def Qentry_up [Neg α] [One α] (config : Int) (Kaa Kab Kbb : α) (elem : Int) : α :=
  if 1 ≤ config ∧ config ≤ 5 then
    switchFrom (Qentry_up_case Kaa Kab Kbb elem) (-1) (6 - config.toNat) config.toNat
  else -1

/-- The function `Tmat` of `score.c` (pooled recombination fraction). -/
def Tmat [Ring α] (s1 s2 : Int) (rval : α) : α :=
  let sSum := s1 + s2 * 4
  if sSum = 0 ∨ sSum = 5 ∨ sSum = 10 ∨ sSum = 15 then (1 - rval) * (1 - rval)
  else if sSum = 3 ∨ sSum = 6 ∨ sSum = 9 ∨ sSum = 12 then rval * rval
  else (1 - rval) * rval

/-- The function `Tmat_ss` of `score.c` (sex-specific recombination fractions). -/
def Tmat_ss [Ring α] (s1 s2 : Int) (r_f r_m : α) : α :=
  let sSum := s1 + s2 * 4
  if sSum = 0 ∨ sSum = 5 ∨ sSum = 10 ∨ sSum = 15 then (1 - r_f) * (1 - r_m)
  else if sSum = 3 ∨ sSum = 6 ∨ sSum = 9 ∨ sSum = 12 then r_f * r_m
  else if sSum = 1 ∨ sSum = 4 ∨ sSum = 11 ∨ sSum = 14 then (1 - r_f) * r_m
  else r_f * (1 - r_m)

end Tables


/-! ## `em.c`: emission probabilities -/

/-- The functions `log` and `exp` of `<math.h>`, in exact arithmetic. -/
structure Libm (α : Type) where
  log : α → α
  exp : α → α

/-- The two output buffers of `computeProb` together with the offsets of the
three walking pointers `ppAA`, `ppBB`, `pbin_coef` from the start of their
buffers. -/
structure ProbState (α : Type) where
  ppAA : Nat
  ppBB : Nat
  pbin_coef : Nat
  pAA : Nat → α
  pBB : Nat → α

section Emission

variable {α : Type} [LinearOrderedField α]

/-- One pass through the inner loop body of `computeProb`. -/
def computeProb_body (bin_coef : Nat → α) (epsilon : α)
    (pdepth_Ref pdepth_Alt : Nat → Int) (nInd ind snp : Nat)
    (st : ProbState α) : ProbState α :=
  let indx := ind + nInd * snp
  let vAA : α :=
    if pdepth_Ref indx + pdepth_Alt indx = 0 then 1
    else bin_coef st.pbin_coef * (1 - epsilon) ^ pdepth_Ref indx * epsilon ^ pdepth_Alt indx
  let vBB : α :=
    if pdepth_Ref indx + pdepth_Alt indx = 0 then 1
    else bin_coef st.pbin_coef * epsilon ^ pdepth_Ref indx * (1 - epsilon) ^ pdepth_Alt indx
  { ppAA := st.ppAA + 1
    ppBB := st.ppBB + 1
    pbin_coef := st.pbin_coef + 1
    pAA := Function.update st.pAA st.ppAA vAA
    pBB := Function.update st.pBB st.ppBB vBB }

/-- The function `computeProb` of `em.c`.  `pAA`, `pBB` are the contents of the two output
buffers on entry, `bin_coef` the (read-only) buffer of constants; the three
pointers start at offset `0`. -/
def computeProb (pAA pBB bin_coef : Nat → α) (epsilon : α)
    (pdepth_Ref pdepth_Alt : Nat → Int) (nInd nSnps : Nat) : ProbState α :=
  forLoop nInd
    (fun ind st =>
      forLoop nSnps
        (fun snp st => computeProb_body bin_coef epsilon pdepth_Ref pdepth_Alt nInd ind snp st)
        st)
    { ppAA := 0, ppBB := 0, pbin_coef := 0, pAA := pAA, pBB := pBB }

/-- The value `computeProb` stores for `pAA` in the cell of `(ind, snp)`. -/
def cellAA (bin_coef : Nat → α) (epsilon : α) (pdepth_Ref pdepth_Alt : Nat → Int)
    (nInd nSnps ind snp : Nat) : α :=
  if pdepth_Ref (ind + nInd * snp) + pdepth_Alt (ind + nInd * snp) = 0 then 1
  else bin_coef (ind * nSnps + snp) * (1 - epsilon) ^ pdepth_Ref (ind + nInd * snp)
    * epsilon ^ pdepth_Alt (ind + nInd * snp)

/-- The value `computeProb` stores for `pBB` in the cell of `(ind, snp)`. -/
def cellBB (bin_coef : Nat → α) (epsilon : α) (pdepth_Ref pdepth_Alt : Nat → Int)
    (nInd nSnps ind snp : Nat) : α :=
  if pdepth_Ref (ind + nInd * snp) + pdepth_Alt (ind + nInd * snp) = 0 then 1
  else bin_coef (ind * nSnps + snp) * epsilon ^ pdepth_Ref (ind + nInd * snp)
    * (1 - epsilon) ^ pdepth_Alt (ind + nInd * snp)

/-- Invariant of `computeProb` after `p` cells: the three pointers stand at
offset `p` and every cell below `p` holds its final value. -/
def ProbInv (bin_coef : Nat → α) (epsilon : α) (pdepth_Ref pdepth_Alt : Nat → Int)
    (nInd nSnps p : Nat) (st : ProbState α) : Prop :=
  st.ppAA = p ∧ st.ppBB = p ∧ st.pbin_coef = p ∧
  ∀ i s, s < nSnps → i * nSnps + s < p →
    st.pAA (i * nSnps + s) = cellAA bin_coef epsilon pdepth_Ref pdepth_Alt nInd nSnps i s ∧
    st.pBB (i * nSnps + s) = cellBB bin_coef epsilon pdepth_Ref pdepth_Alt nInd nSnps i s

end Emission

/-! ## `em.c`: the EM driver -/

/-- Arguments of `EM_HMM` / `EM_HMM_UP` after unmarshalling.  `OPGP` doubles as
the `config` argument of `EM_HMM_UP`; `nIter` and `delta` are `para[0]` (after
its conversion to `int`) and `para[1]`. -/
structure EMInput (α : Type) where
  r : Nat → α
  ep : α
  depth_Ref : Nat → Int
  depth_Alt : Nat → Int
  OPGP : Nat → Int
  noFam : Nat
  nInd : Nat → Nat
  nSnps : Nat
  sexSpec : Int
  seqError : Int
  nIter : Int
  delta : α
  ss_rf : Nat → Int

/-- The variables that live across iterations of the `while` loop. -/
structure EMState (α : Type) where
  iter : Int
  r_c : Nat → α
  ep_c : α
  llval : α
  prellval : α

/-- Weight and scaled forward vector of one individual at one marker. -/
structure Fwd (α : Type) where
  w : α
  alphaTilde : Int → α

/-- The value returned to R: `rout`, `epout`, `llout`. -/
structure EMOutput (α : Type) where
  rout : Nat → α
  epout : α
  llout : α

section EM

variable {α : Type} [LinearOrderedField α]

/-- Value of `nTotal` after `k` rounds of the family loop. -/
def nTotalUpTo (nInd : Nat → Nat) (k : Nat) : Nat :=
  forLoop k (fun fam nTotal => nTotal + nInd fam) 0

/-- The variable `nTotal` on exit of the family loop. -/
def nTotal (inp : EMInput α) : Nat := nTotalUpTo inp.nInd inp.noFam

/-- The assignment `indSum[fam] = nTotal - nInd_c[fam]`, evaluated in round `fam`
of the family loop. -/
def indSum (inp : EMInput α) (fam : Nat) : Nat :=
  nTotalUpTo inp.nInd (fam + 1) - inp.nInd fam

/-- Initial copy `r_c[snp + parent*(nSnps_c-1)] = REAL(r)[...]` (slots outside
the array are never read; they are taken as `0`). -/
def copy_r (nSnps : Nat) (r : Nat → α) : Nat → α :=
  forLoop (nSnps - 1)
    (fun snp buf =>
      forLoop 2
        (fun parent buf =>
          Function.update buf (snp + parent * (nSnps - 1)) (r (snp + parent * (nSnps - 1))))
        buf)
    (fun _ => 0)

/-- The mask loop `if (pss_rf[snp] == 0) r_c[snp] = 0; ...`. -/
def mask_r (nSnps : Nat) (ss_rf : Nat → Int) (r_c : Nat → α) : Nat → α :=
  forLoop (nSnps - 1)
    (fun snp buf =>
      let buf1 := if ss_rf snp = 0 then Function.update buf snp 0 else buf
      if ss_rf (snp + nSnps - 1) = 0 then Function.update buf1 (snp + nSnps - 1) 0 else buf1)
    r_c

/-- The array entry `pAB[indx][snp]`, with `bin_coef[indx][snp] = 1`. -/
def pAB (inp : EMInput α) (indx snp : Nat) : α :=
  1 * (0.5 : α) ^ (inp.depth_Ref (indx + nTotal inp * snp)
    + inp.depth_Alt (indx + nTotal inp * snp))

/-- The call `computeProb(ppAA, ppBB, pbin_coef, ep_c, ..., nTotal, nSnps_c)`:
`bin_coef` holds `1` in every slot and every slot of `pAA`, `pBB` that is read
afterwards is overwritten by the call. -/
def probs (inp : EMInput α) (ep_c : α) : ProbState α :=
  computeProb (fun _ => 0) (fun _ => 0) (fun _ => 1) ep_c inp.depth_Ref inp.depth_Alt
    (nTotal inp) inp.nSnps

/-- The array entry `pAA[indx][snp]` of `double pAA[nTotal][nSnps_c]` after `computeProb`. -/
def pAA (inp : EMInput α) (ep_c : α) (indx snp : Nat) : α :=
  (probs inp ep_c).pAA (indx * inp.nSnps + snp)

/-- The array entry `pBB[indx][snp]` of `double pBB[nTotal][nSnps_c]` after `computeProb`. -/
def pBB (inp : EMInput α) (ep_c : α) (indx snp : Nat) : α :=
  (probs inp ep_c).pBB (indx * inp.nSnps + snp)

variable (M : Libm α) (Qsel : Int → α → α → α → Int → α) (Isel : Int → Int → Int)

/-- The emission `Qentry(pOPGP[snp*noFam_c + fam], pAA[indx][snp], pAB[indx][snp],
pBB[indx][snp], s+1)` of individual `ind` of family `fam`. -/
def emis (inp : EMInput α) (ep_c : α) (fam ind snp : Nat) (s : Int) : α :=
  let indx := ind + indSum inp fam
  Qsel (inp.OPGP (snp * inp.noFam + fam)) (pAA inp ep_c indx snp) (pAB inp indx snp)
    (pBB inp ep_c indx snp) (s + 1)

/-- Forward pass of one individual: the weight (`sum` at the first marker,
`w_new` afterwards) and `alphaTilde[.][indx][snp]`. -/
def forward (inp : EMInput α) (r_c : Nat → α) (ep_c : α) (fam ind : Nat) : Nat → Fwd α
  | 0 =>
    let alphaDot : Int → α := fun s1 => 0.25 * emis Qsel inp ep_c fam ind 0 s1
    let sum := sum4 alphaDot
    { w := sum, alphaTilde := fun s1 => alphaDot s1 / sum }
  | snp + 1 =>
    let prev := (forward inp r_c ep_c fam ind snp).alphaTilde
    let alphaDot : Int → α := fun s2 =>
      emis Qsel inp ep_c fam ind (snp + 1) s2 *
        sum4 (fun s1 => Tmat_ss s1 s2 (r_c snp) (r_c (snp + inp.nSnps - 1)) * prev s1)
    let w_new := sum4 alphaDot
    { w := w_new, alphaTilde := fun s2 => alphaDot s2 / w_new }

/-- The array entry `log_w[indx][snp]`. -/
def log_w (inp : EMInput α) (r_c : Nat → α) (ep_c : α) (fam ind snp : Nat) : α :=
  M.log (forward Qsel inp r_c ep_c fam ind snp).w

/-- The array entry `alphaTilde[s][indx][snp]`. -/
def alphaTilde (inp : EMInput α) (r_c : Nat → α) (ep_c : α) (fam ind snp : Nat) (s : Int) : α :=
  (forward Qsel inp r_c ep_c fam ind snp).alphaTilde s

/-- The unscaled forward values `alphaDot[.]` held while marker `snp` is
processed. -/
def alphaDot (inp : EMInput α) (r_c : Nat → α) (ep_c : α) (fam ind : Nat) : Nat → Int → α
  | 0 => fun s1 => 0.25 * emis Qsel inp ep_c fam ind 0 s1
  | snp + 1 => fun s2 =>
    emis Qsel inp ep_c fam ind (snp + 1) s2 *
      sum4 (fun s1 => Tmat_ss s1 s2 (r_c snp) (r_c (snp + inp.nSnps - 1)) *
        (forward Qsel inp r_c ep_c fam ind snp).alphaTilde s1)

/-- Backward pass of one individual, indexed by the number `k` of completed
rounds of the descending marker loop: the result is
`betaTilde[.][indx][nSnps_c-1-k]`. -/
def backward (inp : EMInput α) (r_c : Nat → α) (ep_c : α) (fam ind : Nat) : Nat → Int → α
  | 0 => fun _ => 1 / M.exp (log_w M Qsel inp r_c ep_c fam ind (inp.nSnps - 1))
  | k + 1 =>
    let snp := inp.nSnps - 2 - k
    let next := backward inp r_c ep_c fam ind k
    let betaDot : Int → α := fun s1 =>
      sum4 (fun s2 =>
        emis Qsel inp ep_c fam ind (snp + 1) s2 *
          Tmat_ss s1 s2 (r_c snp) (r_c (snp + inp.nSnps - 1)) * next s2)
    fun s1 => betaDot s1 / M.exp (log_w M Qsel inp r_c ep_c fam ind snp)

/-- The array entry `betaTilde[s][indx][snp]`. -/
def betaTilde (inp : EMInput α) (r_c : Nat → α) (ep_c : α) (fam ind snp : Nat) (s : Int) : α :=
  backward M Qsel inp r_c ep_c fam ind (inp.nSnps - 1 - snp) s

/-- The array entry `uProb[s][indx][snp]`. -/
def uProb (inp : EMInput α) (r_c : Nat → α) (ep_c : α) (fam ind snp : Nat) (s : Int) : α :=
  (alphaTilde Qsel inp r_c ep_c fam ind snp s * betaTilde M Qsel inp r_c ep_c fam ind snp s)
    / M.exp (-(log_w M Qsel inp r_c ep_c fam ind snp))

/-- The array entry `vProb[s1][s2][indx][snp]`. -/
def vProb (inp : EMInput α) (r_c : Nat → α) (ep_c : α) (fam ind snp : Nat) (s1 s2 : Int) : α :=
  alphaTilde Qsel inp r_c ep_c fam ind snp s1 *
    Tmat_ss s1 s2 (r_c snp) (r_c (snp + inp.nSnps - 1)) *
    emis Qsel inp ep_c fam ind (snp + 1) s2 *
    betaTilde M Qsel inp r_c ep_c fam ind (snp + 1) s2

/-- The log-likelihood accumulated into `llval` by one E-step. -/
def logLik (inp : EMInput α) (r_c : Nat → α) (ep_c : α) : α :=
  forLoop inp.noFam
    (fun fam ll =>
      forLoop (inp.nInd fam)
        (fun ind ll =>
          forLoop (inp.nSnps - 1)
            (fun j ll => ll + M.log (forward Qsel inp r_c ep_c fam ind (j + 1)).w)
            (ll + M.log (forward Qsel inp r_c ep_c fam ind 0).w))
        ll)
    0

/-- Paternal accumulation of the sex-specific M-step for interval `snp`. -/
def sumPat (inp : EMInput α) (r_c : Nat → α) (ep_c : α) (snp : Nat) : α :=
  forLoop inp.noFam
    (fun fam sum =>
      forLoop (inp.nInd fam)
        (fun ind sum =>
          forLoop 2
            (fun s1 sum =>
              forLoop 2
                (fun j sum =>
                  let s2 : Int := (j : Int) + 2
                  sum + vProb M Qsel inp r_c ep_c fam ind snp s1 s2
                    + vProb M Qsel inp r_c ep_c fam ind snp (s1 + 2) (s2 - 2))
                sum)
            sum)
        sum)
    0

/-- Maternal accumulation of the sex-specific M-step for interval `snp`. -/
def sumMat (inp : EMInput α) (r_c : Nat → α) (ep_c : α) (snp : Nat) : α :=
  forLoop inp.noFam
    (fun fam sum =>
      forLoop (inp.nInd fam)
        (fun ind sum =>
          forLoop 2
            (fun s1 sum =>
              forLoop 2
                (fun s2 sum =>
                  sum + vProb M Qsel inp r_c ep_c fam ind snp (2 * s1) (1 + 2 * s2)
                    + vProb M Qsel inp r_c ep_c fam ind snp (1 + 2 * s1) (2 * s2))
                sum)
            sum)
        sum)
    0

/-- Accumulation of the pooled M-step for interval `snp`. -/
def sumPooled (inp : EMInput α) (r_c : Nat → α) (ep_c : α) (snp : Nat) : α :=
  forLoop inp.noFam
    (fun fam sum =>
      forLoop (inp.nInd fam)
        (fun ind sum =>
          forLoop 4
            (fun s1 sum =>
              forLoop 4
                (fun s2 sum =>
                  sum + vProb M Qsel inp r_c ep_c fam ind snp s1 s2 * ((Tcount s1 s2 : Int) : α))
                sum)
            sum)
        sum)
    0

/-- M-step for the recombination fractions: the sex-specific branch when
`sexSpec` holds, the pooled branch otherwise.  The posterior tables were filled
from the old `r_c`, which is updated in place. -/
def mstep_r (sexSpec : Bool) (inp : EMInput α) (r_c : Nat → α) (ep_c : α) : Nat → α :=
  if sexSpec then
    forLoop (inp.nSnps - 1)
      (fun snp buf =>
        let buf1 :=
          if inp.ss_rf snp = 1 then
            Function.update buf snp (1.0 / (nTotal inp : α) * sumPat M Qsel inp r_c ep_c snp)
          else buf
        if inp.ss_rf (snp + inp.nSnps - 1) = 1 then
          Function.update buf1 (snp + inp.nSnps - 1)
            (1.0 / (nTotal inp : α) * sumMat M Qsel inp r_c ep_c snp)
        else buf1)
      r_c
  else
    forLoop (inp.nSnps - 1)
      (fun snp buf =>
        let sum := sumPooled M Qsel inp r_c ep_c snp
        Function.update
          (Function.update buf snp (1.0 / (2.0 * (nTotal inp : α)) * sum))
          (snp + inp.nSnps - 1) (1.0 / (2.0 * (nTotal inp : α)) * sum))
      r_c

/-- The array entry `Iaa[s1][indx][snp]`: `1` when the class index `g` is `1`, else `0`. -/
def Iaa (inp : EMInput α) (fam snp : Nat) (s1 : Int) : Int :=
  if Isel (inp.OPGP (snp * inp.noFam + fam)) (s1 + 1) = 1 then 1 else 0

/-- The array entry `Ibb[s1][indx][snp]`: `1` when the class index `g` is `2` (and not `1`),
else `0`. -/
def Ibb (inp : EMInput α) (fam snp : Nat) (s1 : Int) : Int :=
  if Isel (inp.OPGP (snp * inp.noFam + fam)) (s1 + 1) = 1 then 0
  else if Isel (inp.OPGP (snp * inp.noFam + fam)) (s1 + 1) = 2 then 1 else 0

/-- The pair `(sumA, sumB)` accumulated by the error-rate M-step. -/
def sumAB (inp : EMInput α) (r_c : Nat → α) (ep_c : α) : α × α :=
  forLoop inp.nSnps
    (fun snp acc =>
      forLoop inp.noFam
        (fun fam acc =>
          forLoop (inp.nInd fam)
            (fun ind acc =>
              let indx := ind + indSum inp fam
              let a : α := ((inp.depth_Ref (indx + nTotal inp * snp) : Int) : α)
              let b : α := ((inp.depth_Alt (indx + nTotal inp * snp) : Int) : α)
              forLoop 4
                (fun s1 acc =>
                  let u := uProb M Qsel inp r_c ep_c fam ind snp s1
                  let iaa : α := ((Iaa Isel inp fam snp s1 : Int) : α)
                  let ibb : α := ((Ibb Isel inp fam snp s1 : Int) : α)
                  (acc.1 + u * (b * iaa + a * ibb), acc.2 + u * (a * iaa + b * ibb)))
                acc)
            acc)
        acc)
    (0, 0)

/-- M-step for the error rate (`if (seqError_c) ...`). -/
def mstep_ep (inp : EMInput α) (r_c : Nat → α) (ep_c : α) : α :=
  if inp.seqError ≠ 0 then
    let s := sumAB M Qsel Isel inp r_c ep_c
    s.1 / (s.1 + s.2)
  else ep_c

/-- Exponent of `epsilon` in the homozygous emission of state `s`: the number
of reads that mismatch the genotype class, `b*Iaa + a*Ibb` (as in `sumA`). -/
def mism (inp : EMInput α) (fam ind snp : Nat) (s : Int) : Int :=
  inp.depth_Alt (ind + indSum inp fam + nTotal inp * snp) * Iaa Isel inp fam snp s
    + inp.depth_Ref (ind + indSum inp fam + nTotal inp * snp) * Ibb Isel inp fam snp s

/-- Exponent of `1 - epsilon` in the homozygous emission of state `s`: the
number of reads that match the genotype class, `a*Iaa + b*Ibb` (as in `sumB`). -/
def mtch (inp : EMInput α) (fam ind snp : Nat) (s : Int) : Int :=
  inp.depth_Ref (ind + indSum inp fam + nTotal inp * snp) * Iaa Isel inp fam snp s
    + inp.depth_Alt (ind + indSum inp fam + nTotal inp * snp) * Ibb Isel inp fam snp s

/-- One round of the `while` loop body. -/
def emBody (sexSpec : Bool) (inp : EMInput α) (st : EMState α) : EMState α :=
  { iter := st.iter + 1
    prellval := st.llval
    llval := logLik M Qsel inp st.r_c st.ep_c
    r_c := mstep_r M Qsel sexSpec inp st.r_c st.ep_c
    ep_c := mstep_ep M Qsel Isel inp st.r_c st.ep_c }

/-- The loop `while ((iter < 2) || ((iter < nIter) & ((llval - prellval) > delta)))`. -/
def emWhile (sexSpec : Bool) (inp : EMInput α) (st : EMState α) : EMState α :=
  if st.iter < 2 ∨ (st.iter < inp.nIter ∧ st.llval - st.prellval > inp.delta) then
    emWhile sexSpec inp (emBody M Qsel Isel sexSpec inp st)
  else st
termination_by (max 2 inp.nIter - st.iter).toNat
decreasing_by
  simp only [emBody]
  omega

/-- The loop variables on entry to the `while` loop; `masked` tells whether
the mask loop runs. -/
def emInit (masked : Bool) (inp : EMInput α) : EMState α :=
  { iter := 0
    r_c := if masked then mask_r inp.nSnps inp.ss_rf (copy_r inp.nSnps inp.r)
           else copy_r inp.nSnps inp.r
    ep_c := inp.ep
    llval := 0
    prellval := 0 }

/-- Copy of the final loop variables into the R result. -/
def emOut (inp : EMInput α) (st : EMState α) : EMOutput α :=
  { rout := copy_r inp.nSnps st.r_c
    epout := st.ep_c
    llout := st.llval }

end EM

section Drivers

variable {α : Type} [LinearOrderedField α]

/-- Loop variables of `EM_HMM` when the `while` loop exits. -/
def EM_HMM_final (M : Libm α) (inp : EMInput α) : EMState α :=
  emWhile M Qentry Iindx (decide (inp.sexSpec ≠ 0)) inp (emInit (decide (inp.sexSpec ≠ 0)) inp)

/-- The function `EM_HMM` of `em.c`. -/
def EM_HMM (M : Libm α) (inp : EMInput α) : EMOutput α :=
  emOut inp (EM_HMM_final M inp)

/-- Loop variables of `EM_HMM_UP` when the `while` loop exits (mask loop and
sex-specific M-step are unconditional). -/
def EM_HMM_UP_final (M : Libm α) (inp : EMInput α) : EMState α :=
  emWhile M Qentry_up Iindx_up true inp (emInit true inp)

/-- The function `EM_HMM_UP` of `em.c`. -/
def EM_HMM_UP (M : Libm α) (inp : EMInput α) : EMOutput α :=
  emOut inp (EM_HMM_UP_final M inp)

/-- Loop variables of `EM_HMM` after `j` rounds of the loop body. -/
def EM_HMM_after (M : Libm α) (inp : EMInput α) (j : Nat) : EMState α :=
  (emBody M Qentry Iindx (decide (inp.sexSpec ≠ 0)) inp)^[j]
    (emInit (decide (inp.sexSpec ≠ 0)) inp)

/-- Loop variables of `EM_HMM_UP` after `j` rounds of the loop body. -/
def EM_HMM_UP_after (M : Libm α) (inp : EMInput α) (j : Nat) : EMState α :=
  (emBody M Qentry_up Iindx_up true inp)^[j] (emInit true inp)

/-- A table pair `(Qsel, Isel)` is consistent on codes `1..hi` and states
`1..4`: the class index is `0`, `1` or `2` and the wrapper returns the matching
argument. -/
def TableOK (Qsel : Int → α → α → α → Int → α) (Isel : Int → Int → Int) (hi : Int) : Prop :=
  ∀ (code state : Int) (Kaa Kab Kbb : α), 1 ≤ code → code ≤ hi → 1 ≤ state → state ≤ 4 →
    (Isel code state = 0 ∨ Isel code state = 1 ∨ Isel code state = 2) ∧
    Qsel code Kaa Kab Kbb state =
      (if Isel code state = 0 then Kab else if Isel code state = 1 then Kaa else Kbb)

/-- Well-formed data: pattern codes in `1..hi`, non-negative depths. -/
def ValidData (hi : Int) (inp : EMInput α) : Prop :=
  (∀ i, i < inp.nSnps * inp.noFam → 1 ≤ inp.OPGP i ∧ inp.OPGP i ≤ hi) ∧
  (∀ i, i < nTotal inp * inp.nSnps → 0 ≤ inp.depth_Ref i ∧ 0 ≤ inp.depth_Alt i)

/-- Every emission used by the forward-backward pass is strictly positive. -/
def EmisPos (Qsel : Int → α → α → α → Int → α) (inp : EMInput α) (ep_c : α) : Prop :=
  ∀ (fam ind snp : Nat) (s : Int), fam < inp.noFam → ind < inp.nInd fam → snp < inp.nSnps →
    0 ≤ s → s ≤ 3 → 0 < emis Qsel inp ep_c fam ind snp s

/-- The error rate lies in `[0,1]`, and it is `0` (resp. `1`) only when no
homozygous state of the data has a mismatching (resp. matching) read. -/
def EpOK (Isel : Int → Int → Int) (inp : EMInput α) (ep_c : α) : Prop :=
  0 ≤ ep_c ∧ ep_c ≤ 1 ∧
  ∀ (fam ind snp : Nat) (s : Int), fam < inp.noFam → ind < inp.nInd fam → snp < inp.nSnps →
    0 ≤ s → s ≤ 3 →
    (ep_c = 0 → mism Isel inp fam ind snp s = 0) ∧ (ep_c = 1 → mtch Isel inp fam ind snp s = 0)

/-- A small data set: one family with two individuals, three markers. -/
def demoInput (α : Type) [LinearOrderedField α] : EMInput α :=
  { r := fun _ => 1 / 4
    ep := 1 / 10
    depth_Ref := fun i => if i = 0 then 2 else if i = 3 then 1 else 0
    depth_Alt := fun i => if i = 1 then 1 else 0
    OPGP := fun i => if i = 0 then 1 else if i = 1 then 5 else 3
    noFam := 1
    nInd := fun _ => 2
    nSnps := 3
    sexSpec := 1
    seqError := 1
    nIter := 5
    delta := 1 / 1000
    ss_rf := fun _ => 1 }

end Drivers

/-! ## Further data sets -/

section MoreInputs

/-- The data set `demoInput` with the paternal entry of the first interval
flagged as not estimated. -/
def demoMasked (α : Type) [LinearOrderedField α] : EMInput α :=
  { demoInput α with ss_rf := fun i => if i = 0 then 0 else 1 }

/-- The data set `demoInput` run in pooled mode without error-rate estimation,
with an initial vector whose two halves differ and every entry flagged as not
estimated. -/
def demoPooled (α : Type) [LinearOrderedField α] : EMInput α :=
  { demoInput α with
    sexSpec := 0
    seqError := 0
    r := fun i => if i < 2 then 1 / 4 else 1 / 3
    ss_rf := fun _ => 0 }

/-- A data set without any reads: one family with one individual, two markers,
pooled mode, every entry flagged as not estimated. -/
def noReadsInput (α : Type) [LinearOrderedField α] : EMInput α :=
  { r := fun _ => 1 / 4
    ep := 1 / 10
    depth_Ref := fun _ => 0
    depth_Alt := fun _ => 0
    OPGP := fun _ => 1
    noFam := 1
    nInd := fun _ => 1
    nSnps := 2
    sexSpec := 0
    seqError := 0
    nIter := 5
    delta := 0
    ss_rf := fun _ => 0 }

/-- A valid data set on which pooled estimation starts from a vector whose two
halves differ: one individual, two markers with pattern code `5`, one reference
read at the first marker and one alternate read at the second, initial
fractions `r_f = 1`, `r_m = 0`, error rate `1/10`, error-rate estimation off. -/
def dropInput (α : Type) [LinearOrderedField α] : EMInput α :=
  { r := fun i => if i = 0 then 1 else 0
    ep := 1 / 10
    depth_Ref := fun i => if i = 0 then 1 else 0
    depth_Alt := fun i => if i = 1 then 1 else 0
    OPGP := fun _ => 5
    noFam := 1
    nInd := fun _ => 1
    nSnps := 2
    sexSpec := 0
    seqError := 0
    nIter := 5
    delta := 0
    ss_rf := fun _ => 1 }

end MoreInputs

/-! ## The exact binomial coefficient (`em.c` and `score.c`, identical copies)

`unsigned long` is a 64-bit word: a natural number below `ULONG_MAX + 1`, with
`+`, `*`, `--`, `++` taken modulo `ULONG_MAX + 1`. -/

section Binomial

/-- The constant `ULONG_MAX` of `<limits.h>` for 64-bit `unsigned long`. -/
def ULONG_MAX : Nat := 18446744073709551615

/-- The loop `while (y > 0) { t = y; y = x % y; x = t; }` of `gcd_ui`,
returning the final `x`. -/
def gcd_ui_loop (x y : Nat) : Nat :=
  if 0 < y then gcd_ui_loop y (x % y) else x
termination_by y
decreasing_by exact Nat.mod_lt x (by assumption)

/-- The function `gcd_ui`: swap so that `x ≤ y`, then run the loop. -/
def gcd_ui (x y : Nat) : Nat :=
  if y < x then gcd_ui_loop y x else gcd_ui_loop x y

/-- The loop `for (d = 1; d <= a; d++) { ... }` of `binomial` from the state
`(n, d, r)`, returning the value `binomial` returns.  The first argument bounds
the number of evaluations of the loop test; `binomial` supplies `a + 1`, which
covers the passes `d = 1 .. a` and the final failing test. -/
def binomial_loop (a : Nat) : Nat → Nat → Nat → Nat → Nat
  | 0, _, _, r => r
  | fuel + 1, n, d, r =>
    if d ≤ a then
      if r ≥ ULONG_MAX / n then
        let g := gcd_ui n d
        let nr := n / g
        let dr := d / g
        let g2 := gcd_ui r dr
        let r1 := r / g2
        let dr1 := dr / g2
        if r1 ≥ ULONG_MAX / nr then 0
        else
          binomial_loop a fuel ((n + ULONG_MAX) % (ULONG_MAX + 1)) ((d + 1) % (ULONG_MAX + 1))
            ((r1 * nr) % (ULONG_MAX + 1) / dr1)
      else
        binomial_loop a fuel ((n + ULONG_MAX) % (ULONG_MAX + 1)) ((d + 1) % (ULONG_MAX + 1))
          ((r * n) % (ULONG_MAX + 1) / d)
    else r

/-- The function `binomial` of `em.c` / `score.c` on 64-bit words `a`, `b`. -/
def binomial (a b : Nat) : Nat :=
  let n := (a + b) % (ULONG_MAX + 1)
  if a = 0 then 1
  else if a = 1 then n
  else if a ≥ n then (if a = n then 1 else 0)
  else
    let a1 := if a > n / 2 then (n + (ULONG_MAX + 1 - a)) % (ULONG_MAX + 1) else a
    binomial_loop a1 (a1 + 1) n 1 1

end Binomial

/-! ## `score.c`: derivative tables and the score function

`int` arithmetic is taken in `Int` (signed overflow is undefined in C and does
not arise for read depths), and `pow` is used at integer exponents only. -/

section Score

variable {α : Type} [LinearOrderedField α]

/-- The function `pow` of `<math.h>` at an integer exponent. -/
def pow (x : α) (n : Int) : α := x ^ n

/-- Conversion of an `int` argument to `unsigned long`. -/
def toWord (x : Int) : Nat := (x % ((ULONG_MAX : Int) + 1)).toNat

/-- The function `der_rf` of `score.c`. -/
def der_rf (M : Libm α) (s1 s2 : Int) (rval : α) : α :=
  let sSum := s1 + s2 * 4
  if sSum = 0 ∨ sSum = 5 ∨ sSum = 10 ∨ sSum = 15 then
    let er := M.exp rval
    er * (2 + er) / (2 * pow (1 + er) 3)
  else if sSum = 3 ∨ sSum = 6 ∨ sSum = 9 ∨ sSum = 12 then
    let er := M.exp (-rval)
    er / (2 * pow (1 + er) 3)
  else
    let er := M.exp (-rval)
    pow er 2 / (2 * pow (1 + er) 3)

/-- The function `partial_der_epsilon` of `score.c`; every case of its
`switch (geno)` returns, so no label falls through. -/
def partial_der_epsilon (M : Libm α) (geno : Int) (epsilon : α) (a d : Int) : α :=
  if geno = 1 then
    if a = 0 then
      ((-d : Int) : α) * pow (1 + M.exp (-epsilon)) (-d - 1) * M.exp (-epsilon)
    else if a = d then
      ((-a : Int) : α) * pow (1 + M.exp epsilon) (-a - 1) * M.exp epsilon
    else
      let e1 := 1 + M.exp epsilon
      let e2 := 1 + M.exp (-epsilon)
      ((binomial (toWord a) (toWord (d - a)) : Nat) : α) *
        (pow e1 (-a - 1) * pow e2 (-d + a - 1) *
          (((-a : Int) : α) * e1 + ((d - a : Int) : α) * e2))
  else if geno = 2 then 0
  else if geno = 3 then
    if a = 0 then
      ((-d : Int) : α) * pow (1 + M.exp epsilon) (-d - 1) * M.exp epsilon
    else if a = d then
      ((-a : Int) : α) * pow (1 + M.exp (-epsilon)) (-a - 1) * M.exp (-epsilon)
    else
      let e1 := 1 + M.exp epsilon
      let e2 := 1 + M.exp (-epsilon)
      ((binomial (toWord a) (toWord (d - a)) : Nat) : α) *
        (pow e1 (-d + a - 1) * pow e2 (-a - 1) *
          (((-(d - a) : Int) : α) * e1 + ((a : Int) : α) * e2))
  else -1

/-- Body of `case k:` inside `der_epsilon` (`score.c`). -/
def der_epsilon_case (M : Libm α) (epsilon : α) (a d elem : Int) (k : Nat) : Option α :=
  match k with
  | 1 =>
    if elem = 1 then some (partial_der_epsilon M 3 epsilon a d)
    else if elem = 2 ∨ elem = 3 then some (partial_der_epsilon M 2 epsilon a d)
    else if elem = 4 then some (partial_der_epsilon M 1 epsilon a d)
    else none
  | 2 =>
    if elem = 3 then some (partial_der_epsilon M 3 epsilon a d)
    else if elem = 1 ∨ elem = 4 then some (partial_der_epsilon M 2 epsilon a d)
    else if elem = 2 then some (partial_der_epsilon M 1 epsilon a d)
    else none
  | 3 =>
    if elem = 2 then some (partial_der_epsilon M 3 epsilon a d)
    else if elem = 1 ∨ elem = 4 then some (partial_der_epsilon M 2 epsilon a d)
    else if elem = 3 then some (partial_der_epsilon M 1 epsilon a d)
    else none
  | 4 =>
    if elem = 4 then some (partial_der_epsilon M 3 epsilon a d)
    else if elem = 2 ∨ elem = 3 then some (partial_der_epsilon M 2 epsilon a d)
    else if elem = 1 then some (partial_der_epsilon M 1 epsilon a d)
    else none
  | 5 =>
    if elem = 1 ∨ elem = 2 then some (partial_der_epsilon M 2 epsilon a d)
    else if elem = 3 ∨ elem = 4 then some (partial_der_epsilon M 1 epsilon a d)
    else none
  | 6 =>
    if elem = 1 ∨ elem = 2 then some (partial_der_epsilon M 1 epsilon a d)
    else if elem = 3 ∨ elem = 4 then some (partial_der_epsilon M 2 epsilon a d)
    else none
  | 7 =>
    if elem = 1 ∨ elem = 2 then some (partial_der_epsilon M 3 epsilon a d)
    else if elem = 3 ∨ elem = 4 then some (partial_der_epsilon M 2 epsilon a d)
    else none
  | 8 =>
    if elem = 1 ∨ elem = 2 then some (partial_der_epsilon M 2 epsilon a d)
    else if elem = 3 ∨ elem = 4 then some (partial_der_epsilon M 3 epsilon a d)
    else none
  | 9 =>
    if elem = 1 ∨ elem = 3 then some (partial_der_epsilon M 2 epsilon a d)
    else if elem = 2 ∨ elem = 4 then some (partial_der_epsilon M 1 epsilon a d)
    else none
  | 10 =>
    if elem = 1 ∨ elem = 3 then some (partial_der_epsilon M 1 epsilon a d)
    else if elem = 2 ∨ elem = 4 then some (partial_der_epsilon M 2 epsilon a d)
    else none
  | 11 =>
    if elem = 1 ∨ elem = 3 then some (partial_der_epsilon M 3 epsilon a d)
    else if elem = 2 ∨ elem = 4 then some (partial_der_epsilon M 2 epsilon a d)
    else none
  | 12 =>
    if elem = 1 ∨ elem = 3 then some (partial_der_epsilon M 2 epsilon a d)
    else if elem = 2 ∨ elem = 4 then some (partial_der_epsilon M 3 epsilon a d)
    else none
  | 13 => some (partial_der_epsilon M 1 epsilon a d)
  | 14 => some (partial_der_epsilon M 2 epsilon a d)
  | 15 => some (partial_der_epsilon M 2 epsilon a d)
  | 16 => some (partial_der_epsilon M 3 epsilon a d)
  | _ => none

/-- The function `der_epsilon` of `score.c`: zero without reads, otherwise
`switch (OPGP)` over the labels `1 .. 16` with `d = a + b`, then `return -1`. -/
def der_epsilon (M : Libm α) (OPGP : Int) (epsilon : α) (a b elem : Int) : α :=
  if a = 0 ∧ b = 0 then 0
  else
    let d := a + b
    if 1 ≤ OPGP ∧ OPGP ≤ 16 then
      switchFrom (der_epsilon_case M epsilon a d elem) (-1) (17 - OPGP.toNat) OPGP.toNat
    else -1

end Score

/-- The arguments of `score_fs_scaled_err_c`; `Kaa`, `Kab`, `Kbb` and the depth
arrays are indexed `ind + nInd_c*snp`. -/
structure ScoreInput (α : Type) where
  r : Nat → α
  epsilon : α
  depth_Ref : Nat → Int
  depth_Alt : Nat → Int
  Kaa : Nat → α
  Kab : Nat → α
  Kbb : Nat → α
  OPGP : Nat → Int
  nInd : Nat
  nSnps : Nat

/-- The local arrays of `score_fs_scaled_err_c` that live across iterations:
`alphaTilde[4]`, `phi[4][nSnps_c]`, `phi_prev[4][nSnps_c]`, `score_c[nSnps_c]`
and the accumulator `llval`. -/
structure ScoreState (α : Type) where
  alphaTilde : Int → α
  phi : Int → Nat → α
  phi_prev : Int → Nat → α
  score_c : Nat → α
  llval : α

section ScoreFunction

variable {α : Type} [LinearOrderedField α]

/-- The emission `Qentry(pOPGP[snp], pKaa[ind + nInd_c*snp], pKab[ind + nInd_c*snp],
pKbb[ind + nInd_c*snp], s+1)`. -/
def scoreQ (inp : ScoreInput α) (ind snp : Nat) (s : Int) : α :=
  Qentry (inp.OPGP snp) (inp.Kaa (ind + inp.nInd * snp)) (inp.Kab (ind + inp.nInd * snp))
    (inp.Kbb (ind + inp.nInd * snp)) (s + 1)

/-- The value `der_epsilon(pOPGP[snp], epsilon_c, pdepth_Ref[ind + nInd_c*snp],
pdepth_Alt[ind + nInd_c*snp], s+1)`. -/
def scoreDerEps (M : Libm α) (inp : ScoreInput α) (ind snp : Nat) (s : Int) : α :=
  der_epsilon M (inp.OPGP snp) inp.epsilon (inp.depth_Ref (ind + inp.nInd * snp))
    (inp.depth_Alt (ind + inp.nInd * snp)) (s + 1)

/-- First marker of individual `ind`: the forward probabilities, the slot
`phi_prev[s1][nSnps_c-1]` of the error-rate derivative, and `llval`. -/
def scoreFirst (M : Libm α) (inp : ScoreInput α) (ind : Nat) (st : ScoreState α) :
    ScoreState α :=
  let alphaDot : Int → α := fun s1 => 0.25 * scoreQ inp ind 0 s1
  let sum := sum4 alphaDot
  { st with
    phi_prev := fun s1 p =>
      if 0 ≤ s1 ∧ s1 < 4 ∧ p = inp.nSnps - 1 then 0.25 * scoreDerEps M inp ind 0 s1
      else st.phi_prev s1 p
    alphaTilde := fun s1 => if 0 ≤ s1 ∧ s1 < 4 then alphaDot s1 / sum else st.alphaTilde s1
    llval := st.llval + M.log sum }

/-- One pass of the loop `for (snp = 1; snp < nSnps_c; snp++)` for individual
`ind`.  For each `s2` the source writes `phi[s2][snp-1]`, then
`phi[s2][snp .. nSnps_c-2]`, then `phi[s2][nSnps_c-1]`; the conditional below
lists the writes latest first.  Afterwards `alphaTilde` is rescaled and
`phi_prev[s2][snp .. nSnps_c-1]` is copied from `phi`. -/
def scoreStep (M : Libm α) (inp : ScoreInput α) (ind snp : Nat) (st : ScoreState α) :
    ScoreState α :=
  let rv := inp.r (snp - 1)
  let delta : Int → α := fun s2 => scoreQ inp ind snp s2
  let alphaDot : Int → α := fun s2 =>
    sum4 (fun s1 => Tmat s1 s2 rv * st.alphaTilde s1) * delta s2
  let w_new := sum4 alphaDot
  let phi : Int → Nat → α := fun s2 p =>
    if ¬ (0 ≤ s2 ∧ s2 < 4) then st.phi s2 p
    else if p = inp.nSnps - 1 then
      sum4 (fun s1 => (st.phi_prev s1 (inp.nSnps - 1) * delta s2 +
        st.alphaTilde s1 * scoreDerEps M inp ind snp s1) * Tmat s1 s2 rv) * 1 / w_new
    else if snp ≤ p ∧ p < inp.nSnps - 1 then
      sum4 (fun s1 => st.phi_prev s1 p * Tmat s1 s2 rv) * delta s2 * 1 / w_new
    else if p = snp - 1 then
      sum4 (fun s1 => der_rf M s1 s2 rv * st.alphaTilde s1) * delta s2 * 1 / w_new
    else st.phi s2 p
  { alphaTilde := fun s2 => if 0 ≤ s2 ∧ s2 < 4 then alphaDot s2 / w_new else st.alphaTilde s2
    phi := phi
    phi_prev := fun s2 p =>
      if 0 ≤ s2 ∧ s2 < 4 ∧ snp ≤ p ∧ p < inp.nSnps then phi s2 p else st.phi_prev s2 p
    score_c := st.score_c
    llval := st.llval + M.log w_new }

/-- The state after the forward and derivative recursions of individual `ind`,
before its score block. -/
def scoreRecursions (M : Libm α) (inp : ScoreInput α) (ind : Nat) (st : ScoreState α) :
    ScoreState α :=
  forLoop (inp.nSnps - 1) (fun i s => scoreStep M inp ind (i + 1) s) (scoreFirst M inp ind st)

/-- Body of the loop over individuals: the recursions, then the block
`for (snp_der ...) { sum_der = 0; for (s2 ...) sum_der = sum_der + phi[s2][snp_der];
score_c[snp_der] = sum_der; }`. -/
def scoreInd (M : Libm α) (inp : ScoreInput α) (ind : Nat) (st : ScoreState α) :
    ScoreState α :=
  let st2 := scoreRecursions M inp ind st
  { st2 with
    score_c := fun p =>
      if p < inp.nSnps then sum4 (fun s2 => st2.phi s2 p) else st2.score_c p }

/-- The state after the first `k` individuals; `stack` holds the initial
contents of the uninitialised local arrays. -/
def scoreAfter (M : Libm α) (inp : ScoreInput α) (stack : ScoreState α) (k : Nat) :
    ScoreState α :=
  forLoop k (scoreInd M inp) { stack with llval := 0 }

/-- The function `score_fs_scaled_err_c`: entry `p < nSnps_c` of the returned
vector, `pscore[p] = score_c[p]` after the loop over all individuals. -/
def score_fs_scaled_err_c (M : Libm α) (inp : ScoreInput α) (stack : ScoreState α)
    (p : Nat) : α :=
  (scoreAfter M inp stack inp.nInd).score_c p

/-- The contribution of individual `ind` to parameter `p`: the sum over the four
states of `phi[.][p]` as it stands when the recursions of `ind` are finished. -/
def scoreContribution (M : Libm α) (inp : ScoreInput α) (stack : ScoreState α)
    (ind p : Nat) : α :=
  sum4 (fun s2 => (scoreRecursions M inp ind (scoreAfter M inp stack ind)).phi s2 p)

/-- Local arrays holding zero everywhere on entry. -/
def zeroStack (α : Type) [LinearOrderedField α] : ScoreState α :=
  { alphaTilde := fun _ => 0
    phi := fun _ _ => 0
    phi_prev := fun _ _ => 0
    score_c := fun _ => 0
    llval := 0 }

/-- Two individuals, two markers, no reads, every emission equal to one and
parameter value zero on the single interval. -/
def twoIndInput (α : Type) [LinearOrderedField α] : ScoreInput α :=
  { r := fun _ => 0
    epsilon := 0
    depth_Ref := fun _ => 0
    depth_Alt := fun _ => 0
    Kaa := fun _ => 1
    Kab := fun _ => 1
    Kbb := fun _ => 1
    OPGP := fun _ => 1
    nInd := 2
    nSnps := 2 }

end ScoreFunction

/-! ## Auxiliary quantities for the EM argument -/

section Masses

variable {α : Type} [LinearOrderedField α]

/-- The mass a joint table `v` puts on the eight state pairs summed by the
paternal M-step (in the order of the source loops). -/
def patMass (v : Int → Int → α) : α :=
  v 0 2 + v 2 0 + v 0 3 + v 2 1 + v 1 2 + v 3 0 + v 1 3 + v 3 1

/-- The mass a joint table `v` puts on the eight state pairs summed by the
maternal M-step (in the order of the source loops). -/
def matMass (v : Int → Int → α) : α :=
  v 0 1 + v 1 0 + v 0 3 + v 1 2 + v 2 1 + v 3 0 + v 2 3 + v 3 2

/-- The total mass of a joint table on the sixteen state pairs. -/
def totMass (v : Int → Int → α) : α :=
  v 0 0 + v 0 1 + v 0 2 + v 0 3 + v 1 0 + v 1 1 + v 1 2 + v 1 3
    + v 2 0 + v 2 1 + v 2 2 + v 2 3 + v 3 0 + v 3 1 + v 3 2 + v 3 3

end Masses

/-! ## Maps named in the statements -/

section StatementMaps

/-- From the statement of C29, not from the source: the known-phase code
`m(config)` that an unknown-phase configuration `1 .. 5` is compared with. -/
def upCode (config : Int) : Int :=
  if config = 1 then 1 else if config = 2 then 5 else if config = 3 then 7
  else if config = 4 then 9 else 11

end StatementMaps

/-! ## `em.c`: the M-step accumulation loops over an arbitrary table

The three loops of the M-step for the recombination fractions, with the array
`vProb[s1][s2][indx][snp]` at the interval in hand replaced by an arbitrary table
`v fam ind s1 s2`. -/

section Accumulators

variable {α : Type} [LinearOrderedField α]

/-- The paternal loop `sum = sum + vProb[s1][s2] + vProb[s1+2][s2-2]`, `s1 = 0, 1`,
`s2 = 2, 3`, over all individuals. -/
def accPat (inp : EMInput α) (v : Nat → Nat → Int → Int → α) : α :=
  forLoop inp.noFam
    (fun fam sum =>
      forLoop (inp.nInd fam)
        (fun ind sum =>
          forLoop 2
            (fun s1 sum =>
              forLoop 2
                (fun j sum =>
                  let s2 : Int := (j : Int) + 2
                  sum + v fam ind s1 s2 + v fam ind (s1 + 2) (s2 - 2))
                sum)
            sum)
        sum)
    0

/-- The maternal loop `sum = sum + vProb[2*s1][1+2*s2] + vProb[1+2*s1][2*s2]`,
`s1, s2 = 0, 1`, over all individuals. -/
def accMat (inp : EMInput α) (v : Nat → Nat → Int → Int → α) : α :=
  forLoop inp.noFam
    (fun fam sum =>
      forLoop (inp.nInd fam)
        (fun ind sum =>
          forLoop 2
            (fun s1 sum =>
              forLoop 2
                (fun s2 sum =>
                  sum + v fam ind (2 * s1) (1 + 2 * s2) + v fam ind (1 + 2 * s1) (2 * s2))
                sum)
            sum)
        sum)
    0

/-- The pooled loop `sum = sum + vProb[s1][s2] * Tcount(s1,s2)`, `s1, s2 = 0 .. 3`,
over all individuals. -/
def accPooled (inp : EMInput α) (v : Nat → Nat → Int → Int → α) : α :=
  forLoop inp.noFam
    (fun fam sum =>
      forLoop (inp.nInd fam)
        (fun ind sum =>
          forLoop 4
            (fun s1 sum =>
              forLoop 4
                (fun s2 sum => sum + v fam ind s1 s2 * ((Tcount s1 s2 : Int) : α))
                sum)
            sum)
        sum)
    0

end Accumulators

section LinkMaps

variable {α : Type} [LinearOrderedField α]

/-- From the statement of C24, not from the source: the link
`rho(x) = 1 / (2 * (1 + exp(-x)))` between the optimiser's variable and the
recombination fraction. -/
def rho_link (M : Libm α) (x : α) : α := 1 / (2 * (1 + M.exp (-x)))

/-- From the statement of C25, not from the source: the link
`eps(x) = 1 / (1 + exp(-x))` between the optimiser's variable and the error
rate. -/
def eps_link (M : Libm α) (x : α) : α := 1 / (1 + M.exp (-x))

/-- From the statement of C25, not from the source: the homozygous-reference
emission `C(d,a) * (1 - eps)^a * eps^(d-a)` as a function of `x`. -/
def homRefEmission (M : Libm α) (d a : Nat) (x : α) : α :=
  (Nat.choose d a : α) * (1 - eps_link M x) ^ a * eps_link M x ^ (d - a)

/-- From the statement of C25, not from the source: the homozygous-alternate
emission `C(d,a) * eps^a * (1 - eps)^(d-a)` as a function of `x`. -/
def homAltEmission (M : Libm α) (d a : Nat) (x : α) : α :=
  (Nat.choose d a : α) * eps_link M x ^ a * (1 - eps_link M x) ^ (d - a)

end LinkMaps

/-! ## Statements about the tables -/

section TableLemmas

variable {α : Type} [LinearOrderedField α]

theorem tableOK_known : TableOK (α := α) Qentry Iindx 16 := by
  intro code state Kaa Kab Kbb hc1 hc2 hs1 hs2
  interval_cases code <;> interval_cases state <;>
    simp [Iindx, Qentry, switchFrom, Iindx_case, Qentry_case]

theorem tableOK_unknown : TableOK (α := α) Qentry_up Iindx_up 5 := by
  intro code state Kaa Kab Kbb hc1 hc2 hs1 hs2
  interval_cases code <;> interval_cases state <;>
    simp [Iindx_up, Qentry_up, switchFrom, Iindx_up_case, Qentry_up_case]

end TableLemmas


section TableTheorems

variable {α : Type}

theorem sum4_eq [AddMonoid α] (f : Int → α) : sum4 f = f 0 + f 1 + f 2 + f 3 := by
  simp [sum4, forLoop]

/-- C1: every row of the sex-specific transition matrix sums to one: for a
source state `s1` in `{0,1,2,3}` and arbitrary `r_f`, `r_m` (elements of any
commutative ring, in particular real numbers), the four entries
`Tmat_ss(s1, s2, r_f, r_m)`, `s2 = 0..3`, add up to exactly `1`. -/
theorem Tmat_ss_row_sum [CommRing α] (s1 : Int) (h0 : 0 ≤ s1) (h3 : s1 ≤ 3) (r_f r_m : α) :
    Tmat_ss s1 0 r_f r_m + Tmat_ss s1 1 r_f r_m + Tmat_ss s1 2 r_f r_m
      + Tmat_ss s1 3 r_f r_m = 1 := by
  interval_cases s1 <;> simp [Tmat_ss] <;> ring

theorem Tmat_ss_row_sum_witness :
    Tmat_ss 2 0 (1 / 3 : ℚ) (1 / 5) + Tmat_ss 2 1 (1 / 3 : ℚ) (1 / 5)
      + Tmat_ss 2 2 (1 / 3 : ℚ) (1 / 5) + Tmat_ss 2 3 (1 / 3 : ℚ) (1 / 5) = 1 :=
  Tmat_ss_row_sum 2 (by decide) (by decide) (1 / 3) (1 / 5)

/-- C7: on the legal range the class tables are total and the emission
wrappers agree with them: for a known-phase code in `1..16` and a state in
`1..4`, `Iindx` is `0`, `1` or `2` and `Qentry` returns `Kab`, `Kaa`, `Kbb`
respectively; the same holds for `Iindx_up` / `Qentry_up` with an
unknown-phase code in `1..5`. -/
theorem tables_total_and_agree [LinearOrderedField α] (code state : Int) (Kaa Kab Kbb : α)
    (hs : 1 ≤ state ∧ state ≤ 4) :
    (1 ≤ code ∧ code ≤ 16 →
      (Iindx code state = 0 ∨ Iindx code state = 1 ∨ Iindx code state = 2) ∧
      Qentry code Kaa Kab Kbb state =
        (if Iindx code state = 0 then Kab else if Iindx code state = 1 then Kaa else Kbb)) ∧
    (1 ≤ code ∧ code ≤ 5 →
      (Iindx_up code state = 0 ∨ Iindx_up code state = 1 ∨ Iindx_up code state = 2) ∧
      Qentry_up code Kaa Kab Kbb state =
        (if Iindx_up code state = 0 then Kab
         else if Iindx_up code state = 1 then Kaa else Kbb)) :=
  ⟨fun hc => tableOK_known code state Kaa Kab Kbb hc.1 hc.2 hs.1 hs.2,
    fun hc => tableOK_unknown code state Kaa Kab Kbb hc.1 hc.2 hs.1 hs.2⟩

theorem tables_total_and_agree_witness :
    ((Iindx 2 3 = 0 ∨ Iindx 2 3 = 1 ∨ Iindx 2 3 = 2) ∧
      Qentry 2 (7 : ℚ) 8 9 3 =
        (if Iindx 2 3 = 0 then 8 else if Iindx 2 3 = 1 then 7 else 9)) ∧
    ((Iindx_up 2 3 = 0 ∨ Iindx_up 2 3 = 1 ∨ Iindx_up 2 3 = 2) ∧
      Qentry_up 2 (7 : ℚ) 8 9 3 =
        (if Iindx_up 2 3 = 0 then 8 else if Iindx_up 2 3 = 1 then 7 else 9)) :=
  ⟨(tables_total_and_agree 2 3 (7 : ℚ) 8 9 (by decide)).1 (by decide),
    (tables_total_and_agree 2 3 (7 : ℚ) 8 9 (by decide)).2 (by decide)⟩

/-- C8: the known-phase tables do map an out-of-range state to a genotype
class: with the legal code `1` and the illegal state `5`, control falls through
the case labels `1..12` into `case 13`, so `Iindx` returns `1` (class AA) and
`Qentry` returns `Kaa`; with code `16` and state `0` they return `2` and
`Kbb`.  The unknown-phase tables return the failure value `-1` on the same
input. -/
theorem known_phase_tables_default_on_bad_state :
    Iindx 1 5 = 1 ∧ Qentry 1 (10 : ℚ) 20 30 5 = 10 ∧
    Iindx 16 0 = 2 ∧ Qentry 16 (10 : ℚ) 20 30 0 = 30 ∧
    Iindx_up 1 5 = -1 ∧ Qentry_up 1 (10 : ℚ) 20 30 5 = -1 := by
  decide

/-- C9: the pooled transition matrix is the sex-specific one evaluated at
`r_f = r_m = r`: `Tmat(s1, s2, r) = Tmat_ss(s1, s2, r, r)` for every pair of
states (in fact for every pair of `int` arguments) and every `r`. -/
theorem Tmat_eq_Tmat_ss [CommRing α] (s1 s2 : Int) (r : α) :
    Tmat s1 s2 r = Tmat_ss s1 s2 r r := by
  unfold Tmat Tmat_ss
  simp only
  split_ifs <;> ring

/-- C10: `Tmat_ss` factorises over the two bits of the state: for `s1`, `s2`
in `{0,1,2,3}`, `Tmat_ss(s1, s2, r_f, r_m) = P * M` with `P = r_f` when the
high (paternal) bits `s1 / 2`, `s2 / 2` differ and `1 - r_f` otherwise, and
`M = r_m` when the low (maternal) bits `s1 % 2`, `s2 % 2` differ and `1 - r_m`
otherwise. -/
theorem Tmat_ss_bit_product [CommRing α] (s1 s2 : Int) (r_f r_m : α)
    (h1 : 0 ≤ s1 ∧ s1 ≤ 3) (h2 : 0 ≤ s2 ∧ s2 ≤ 3) :
    Tmat_ss s1 s2 r_f r_m =
      (if s1 / 2 ≠ s2 / 2 then r_f else 1 - r_f) *
        (if s1 % 2 ≠ s2 % 2 then r_m else 1 - r_m) := by
  obtain ⟨h1a, h1b⟩ := h1
  obtain ⟨h2a, h2b⟩ := h2
  interval_cases s1 <;> interval_cases s2 <;> simp [Tmat_ss]

theorem Tmat_ss_bit_product_witness :
    ((0 : Int) ≤ 1 ∧ (1 : Int) ≤ 3) ∧ ((0 : Int) ≤ 2 ∧ (2 : Int) ≤ 3) ∧
    Tmat_ss 1 2 (1 / 3 : ℚ) (1 / 5) =
      (if (1 : Int) / 2 ≠ 2 / 2 then (1 / 3 : ℚ) else 1 - 1 / 3) *
        (if (1 : Int) % 2 ≠ 2 % 2 then (1 / 5 : ℚ) else 1 - 1 / 5) :=
  ⟨by decide, by decide, Tmat_ss_bit_product 1 2 (1 / 3) (1 / 5) (by decide) (by decide)⟩

end TableTheorems

/-! ## Loop invariants and `computeProb` -/

section Loops

theorem forLoop_inv {σ : Type} (P : Nat → σ → Prop) (n : Nat) (body : Nat → σ → σ) (init : σ)
    (h0 : P 0 init) (hstep : ∀ i st, i < n → P i st → P (i + 1) (body i st)) :
    P n (forLoop n body init) := by
  induction n with
  | zero => exact h0
  | succ k ih =>
    exact hstep k _ (Nat.lt_succ_self k)
      (ih (fun i st hi hP => hstep i st (Nat.lt_succ_of_lt hi) hP))

theorem cell_index_inj {n i s j k : Nat} (hs : s < n) (hk : k < n)
    (h : i * n + s = j * n + k) : i = j ∧ s = k := by
  have hn : 0 < n := Nat.lt_of_le_of_lt (Nat.zero_le _) hs
  have h1 : (i * n + s) / n = i := by
    rw [Nat.add_comm, Nat.add_mul_div_right _ _ hn, Nat.div_eq_of_lt hs, Nat.zero_add]
  have h2 : (j * n + k) / n = j := by
    rw [Nat.add_comm, Nat.add_mul_div_right _ _ hn, Nat.div_eq_of_lt hk, Nat.zero_add]
  have hij : i = j := by rw [← h1, ← h2, h]
  subst hij
  exact ⟨rfl, Nat.add_left_cancel h⟩

variable {α : Type} [LinearOrderedField α]

theorem computeProb_body_inv (bin_coef : Nat → α) (epsilon : α)
    (pdepth_Ref pdepth_Alt : Nat → Int) (nInd nSnps ind snp : Nat) (hs : snp < nSnps)
    (st : ProbState α)
    (h : ProbInv bin_coef epsilon pdepth_Ref pdepth_Alt nInd nSnps (ind * nSnps + snp) st) :
    ProbInv bin_coef epsilon pdepth_Ref pdepth_Alt nInd nSnps (ind * nSnps + (snp + 1))
      (computeProb_body bin_coef epsilon pdepth_Ref pdepth_Alt nInd ind snp st) := by
  obtain ⟨h1, h2, h3, h4⟩ := h
  refine ⟨by simp [computeProb_body, h1, Nat.add_assoc],
    by simp [computeProb_body, h2, Nat.add_assoc],
    by simp [computeProb_body, h3, Nat.add_assoc], ?_⟩
  intro i s hsn hlt
  by_cases hc : i * nSnps + s = ind * nSnps + snp
  · obtain ⟨hi, hss⟩ := cell_index_inj hsn hs hc
    subst hi; subst hss
    simp [computeProb_body, h1, h2, h3, cellAA, cellBB]
  · have hlt2 : i * nSnps + s < ind * nSnps + snp := by omega
    obtain ⟨ha, hb⟩ := h4 i s hsn hlt2
    simp only [computeProb_body, h1, h2]
    rw [Function.update_noteq hc, Function.update_noteq hc]
    exact ⟨ha, hb⟩

theorem computeProb_inv (pAA pBB bin_coef : Nat → α) (epsilon : α)
    (pdepth_Ref pdepth_Alt : Nat → Int) (nInd nSnps : Nat) :
    ProbInv bin_coef epsilon pdepth_Ref pdepth_Alt nInd nSnps (nInd * nSnps)
      (computeProb pAA pBB bin_coef epsilon pdepth_Ref pdepth_Alt nInd nSnps) := by
  unfold computeProb
  refine forLoop_inv
    (fun ind st => ProbInv bin_coef epsilon pdepth_Ref pdepth_Alt nInd nSnps (ind * nSnps) st)
    nInd _ _ ?_ ?_
  · exact ⟨by simp, by simp, by simp, fun i s _ hlt => absurd hlt (by simp)⟩
  · intro ind st _ hP
    have := forLoop_inv
      (fun snp st =>
        ProbInv bin_coef epsilon pdepth_Ref pdepth_Alt nInd nSnps (ind * nSnps + snp) st)
      nSnps
      (fun snp st => computeProb_body bin_coef epsilon pdepth_Ref pdepth_Alt nInd ind snp st)
      st (by simpa using hP)
      (fun snp st hs h =>
        computeProb_body_inv bin_coef epsilon pdepth_Ref pdepth_Alt nInd nSnps ind snp hs st h)
    simpa [Nat.succ_mul] using this

/-- C6: `computeProb` writes, for every `ind < nInd` and `snp < nSnps`, at
output position `ind*nSnps + snp`: `pAA = pBB = 1` when the two depths at index
`ind + nInd*snp` add up to `0`, and otherwise
`pAA = C*(1-eps)^ref * eps^alt`, `pBB = C*eps^ref * (1-eps)^alt`, with `ref`,
`alt` the depths at index `ind + nInd*snp` and `C` the entry of `bin_coef` at
position `ind*nSnps + snp`. -/
theorem computeProb_writes (pAA pBB bin_coef : Nat → α) (epsilon : α)
    (pdepth_Ref pdepth_Alt : Nat → Int) (nInd nSnps ind snp : Nat)
    (hind : ind < nInd) (hsnp : snp < nSnps) :
    (computeProb pAA pBB bin_coef epsilon pdepth_Ref pdepth_Alt nInd nSnps).pAA
        (ind * nSnps + snp) =
      (if pdepth_Ref (ind + nInd * snp) + pdepth_Alt (ind + nInd * snp) = 0 then 1
       else bin_coef (ind * nSnps + snp) * (1 - epsilon) ^ pdepth_Ref (ind + nInd * snp)
         * epsilon ^ pdepth_Alt (ind + nInd * snp)) ∧
    (computeProb pAA pBB bin_coef epsilon pdepth_Ref pdepth_Alt nInd nSnps).pBB
        (ind * nSnps + snp) =
      (if pdepth_Ref (ind + nInd * snp) + pdepth_Alt (ind + nInd * snp) = 0 then 1
       else bin_coef (ind * nSnps + snp) * epsilon ^ pdepth_Ref (ind + nInd * snp)
         * (1 - epsilon) ^ pdepth_Alt (ind + nInd * snp)) := by
  obtain ⟨_, _, _, h⟩ :=
    computeProb_inv pAA pBB bin_coef epsilon pdepth_Ref pdepth_Alt nInd nSnps
  have hlt : ind * nSnps + snp < nInd * nSnps := by
    calc ind * nSnps + snp < ind * nSnps + nSnps := Nat.add_lt_add_left hsnp _
      _ = (ind + 1) * nSnps := (Nat.succ_mul ind nSnps).symm
      _ ≤ nInd * nSnps := Nat.mul_le_mul_right _ hind
  exact h ind snp hsnp hlt

theorem computeProb_writes_witness :
    (1 : Nat) < 2 ∧ (0 : Nat) < 2 ∧
    (computeProb (fun _ => (0 : ℚ)) (fun _ => 0) (fun _ => 1) (1 / 10)
        (fun i => if i = 1 then 2 else 0) (fun _ => 0) 2 2).pAA (1 * 2 + 0) =
      (if (fun i => if i = 1 then (2 : Int) else 0) (1 + 2 * 0) + (fun _ => (0 : Int)) (1 + 2 * 0) = 0
        then 1
       else (fun _ => (1 : ℚ)) (1 * 2 + 0)
         * (1 - 1 / 10) ^ (fun i => if i = 1 then (2 : Int) else 0) (1 + 2 * 0)
         * (1 / 10) ^ (fun _ => (0 : Int)) (1 + 2 * 0)) ∧
    (computeProb (fun _ => (0 : ℚ)) (fun _ => 0) (fun _ => 1) (1 / 10)
        (fun i => if i = 1 then 2 else 0) (fun _ => 0) 2 2).pBB (1 * 2 + 0) =
      (if (fun i => if i = 1 then (2 : Int) else 0) (1 + 2 * 0) + (fun _ => (0 : Int)) (1 + 2 * 0) = 0
        then 1
       else (fun _ => (1 : ℚ)) (1 * 2 + 0)
         * (1 / 10) ^ (fun i => if i = 1 then (2 : Int) else 0) (1 + 2 * 0)
         * (1 - 1 / 10) ^ (fun _ => (0 : Int)) (1 + 2 * 0)) :=
  ⟨by decide, by decide,
    computeProb_writes (fun _ => (0 : ℚ)) (fun _ => 0) (fun _ => 1) (1 / 10)
      (fun i => if i = 1 then 2 else 0) (fun _ => 0) 2 2 1 0 (by decide) (by decide)⟩


end Loops

/-! ## The `while` loop -/

section WhileLoop

variable {α : Type} [LinearOrderedField α]
variable (M : Libm α) (Qsel : Int → α → α → α → Int → α) (Isel : Int → Int → Int)

theorem emBody_iter (sexSpec : Bool) (inp : EMInput α) (st : EMState α) :
    (emBody M Qsel Isel sexSpec inp st).iter = st.iter + 1 := rfl

theorem emBody_prellval (sexSpec : Bool) (inp : EMInput α) (st : EMState α) :
    (emBody M Qsel Isel sexSpec inp st).prellval = st.llval := rfl

theorem iterate_emBody_iter (sexSpec : Bool) (inp : EMInput α) (st : EMState α) (j : Nat) :
    ((emBody M Qsel Isel sexSpec inp)^[j] st).iter = st.iter + j := by
  induction j with
  | zero => simp
  | succ n ih =>
    rw [Function.iterate_succ_apply', emBody_iter, ih]
    push_cast
    ring

theorem iterate_emBody_prellval (sexSpec : Bool) (inp : EMInput α) (st : EMState α) (j : Nat) :
    ((emBody M Qsel Isel sexSpec inp)^[j + 1] st).prellval =
      ((emBody M Qsel Isel sexSpec inp)^[j] st).llval := by
  rw [Function.iterate_succ_apply', emBody_prellval]

/-- The loop runs the body some number `m` of times; the guard fails after
round `m` and holds before every earlier round. -/
theorem emWhile_run (sexSpec : Bool) (inp : EMInput α) :
    ∀ (n : Nat) (s : EMState α), (max 2 inp.nIter - s.iter).toNat = n →
      ∃ m : Nat,
        emWhile M Qsel Isel sexSpec inp s = (emBody M Qsel Isel sexSpec inp)^[m] s ∧
        ¬ (((emBody M Qsel Isel sexSpec inp)^[m] s).iter < 2 ∨
            (((emBody M Qsel Isel sexSpec inp)^[m] s).iter < inp.nIter ∧
              ((emBody M Qsel Isel sexSpec inp)^[m] s).llval
                - ((emBody M Qsel Isel sexSpec inp)^[m] s).prellval > inp.delta)) ∧
        ∀ j, j < m →
          (((emBody M Qsel Isel sexSpec inp)^[j] s).iter < 2 ∨
            (((emBody M Qsel Isel sexSpec inp)^[j] s).iter < inp.nIter ∧
              ((emBody M Qsel Isel sexSpec inp)^[j] s).llval
                - ((emBody M Qsel Isel sexSpec inp)^[j] s).prellval > inp.delta)) := by
  intro n
  induction n using Nat.strong_induction_on with
  | _ n ih =>
    intro s hs
    by_cases hc : s.iter < 2 ∨ (s.iter < inp.nIter ∧ s.llval - s.prellval > inp.delta)
    · have hlt : (max 2 inp.nIter - (emBody M Qsel Isel sexSpec inp s).iter).toNat < n := by
        rw [emBody_iter]
        rcases hc with h | ⟨h, _⟩ <;> omega
      obtain ⟨m, h1, h2, h3⟩ := ih _ hlt (emBody M Qsel Isel sexSpec inp s) rfl
      refine ⟨m + 1, ?_, ?_, ?_⟩
      · rw [emWhile, if_pos hc, h1, Function.iterate_succ_apply]
      · simpa only [Function.iterate_succ_apply] using h2
      · intro j hj
        cases j with
        | zero => simpa using hc
        | succ j =>
          simpa only [Function.iterate_succ_apply] using h3 j (by omega)
    · refine ⟨0, ?_, by simpa using hc, fun j hj => absurd hj (Nat.not_lt_zero j)⟩
      rw [emWhile, if_neg hc]
      rfl

/-- Shape of a terminated run that starts with `iter = 0`: the number of
rounds `k` is the least `k ≥ 2` with `k ≥ nIter` or `ll k - ll (k-1) ≤ delta`. -/
theorem emWhile_least (sexSpec : Bool) (inp : EMInput α) (s : EMState α) (h0 : s.iter = 0) :
    ∃ k : Nat,
      emWhile M Qsel Isel sexSpec inp s = (emBody M Qsel Isel sexSpec inp)^[k] s ∧
      (emWhile M Qsel Isel sexSpec inp s).iter = k ∧
      2 ≤ k ∧ (k : Int) ≤ max 2 inp.nIter ∧
      (inp.nIter ≤ k ∨
        ((emBody M Qsel Isel sexSpec inp)^[k] s).llval
          - ((emBody M Qsel Isel sexSpec inp)^[k - 1] s).llval ≤ inp.delta) ∧
      ∀ j : Nat, 2 ≤ j → j < k →
        ¬ (inp.nIter ≤ j ∨
          ((emBody M Qsel Isel sexSpec inp)^[j] s).llval
            - ((emBody M Qsel Isel sexSpec inp)^[j - 1] s).llval ≤ inp.delta) := by
  obtain ⟨k, h1, h2, h3⟩ := emWhile_run M Qsel Isel sexSpec inp _ s rfl
  have hit : ∀ j : Nat, ((emBody M Qsel Isel sexSpec inp)^[j] s).iter = j := by
    intro j
    rw [iterate_emBody_iter, h0, zero_add]
  have hpre : ∀ j : Nat, 1 ≤ j → ((emBody M Qsel Isel sexSpec inp)^[j] s).prellval =
      ((emBody M Qsel Isel sexSpec inp)^[j - 1] s).llval := by
    intro j hj
    obtain ⟨i, rfl⟩ : ∃ i, j = i + 1 := ⟨j - 1, by omega⟩
    rw [iterate_emBody_prellval]
    rfl
  rw [hit k] at h2
  have hk2 : 2 ≤ k := by
    by_contra hlt
    exact h2 (Or.inl (by omega))
  have hexit : inp.nIter ≤ k ∨
      ((emBody M Qsel Isel sexSpec inp)^[k] s).llval
        - ((emBody M Qsel Isel sexSpec inp)^[k - 1] s).llval ≤ inp.delta := by
    by_contra hne
    rw [not_or] at hne
    refine h2 (Or.inr ⟨by omega, ?_⟩)
    rw [hpre k (by omega)]
    exact lt_of_not_le hne.2
  have hbefore : ∀ j : Nat, 2 ≤ j → j < k →
      ¬ (inp.nIter ≤ j ∨
        ((emBody M Qsel Isel sexSpec inp)^[j] s).llval
          - ((emBody M Qsel Isel sexSpec inp)^[j - 1] s).llval ≤ inp.delta) := by
    intro j hj2 hjk hstop
    have hc := h3 j hjk
    rw [hit j, hpre j (by omega)] at hc
    rcases hc with hc | ⟨hc1, hc2⟩
    · omega
    · rcases hstop with hs | hs
      · omega
      · exact absurd hs (not_le_of_lt hc2)
  refine ⟨k, h1, by rw [h1, hit k], hk2, ?_, hexit, hbefore⟩
  by_cases hk : k = 2
  · subst hk
    exact le_max_left _ _
  · have hc := h3 (k - 1) (by omega)
    rw [hit (k - 1)] at hc
    rcases hc with hc | ⟨hc, _⟩
    · omega
    · have : (k : Int) ≤ inp.nIter := by omega
      exact le_trans this (le_max_right _ _)

end WhileLoop

section DriverTheorems

variable {α : Type} [LinearOrderedField α]

/-- C5: the `while` loop of `EM_HMM` and of `EM_HMM_UP` terminates (the drivers
are total functions) after exactly `k` rounds, where `k` is the least integer
`k ≥ 2` with `k ≥ nIter` or `ll k - ll (k-1) ≤ delta` (`ll j` the
log-likelihood computed in round `j`); in particular `2 ≤ k ≤ max 2 nIter`
whatever `nIter` is. -/
theorem EM_loop_iteration_count (M : Libm α) (inp : EMInput α) :
    (∃ k : Nat,
      EM_HMM_final M inp = EM_HMM_after M inp k ∧
      (EM_HMM_final M inp).iter = k ∧
      2 ≤ k ∧ (k : Int) ≤ max 2 inp.nIter ∧
      (inp.nIter ≤ k ∨
        (EM_HMM_after M inp k).llval - (EM_HMM_after M inp (k - 1)).llval ≤ inp.delta) ∧
      ∀ j : Nat, 2 ≤ j → j < k →
        ¬ (inp.nIter ≤ j ∨
          (EM_HMM_after M inp j).llval - (EM_HMM_after M inp (j - 1)).llval ≤ inp.delta)) ∧
    (∃ k : Nat,
      EM_HMM_UP_final M inp = EM_HMM_UP_after M inp k ∧
      (EM_HMM_UP_final M inp).iter = k ∧
      2 ≤ k ∧ (k : Int) ≤ max 2 inp.nIter ∧
      (inp.nIter ≤ k ∨
        (EM_HMM_UP_after M inp k).llval - (EM_HMM_UP_after M inp (k - 1)).llval
          ≤ inp.delta) ∧
      ∀ j : Nat, 2 ≤ j → j < k →
        ¬ (inp.nIter ≤ j ∨
          (EM_HMM_UP_after M inp j).llval - (EM_HMM_UP_after M inp (j - 1)).llval
            ≤ inp.delta)) :=
  ⟨emWhile_least M Qentry Iindx (decide (inp.sexSpec ≠ 0)) inp
      (emInit (decide (inp.sexSpec ≠ 0)) inp) rfl,
    emWhile_least M Qentry_up Iindx_up true inp (emInit true inp) rfl⟩

end DriverTheorems

/-! ## Forward and backward passes -/

section ForwardBackward

variable {α : Type} [LinearOrderedField α]
variable (M : Libm α) (Qsel : Int → α → α → α → Int → α)
variable (inp : EMInput α) (r_c : Nat → α) (ep_c : α) (fam ind : Nat)

theorem forward_w (snp : Nat) :
    (forward Qsel inp r_c ep_c fam ind snp).w =
      alphaDot Qsel inp r_c ep_c fam ind snp 0 + alphaDot Qsel inp r_c ep_c fam ind snp 1
        + alphaDot Qsel inp r_c ep_c fam ind snp 2 + alphaDot Qsel inp r_c ep_c fam ind snp 3 := by
  cases snp <;> simp [forward, alphaDot, sum4_eq]

theorem alphaTilde_eq (snp : Nat) (s : Int) :
    alphaTilde Qsel inp r_c ep_c fam ind snp s =
      alphaDot Qsel inp r_c ep_c fam ind snp s / (forward Qsel inp r_c ep_c fam ind snp).w := by
  cases snp <;> simp [alphaTilde, forward, alphaDot]

theorem alphaDot_eq_mul (snp : Nat) (s : Int)
    (hw : (forward Qsel inp r_c ep_c fam ind snp).w ≠ 0) :
    alphaDot Qsel inp r_c ep_c fam ind snp s =
      alphaTilde Qsel inp r_c ep_c fam ind snp s * (forward Qsel inp r_c ep_c fam ind snp).w := by
  rw [alphaTilde_eq, div_mul_cancel₀ _ hw]

theorem alphaTilde_sum (snp : Nat) (hw : (forward Qsel inp r_c ep_c fam ind snp).w ≠ 0) :
    alphaTilde Qsel inp r_c ep_c fam ind snp 0 + alphaTilde Qsel inp r_c ep_c fam ind snp 1
      + alphaTilde Qsel inp r_c ep_c fam ind snp 2
      + alphaTilde Qsel inp r_c ep_c fam ind snp 3 = 1 := by
  simp only [alphaTilde_eq]
  rw [← add_div, ← add_div, ← add_div, ← forward_w]
  exact div_self hw

theorem alphaDot_succ (snp : Nat) (s2 : Int) :
    alphaDot Qsel inp r_c ep_c fam ind (snp + 1) s2 =
      emis Qsel inp ep_c fam ind (snp + 1) s2 *
        (Tmat_ss 0 s2 (r_c snp) (r_c (snp + inp.nSnps - 1))
            * alphaTilde Qsel inp r_c ep_c fam ind snp 0
          + Tmat_ss 1 s2 (r_c snp) (r_c (snp + inp.nSnps - 1))
            * alphaTilde Qsel inp r_c ep_c fam ind snp 1
          + Tmat_ss 2 s2 (r_c snp) (r_c (snp + inp.nSnps - 1))
            * alphaTilde Qsel inp r_c ep_c fam ind snp 2
          + Tmat_ss 3 s2 (r_c snp) (r_c (snp + inp.nSnps - 1))
            * alphaTilde Qsel inp r_c ep_c fam ind snp 3) := by
  simp [alphaDot, alphaTilde, sum4_eq]

theorem betaTilde_last (s : Int) :
    betaTilde M Qsel inp r_c ep_c fam ind (inp.nSnps - 1) s =
      1 / M.exp (M.log (forward Qsel inp r_c ep_c fam ind (inp.nSnps - 1)).w) := by
  simp [betaTilde, backward, log_w]

theorem betaTilde_step (snp : Nat) (hsnp : snp + 1 < inp.nSnps) (s1 : Int) :
    betaTilde M Qsel inp r_c ep_c fam ind snp s1 =
      (emis Qsel inp ep_c fam ind (snp + 1) 0
          * Tmat_ss s1 0 (r_c snp) (r_c (snp + inp.nSnps - 1))
          * betaTilde M Qsel inp r_c ep_c fam ind (snp + 1) 0
        + emis Qsel inp ep_c fam ind (snp + 1) 1
          * Tmat_ss s1 1 (r_c snp) (r_c (snp + inp.nSnps - 1))
          * betaTilde M Qsel inp r_c ep_c fam ind (snp + 1) 1
        + emis Qsel inp ep_c fam ind (snp + 1) 2
          * Tmat_ss s1 2 (r_c snp) (r_c (snp + inp.nSnps - 1))
          * betaTilde M Qsel inp r_c ep_c fam ind (snp + 1) 2
        + emis Qsel inp ep_c fam ind (snp + 1) 3
          * Tmat_ss s1 3 (r_c snp) (r_c (snp + inp.nSnps - 1))
          * betaTilde M Qsel inp r_c ep_c fam ind (snp + 1) 3)
        / M.exp (M.log (forward Qsel inp r_c ep_c fam ind snp).w) := by
  obtain ⟨k, hk⟩ : ∃ k, inp.nSnps - 1 - snp = k + 1 := ⟨inp.nSnps - 2 - snp, by omega⟩
  have h1 : inp.nSnps - 1 - (snp + 1) = k := by omega
  have h2 : inp.nSnps - 2 - k = snp := by omega
  simp only [betaTilde, hk, h1, backward, h2, sum4_eq, log_w]

/-- Backward induction behind the occupation posterior: with non-zero weights
that `exp (log .)` reproduces, `alphaTilde * betaTilde * w` sums to one. -/
theorem alpha_beta_w_sum
    (hw : ∀ t, t < inp.nSnps → (forward Qsel inp r_c ep_c fam ind t).w ≠ 0)
    (hel : ∀ t, t < inp.nSnps → M.exp (M.log (forward Qsel inp r_c ep_c fam ind t).w) =
      (forward Qsel inp r_c ep_c fam ind t).w) :
    ∀ (k snp : Nat), snp + k + 1 = inp.nSnps →
      alphaTilde Qsel inp r_c ep_c fam ind snp 0 * betaTilde M Qsel inp r_c ep_c fam ind snp 0
          * (forward Qsel inp r_c ep_c fam ind snp).w
        + alphaTilde Qsel inp r_c ep_c fam ind snp 1 * betaTilde M Qsel inp r_c ep_c fam ind snp 1
          * (forward Qsel inp r_c ep_c fam ind snp).w
        + alphaTilde Qsel inp r_c ep_c fam ind snp 2 * betaTilde M Qsel inp r_c ep_c fam ind snp 2
          * (forward Qsel inp r_c ep_c fam ind snp).w
        + alphaTilde Qsel inp r_c ep_c fam ind snp 3 * betaTilde M Qsel inp r_c ep_c fam ind snp 3
          * (forward Qsel inp r_c ep_c fam ind snp).w = 1 := by
  intro k
  induction k with
  | zero =>
    intro snp hsnp
    have hlast : snp = inp.nSnps - 1 := by omega
    have hw0 := hw snp (by omega)
    have hs := alphaTilde_sum Qsel inp r_c ep_c fam ind snp hw0
    have hb : ∀ s, betaTilde M Qsel inp r_c ep_c fam ind snp s =
        1 / (forward Qsel inp r_c ep_c fam ind snp).w := by
      intro s
      rw [hlast, betaTilde_last, ← hlast, hel snp (by omega)]
    have c : ∀ a : α, a * (1 / (forward Qsel inp r_c ep_c fam ind snp).w)
        * (forward Qsel inp r_c ep_c fam ind snp).w = a := by
      intro a
      field_simp
    simp only [hb, c]
    exact hs
  | succ k ih =>
    intro snp hsnp
    have ih1 := ih (snp + 1) (by omega)
    have hw0 := hw snp (by omega)
    have hw1 := hw (snp + 1) (by omega)
    have e : ∀ s, alphaTilde Qsel inp r_c ep_c fam ind (snp + 1) s
          * betaTilde M Qsel inp r_c ep_c fam ind (snp + 1) s
          * (forward Qsel inp r_c ep_c fam ind (snp + 1)).w =
        alphaDot Qsel inp r_c ep_c fam ind (snp + 1) s
          * betaTilde M Qsel inp r_c ep_c fam ind (snp + 1) s := by
      intro s
      rw [alphaDot_eq_mul Qsel inp r_c ep_c fam ind (snp + 1) s hw1]
      ring
    rw [e 0, e 1, e 2, e 3] at ih1
    simp only [alphaDot_succ] at ih1
    have c : ∀ a x : α, a * (x / (forward Qsel inp r_c ep_c fam ind snp).w)
        * (forward Qsel inp r_c ep_c fam ind snp).w = a * x := by
      intro a x
      field_simp
    simp only [betaTilde_step M Qsel inp r_c ep_c fam ind snp (by omega), hel snp (by omega), c]
    linear_combination ih1

theorem uProb_eq (hen : ∀ x : α, M.exp (-x) = (M.exp x)⁻¹) (snp : Nat) (s : Int)
    (hel : M.exp (M.log (forward Qsel inp r_c ep_c fam ind snp).w) =
      (forward Qsel inp r_c ep_c fam ind snp).w) :
    uProb M Qsel inp r_c ep_c fam ind snp s =
      alphaTilde Qsel inp r_c ep_c fam ind snp s * betaTilde M Qsel inp r_c ep_c fam ind snp s
        * (forward Qsel inp r_c ep_c fam ind snp).w := by
  simp only [uProb, log_w, hen, hel, div_inv_eq_mul]

theorem uProb_sum (hen : ∀ x : α, M.exp (-x) = (M.exp x)⁻¹)
    (hw : ∀ t, t < inp.nSnps → (forward Qsel inp r_c ep_c fam ind t).w ≠ 0)
    (hel : ∀ t, t < inp.nSnps → M.exp (M.log (forward Qsel inp r_c ep_c fam ind t).w) =
      (forward Qsel inp r_c ep_c fam ind t).w)
    (snp : Nat) (hsnp : snp < inp.nSnps) :
    uProb M Qsel inp r_c ep_c fam ind snp 0 + uProb M Qsel inp r_c ep_c fam ind snp 1
      + uProb M Qsel inp r_c ep_c fam ind snp 2 + uProb M Qsel inp r_c ep_c fam ind snp 3 = 1 := by
  simp only [uProb_eq M Qsel inp r_c ep_c fam ind hen snp _ (hel snp hsnp)]
  exact alpha_beta_w_sum M Qsel inp r_c ep_c fam ind hw hel (inp.nSnps - 1 - snp) snp (by omega)

end ForwardBackward

/-! ## Arithmetic of the loops -/

section LoopSums

theorem forLoop_add_eq_sum {β : Type} [AddCommMonoid β] (n : Nat) (g : Nat → β) (a : β) :
    forLoop n (fun i acc => acc + g i) a = a + ∑ i in Finset.range n, g i := by
  induction n with
  | zero => simp [forLoop]
  | succ k ih => simp only [forLoop, ih, Finset.sum_range_succ, add_assoc]

theorem forLoop_pair_eq_sum {β : Type} [AddCommMonoid β] (n : Nat) (g h : Nat → β)
    (a : β × β) :
    forLoop n (fun i acc => (acc.1 + g i, acc.2 + h i)) a =
      (a.1 + ∑ i in Finset.range n, g i, a.2 + ∑ i in Finset.range n, h i) := by
  induction n with
  | zero => simp [forLoop]
  | succ k ih => simp only [forLoop, ih, Finset.sum_range_succ, add_assoc]

theorem nTotalUpTo_succ (nInd : Nat → Nat) (k : Nat) :
    nTotalUpTo nInd (k + 1) = nTotalUpTo nInd k + nInd k := rfl

theorem nTotalUpTo_eq_sum (nInd : Nat → Nat) (k : Nat) :
    nTotalUpTo nInd k = ∑ fam in Finset.range k, nInd fam := by
  unfold nTotalUpTo
  rw [forLoop_add_eq_sum, Nat.zero_add]

theorem nTotalUpTo_mono (nInd : Nat → Nat) {j k : Nat} (h : j ≤ k) :
    nTotalUpTo nInd j ≤ nTotalUpTo nInd k := by
  induction k with
  | zero =>
    have : j = 0 := Nat.le_zero.mp h
    subst this
    exact Nat.le_refl _
  | succ n ih =>
    rcases Nat.lt_or_ge j (n + 1) with hlt | hge
    · exact Nat.le_trans (ih (Nat.lt_succ_iff.mp hlt)) (by rw [nTotalUpTo_succ]; omega)
    · have : j = n + 1 := Nat.le_antisymm h hge
      subst this
      exact Nat.le_refl _

variable {α : Type} [LinearOrderedField α]

theorem indSum_eq (inp : EMInput α) (fam : Nat) : indSum inp fam = nTotalUpTo inp.nInd fam := by
  unfold indSum
  rw [nTotalUpTo_succ]
  omega

theorem indx_lt_nTotal (inp : EMInput α) (fam ind : Nat) (hfam : fam < inp.noFam)
    (hind : ind < inp.nInd fam) : ind + indSum inp fam < nTotal inp := by
  have h1 : nTotalUpTo inp.nInd (fam + 1) ≤ nTotalUpTo inp.nInd inp.noFam :=
    nTotalUpTo_mono inp.nInd hfam
  rw [indSum_eq]
  unfold nTotal
  rw [nTotalUpTo_succ] at h1
  omega

theorem depth_index_lt (inp : EMInput α) (fam ind snp : Nat) (hfam : fam < inp.noFam)
    (hind : ind < inp.nInd fam) (hsnp : snp < inp.nSnps) :
    ind + indSum inp fam + nTotal inp * snp < nTotal inp * inp.nSnps := by
  have h := indx_lt_nTotal inp fam ind hfam hind
  calc ind + indSum inp fam + nTotal inp * snp
      < nTotal inp + nTotal inp * snp := Nat.add_lt_add_right h _
    _ = nTotal inp * (snp + 1) := by rw [Nat.mul_succ, Nat.add_comm]
    _ ≤ nTotal inp * inp.nSnps := Nat.mul_le_mul_left _ hsnp

theorem code_index_lt (inp : EMInput α) (fam snp : Nat) (hfam : fam < inp.noFam)
    (hsnp : snp < inp.nSnps) : snp * inp.noFam + fam < inp.nSnps * inp.noFam := by
  calc snp * inp.noFam + fam < snp * inp.noFam + inp.noFam := Nat.add_lt_add_left hfam _
    _ = (snp + 1) * inp.noFam := (Nat.succ_mul snp inp.noFam).symm
    _ ≤ inp.nSnps * inp.noFam := Nat.mul_le_mul_right _ hsnp

/-- A convex combination of four positive numbers is positive. -/
theorem convex_pos {x0 x1 x2 x3 a0 a1 a2 a3 : α}
    (hx0 : 0 ≤ x0) (hx1 : 0 ≤ x1) (hx2 : 0 ≤ x2) (hx3 : 0 ≤ x3)
    (hsum : x0 + x1 + x2 + x3 = 1)
    (ha0 : 0 < a0) (ha1 : 0 < a1) (ha2 : 0 < a2) (ha3 : 0 < a3) :
    0 < x0 * a0 + x1 * a1 + x2 * a2 + x3 * a3 := by
  have h0 := mul_nonneg hx0 ha0.le
  have h1 := mul_nonneg hx1 ha1.le
  have h2 := mul_nonneg hx2 ha2.le
  have h3 := mul_nonneg hx3 ha3.le
  by_contra hneg
  have e0 : x0 * a0 = 0 := by linarith
  have e1 : x1 * a1 = 0 := by linarith
  have e2 : x2 * a2 = 0 := by linarith
  have e3 : x3 * a3 = 0 := by linarith
  have z0 : x0 = 0 := (mul_eq_zero.mp e0).resolve_right ha0.ne.symm
  have z1 : x1 = 0 := (mul_eq_zero.mp e1).resolve_right ha1.ne.symm
  have z2 : x2 = 0 := (mul_eq_zero.mp e2).resolve_right ha2.ne.symm
  have z3 : x3 = 0 := (mul_eq_zero.mp e3).resolve_right ha3.ne.symm
  rw [z0, z1, z2, z3] at hsum
  norm_num at hsum

theorem Tmat_ss_nonneg (s1 s2 : Int) {r_f r_m : α} (hf : 0 ≤ r_f ∧ r_f ≤ 1)
    (hm : 0 ≤ r_m ∧ r_m ≤ 1) : 0 ≤ Tmat_ss s1 s2 r_f r_m := by
  have h1 : 0 ≤ 1 - r_f := sub_nonneg.mpr hf.2
  have h2 : 0 ≤ 1 - r_m := sub_nonneg.mpr hm.2
  unfold Tmat_ss
  simp only
  split_ifs
  · exact mul_nonneg h1 h2
  · exact mul_nonneg hf.1 hm.1
  · exact mul_nonneg h1 hm.1
  · exact mul_nonneg hf.1 h2

theorem Tmat_ss_row (s1 : Int) (h0 : 0 ≤ s1) (h3 : s1 ≤ 3) (r_f r_m : α) :
    Tmat_ss s1 0 r_f r_m + Tmat_ss s1 1 r_f r_m + Tmat_ss s1 2 r_f r_m
      + Tmat_ss s1 3 r_f r_m = 1 := by
  interval_cases s1 <;> simp [Tmat_ss] <;> ring

theorem Tmat_ss_col (s2 : Int) (h0 : 0 ≤ s2) (h3 : s2 ≤ 3) (r_f r_m : α) :
    Tmat_ss 0 s2 r_f r_m + Tmat_ss 1 s2 r_f r_m + Tmat_ss 2 s2 r_f r_m
      + Tmat_ss 3 s2 r_f r_m = 1 := by
  interval_cases s2 <;> simp [Tmat_ss] <;> ring

end LoopSums

/-! ## Emissions -/

section EmissionFacts

variable {α : Type} [LinearOrderedField α]
variable (Qsel : Int → α → α → α → Int → α) (Isel : Int → Int → Int)
variable (inp : EMInput α) (ep_c : α)

theorem pAA_cell (fam ind snp : Nat) (hfam : fam < inp.noFam) (hind : ind < inp.nInd fam)
    (hsnp : snp < inp.nSnps) :
    pAA inp ep_c (ind + indSum inp fam) snp =
      cellAA (fun _ => 1) ep_c inp.depth_Ref inp.depth_Alt (nTotal inp) inp.nSnps
        (ind + indSum inp fam) snp ∧
    pBB inp ep_c (ind + indSum inp fam) snp =
      cellBB (fun _ => 1) ep_c inp.depth_Ref inp.depth_Alt (nTotal inp) inp.nSnps
        (ind + indSum inp fam) snp := by
  obtain ⟨_, _, _, h⟩ := computeProb_inv (fun _ => (0 : α)) (fun _ => 0) (fun _ => 1) ep_c
    inp.depth_Ref inp.depth_Alt (nTotal inp) inp.nSnps
  have hi := indx_lt_nTotal inp fam ind hfam hind
  have hlt : (ind + indSum inp fam) * inp.nSnps + snp < nTotal inp * inp.nSnps := by
    calc (ind + indSum inp fam) * inp.nSnps + snp
        < (ind + indSum inp fam) * inp.nSnps + inp.nSnps := Nat.add_lt_add_left hsnp _
      _ = (ind + indSum inp fam + 1) * inp.nSnps := (Nat.succ_mul _ _).symm
      _ ≤ nTotal inp * inp.nSnps := Nat.mul_le_mul_right _ hi
  exact h (ind + indSum inp fam) snp hsnp hlt

theorem hom_pos {e : α} (h0 : 0 ≤ e) (h1 : e ≤ 1) (m n : Int)
    (hm : e = 0 → m = 0) (hn : e = 1 → n = 0) : 0 < (1 - e) ^ n * e ^ m := by
  rcases eq_or_lt_of_le h0 with hz | hpos
  · have hm0 := hm hz.symm
    subst hm0
    rw [← hz]
    simp
  · rcases eq_or_lt_of_le h1 with ho | hlt
    · have hn0 := hn ho
      subst hn0
      rw [ho]
      simp
    · exact mul_pos (zpow_pos (sub_pos.mpr hlt) n) (zpow_pos hpos m)

theorem emisPos_of_epOK {hi : Int} (hV : ValidData hi inp) (hT : TableOK Qsel Isel hi)
    (hE : EpOK Isel inp ep_c) : EmisPos Qsel inp ep_c := by
  intro fam ind snp s hfam hind hsnp hs0 hs3
  obtain ⟨hcode, _⟩ := hV
  obtain ⟨he0, he1, hE⟩ := hE
  obtain ⟨hc1, hc2⟩ := hcode _ (code_index_lt inp fam snp hfam hsnp)
  obtain ⟨hI, hQ⟩ := hT (inp.OPGP (snp * inp.noFam + fam)) (s + 1)
    (pAA inp ep_c (ind + indSum inp fam) snp) (pAB inp (ind + indSum inp fam) snp)
    (pBB inp ep_c (ind + indSum inp fam) snp) hc1 hc2 (by omega) (by omega)
  obtain ⟨hA, hB⟩ := pAA_cell inp ep_c fam ind snp hfam hind hsnp
  obtain ⟨hmis, hmat⟩ := hE fam ind snp s hfam hind hsnp hs0 hs3
  have hAB : 0 < pAB inp (ind + indSum inp fam) snp := by
    unfold pAB
    rw [one_mul]
    exact zpow_pos (by norm_num) _
  simp only [emis]
  rw [hQ]
  rcases hI with h | h | h
  · rw [if_pos h]
    exact hAB
  · rw [if_neg (by rw [h]; decide), if_pos h, hA]
    unfold cellAA
    split_ifs with hd
    · exact one_pos
    · have e1 : mism Isel inp fam ind snp s
          = inp.depth_Alt (ind + indSum inp fam + nTotal inp * snp) := by
        simp [mism, Iaa, Ibb, h]
      have e2 : mtch Isel inp fam ind snp s
          = inp.depth_Ref (ind + indSum inp fam + nTotal inp * snp) := by
        simp [mtch, Iaa, Ibb, h]
      rw [one_mul]
      exact hom_pos he0 he1 _ _ (fun hz => by rw [← e1]; exact hmis hz)
        (fun ho => by rw [← e2]; exact hmat ho)
  · rw [if_neg (by rw [h]; decide), if_neg (by rw [h]; decide), hB]
    unfold cellBB
    split_ifs with hd
    · exact one_pos
    · have e1 : mism Isel inp fam ind snp s
          = inp.depth_Ref (ind + indSum inp fam + nTotal inp * snp) := by
        simp [mism, Iaa, Ibb, h]
      have e2 : mtch Isel inp fam ind snp s
          = inp.depth_Alt (ind + indSum inp fam + nTotal inp * snp) := by
        simp [mtch, Iaa, Ibb, h]
      rw [one_mul, mul_comm]
      exact hom_pos he0 he1 _ _ (fun hz => by rw [← e1]; exact hmis hz)
        (fun ho => by rw [← e2]; exact hmat ho)

theorem epOK_of_interior (h0 : 0 < ep_c) (h1 : ep_c < 1) : EpOK Isel inp ep_c :=
  ⟨h0.le, h1.le, fun _ _ _ _ _ _ _ _ _ =>
    ⟨fun hz => absurd hz h0.ne.symm, fun ho => absurd ho h1.ne⟩⟩

end EmissionFacts

/-! ## Positivity of the forward-backward tables -/

section Positivity

variable {α : Type} [LinearOrderedField α]
variable (M : Libm α) (Qsel : Int → α → α → α → Int → α)
variable (inp : EMInput α) (r_c : Nat → α) (ep_c : α) (fam ind : Nat)

theorem alphaDot_pos (hr : ∀ i, 0 ≤ r_c i ∧ r_c i ≤ 1)
    (hQ : ∀ snp, snp < inp.nSnps → ∀ s : Int, 0 ≤ s → s ≤ 3 →
      0 < emis Qsel inp ep_c fam ind snp s) :
    ∀ snp, snp < inp.nSnps → ∀ s : Int, 0 ≤ s → s ≤ 3 →
      0 < alphaDot Qsel inp r_c ep_c fam ind snp s := by
  intro snp
  induction snp with
  | zero =>
    intro h0 s hs0 hs3
    simp only [alphaDot]
    exact mul_pos (by norm_num) (hQ 0 h0 s hs0 hs3)
  | succ n ih =>
    intro hn s hs0 hs3
    have ihn := ih (by omega)
    have hw : 0 < (forward Qsel inp r_c ep_c fam ind n).w := by
      rw [forward_w]
      have a0 := ihn 0 (by norm_num) (by norm_num)
      have a1 := ihn 1 (by norm_num) (by norm_num)
      have a2 := ihn 2 (by norm_num) (by norm_num)
      have a3 := ihn 3 (by norm_num) (by norm_num)
      linarith
    have hA : ∀ t : Int, 0 ≤ t → t ≤ 3 → 0 < alphaTilde Qsel inp r_c ep_c fam ind n t := by
      intro t ht0 ht3
      rw [alphaTilde_eq]
      exact div_pos (ihn t ht0 ht3) hw
    rw [alphaDot_succ]
    refine mul_pos (hQ (n + 1) hn s hs0 hs3) ?_
    exact convex_pos
      (Tmat_ss_nonneg 0 s (hr _) (hr _)) (Tmat_ss_nonneg 1 s (hr _) (hr _))
      (Tmat_ss_nonneg 2 s (hr _) (hr _)) (Tmat_ss_nonneg 3 s (hr _) (hr _))
      (Tmat_ss_col s hs0 hs3 _ _)
      (hA 0 (by norm_num) (by norm_num)) (hA 1 (by norm_num) (by norm_num))
      (hA 2 (by norm_num) (by norm_num)) (hA 3 (by norm_num) (by norm_num))

theorem forward_w_pos (hr : ∀ i, 0 ≤ r_c i ∧ r_c i ≤ 1)
    (hQ : ∀ snp, snp < inp.nSnps → ∀ s : Int, 0 ≤ s → s ≤ 3 →
      0 < emis Qsel inp ep_c fam ind snp s)
    (snp : Nat) (hsnp : snp < inp.nSnps) :
    0 < (forward Qsel inp r_c ep_c fam ind snp).w := by
  have h := alphaDot_pos Qsel inp r_c ep_c fam ind hr hQ snp hsnp
  rw [forward_w]
  have a0 := h 0 (by norm_num) (by norm_num)
  have a1 := h 1 (by norm_num) (by norm_num)
  have a2 := h 2 (by norm_num) (by norm_num)
  have a3 := h 3 (by norm_num) (by norm_num)
  linarith

theorem alphaTilde_pos (hr : ∀ i, 0 ≤ r_c i ∧ r_c i ≤ 1)
    (hQ : ∀ snp, snp < inp.nSnps → ∀ s : Int, 0 ≤ s → s ≤ 3 →
      0 < emis Qsel inp ep_c fam ind snp s)
    (snp : Nat) (hsnp : snp < inp.nSnps) (s : Int) (hs0 : 0 ≤ s) (hs3 : s ≤ 3) :
    0 < alphaTilde Qsel inp r_c ep_c fam ind snp s := by
  rw [alphaTilde_eq]
  exact div_pos (alphaDot_pos Qsel inp r_c ep_c fam ind hr hQ snp hsnp s hs0 hs3)
    (forward_w_pos Qsel inp r_c ep_c fam ind hr hQ snp hsnp)

theorem betaTilde_pos (hel : ∀ x : α, 0 < x → M.exp (M.log x) = x)
    (hr : ∀ i, 0 ≤ r_c i ∧ r_c i ≤ 1)
    (hQ : ∀ snp, snp < inp.nSnps → ∀ s : Int, 0 ≤ s → s ≤ 3 →
      0 < emis Qsel inp ep_c fam ind snp s) :
    ∀ (k snp : Nat), snp + k + 1 = inp.nSnps → ∀ s : Int, 0 ≤ s → s ≤ 3 →
      0 < betaTilde M Qsel inp r_c ep_c fam ind snp s := by
  intro k
  induction k with
  | zero =>
    intro snp hsnp s _ _
    have hlast : snp = inp.nSnps - 1 := by omega
    have hw := forward_w_pos Qsel inp r_c ep_c fam ind hr hQ snp (by omega)
    rw [hlast, betaTilde_last, ← hlast, hel _ hw]
    exact div_pos one_pos hw
  | succ k ih =>
    intro snp hsnp s hs0 hs3
    have hw := forward_w_pos Qsel inp r_c ep_c fam ind hr hQ snp (by omega)
    have hB := ih (snp + 1) (by omega)
    have hq := hQ (snp + 1) (by omega)
    rw [betaTilde_step M Qsel inp r_c ep_c fam ind snp (by omega), hel _ hw]
    refine div_pos ?_ hw
    have c : ∀ q t b : α, q * t * b = t * (q * b) := by
      intro q t b
      ring
    simp only [c]
    exact convex_pos
      (Tmat_ss_nonneg s 0 (hr _) (hr _)) (Tmat_ss_nonneg s 1 (hr _) (hr _))
      (Tmat_ss_nonneg s 2 (hr _) (hr _)) (Tmat_ss_nonneg s 3 (hr _) (hr _))
      (Tmat_ss_row s hs0 hs3 _ _)
      (mul_pos (hq 0 (by norm_num) (by norm_num)) (hB 0 (by norm_num) (by norm_num)))
      (mul_pos (hq 1 (by norm_num) (by norm_num)) (hB 1 (by norm_num) (by norm_num)))
      (mul_pos (hq 2 (by norm_num) (by norm_num)) (hB 2 (by norm_num) (by norm_num)))
      (mul_pos (hq 3 (by norm_num) (by norm_num)) (hB 3 (by norm_num) (by norm_num)))

theorem uProb_pos (hel : ∀ x : α, 0 < x → M.exp (M.log x) = x)
    (hen : ∀ x : α, M.exp (-x) = (M.exp x)⁻¹)
    (hr : ∀ i, 0 ≤ r_c i ∧ r_c i ≤ 1)
    (hQ : ∀ snp, snp < inp.nSnps → ∀ s : Int, 0 ≤ s → s ≤ 3 →
      0 < emis Qsel inp ep_c fam ind snp s)
    (snp : Nat) (hsnp : snp < inp.nSnps) (s : Int) (hs0 : 0 ≤ s) (hs3 : s ≤ 3) :
    0 < uProb M Qsel inp r_c ep_c fam ind snp s := by
  have hw := forward_w_pos Qsel inp r_c ep_c fam ind hr hQ snp hsnp
  rw [uProb_eq M Qsel inp r_c ep_c fam ind hen snp s (hel _ hw)]
  exact mul_pos (mul_pos (alphaTilde_pos Qsel inp r_c ep_c fam ind hr hQ snp hsnp s hs0 hs3)
    (betaTilde_pos M Qsel inp r_c ep_c fam ind hel hr hQ (inp.nSnps - 1 - snp) snp (by omega)
      s hs0 hs3)) hw

theorem vProb_nonneg (hel : ∀ x : α, 0 < x → M.exp (M.log x) = x)
    (hr : ∀ i, 0 ≤ r_c i ∧ r_c i ≤ 1)
    (hQ : ∀ snp, snp < inp.nSnps → ∀ s : Int, 0 ≤ s → s ≤ 3 →
      0 < emis Qsel inp ep_c fam ind snp s)
    (snp : Nat) (hsnp : snp + 1 < inp.nSnps) (s1 s2 : Int)
    (h1 : 0 ≤ s1 ∧ s1 ≤ 3) (h2 : 0 ≤ s2 ∧ s2 ≤ 3) :
    0 ≤ vProb M Qsel inp r_c ep_c fam ind snp s1 s2 := by
  unfold vProb
  exact mul_nonneg (mul_nonneg (mul_nonneg
    (alphaTilde_pos Qsel inp r_c ep_c fam ind hr hQ snp (by omega) s1 h1.1 h1.2).le
    (Tmat_ss_nonneg s1 s2 (hr _) (hr _)))
    (hQ (snp + 1) hsnp s2 h2.1 h2.2).le)
    (betaTilde_pos M Qsel inp r_c ep_c fam ind hel hr hQ (inp.nSnps - 1 - (snp + 1)) (snp + 1)
      (by omega) s2 h2.1 h2.2).le

/-- The sixteen joint posteriors of an interval add up to one. -/
theorem vProb_total
    (hw : ∀ t, t < inp.nSnps → (forward Qsel inp r_c ep_c fam ind t).w ≠ 0)
    (hel : ∀ t, t < inp.nSnps → M.exp (M.log (forward Qsel inp r_c ep_c fam ind t).w) =
      (forward Qsel inp r_c ep_c fam ind t).w)
    (snp : Nat) (hsnp : snp + 1 < inp.nSnps) :
    vProb M Qsel inp r_c ep_c fam ind snp 0 0 + vProb M Qsel inp r_c ep_c fam ind snp 0 1
      + vProb M Qsel inp r_c ep_c fam ind snp 0 2 + vProb M Qsel inp r_c ep_c fam ind snp 0 3
      + vProb M Qsel inp r_c ep_c fam ind snp 1 0 + vProb M Qsel inp r_c ep_c fam ind snp 1 1
      + vProb M Qsel inp r_c ep_c fam ind snp 1 2 + vProb M Qsel inp r_c ep_c fam ind snp 1 3
      + vProb M Qsel inp r_c ep_c fam ind snp 2 0 + vProb M Qsel inp r_c ep_c fam ind snp 2 1
      + vProb M Qsel inp r_c ep_c fam ind snp 2 2 + vProb M Qsel inp r_c ep_c fam ind snp 2 3
      + vProb M Qsel inp r_c ep_c fam ind snp 3 0 + vProb M Qsel inp r_c ep_c fam ind snp 3 1
      + vProb M Qsel inp r_c ep_c fam ind snp 3 2 + vProb M Qsel inp r_c ep_c fam ind snp 3 3
      = 1 := by
  have h := alpha_beta_w_sum M Qsel inp r_c ep_c fam ind hw hel
    (inp.nSnps - 1 - (snp + 1)) (snp + 1) (by omega)
  have hw1 := hw (snp + 1) hsnp
  have e : ∀ s, alphaTilde Qsel inp r_c ep_c fam ind (snp + 1) s
        * betaTilde M Qsel inp r_c ep_c fam ind (snp + 1) s
        * (forward Qsel inp r_c ep_c fam ind (snp + 1)).w =
      alphaDot Qsel inp r_c ep_c fam ind (snp + 1) s
        * betaTilde M Qsel inp r_c ep_c fam ind (snp + 1) s := by
    intro s
    rw [alphaDot_eq_mul Qsel inp r_c ep_c fam ind (snp + 1) s hw1]
    ring
  rw [e 0, e 1, e 2, e 3] at h
  simp only [alphaDot_succ] at h
  simp only [vProb]
  linear_combination h

end Positivity

/-! ## M-step for the recombination fractions -/

section MStepR

variable {α : Type} [LinearOrderedField α]
variable (M : Libm α) (Qsel : Int → α → α → α → Int → α)
variable (inp : EMInput α) (r_c : Nat → α) (ep_c : α)

theorem sumPat_eq (snp : Nat) :
    sumPat M Qsel inp r_c ep_c snp =
      ∑ fam in Finset.range inp.noFam, ∑ ind in Finset.range (inp.nInd fam),
        (vProb M Qsel inp r_c ep_c fam ind snp 0 2 + vProb M Qsel inp r_c ep_c fam ind snp 2 0
          + vProb M Qsel inp r_c ep_c fam ind snp 0 3 + vProb M Qsel inp r_c ep_c fam ind snp 2 1
          + vProb M Qsel inp r_c ep_c fam ind snp 1 2 + vProb M Qsel inp r_c ep_c fam ind snp 3 0
          + vProb M Qsel inp r_c ep_c fam ind snp 1 3
          + vProb M Qsel inp r_c ep_c fam ind snp 3 1) := by
  simp only [sumPat, forLoop, Nat.cast_zero, Nat.cast_one, zero_add, Nat.cast_ofNat, add_assoc,
    forLoop_add_eq_sum]
  norm_num

theorem sumMat_eq (snp : Nat) :
    sumMat M Qsel inp r_c ep_c snp =
      ∑ fam in Finset.range inp.noFam, ∑ ind in Finset.range (inp.nInd fam),
        (vProb M Qsel inp r_c ep_c fam ind snp 0 1 + vProb M Qsel inp r_c ep_c fam ind snp 1 0
          + vProb M Qsel inp r_c ep_c fam ind snp 0 3 + vProb M Qsel inp r_c ep_c fam ind snp 1 2
          + vProb M Qsel inp r_c ep_c fam ind snp 2 1 + vProb M Qsel inp r_c ep_c fam ind snp 3 0
          + vProb M Qsel inp r_c ep_c fam ind snp 2 3
          + vProb M Qsel inp r_c ep_c fam ind snp 3 2) := by
  simp only [sumMat, forLoop, Nat.cast_zero, Nat.cast_one, zero_add, Nat.cast_ofNat, add_assoc,
    forLoop_add_eq_sum]
  norm_num

theorem sumPooled_eq (snp : Nat) :
    sumPooled M Qsel inp r_c ep_c snp =
      ∑ fam in Finset.range inp.noFam, ∑ ind in Finset.range (inp.nInd fam),
        (vProb M Qsel inp r_c ep_c fam ind snp 0 1 + vProb M Qsel inp r_c ep_c fam ind snp 0 2
          + vProb M Qsel inp r_c ep_c fam ind snp 0 3 * 2
          + vProb M Qsel inp r_c ep_c fam ind snp 1 0
          + vProb M Qsel inp r_c ep_c fam ind snp 1 2 * 2
          + vProb M Qsel inp r_c ep_c fam ind snp 1 3
          + vProb M Qsel inp r_c ep_c fam ind snp 2 0
          + vProb M Qsel inp r_c ep_c fam ind snp 2 1 * 2
          + vProb M Qsel inp r_c ep_c fam ind snp 2 3
          + vProb M Qsel inp r_c ep_c fam ind snp 3 0 * 2
          + vProb M Qsel inp r_c ep_c fam ind snp 3 1
          + vProb M Qsel inp r_c ep_c fam ind snp 3 2) := by
  simp only [sumPooled, forLoop, Nat.cast_zero, Nat.cast_one, zero_add, Nat.cast_ofNat,
    add_assoc, forLoop_add_eq_sum]
  norm_num [Tcount]

/-- A double sum over families and individuals of terms in `[0, c]` lies in
`[0, c * nTotal]`. -/
theorem famSum_bounds (g : Nat → Nat → α) (c : α)
    (hg : ∀ fam ind, fam < inp.noFam → ind < inp.nInd fam → 0 ≤ g fam ind ∧ g fam ind ≤ c) :
    0 ≤ ∑ fam in Finset.range inp.noFam, ∑ ind in Finset.range (inp.nInd fam), g fam ind ∧
    ∑ fam in Finset.range inp.noFam, ∑ ind in Finset.range (inp.nInd fam), g fam ind
      ≤ c * (nTotal inp : α) := by
  constructor
  · exact Finset.sum_nonneg (fun fam hfam => Finset.sum_nonneg (fun ind hind =>
      (hg fam ind (Finset.mem_range.mp hfam) (Finset.mem_range.mp hind)).1))
  · have h1 : ∑ fam in Finset.range inp.noFam, ∑ ind in Finset.range (inp.nInd fam), g fam ind
        ≤ ∑ fam in Finset.range inp.noFam, ∑ _ind in Finset.range (inp.nInd fam), c :=
      Finset.sum_le_sum (fun fam hfam => Finset.sum_le_sum (fun ind hind =>
        (hg fam ind (Finset.mem_range.mp hfam) (Finset.mem_range.mp hind)).2))
    have h2 : ∑ fam in Finset.range inp.noFam, ∑ _ind in Finset.range (inp.nInd fam), c
        = c * (nTotal inp : α) := by
      simp only [Finset.sum_const, Finset.card_range, nsmul_eq_mul]
      rw [← Finset.sum_mul, mul_comm]
      congr 1
      unfold nTotal
      rw [nTotalUpTo_eq_sum, Nat.cast_sum]
    exact h1.trans h2.le

theorem scaled_mean_bounds {N S c : α} (hN : 1 ≤ N) (hc : 0 < c) (h0 : 0 ≤ S)
    (h1 : S ≤ c * N) : 0 ≤ 1 / (c * N) * S ∧ 1 / (c * N) * S ≤ 1 := by
  have hpos : 0 < c * N := mul_pos hc (lt_of_lt_of_le one_pos hN)
  constructor
  · exact mul_nonneg (div_nonneg zero_le_one hpos.le) h0
  · rw [one_div, inv_mul_le_iff₀ hpos, mul_one]
    exact h1

variable (hel : ∀ x : α, 0 < x → M.exp (M.log x) = x)
variable (hr : ∀ i, 0 ≤ r_c i ∧ r_c i ≤ 1) (hE : EmisPos Qsel inp ep_c)

include hel hr hE

theorem vProb_nonneg_valid (fam ind snp : Nat) (hfam : fam < inp.noFam)
    (hind : ind < inp.nInd fam) (hsnp : snp + 1 < inp.nSnps) (s1 s2 : Int)
    (h1 : 0 ≤ s1 ∧ s1 ≤ 3) (h2 : 0 ≤ s2 ∧ s2 ≤ 3) :
    0 ≤ vProb M Qsel inp r_c ep_c fam ind snp s1 s2 :=
  vProb_nonneg M Qsel inp r_c ep_c fam ind hel hr
    (fun t ht s hs0 hs3 => hE fam ind t s hfam hind ht hs0 hs3) snp hsnp s1 s2 h1 h2

theorem vProb_total_valid (fam ind snp : Nat) (hfam : fam < inp.noFam)
    (hind : ind < inp.nInd fam) (hsnp : snp + 1 < inp.nSnps) :
    vProb M Qsel inp r_c ep_c fam ind snp 0 0 + vProb M Qsel inp r_c ep_c fam ind snp 0 1
      + vProb M Qsel inp r_c ep_c fam ind snp 0 2 + vProb M Qsel inp r_c ep_c fam ind snp 0 3
      + vProb M Qsel inp r_c ep_c fam ind snp 1 0 + vProb M Qsel inp r_c ep_c fam ind snp 1 1
      + vProb M Qsel inp r_c ep_c fam ind snp 1 2 + vProb M Qsel inp r_c ep_c fam ind snp 1 3
      + vProb M Qsel inp r_c ep_c fam ind snp 2 0 + vProb M Qsel inp r_c ep_c fam ind snp 2 1
      + vProb M Qsel inp r_c ep_c fam ind snp 2 2 + vProb M Qsel inp r_c ep_c fam ind snp 2 3
      + vProb M Qsel inp r_c ep_c fam ind snp 3 0 + vProb M Qsel inp r_c ep_c fam ind snp 3 1
      + vProb M Qsel inp r_c ep_c fam ind snp 3 2 + vProb M Qsel inp r_c ep_c fam ind snp 3 3
      = 1 := by
  have hQ : ∀ t, t < inp.nSnps → ∀ s : Int, 0 ≤ s → s ≤ 3 →
      0 < emis Qsel inp ep_c fam ind t s :=
    fun t ht s hs0 hs3 => hE fam ind t s hfam hind ht hs0 hs3
  have hw := forward_w_pos Qsel inp r_c ep_c fam ind hr hQ
  exact vProb_total M Qsel inp r_c ep_c fam ind (fun t ht => (hw t ht).ne.symm)
    (fun t ht => hel _ (hw t ht)) snp hsnp

theorem sumPat_bounds (snp : Nat) (hsnp : snp + 1 < inp.nSnps) :
    0 ≤ sumPat M Qsel inp r_c ep_c snp ∧
      sumPat M Qsel inp r_c ep_c snp ≤ 1 * (nTotal inp : α) := by
  rw [sumPat_eq]
  refine famSum_bounds inp _ 1 (fun fam ind hfam hind => ?_)
  have hv := vProb_nonneg_valid M Qsel inp r_c ep_c hel hr hE fam ind snp hfam hind hsnp
  have ht := vProb_total_valid M Qsel inp r_c ep_c hel hr hE fam ind snp hfam hind hsnp
  have v00 := hv 0 0 (by norm_num) (by norm_num)
  have v01 := hv 0 1 (by norm_num) (by norm_num)
  have v02 := hv 0 2 (by norm_num) (by norm_num)
  have v03 := hv 0 3 (by norm_num) (by norm_num)
  have v10 := hv 1 0 (by norm_num) (by norm_num)
  have v11 := hv 1 1 (by norm_num) (by norm_num)
  have v12 := hv 1 2 (by norm_num) (by norm_num)
  have v13 := hv 1 3 (by norm_num) (by norm_num)
  have v20 := hv 2 0 (by norm_num) (by norm_num)
  have v21 := hv 2 1 (by norm_num) (by norm_num)
  have v22 := hv 2 2 (by norm_num) (by norm_num)
  have v23 := hv 2 3 (by norm_num) (by norm_num)
  have v30 := hv 3 0 (by norm_num) (by norm_num)
  have v31 := hv 3 1 (by norm_num) (by norm_num)
  have v32 := hv 3 2 (by norm_num) (by norm_num)
  have v33 := hv 3 3 (by norm_num) (by norm_num)
  constructor <;> linarith

theorem sumMat_bounds (snp : Nat) (hsnp : snp + 1 < inp.nSnps) :
    0 ≤ sumMat M Qsel inp r_c ep_c snp ∧
      sumMat M Qsel inp r_c ep_c snp ≤ 1 * (nTotal inp : α) := by
  rw [sumMat_eq]
  refine famSum_bounds inp _ 1 (fun fam ind hfam hind => ?_)
  have hv := vProb_nonneg_valid M Qsel inp r_c ep_c hel hr hE fam ind snp hfam hind hsnp
  have ht := vProb_total_valid M Qsel inp r_c ep_c hel hr hE fam ind snp hfam hind hsnp
  have v00 := hv 0 0 (by norm_num) (by norm_num)
  have v01 := hv 0 1 (by norm_num) (by norm_num)
  have v02 := hv 0 2 (by norm_num) (by norm_num)
  have v03 := hv 0 3 (by norm_num) (by norm_num)
  have v10 := hv 1 0 (by norm_num) (by norm_num)
  have v11 := hv 1 1 (by norm_num) (by norm_num)
  have v12 := hv 1 2 (by norm_num) (by norm_num)
  have v13 := hv 1 3 (by norm_num) (by norm_num)
  have v20 := hv 2 0 (by norm_num) (by norm_num)
  have v21 := hv 2 1 (by norm_num) (by norm_num)
  have v22 := hv 2 2 (by norm_num) (by norm_num)
  have v23 := hv 2 3 (by norm_num) (by norm_num)
  have v30 := hv 3 0 (by norm_num) (by norm_num)
  have v31 := hv 3 1 (by norm_num) (by norm_num)
  have v32 := hv 3 2 (by norm_num) (by norm_num)
  have v33 := hv 3 3 (by norm_num) (by norm_num)
  constructor <;> linarith

theorem sumPooled_bounds (snp : Nat) (hsnp : snp + 1 < inp.nSnps) :
    0 ≤ sumPooled M Qsel inp r_c ep_c snp ∧
      sumPooled M Qsel inp r_c ep_c snp ≤ 2 * (nTotal inp : α) := by
  rw [sumPooled_eq]
  refine famSum_bounds inp _ 2 (fun fam ind hfam hind => ?_)
  have hv := vProb_nonneg_valid M Qsel inp r_c ep_c hel hr hE fam ind snp hfam hind hsnp
  have ht := vProb_total_valid M Qsel inp r_c ep_c hel hr hE fam ind snp hfam hind hsnp
  have v00 := hv 0 0 (by norm_num) (by norm_num)
  have v01 := hv 0 1 (by norm_num) (by norm_num)
  have v02 := hv 0 2 (by norm_num) (by norm_num)
  have v03 := hv 0 3 (by norm_num) (by norm_num)
  have v10 := hv 1 0 (by norm_num) (by norm_num)
  have v11 := hv 1 1 (by norm_num) (by norm_num)
  have v12 := hv 1 2 (by norm_num) (by norm_num)
  have v13 := hv 1 3 (by norm_num) (by norm_num)
  have v20 := hv 2 0 (by norm_num) (by norm_num)
  have v21 := hv 2 1 (by norm_num) (by norm_num)
  have v22 := hv 2 2 (by norm_num) (by norm_num)
  have v23 := hv 2 3 (by norm_num) (by norm_num)
  have v30 := hv 3 0 (by norm_num) (by norm_num)
  have v31 := hv 3 1 (by norm_num) (by norm_num)
  have v32 := hv 3 2 (by norm_num) (by norm_num)
  have v33 := hv 3 3 (by norm_num) (by norm_num)
  constructor <;> linarith

/-- Every entry of the vector produced by the M-step lies in `[0,1]`. -/
theorem mstep_r_bounds (sexSpec : Bool) (hN : 1 ≤ nTotal inp) :
    ∀ i, 0 ≤ mstep_r M Qsel sexSpec inp r_c ep_c i ∧ mstep_r M Qsel sexSpec inp r_c ep_c i ≤ 1 := by
  have hNα : (1 : α) ≤ (nTotal inp : α) := by exact_mod_cast hN
  have upd : ∀ (buf : Nat → α) (j : Nat) (v : α), (∀ i, 0 ≤ buf i ∧ buf i ≤ 1) →
      0 ≤ v ∧ v ≤ 1 → ∀ i, 0 ≤ Function.update buf j v i ∧ Function.update buf j v i ≤ 1 := by
    intro buf j v hb hv i
    by_cases hij : i = j
    · subst hij
      simpa using hv
    · rw [Function.update_noteq hij]
      exact hb i
  have updIf : ∀ (c : Prop) [Decidable c] (buf : Nat → α) (j : Nat) (v : α),
      (∀ i, 0 ≤ buf i ∧ buf i ≤ 1) → 0 ≤ v ∧ v ≤ 1 →
      ∀ i, 0 ≤ (if c then Function.update buf j v else buf) i ∧
        (if c then Function.update buf j v else buf) i ≤ 1 := by
    intro c _ buf j v hb hv
    split_ifs
    · exact upd buf j v hb hv
    · exact hb
  unfold mstep_r
  cases sexSpec
  · simp only [Bool.false_eq_true, if_false]
    refine forLoop_inv (fun _ (buf : Nat → α) => ∀ i, 0 ≤ buf i ∧ buf i ≤ 1) _ _ _ hr ?_
    intro snp buf hsnp hb
    have hs := sumPooled_bounds M Qsel inp r_c ep_c hel hr hE snp (by omega)
    have e1 : (1.0 : α) = 1 := by norm_num
    have e2 : (2.0 : α) = 2 := by norm_num
    have hv : 0 ≤ 1.0 / (2.0 * (nTotal inp : α)) * sumPooled M Qsel inp r_c ep_c snp ∧
        1.0 / (2.0 * (nTotal inp : α)) * sumPooled M Qsel inp r_c ep_c snp ≤ 1 := by
      rw [e1, e2]
      exact scaled_mean_bounds hNα (by norm_num : (0 : α) < 2) hs.1 hs.2
    exact upd _ _ _ (upd _ _ _ hb hv) hv
  · simp only [if_true]
    refine forLoop_inv (fun _ (buf : Nat → α) => ∀ i, 0 ≤ buf i ∧ buf i ≤ 1) _ _ _ hr ?_
    intro snp buf hsnp hb
    have hp := sumPat_bounds M Qsel inp r_c ep_c hel hr hE snp (by omega)
    have hm := sumMat_bounds M Qsel inp r_c ep_c hel hr hE snp (by omega)
    have e1 : (1.0 : α) = 1 := by norm_num
    have hvp : 0 ≤ 1.0 / (nTotal inp : α) * sumPat M Qsel inp r_c ep_c snp ∧
        1.0 / (nTotal inp : α) * sumPat M Qsel inp r_c ep_c snp ≤ 1 := by
      have := scaled_mean_bounds hNα (by norm_num : (0 : α) < 1) hp.1 hp.2
      rw [one_mul] at this
      rw [e1]
      exact this
    have hvm : 0 ≤ 1.0 / (nTotal inp : α) * sumMat M Qsel inp r_c ep_c snp ∧
        1.0 / (nTotal inp : α) * sumMat M Qsel inp r_c ep_c snp ≤ 1 := by
      have := scaled_mean_bounds hNα (by norm_num : (0 : α) < 1) hm.1 hm.2
      rw [one_mul] at this
      rw [e1]
      exact this
    exact updIf _ _ _ _ (updIf _ _ _ _ hb hvp) hvm

end MStepR

/-! ## M-step for the error rate -/

section MStepEp

variable {α : Type} [LinearOrderedField α]
variable (M : Libm α) (Qsel : Int → α → α → α → Int → α) (Isel : Int → Int → Int)
variable (inp : EMInput α) (r_c : Nat → α) (ep_c : α)

theorem sumAB_eq :
    sumAB M Qsel Isel inp r_c ep_c =
      (∑ snp in Finset.range inp.nSnps, ∑ fam in Finset.range inp.noFam,
          ∑ ind in Finset.range (inp.nInd fam), ∑ s in Finset.range 4,
            uProb M Qsel inp r_c ep_c fam ind snp (s : Int)
              * ((mism Isel inp fam ind snp (s : Int) : Int) : α),
        ∑ snp in Finset.range inp.nSnps, ∑ fam in Finset.range inp.noFam,
          ∑ ind in Finset.range (inp.nInd fam), ∑ s in Finset.range 4,
            uProb M Qsel inp r_c ep_c fam ind snp (s : Int)
              * ((mtch Isel inp fam ind snp (s : Int) : Int) : α)) := by
  simp only [sumAB, forLoop_pair_eq_sum, zero_add, mism, mtch, Int.cast_add, Int.cast_mul]

theorem Iaa_Ibb_nonneg (fam snp : Nat) (s : Int) :
    0 ≤ Iaa Isel inp fam snp s ∧ 0 ≤ Ibb Isel inp fam snp s := by
  unfold Iaa Ibb
  constructor <;> split_ifs <;> decide

theorem mism_mtch_nonneg {hi : Int} (hV : ValidData hi inp) (fam ind snp : Nat) (s : Int)
    (hfam : fam < inp.noFam) (hind : ind < inp.nInd fam) (hsnp : snp < inp.nSnps) :
    0 ≤ mism Isel inp fam ind snp s ∧ 0 ≤ mtch Isel inp fam ind snp s := by
  obtain ⟨_, hdepth⟩ := hV
  obtain ⟨ha, hb⟩ := hdepth _ (depth_index_lt inp fam ind snp hfam hind hsnp)
  obtain ⟨hi1, hi2⟩ := Iaa_Ibb_nonneg Isel inp fam snp s
  unfold mism mtch
  exact ⟨add_nonneg (mul_nonneg hb hi1) (mul_nonneg ha hi2),
    add_nonneg (mul_nonneg ha hi1) (mul_nonneg hb hi2)⟩

/-- A four-fold sum, over markers, families, individuals and states, of
products `u * c` with `u > 0` and `c ≥ 0` is non-negative, and it vanishes only
when every `c` does. -/
theorem cellSum_zero (u : Nat → Nat → Nat → Int → α) (c : Nat → Nat → Nat → Int → Int)
    (hu : ∀ fam ind snp (s : Int), fam < inp.noFam → ind < inp.nInd fam → snp < inp.nSnps →
      0 ≤ s → s ≤ 3 → 0 < u fam ind snp s)
    (hc : ∀ fam ind snp (s : Int), fam < inp.noFam → ind < inp.nInd fam → snp < inp.nSnps →
      0 ≤ c fam ind snp s) :
    0 ≤ ∑ snp in Finset.range inp.nSnps, ∑ fam in Finset.range inp.noFam,
        ∑ ind in Finset.range (inp.nInd fam), ∑ s in Finset.range 4,
          u fam ind snp (s : Int) * ((c fam ind snp (s : Int) : Int) : α) ∧
    ((∑ snp in Finset.range inp.nSnps, ∑ fam in Finset.range inp.noFam,
        ∑ ind in Finset.range (inp.nInd fam), ∑ s in Finset.range 4,
          u fam ind snp (s : Int) * ((c fam ind snp (s : Int) : Int) : α)) = 0 →
      ∀ fam ind snp (s : Int), fam < inp.noFam → ind < inp.nInd fam → snp < inp.nSnps →
        0 ≤ s → s ≤ 3 → c fam ind snp s = 0) := by
  have hterm : ∀ snp ∈ Finset.range inp.nSnps, ∀ fam ∈ Finset.range inp.noFam,
      ∀ ind ∈ Finset.range (inp.nInd fam), ∀ s ∈ Finset.range 4,
      0 ≤ u fam ind snp (s : Int) * ((c fam ind snp (s : Int) : Int) : α) := by
    intro snp hsnp fam hfam ind hind s hs
    rw [Finset.mem_range] at hsnp hfam hind hs
    exact mul_nonneg (hu fam ind snp s hfam hind hsnp (by omega) (by omega)).le
      (by exact_mod_cast hc fam ind snp s hfam hind hsnp)
  have h3 : ∀ snp ∈ Finset.range inp.nSnps, ∀ fam ∈ Finset.range inp.noFam,
      ∀ ind ∈ Finset.range (inp.nInd fam),
      0 ≤ ∑ s in Finset.range 4,
        u fam ind snp (s : Int) * ((c fam ind snp (s : Int) : Int) : α) :=
    fun snp hsnp fam hfam ind hind => Finset.sum_nonneg (hterm snp hsnp fam hfam ind hind)
  have h2 : ∀ snp ∈ Finset.range inp.nSnps, ∀ fam ∈ Finset.range inp.noFam,
      0 ≤ ∑ ind in Finset.range (inp.nInd fam), ∑ s in Finset.range 4,
        u fam ind snp (s : Int) * ((c fam ind snp (s : Int) : Int) : α) :=
    fun snp hsnp fam hfam => Finset.sum_nonneg (h3 snp hsnp fam hfam)
  have h1 : ∀ snp ∈ Finset.range inp.nSnps,
      0 ≤ ∑ fam in Finset.range inp.noFam, ∑ ind in Finset.range (inp.nInd fam),
        ∑ s in Finset.range 4,
          u fam ind snp (s : Int) * ((c fam ind snp (s : Int) : Int) : α) :=
    fun snp hsnp => Finset.sum_nonneg (h2 snp hsnp)
  refine ⟨Finset.sum_nonneg h1, ?_⟩
  intro hzero fam ind snp s hfam hind hsnp hs0 hs3
  have z1 := (Finset.sum_eq_zero_iff_of_nonneg h1).mp hzero snp (Finset.mem_range.mpr hsnp)
  have z2 := (Finset.sum_eq_zero_iff_of_nonneg (h2 snp (Finset.mem_range.mpr hsnp))).mp z1
    fam (Finset.mem_range.mpr hfam)
  have z3 := (Finset.sum_eq_zero_iff_of_nonneg
    (h3 snp (Finset.mem_range.mpr hsnp) fam (Finset.mem_range.mpr hfam))).mp z2
    ind (Finset.mem_range.mpr hind)
  have hsn : s.toNat ∈ Finset.range 4 := by
    rw [Finset.mem_range]
    omega
  have z4 := (Finset.sum_eq_zero_iff_of_nonneg
    (hterm snp (Finset.mem_range.mpr hsnp) fam (Finset.mem_range.mpr hfam)
      ind (Finset.mem_range.mpr hind))).mp z3 s.toNat hsn
  have hcast : ((s.toNat : Nat) : Int) = s := Int.toNat_of_nonneg hs0
  rw [hcast] at z4
  rcases mul_eq_zero.mp z4 with h | h
  · exact absurd h (hu fam ind snp s hfam hind hsnp hs0 hs3).ne.symm
  · exact_mod_cast h

/-- The error-rate M-step keeps the error rate admissible. -/
theorem epOK_step {hi : Int} (hV : ValidData hi inp) (hT : TableOK Qsel Isel hi)
    (hel : ∀ x : α, 0 < x → M.exp (M.log x) = x) (hen : ∀ x : α, M.exp (-x) = (M.exp x)⁻¹)
    (hr : ∀ i, 0 ≤ r_c i ∧ r_c i ≤ 1) (hE : EpOK Isel inp ep_c) :
    EpOK Isel inp (mstep_ep M Qsel Isel inp r_c ep_c) := by
  unfold mstep_ep
  split_ifs with hseq
  · have hPos := emisPos_of_epOK Qsel Isel inp ep_c hV hT hE
    have hu : ∀ fam ind snp (s : Int), fam < inp.noFam → ind < inp.nInd fam →
        snp < inp.nSnps → 0 ≤ s → s ≤ 3 → 0 < uProb M Qsel inp r_c ep_c fam ind snp s :=
      fun fam ind snp s hfam hind hsnp hs0 hs3 =>
        uProb_pos M Qsel inp r_c ep_c fam ind hel hen hr
          (fun t ht q hq0 hq3 => hPos fam ind t q hfam hind ht hq0 hq3) snp hsnp s hs0 hs3
    obtain ⟨hA0, hAz⟩ := cellSum_zero inp (fun fam ind snp s => uProb M Qsel inp r_c ep_c fam ind snp s)
      (fun fam ind snp s => mism Isel inp fam ind snp s) hu
      (fun fam ind snp s hfam hind hsnp =>
        (mism_mtch_nonneg Isel inp hV fam ind snp s hfam hind hsnp).1)
    obtain ⟨hB0, hBz⟩ := cellSum_zero inp (fun fam ind snp s => uProb M Qsel inp r_c ep_c fam ind snp s)
      (fun fam ind snp s => mtch Isel inp fam ind snp s) hu
      (fun fam ind snp s hfam hind hsnp =>
        (mism_mtch_nonneg Isel inp hV fam ind snp s hfam hind hsnp).2)
    rw [sumAB_eq]
    dsimp only at hA0 hAz hB0 hBz ⊢
    set A := ∑ snp in Finset.range inp.nSnps, ∑ fam in Finset.range inp.noFam,
          ∑ ind in Finset.range (inp.nInd fam), ∑ s in Finset.range 4,
            uProb M Qsel inp r_c ep_c fam ind snp (s : Int)
              * ((mism Isel inp fam ind snp (s : Int) : Int) : α) with hAdef
    set B := ∑ snp in Finset.range inp.nSnps, ∑ fam in Finset.range inp.noFam,
          ∑ ind in Finset.range (inp.nInd fam), ∑ s in Finset.range 4,
            uProb M Qsel inp r_c ep_c fam ind snp (s : Int)
              * ((mtch Isel inp fam ind snp (s : Int) : Int) : α) with hBdef
    refine ⟨div_nonneg hA0 (add_nonneg hA0 hB0), ?_, ?_⟩
    · rcases eq_or_lt_of_le (add_nonneg hA0 hB0) with hz | hpos
      · rw [← hz, div_zero]
        exact zero_le_one
      · rw [div_le_one hpos]
        linarith
    · intro fam ind snp s hfam hind hsnp hs0 hs3
      constructor
      · intro h0
        have hAzero : A = 0 := by
          rcases div_eq_zero_iff.mp h0 with h | h
          · exact h
          · linarith
        exact hAz hAzero fam ind snp s hfam hind hsnp hs0 hs3
      · intro h1
        have hne : A + B ≠ 0 := by
          intro hz
          rw [hz, div_zero] at h1
          exact zero_ne_one h1
        have hBzero : B = 0 := by
          have := (div_eq_one_iff_eq hne).mp h1
          linarith
        exact hBz hBzero fam ind snp s hfam hind hsnp hs0 hs3
  · exact hE

end MStepEp

/-! ## Invariant of the EM loop -/

section LoopInvariant

variable {α : Type} [LinearOrderedField α]
variable (M : Libm α) (Qsel : Int → α → α → α → Int → α) (Isel : Int → Int → Int)
variable (inp : EMInput α)

theorem update_unit (buf : Nat → α) (j : Nat) (v : α) (hb : ∀ i, 0 ≤ buf i ∧ buf i ≤ 1)
    (hv : 0 ≤ v ∧ v ≤ 1) : ∀ i, 0 ≤ Function.update buf j v i ∧ Function.update buf j v i ≤ 1 := by
  intro i
  by_cases hij : i = j
  · subst hij
    simpa using hv
  · rw [Function.update_noteq hij]
    exact hb i

theorem copy_r_bounds (nSnps : Nat) (r : Nat → α)
    (hr : ∀ i, i < 2 * (nSnps - 1) → 0 ≤ r i ∧ r i ≤ 1) :
    ∀ i, 0 ≤ copy_r nSnps r i ∧ copy_r nSnps r i ≤ 1 := by
  unfold copy_r
  refine forLoop_inv (fun _ (buf : Nat → α) => ∀ i, 0 ≤ buf i ∧ buf i ≤ 1) _ _ _
    (fun _ => ⟨le_refl _, zero_le_one⟩) ?_
  intro snp buf hsnp hb
  refine forLoop_inv (fun _ (buf : Nat → α) => ∀ i, 0 ≤ buf i ∧ buf i ≤ 1) _ _ _ hb ?_
  intro parent buf2 hparent hb2
  refine update_unit _ _ _ hb2 (hr _ ?_)
  have h1 : parent * (nSnps - 1) ≤ 1 * (nSnps - 1) := Nat.mul_le_mul_right _ (by omega)
  omega

theorem mask_r_bounds (nSnps : Nat) (ss_rf : Nat → Int) (r_c : Nat → α)
    (hr : ∀ i, 0 ≤ r_c i ∧ r_c i ≤ 1) :
    ∀ i, 0 ≤ mask_r nSnps ss_rf r_c i ∧ mask_r nSnps ss_rf r_c i ≤ 1 := by
  unfold mask_r
  refine forLoop_inv (fun _ (buf : Nat → α) => ∀ i, 0 ≤ buf i ∧ buf i ≤ 1) _ _ _ hr ?_
  intro snp buf hsnp hb
  have z : (0 : α) ≤ 0 ∧ (0 : α) ≤ 1 := ⟨le_refl _, zero_le_one⟩
  split_ifs
  · exact update_unit _ _ _ (update_unit _ _ _ hb z) z
  · exact update_unit _ _ _ hb z
  · exact update_unit _ _ _ hb z
  · exact hb

/-- The loop variables stay admissible: every entry of `r_c` lies in `[0,1]`
and the error rate keeps every emission positive. -/
theorem emBody_iterate_good {hi : Int} (hV : ValidData hi inp) (hT : TableOK Qsel Isel hi)
    (hel : ∀ x : α, 0 < x → M.exp (M.log x) = x) (hen : ∀ x : α, M.exp (-x) = (M.exp x)⁻¹)
    (hN : 1 ≤ nTotal inp) (sexSpec : Bool) (st : EMState α)
    (hr : ∀ i, 0 ≤ st.r_c i ∧ st.r_c i ≤ 1) (hE : EpOK Isel inp st.ep_c) (j : Nat) :
    (∀ i, 0 ≤ ((emBody M Qsel Isel sexSpec inp)^[j] st).r_c i ∧
      ((emBody M Qsel Isel sexSpec inp)^[j] st).r_c i ≤ 1) ∧
    EpOK Isel inp ((emBody M Qsel Isel sexSpec inp)^[j] st).ep_c := by
  induction j with
  | zero => exact ⟨hr, hE⟩
  | succ n ih =>
    obtain ⟨ihr, ihE⟩ := ih
    rw [Function.iterate_succ_apply']
    exact ⟨mstep_r_bounds M Qsel inp _ _ hel ihr (emisPos_of_epOK Qsel Isel inp _ hV hT ihE)
        sexSpec hN,
      epOK_step M Qsel Isel inp _ _ hV hT hel hen ihr ihE⟩

theorem emInit_bounds (masked : Bool)
    (hr : ∀ i, i < 2 * (inp.nSnps - 1) → 0 ≤ inp.r i ∧ inp.r i ≤ 1) :
    ∀ i, 0 ≤ (emInit masked inp).r_c i ∧ (emInit masked inp).r_c i ≤ 1 := by
  unfold emInit
  cases masked
  · exact copy_r_bounds inp.nSnps inp.r hr
  · exact mask_r_bounds inp.nSnps inp.ss_rf _ (copy_r_bounds inp.nSnps inp.r hr)

theorem validData_mono {lo hi : Int} (h : lo ≤ hi) (hV : ValidData lo inp) : ValidData hi inp :=
  ⟨fun i hi2 => ⟨(hV.1 i hi2).1, le_trans (hV.1 i hi2).2 h⟩, hV.2⟩

theorem tableOK_mono {Qs : Int → α → α → α → Int → α} {Is : Int → Int → Int} {lo hi : Int}
    (h : lo ≤ hi) (hT : TableOK Qs Is hi) : TableOK Qs Is lo :=
  fun code state Kaa Kab Kbb hc1 hc2 hs1 hs2 =>
    hT code state Kaa Kab Kbb hc1 (le_trans hc2 h) hs1 hs2

theorem demoInput_valid : ValidData 5 (demoInput α) := by
  refine ⟨fun i _ => ?_, fun i _ => ?_⟩
  · simp only [demoInput]
    split_ifs <;> decide
  · simp only [demoInput]
    constructor <;> split_ifs <;> decide

theorem demoInput_emisPos (Qsel : Int → α → α → α → Int → α) (Isel : Int → Int → Int)
    (hT : TableOK Qsel Isel 5) : EmisPos Qsel (demoInput α) (1 / 10) :=
  emisPos_of_epOK Qsel Isel (demoInput α) (1 / 10) demoInput_valid hT
    (epOK_of_interior Isel (demoInput α) (1 / 10) (by norm_num) (by norm_num))

end LoopInvariant

/-! ## The E-step and M-step claims -/

section EMTheorems

variable {α : Type} [LinearOrderedField α]

/-- C2: in the forward pass of `EM_HMM` and of `EM_HMM_UP`, for every
individual `(fam, ind)`, every current parameter pair and every marker `snp`
whose weight (the sum of the four unscaled forward values) is non-zero, the
four scaled forward values `alphaTilde[0..3]` at that marker sum to `1`. -/
theorem forward_scaled_sums_to_one (inp : EMInput α) (r_c : Nat → α) (ep_c : α)
    (fam ind snp : Nat) :
    ((forward Qentry inp r_c ep_c fam ind snp).w ≠ 0 →
      alphaTilde Qentry inp r_c ep_c fam ind snp 0 + alphaTilde Qentry inp r_c ep_c fam ind snp 1
        + alphaTilde Qentry inp r_c ep_c fam ind snp 2
        + alphaTilde Qentry inp r_c ep_c fam ind snp 3 = 1) ∧
    ((forward Qentry_up inp r_c ep_c fam ind snp).w ≠ 0 →
      alphaTilde Qentry_up inp r_c ep_c fam ind snp 0
        + alphaTilde Qentry_up inp r_c ep_c fam ind snp 1
        + alphaTilde Qentry_up inp r_c ep_c fam ind snp 2
        + alphaTilde Qentry_up inp r_c ep_c fam ind snp 3 = 1) :=
  ⟨alphaTilde_sum Qentry inp r_c ep_c fam ind snp,
    alphaTilde_sum Qentry_up inp r_c ep_c fam ind snp⟩

theorem forward_scaled_sums_to_one_witness :
    ((forward Qentry (demoInput ℚ) (fun _ => 1 / 4) (1 / 10) 0 1 2).w ≠ 0 ∧
      alphaTilde Qentry (demoInput ℚ) (fun _ => 1 / 4) (1 / 10) 0 1 2 0
        + alphaTilde Qentry (demoInput ℚ) (fun _ => 1 / 4) (1 / 10) 0 1 2 1
        + alphaTilde Qentry (demoInput ℚ) (fun _ => 1 / 4) (1 / 10) 0 1 2 2
        + alphaTilde Qentry (demoInput ℚ) (fun _ => 1 / 4) (1 / 10) 0 1 2 3 = 1) ∧
    ((forward Qentry_up (demoInput ℚ) (fun _ => 1 / 4) (1 / 10) 0 1 2).w ≠ 0 ∧
      alphaTilde Qentry_up (demoInput ℚ) (fun _ => 1 / 4) (1 / 10) 0 1 2 0
        + alphaTilde Qentry_up (demoInput ℚ) (fun _ => 1 / 4) (1 / 10) 0 1 2 1
        + alphaTilde Qentry_up (demoInput ℚ) (fun _ => 1 / 4) (1 / 10) 0 1 2 2
        + alphaTilde Qentry_up (demoInput ℚ) (fun _ => 1 / 4) (1 / 10) 0 1 2 3 = 1) := by
  have hr : ∀ i : Nat, (0 : ℚ) ≤ (fun _ => 1 / 4 : Nat → ℚ) i ∧ (fun _ => 1 / 4 : Nat → ℚ) i ≤ 1 :=
    fun _ => by norm_num
  have h1 : (forward Qentry (demoInput ℚ) (fun _ => 1 / 4) (1 / 10) 0 1 2).w ≠ 0 :=
    (forward_w_pos Qentry (demoInput ℚ) _ _ 0 1 hr
      (fun t ht s hs0 hs3 =>
        demoInput_emisPos Qentry Iindx (tableOK_mono (by decide) tableOK_known) 0 1 t s (by decide) (by decide)
          ht hs0 hs3) 2 (by decide)).ne.symm
  have h2 : (forward Qentry_up (demoInput ℚ) (fun _ => 1 / 4) (1 / 10) 0 1 2).w ≠ 0 :=
    (forward_w_pos Qentry_up (demoInput ℚ) _ _ 0 1 hr
      (fun t ht s hs0 hs3 =>
        demoInput_emisPos Qentry_up Iindx_up tableOK_unknown 0 1 t s (by decide) (by decide)
          ht hs0 hs3) 2 (by decide)).ne.symm
  exact ⟨⟨h1, (forward_scaled_sums_to_one (demoInput ℚ) (fun _ => 1 / 4) (1 / 10) 0 1 2).1 h1⟩,
    ⟨h2, (forward_scaled_sums_to_one (demoInput ℚ) (fun _ => 1 / 4) (1 / 10) 0 1 2).2 h2⟩⟩

/-- C3: after the forward and backward passes of one E-step of `EM_HMM` (exact
arithmetic: `exp (log x) = x` for `x > 0` and `exp (-x) = 1 / exp x`), if every
forward weight of the individual is strictly positive, then at every marker
`snp < nSnps` the state-occupation posterior is
`uProb[s] = alphaTilde[s] * betaTilde[s] * weight` and
`uProb[0] + uProb[1] + uProb[2] + uProb[3] = 1` (this needs no more than
`nSnps ≥ 1`, in particular it holds for `L ≥ 2`). -/
theorem occupation_posterior_sums_to_one (M : Libm α)
    (hel : ∀ x : α, 0 < x → M.exp (M.log x) = x) (hen : ∀ x : α, M.exp (-x) = (M.exp x)⁻¹)
    (inp : EMInput α) (r_c : Nat → α) (ep_c : α) (fam ind : Nat)
    (hw : ∀ t, t < inp.nSnps → 0 < (forward Qentry inp r_c ep_c fam ind t).w)
    (snp : Nat) (hsnp : snp < inp.nSnps) :
    (∀ s : Int, uProb M Qentry inp r_c ep_c fam ind snp s =
      alphaTilde Qentry inp r_c ep_c fam ind snp s * betaTilde M Qentry inp r_c ep_c fam ind snp s
        * (forward Qentry inp r_c ep_c fam ind snp).w) ∧
    uProb M Qentry inp r_c ep_c fam ind snp 0 + uProb M Qentry inp r_c ep_c fam ind snp 1
      + uProb M Qentry inp r_c ep_c fam ind snp 2
      + uProb M Qentry inp r_c ep_c fam ind snp 3 = 1 :=
  ⟨fun s => uProb_eq M Qentry inp r_c ep_c fam ind hen snp s (hel _ (hw snp hsnp)),
    uProb_sum M Qentry inp r_c ep_c fam ind hen (fun t ht => (hw t ht).ne.symm)
      (fun t ht => hel _ (hw t ht)) snp hsnp⟩

theorem occupation_posterior_sums_to_one_witness :
    uProb ⟨Real.log, Real.exp⟩ Qentry (demoInput ℝ) (fun _ => 1 / 4) (1 / 10) 0 1 1 0
      + uProb ⟨Real.log, Real.exp⟩ Qentry (demoInput ℝ) (fun _ => 1 / 4) (1 / 10) 0 1 1 1
      + uProb ⟨Real.log, Real.exp⟩ Qentry (demoInput ℝ) (fun _ => 1 / 4) (1 / 10) 0 1 1 2
      + uProb ⟨Real.log, Real.exp⟩ Qentry (demoInput ℝ) (fun _ => 1 / 4) (1 / 10) 0 1 1 3 = 1 :=
  (occupation_posterior_sums_to_one ⟨Real.log, Real.exp⟩
    (fun _ hx => Real.exp_log hx) Real.exp_neg (demoInput ℝ) (fun _ => 1 / 4) (1 / 10) 0 1
    (fun t ht =>
      forward_w_pos Qentry (demoInput ℝ) _ _ 0 1 (fun _ => by norm_num)
        (fun t ht s hs0 hs3 =>
          demoInput_emisPos Qentry Iindx (tableOK_mono (by decide) tableOK_known) 0 1 t s
            (by decide) (by decide) ht hs0 hs3) t ht)
    1 (by decide)).2

/-- C4: for an input with initial recombination fractions in `[0,1]`, error
rate strictly between `0` and `1`, pattern codes in the legal range (`1..16`
for `EM_HMM`, `1..5` for `EM_HMM_UP`), non-negative read depths, at least one
individual and `L ≥ 2` (exact arithmetic), every entry of `r_c` after any
number `j` of rounds of the EM loop, hence every recombination fraction written
by an M-step of `EM_HMM` (pooled or sex-specific, whatever `sexSpec` is) and of
`EM_HMM_UP`, lies in `[0,1]`. -/
theorem recombination_fractions_in_unit_interval (M : Libm α)
    (hel : ∀ x : α, 0 < x → M.exp (M.log x) = x) (hen : ∀ x : α, M.exp (-x) = (M.exp x)⁻¹)
    (inp : EMInput α) (hL : 2 ≤ inp.nSnps) (hN : 1 ≤ nTotal inp)
    (hr : ∀ i, i < 2 * (inp.nSnps - 1) → 0 ≤ inp.r i ∧ inp.r i ≤ 1)
    (hep : 0 < inp.ep ∧ inp.ep < 1)
    (hdepth : ∀ i, i < nTotal inp * inp.nSnps → 0 ≤ inp.depth_Ref i ∧ 0 ≤ inp.depth_Alt i)
    (j i : Nat) (hi : i < 2 * (inp.nSnps - 1)) :
    ((∀ c, c < inp.nSnps * inp.noFam → 1 ≤ inp.OPGP c ∧ inp.OPGP c ≤ 16) →
      0 ≤ (EM_HMM_after M inp j).r_c i ∧ (EM_HMM_after M inp j).r_c i ≤ 1) ∧
    ((∀ c, c < inp.nSnps * inp.noFam → 1 ≤ inp.OPGP c ∧ inp.OPGP c ≤ 5) →
      0 ≤ (EM_HMM_UP_after M inp j).r_c i ∧ (EM_HMM_UP_after M inp j).r_c i ≤ 1) := by
  have _ := hL
  have _ := hi
  constructor
  · intro hcode
    exact (emBody_iterate_good M Qentry Iindx inp ⟨hcode, hdepth⟩ tableOK_known hel hen hN _ _
      (emInit_bounds inp _ hr) (epOK_of_interior Iindx inp inp.ep hep.1 hep.2) j).1 i
  · intro hcode
    exact (emBody_iterate_good M Qentry_up Iindx_up inp ⟨hcode, hdepth⟩ tableOK_unknown hel hen
      hN _ _ (emInit_bounds inp _ hr) (epOK_of_interior Iindx_up inp inp.ep hep.1 hep.2) j).1 i

theorem recombination_fractions_in_unit_interval_witness :
    (0 ≤ (EM_HMM_after ⟨Real.log, Real.exp⟩ (demoInput ℝ) 2).r_c 1 ∧
      (EM_HMM_after ⟨Real.log, Real.exp⟩ (demoInput ℝ) 2).r_c 1 ≤ 1) ∧
    (0 ≤ (EM_HMM_UP_after ⟨Real.log, Real.exp⟩ (demoInput ℝ) 2).r_c 1 ∧
      (EM_HMM_UP_after ⟨Real.log, Real.exp⟩ (demoInput ℝ) 2).r_c 1 ≤ 1) :=
  have h := recombination_fractions_in_unit_interval ⟨Real.log, Real.exp⟩
    (fun _ hx => Real.exp_log hx) Real.exp_neg (demoInput ℝ) (by decide) (by decide)
    (fun _ _ => by norm_num [demoInput]) (by norm_num [demoInput])
    (demoInput_valid (α := ℝ)).2 2 1 (by decide)
  ⟨h.1 (validData_mono (demoInput ℝ) (by decide) demoInput_valid).1,
    h.2 (demoInput_valid (α := ℝ)).1⟩

end EMTheorems

/-! ## Frame properties of the parameter vector -/

section Frames

variable {α : Type} [LinearOrderedField α]
variable (M : Libm α) (Qsel : Int → α → α → α → Int → α) (Isel : Int → Int → Int)
variable (inp : EMInput α)

/-- The copy loop reproduces every entry of the vector. -/
theorem copy_r_eq (nSnps : Nat) (r : Nat → α) (i : Nat) (hi : i < 2 * (nSnps - 1)) :
    copy_r nSnps r i = r i := by
  have key : ∀ j, (j < nSnps - 1 ∨ (nSnps - 1 ≤ j ∧ j < nSnps - 1 + (nSnps - 1))) →
      copy_r nSnps r j = r j := by
    unfold copy_r
    refine forLoop_inv
      (fun k (buf : Nat → α) =>
        ∀ j, (j < k ∨ (nSnps - 1 ≤ j ∧ j < nSnps - 1 + k)) → buf j = r j) _ _ _ ?_ ?_
    · intro j hj
      omega
    · intro snp buf hsnp hb j hj
      simp only [forLoop]
      rw [Nat.zero_mul, Nat.add_zero, Nat.one_mul]
      by_cases h1 : j = snp + (nSnps - 1)
      · rw [h1, Function.update_same]
      · rw [Function.update_noteq h1]
        by_cases h2 : j = snp
        · rw [h2, Function.update_same]
        · rw [Function.update_noteq h2]
          exact hb j (by omega)
  exact key i (by omega)

/-- After the mask loop every flagged entry is zero. -/
theorem mask_r_zero (nSnps : Nat) (ss_rf : Nat → Int) (r_c : Nat → α) (i : Nat)
    (hi : i < 2 * (nSnps - 1)) (hflag : ss_rf i = 0) : mask_r nSnps ss_rf r_c i = 0 := by
  have key : ∀ j, ss_rf j = 0 →
      (j < nSnps - 1 ∨ (nSnps - 1 ≤ j ∧ j < nSnps - 1 + (nSnps - 1))) →
      mask_r nSnps ss_rf r_c j = 0 := by
    unfold mask_r
    refine forLoop_inv
      (fun k (buf : Nat → α) =>
        ∀ j, ss_rf j = 0 → (j < k ∨ (nSnps - 1 ≤ j ∧ j < nSnps - 1 + k)) → buf j = 0)
      _ _ _ ?_ ?_
    · intro j _ hj
      omega
    · intro snp buf hsnp hb j hj0 hj
      have e : snp + nSnps - 1 = snp + (nSnps - 1) := by omega
      rw [e]
      by_cases h1 : j = snp + (nSnps - 1)
      · subst h1
        rw [if_pos hj0, Function.update_same]
      · by_cases h2 : j = snp
        · subst h2
          rw [if_pos hj0]
          split_ifs
          · rw [Function.update_noteq h1, Function.update_same]
          · rw [Function.update_same]
        · have hold := hb j hj0 (by omega)
          split_ifs
          · rw [Function.update_noteq h1, Function.update_noteq h2, hold]
          · rw [Function.update_noteq h1, hold]
          · rw [Function.update_noteq h2, hold]
          · exact hold
  exact key i hflag (by omega)

/-- The sex-specific M-step leaves every entry whose flag is not `1` untouched. -/
theorem mstep_r_frame (r_c : Nat → α) (ep_c : α) (i : Nat) (hflag : inp.ss_rf i ≠ 1) :
    mstep_r M Qsel true inp r_c ep_c i = r_c i := by
  unfold mstep_r
  simp only [if_true]
  refine forLoop_inv (fun _ (buf : Nat → α) => buf i = r_c i) _ _ _ rfl ?_
  intro snp buf hsnp hb
  have upd : ∀ (c : Prop) [Decidable c] (b : Nat → α) (j : Nat) (v : α),
      (c → inp.ss_rf j = 1) → b i = r_c i →
      (if c then Function.update b j v else b) i = r_c i := by
    intro c _ b j v hc hbi
    split_ifs with h
    · have hne : i ≠ j := fun hij => hflag (hij ▸ hc h)
      rw [Function.update_noteq hne, hbi]
    · exact hbi
  exact upd _ _ _ _ (fun h => h) (upd _ _ _ _ (fun h => h) hb)

/-- The pooled M-step writes the same value, the pooled estimate, into the
paternal and the maternal entry of every interval. -/
theorem mstep_r_pooled (r_c : Nat → α) (ep_c : α) (snp : Nat) (hsnp : snp < inp.nSnps - 1) :
    mstep_r M Qsel false inp r_c ep_c snp
        = 1.0 / (2.0 * (nTotal inp : α)) * sumPooled M Qsel inp r_c ep_c snp ∧
    mstep_r M Qsel false inp r_c ep_c (snp + (inp.nSnps - 1))
        = 1.0 / (2.0 * (nTotal inp : α)) * sumPooled M Qsel inp r_c ep_c snp := by
  have key : ∀ t, t < inp.nSnps - 1 →
      mstep_r M Qsel false inp r_c ep_c t
          = 1.0 / (2.0 * (nTotal inp : α)) * sumPooled M Qsel inp r_c ep_c t ∧
      mstep_r M Qsel false inp r_c ep_c (t + (inp.nSnps - 1))
          = 1.0 / (2.0 * (nTotal inp : α)) * sumPooled M Qsel inp r_c ep_c t := by
    unfold mstep_r
    simp only [Bool.false_eq_true, if_false]
    refine forLoop_inv
      (fun k (buf : Nat → α) => ∀ t, t < k →
        buf t = 1.0 / (2.0 * (nTotal inp : α)) * sumPooled M Qsel inp r_c ep_c t ∧
        buf (t + (inp.nSnps - 1))
          = 1.0 / (2.0 * (nTotal inp : α)) * sumPooled M Qsel inp r_c ep_c t) _ _ _ ?_ ?_
    · intro t ht
      omega
    · intro k buf hk hb t ht
      have e : k + inp.nSnps - 1 = k + (inp.nSnps - 1) := by omega
      rw [e]
      by_cases htk : t = k
      · subst htk
        constructor
        · rw [Function.update_noteq (by omega), Function.update_same]
        · rw [Function.update_same]
      · obtain ⟨h1, h2⟩ := hb t (by omega)
        constructor
        · rw [Function.update_noteq (by omega), Function.update_noteq htk, h1]
        · rw [Function.update_noteq (by omega), Function.update_noteq (by omega), h2]
  exact key snp hsnp

theorem emBody_ep_fixed (sexSpec : Bool) (hseq : inp.seqError = 0) (st : EMState α) (j : Nat) :
    ((emBody M Qsel Isel sexSpec inp)^[j] st).ep_c = st.ep_c := by
  induction j with
  | zero => rfl
  | succ n ih =>
    rw [Function.iterate_succ_apply']
    simp only [emBody, mstep_ep, hseq, ne_eq, not_true_eq_false, if_false]
    exact ih

theorem emBody_masked_zero (st : EMState α) (i : Nat) (hflag : inp.ss_rf i = 0)
    (h0 : st.r_c i = 0) (j : Nat) :
    ((emBody M Qsel Isel true inp)^[j] st).r_c i = 0 := by
  induction j with
  | zero => exact h0
  | succ n ih =>
    rw [Function.iterate_succ_apply']
    simp only [emBody]
    rw [mstep_r_frame M Qsel inp _ _ i (by rw [hflag]; decide), ih]

theorem emWhile_eq_iterate (sexSpec : Bool) (st : EMState α) (h0 : st.iter = 0) :
    ∃ k : Nat, 2 ≤ k ∧
      emWhile M Qsel Isel sexSpec inp st = (emBody M Qsel Isel sexSpec inp)^[k] st := by
  obtain ⟨k, h1, _, h2, _⟩ := emWhile_least M Qsel Isel sexSpec inp st h0
  exact ⟨k, h2, h1⟩

end Frames

section FrameTheorems

variable {α : Type} [LinearOrderedField α]

/-- C11: in `EM_HMM` with sex-specific estimation enabled (`sexSpec ≠ 0`) and in
`EM_HMM_UP`, every entry `i < 2*(nSnps-1)` of the recombination-fraction vector
whose mask flag `ss_rf[i]` is `0` is `0` in the returned vector, whatever its
initial value and however many rounds the loop runs. -/
theorem masked_fractions_returned_zero (M : Libm α) (inp : EMInput α) (i : Nat)
    (hi : i < 2 * (inp.nSnps - 1)) (hflag : inp.ss_rf i = 0) :
    (inp.sexSpec ≠ 0 → (EM_HMM M inp).rout i = 0) ∧ (EM_HMM_UP M inp).rout i = 0 := by
  constructor
  · intro hsex
    have hd : decide (inp.sexSpec ≠ 0) = true := decide_eq_true hsex
    obtain ⟨k, _, hk⟩ := emWhile_eq_iterate M Qentry Iindx inp (decide (inp.sexSpec ≠ 0))
      (emInit (decide (inp.sexSpec ≠ 0)) inp) rfl
    simp only [EM_HMM, emOut, EM_HMM_final]
    rw [copy_r_eq _ _ i hi, hk, hd]
    exact emBody_masked_zero M Qentry Iindx inp _ i hflag
      (mask_r_zero inp.nSnps inp.ss_rf _ i hi hflag) k
  · obtain ⟨k, _, hk⟩ := emWhile_eq_iterate M Qentry_up Iindx_up inp true (emInit true inp) rfl
    simp only [EM_HMM_UP, emOut, EM_HMM_UP_final]
    rw [copy_r_eq _ _ i hi, hk]
    exact emBody_masked_zero M Qentry_up Iindx_up inp _ i hflag
      (mask_r_zero inp.nSnps inp.ss_rf _ i hi hflag) k

theorem masked_fractions_returned_zero_witness :
    (EM_HMM ⟨Real.log, Real.exp⟩ (demoMasked ℝ)).rout 0 = 0 ∧
    (EM_HMM_UP ⟨Real.log, Real.exp⟩ (demoMasked ℝ)).rout 0 = 0 :=
  ⟨(masked_fractions_returned_zero ⟨Real.log, Real.exp⟩ (demoMasked ℝ) 0 (by decide)
      (by decide)).1 (by decide),
    (masked_fractions_returned_zero ⟨Real.log, Real.exp⟩ (demoMasked ℝ) 0 (by decide)
      (by decide)).2⟩

/-- C13: in `EM_HMM` with sex-specific estimation disabled (`sexSpec = 0`), for
every interval `i < nSnps-1` the returned paternal entry `r[i]` equals the
returned maternal entry `r[i + nSnps-1]`, whatever the initial vector. -/
theorem pooled_halves_equal (M : Libm α) (inp : EMInput α) (hpool : inp.sexSpec = 0)
    (i : Nat) (hi : i < inp.nSnps - 1) :
    (EM_HMM M inp).rout i = (EM_HMM M inp).rout (i + (inp.nSnps - 1)) := by
  have hd : decide (inp.sexSpec ≠ 0) = false := by simp [hpool]
  obtain ⟨k, hk2, hk⟩ := emWhile_eq_iterate M Qentry Iindx inp (decide (inp.sexSpec ≠ 0))
    (emInit (decide (inp.sexSpec ≠ 0)) inp) rfl
  obtain ⟨m, rfl⟩ : ∃ m, k = m + 1 := ⟨k - 1, by omega⟩
  simp only [EM_HMM, emOut, EM_HMM_final]
  rw [copy_r_eq _ _ i (by omega), copy_r_eq _ _ (i + (inp.nSnps - 1)) (by omega), hk,
    Function.iterate_succ_apply', hd]
  simp only [emBody]
  rw [(mstep_r_pooled M Qentry inp _ _ i hi).1, (mstep_r_pooled M Qentry inp _ _ i hi).2]

theorem pooled_halves_equal_witness :
    (EM_HMM ⟨Real.log, Real.exp⟩ (demoPooled ℝ)).rout 1
      = (EM_HMM ⟨Real.log, Real.exp⟩ (demoPooled ℝ)).rout (1 + ((demoPooled ℝ).nSnps - 1)) :=
  pooled_halves_equal ⟨Real.log, Real.exp⟩ (demoPooled ℝ) (by decide) 1 (by decide)

/-- C14: when error-rate estimation is disabled (`seqError = 0`) the error rate
returned by `EM_HMM` and by `EM_HMM_UP` is the input error rate, for every data
set and every number of rounds. -/
theorem error_rate_fixed_when_disabled (M : Libm α) (inp : EMInput α)
    (hseq : inp.seqError = 0) :
    (EM_HMM M inp).epout = inp.ep ∧ (EM_HMM_UP M inp).epout = inp.ep := by
  constructor
  · obtain ⟨k, _, hk⟩ := emWhile_eq_iterate M Qentry Iindx inp (decide (inp.sexSpec ≠ 0))
      (emInit (decide (inp.sexSpec ≠ 0)) inp) rfl
    simp only [EM_HMM, emOut, EM_HMM_final]
    rw [hk, emBody_ep_fixed M Qentry Iindx inp _ hseq]
    rfl
  · obtain ⟨k, _, hk⟩ := emWhile_eq_iterate M Qentry_up Iindx_up inp true (emInit true inp) rfl
    simp only [EM_HMM_UP, emOut, EM_HMM_UP_final]
    rw [hk, emBody_ep_fixed M Qentry_up Iindx_up inp _ hseq]
    rfl

theorem error_rate_fixed_when_disabled_witness :
    (EM_HMM ⟨Real.log, Real.exp⟩ (demoPooled ℝ)).epout = (demoPooled ℝ).ep ∧
    (EM_HMM_UP ⟨Real.log, Real.exp⟩ (demoPooled ℝ)).epout = (demoPooled ℝ).ep :=
  error_rate_fixed_when_disabled ⟨Real.log, Real.exp⟩ (demoPooled ℝ) (by decide)

end FrameTheorems

/-! ## Shape of the error-rate update -/

section ErrorRateShape

variable {α : Type} [LinearOrderedField α]
variable (M : Libm α) (Qsel : Int → α → α → α → Int → α) (Isel : Int → Int → Int)
variable (inp : EMInput α) (r_c : Nat → α) (ep_c : α)

theorem mism_mtch_het (fam ind snp : Nat) (s : Int)
    (h1 : Isel (inp.OPGP (snp * inp.noFam + fam)) (s + 1) ≠ 1)
    (h2 : Isel (inp.OPGP (snp * inp.noFam + fam)) (s + 1) ≠ 2) :
    mism Isel inp fam ind snp s = 0 ∧ mtch Isel inp fam ind snp s = 0 := by
  simp [mism, mtch, Iaa, Ibb, h1, h2]

/-- A four-fold sum of products `u * c` with `u ≥ 0` and `c ≥ 0` is
non-negative. -/
theorem cellSum_nonneg (u : Nat → Nat → Nat → Int → α) (c : Nat → Nat → Nat → Int → Int)
    (hu : ∀ fam ind snp (s : Int), fam < inp.noFam → ind < inp.nInd fam → snp < inp.nSnps →
      0 ≤ s → s ≤ 3 → 0 ≤ u fam ind snp s)
    (hc : ∀ fam ind snp (s : Int), fam < inp.noFam → ind < inp.nInd fam → snp < inp.nSnps →
      0 ≤ c fam ind snp s) :
    0 ≤ ∑ snp in Finset.range inp.nSnps, ∑ fam in Finset.range inp.noFam,
        ∑ ind in Finset.range (inp.nInd fam), ∑ s in Finset.range 4,
          u fam ind snp (s : Int) * ((c fam ind snp (s : Int) : Int) : α) := by
  refine Finset.sum_nonneg (fun snp hsnp => Finset.sum_nonneg (fun fam hfam =>
    Finset.sum_nonneg (fun ind hind => Finset.sum_nonneg (fun s hs => ?_))))
  rw [Finset.mem_range] at hsnp hfam hind hs
  exact mul_nonneg (hu fam ind snp s hfam hind hsnp (by omega) (by omega))
    (by exact_mod_cast hc fam ind snp s hfam hind hsnp)

/-- Restricting the state sum of a cell to the homozygous states does not
change it. -/
theorem stateSum_filter (fam ind snp : Nat) (c : Int → Int)
    (hc : ∀ s : Int, Isel (inp.OPGP (snp * inp.noFam + fam)) (s + 1) ≠ 1 →
      Isel (inp.OPGP (snp * inp.noFam + fam)) (s + 1) ≠ 2 → c s = 0) :
    ∑ s in Finset.range 4, uProb M Qsel inp r_c ep_c fam ind snp (s : Int) * ((c s : Int) : α)
      = ∑ s in (Finset.range 4).filter (fun s : Nat =>
          Isel (inp.OPGP (snp * inp.noFam + fam)) ((s : Int) + 1) = 1 ∨
          Isel (inp.OPGP (snp * inp.noFam + fam)) ((s : Int) + 1) = 2),
        uProb M Qsel inp r_c ep_c fam ind snp (s : Int) * ((c s : Int) : α) := by
  symm
  refine Finset.sum_filter_of_ne (fun s _ hne => ?_)
  by_contra hnot
  rw [not_or] at hnot
  exact hne (by rw [hc s hnot.1 hnot.2, Int.cast_zero, mul_zero])

theorem sumAB_filter :
    sumAB M Qsel Isel inp r_c ep_c =
      (∑ snp in Finset.range inp.nSnps, ∑ fam in Finset.range inp.noFam,
          ∑ ind in Finset.range (inp.nInd fam),
            ∑ s in (Finset.range 4).filter (fun s : Nat =>
                Isel (inp.OPGP (snp * inp.noFam + fam)) ((s : Int) + 1) = 1 ∨
                Isel (inp.OPGP (snp * inp.noFam + fam)) ((s : Int) + 1) = 2),
              uProb M Qsel inp r_c ep_c fam ind snp (s : Int)
                * ((mism Isel inp fam ind snp (s : Int) : Int) : α),
        ∑ snp in Finset.range inp.nSnps, ∑ fam in Finset.range inp.noFam,
          ∑ ind in Finset.range (inp.nInd fam),
            ∑ s in (Finset.range 4).filter (fun s : Nat =>
                Isel (inp.OPGP (snp * inp.noFam + fam)) ((s : Int) + 1) = 1 ∨
                Isel (inp.OPGP (snp * inp.noFam + fam)) ((s : Int) + 1) = 2),
              uProb M Qsel inp r_c ep_c fam ind snp (s : Int)
                * ((mtch Isel inp fam ind snp (s : Int) : Int) : α)) := by
  rw [sumAB_eq]
  refine Prod.ext ?_ ?_
  · show (∑ snp in Finset.range inp.nSnps, ∑ fam in Finset.range inp.noFam,
        ∑ ind in Finset.range (inp.nInd fam), ∑ s in Finset.range 4,
          uProb M Qsel inp r_c ep_c fam ind snp (s : Int)
            * ((mism Isel inp fam ind snp (s : Int) : Int) : α)) = _
    exact Finset.sum_congr rfl (fun snp _ => Finset.sum_congr rfl (fun fam _ =>
      Finset.sum_congr rfl (fun ind _ =>
        stateSum_filter M Qsel Isel inp r_c ep_c fam ind snp
          (fun s => mism Isel inp fam ind snp s)
          (fun s h1 h2 => (mism_mtch_het Isel inp fam ind snp s h1 h2).1))))
  · show (∑ snp in Finset.range inp.nSnps, ∑ fam in Finset.range inp.noFam,
        ∑ ind in Finset.range (inp.nInd fam), ∑ s in Finset.range 4,
          uProb M Qsel inp r_c ep_c fam ind snp (s : Int)
            * ((mtch Isel inp fam ind snp (s : Int) : Int) : α)) = _
    exact Finset.sum_congr rfl (fun snp _ => Finset.sum_congr rfl (fun fam _ =>
      Finset.sum_congr rfl (fun ind _ =>
        stateSum_filter M Qsel Isel inp r_c ep_c fam ind snp
          (fun s => mtch Isel inp fam ind snp s)
          (fun s h1 h2 => (mism_mtch_het Isel inp fam ind snp s h1 h2).2))))

theorem mism_mtch_nonneg_of_depth
    (hdepth : ∀ i, i < nTotal inp * inp.nSnps → 0 ≤ inp.depth_Ref i ∧ 0 ≤ inp.depth_Alt i)
    (fam ind snp : Nat) (s : Int)
    (hfam : fam < inp.noFam) (hind : ind < inp.nInd fam) (hsnp : snp < inp.nSnps) :
    0 ≤ mism Isel inp fam ind snp s ∧ 0 ≤ mtch Isel inp fam ind snp s := by
  obtain ⟨ha, hb⟩ := hdepth _ (depth_index_lt inp fam ind snp hfam hind hsnp)
  obtain ⟨hi1, hi2⟩ := Iaa_Ibb_nonneg Isel inp fam snp s
  unfold mism mtch
  exact ⟨add_nonneg (mul_nonneg hb hi1) (mul_nonneg ha hi2),
    add_nonneg (mul_nonneg ha hi1) (mul_nonneg hb hi2)⟩

theorem mstep_ep_bounds
    (hdepth : ∀ i, i < nTotal inp * inp.nSnps → 0 ≤ inp.depth_Ref i ∧ 0 ≤ inp.depth_Alt i)
    (hu : ∀ fam ind snp (s : Int), fam < inp.noFam → ind < inp.nInd fam → snp < inp.nSnps →
      0 ≤ s → s ≤ 3 → 0 ≤ uProb M Qsel inp r_c ep_c fam ind snp s)
    (hpos : 0 < (sumAB M Qsel Isel inp r_c ep_c).1 + (sumAB M Qsel Isel inp r_c ep_c).2)
    (hseq : inp.seqError ≠ 0) :
    mstep_ep M Qsel Isel inp r_c ep_c =
        (sumAB M Qsel Isel inp r_c ep_c).1 /
          ((sumAB M Qsel Isel inp r_c ep_c).1 + (sumAB M Qsel Isel inp r_c ep_c).2) ∧
    0 ≤ mstep_ep M Qsel Isel inp r_c ep_c ∧ mstep_ep M Qsel Isel inp r_c ep_c ≤ 1 := by
  have hA : 0 ≤ (sumAB M Qsel Isel inp r_c ep_c).1 := by
    rw [sumAB_eq]
    exact cellSum_nonneg inp (fun fam ind snp s => uProb M Qsel inp r_c ep_c fam ind snp s)
      (fun fam ind snp s => mism Isel inp fam ind snp s) hu
      (fun fam ind snp s hfam hind hsnp =>
        (mism_mtch_nonneg_of_depth Isel inp hdepth fam ind snp s hfam hind hsnp).1)
  have hB : 0 ≤ (sumAB M Qsel Isel inp r_c ep_c).2 := by
    rw [sumAB_eq]
    exact cellSum_nonneg inp (fun fam ind snp s => uProb M Qsel inp r_c ep_c fam ind snp s)
      (fun fam ind snp s => mtch Isel inp fam ind snp s) hu
      (fun fam ind snp s hfam hind hsnp =>
        (mism_mtch_nonneg_of_depth Isel inp hdepth fam ind snp s hfam hind hsnp).2)
  have heq : mstep_ep M Qsel Isel inp r_c ep_c =
      (sumAB M Qsel Isel inp r_c ep_c).1 /
        ((sumAB M Qsel Isel inp r_c ep_c).1 + (sumAB M Qsel Isel inp r_c ep_c).2) := by
    simp only [mstep_ep, if_pos hseq]
  refine ⟨heq, ?_, ?_⟩
  · rw [heq]
    exact div_nonneg hA hpos.le
  · rw [heq, div_le_one hpos]
    linarith

/-- On the data set `demoInput` the two sums of the error-rate update do not
both vanish: the first individual has two reference reads at the first marker
and its fourth state is homozygous there. -/
theorem demoInput_sumAB_pos (M : Libm ℝ) (hel : ∀ x : ℝ, 0 < x → M.exp (M.log x) = x)
    (hen : ∀ x : ℝ, M.exp (-x) = (M.exp x)⁻¹) :
    0 < (sumAB M Qentry Iindx (demoInput ℝ) (fun _ => 1 / 4) (1 / 10)).1
      + (sumAB M Qentry Iindx (demoInput ℝ) (fun _ => 1 / 4) (1 / 10)).2 := by
  have hu : ∀ fam ind snp (s : Int), fam < (demoInput ℝ).noFam →
      ind < (demoInput ℝ).nInd fam → snp < (demoInput ℝ).nSnps → 0 ≤ s → s ≤ 3 →
      0 < uProb M Qentry (demoInput ℝ) (fun _ => 1 / 4) (1 / 10) fam ind snp s :=
    fun fam ind snp s hfam hind hsnp hs0 hs3 =>
      uProb_pos M Qentry (demoInput ℝ) _ _ fam ind hel hen (fun _ => by norm_num)
        (fun t ht q hq0 hq3 =>
          demoInput_emisPos Qentry Iindx (tableOK_mono (by decide) tableOK_known) fam ind t q
            hfam hind ht hq0 hq3) snp hsnp s hs0 hs3
  obtain ⟨hA0, _⟩ := cellSum_zero (demoInput ℝ)
    (fun fam ind snp s => uProb M Qentry (demoInput ℝ) (fun _ => 1 / 4) (1 / 10) fam ind snp s)
    (fun fam ind snp s => mism Iindx (demoInput ℝ) fam ind snp s) hu
    (fun fam ind snp s hfam hind hsnp =>
      (mism_mtch_nonneg Iindx (demoInput ℝ) demoInput_valid fam ind snp s hfam hind hsnp).1)
  obtain ⟨hB0, hBz⟩ := cellSum_zero (demoInput ℝ)
    (fun fam ind snp s => uProb M Qentry (demoInput ℝ) (fun _ => 1 / 4) (1 / 10) fam ind snp s)
    (fun fam ind snp s => mtch Iindx (demoInput ℝ) fam ind snp s) hu
    (fun fam ind snp s hfam hind hsnp =>
      (mism_mtch_nonneg Iindx (demoInput ℝ) demoInput_valid fam ind snp s hfam hind hsnp).2)
  rw [sumAB_eq]
  dsimp only at hA0 hB0 hBz ⊢
  rcases eq_or_lt_of_le hB0 with hz | hpos
  · exfalso
    have h := hBz hz.symm 0 0 0 3 (by decide) (by decide) (by decide) (by decide) (by decide)
    revert h
    decide
  · linarith

end ErrorRateShape

section ErrorRateTheorem

variable {α : Type} [LinearOrderedField α]

/-- C15: in the error-rate M-step of `EM_HMM` only the hidden states whose
class index `Iindx` is `1` or `2` (homozygous) contribute to `sumA` and `sumB`:
both are the sums, over markers, individuals and the homozygous states, of
`uProb * (b*Iaa + a*Ibb)` resp. `uProb * (a*Iaa + b*Ibb)`, and a state of any
other class adds `0` to both.  Whenever the posteriors and the depths are
non-negative and `sumA + sumB > 0` (and estimation is enabled), the updated
error rate is `sumA / (sumA + sumB)` and lies in `[0,1]`. -/
theorem error_rate_update_homozygous_only (M : Libm α) (inp : EMInput α) (r_c : Nat → α)
    (ep_c : α) :
    sumAB M Qentry Iindx inp r_c ep_c =
      (∑ snp in Finset.range inp.nSnps, ∑ fam in Finset.range inp.noFam,
          ∑ ind in Finset.range (inp.nInd fam),
            ∑ s in (Finset.range 4).filter (fun s : Nat =>
                Iindx (inp.OPGP (snp * inp.noFam + fam)) ((s : Int) + 1) = 1 ∨
                Iindx (inp.OPGP (snp * inp.noFam + fam)) ((s : Int) + 1) = 2),
              uProb M Qentry inp r_c ep_c fam ind snp (s : Int)
                * ((mism Iindx inp fam ind snp (s : Int) : Int) : α),
        ∑ snp in Finset.range inp.nSnps, ∑ fam in Finset.range inp.noFam,
          ∑ ind in Finset.range (inp.nInd fam),
            ∑ s in (Finset.range 4).filter (fun s : Nat =>
                Iindx (inp.OPGP (snp * inp.noFam + fam)) ((s : Int) + 1) = 1 ∨
                Iindx (inp.OPGP (snp * inp.noFam + fam)) ((s : Int) + 1) = 2),
              uProb M Qentry inp r_c ep_c fam ind snp (s : Int)
                * ((mtch Iindx inp fam ind snp (s : Int) : Int) : α)) ∧
    (∀ (fam ind snp : Nat) (s : Int),
      Iindx (inp.OPGP (snp * inp.noFam + fam)) (s + 1) ≠ 1 →
      Iindx (inp.OPGP (snp * inp.noFam + fam)) (s + 1) ≠ 2 →
      uProb M Qentry inp r_c ep_c fam ind snp s
          * ((mism Iindx inp fam ind snp s : Int) : α) = 0 ∧
      uProb M Qentry inp r_c ep_c fam ind snp s
          * ((mtch Iindx inp fam ind snp s : Int) : α) = 0) ∧
    ((∀ i, i < nTotal inp * inp.nSnps → 0 ≤ inp.depth_Ref i ∧ 0 ≤ inp.depth_Alt i) →
      (∀ fam ind snp (s : Int), fam < inp.noFam → ind < inp.nInd fam → snp < inp.nSnps →
        0 ≤ s → s ≤ 3 → 0 ≤ uProb M Qentry inp r_c ep_c fam ind snp s) →
      0 < (sumAB M Qentry Iindx inp r_c ep_c).1 + (sumAB M Qentry Iindx inp r_c ep_c).2 →
      inp.seqError ≠ 0 →
      mstep_ep M Qentry Iindx inp r_c ep_c =
          (sumAB M Qentry Iindx inp r_c ep_c).1 /
            ((sumAB M Qentry Iindx inp r_c ep_c).1 + (sumAB M Qentry Iindx inp r_c ep_c).2) ∧
      0 ≤ mstep_ep M Qentry Iindx inp r_c ep_c ∧ mstep_ep M Qentry Iindx inp r_c ep_c ≤ 1) := by
  refine ⟨sumAB_filter M Qentry Iindx inp r_c ep_c, ?_, ?_⟩
  · intro fam ind snp s h1 h2
    obtain ⟨e1, e2⟩ := mism_mtch_het Iindx inp fam ind snp s h1 h2
    rw [e1, e2, Int.cast_zero, mul_zero]
    exact ⟨rfl, rfl⟩
  · intro hdepth hu hpos hseq
    exact mstep_ep_bounds M Qentry Iindx inp r_c ep_c hdepth hu hpos hseq

theorem error_rate_update_homozygous_only_witness :
    0 ≤ mstep_ep ⟨Real.log, Real.exp⟩ Qentry Iindx (demoInput ℝ) (fun _ => 1 / 4) (1 / 10) ∧
    mstep_ep ⟨Real.log, Real.exp⟩ Qentry Iindx (demoInput ℝ) (fun _ => 1 / 4) (1 / 10) ≤ 1 :=
  ((error_rate_update_homozygous_only ⟨Real.log, Real.exp⟩ (demoInput ℝ) (fun _ => 1 / 4)
      (1 / 10)).2.2
    (demoInput_valid (α := ℝ)).2
    (fun fam ind snp s hfam hind hsnp hs0 hs3 =>
      (uProb_pos ⟨Real.log, Real.exp⟩ Qentry (demoInput ℝ) _ _ fam ind
        (fun _ hx => Real.exp_log hx) Real.exp_neg (fun _ => by norm_num)
        (fun t ht q hq0 hq3 =>
          demoInput_emisPos Qentry Iindx (tableOK_mono (by decide) tableOK_known) fam ind t q
            hfam hind ht hq0 hq3) snp hsnp s hs0 hs3).le)
    (demoInput_sumAB_pos ⟨Real.log, Real.exp⟩ (fun _ hx => Real.exp_log hx) Real.exp_neg)
    (by decide)).2

end ErrorRateTheorem


/-! ## Markers without reads -/

section ZeroDepth

variable {α : Type} [LinearOrderedField α]
variable (M : Libm α) (Qsel : Int → α → α → α → Int → α) (Isel : Int → Int → Int)
variable (inp : EMInput α) (r_c : Nat → α) (ep_c : α) (fam ind : Nat)

/-- With no reads at a marker all three genotype-class probabilities are `1`,
so the selected emission is `1` in each of the four states. -/
theorem emis_zero_depth {hi : Int} (hT : TableOK Qsel Isel hi) (snp : Nat)
    (hfam : fam < inp.noFam) (hind : ind < inp.nInd fam) (hsnp : snp < inp.nSnps)
    (hcode : 1 ≤ inp.OPGP (snp * inp.noFam + fam) ∧ inp.OPGP (snp * inp.noFam + fam) ≤ hi)
    (hzero : inp.depth_Ref (ind + indSum inp fam + nTotal inp * snp) = 0 ∧
      inp.depth_Alt (ind + indSum inp fam + nTotal inp * snp) = 0)
    (s : Int) (hs0 : 0 ≤ s) (hs3 : s ≤ 3) :
    emis Qsel inp ep_c fam ind snp s = 1 := by
  obtain ⟨hA, hB⟩ := pAA_cell inp ep_c fam ind snp hfam hind hsnp
  have hsum : inp.depth_Ref (ind + indSum inp fam + nTotal inp * snp)
      + inp.depth_Alt (ind + indSum inp fam + nTotal inp * snp) = 0 := by
    rw [hzero.1, hzero.2]
    rfl
  have eA : pAA inp ep_c (ind + indSum inp fam) snp = 1 := by
    rw [hA]
    unfold cellAA
    rw [if_pos hsum]
  have eB : pBB inp ep_c (ind + indSum inp fam) snp = 1 := by
    rw [hB]
    unfold cellBB
    rw [if_pos hsum]
  have eAB : pAB inp (ind + indSum inp fam) snp = 1 := by
    unfold pAB
    rw [hsum, zpow_zero, mul_one]
  obtain ⟨_, hQ⟩ := hT (inp.OPGP (snp * inp.noFam + fam)) (s + 1)
    (pAA inp ep_c (ind + indSum inp fam) snp) (pAB inp (ind + indSum inp fam) snp)
    (pBB inp ep_c (ind + indSum inp fam) snp) hcode.1 hcode.2 (by omega) (by omega)
  simp only [emis]
  rw [hQ, eA, eB, eAB]
  split_ifs <;> rfl

/-- A first marker whose four emissions are `1` has weight `1` and the uniform
scaled forward vector. -/
theorem forward_first_of_emis_one
    (hQ : ∀ s : Int, 0 ≤ s → s ≤ 3 → emis Qsel inp ep_c fam ind 0 s = 1) :
    (forward Qsel inp r_c ep_c fam ind 0).w = 1 ∧
    ∀ s : Int, 0 ≤ s → s ≤ 3 → alphaTilde Qsel inp r_c ep_c fam ind 0 s = 0.25 := by
  have hw : (forward Qsel inp r_c ep_c fam ind 0).w = 1 := by
    rw [forward_w]
    simp only [alphaDot]
    rw [hQ 0 (by norm_num) (by norm_num), hQ 1 (by norm_num) (by norm_num),
      hQ 2 (by norm_num) (by norm_num), hQ 3 (by norm_num) (by norm_num)]
    norm_num
  refine ⟨hw, fun s hs0 hs3 => ?_⟩
  rw [alphaTilde_eq, hw, div_one]
  simp only [alphaDot]
  rw [hQ s hs0 hs3, mul_one]

/-- A later marker whose four emissions are `1` has weight `1`, and its scaled
forward vector is the previous one propagated through the transition matrix,
provided the previous vector sums to `1`. -/
theorem forward_succ_of_emis_one (t : Nat)
    (hQ : ∀ s : Int, 0 ≤ s → s ≤ 3 → emis Qsel inp ep_c fam ind (t + 1) s = 1)
    (hprev : alphaTilde Qsel inp r_c ep_c fam ind t 0 + alphaTilde Qsel inp r_c ep_c fam ind t 1
      + alphaTilde Qsel inp r_c ep_c fam ind t 2 + alphaTilde Qsel inp r_c ep_c fam ind t 3 = 1) :
    (forward Qsel inp r_c ep_c fam ind (t + 1)).w = 1 ∧
    ∀ s2 : Int, 0 ≤ s2 → s2 ≤ 3 →
      alphaTilde Qsel inp r_c ep_c fam ind (t + 1) s2 =
        Tmat_ss 0 s2 (r_c t) (r_c (t + inp.nSnps - 1)) * alphaTilde Qsel inp r_c ep_c fam ind t 0
        + Tmat_ss 1 s2 (r_c t) (r_c (t + inp.nSnps - 1))
          * alphaTilde Qsel inp r_c ep_c fam ind t 1
        + Tmat_ss 2 s2 (r_c t) (r_c (t + inp.nSnps - 1))
          * alphaTilde Qsel inp r_c ep_c fam ind t 2
        + Tmat_ss 3 s2 (r_c t) (r_c (t + inp.nSnps - 1))
          * alphaTilde Qsel inp r_c ep_c fam ind t 3 := by
  have hd : ∀ s2 : Int, 0 ≤ s2 → s2 ≤ 3 →
      alphaDot Qsel inp r_c ep_c fam ind (t + 1) s2 =
        Tmat_ss 0 s2 (r_c t) (r_c (t + inp.nSnps - 1)) * alphaTilde Qsel inp r_c ep_c fam ind t 0
        + Tmat_ss 1 s2 (r_c t) (r_c (t + inp.nSnps - 1))
          * alphaTilde Qsel inp r_c ep_c fam ind t 1
        + Tmat_ss 2 s2 (r_c t) (r_c (t + inp.nSnps - 1))
          * alphaTilde Qsel inp r_c ep_c fam ind t 2
        + Tmat_ss 3 s2 (r_c t) (r_c (t + inp.nSnps - 1))
          * alphaTilde Qsel inp r_c ep_c fam ind t 3 := by
    intro s2 h0 h3
    rw [alphaDot_succ, hQ s2 h0 h3, one_mul]
  have hw : (forward Qsel inp r_c ep_c fam ind (t + 1)).w = 1 := by
    rw [forward_w, hd 0 (by norm_num) (by norm_num), hd 1 (by norm_num) (by norm_num),
      hd 2 (by norm_num) (by norm_num), hd 3 (by norm_num) (by norm_num)]
    have r0 := Tmat_ss_row 0 (by norm_num) (by norm_num) (r_c t) (r_c (t + inp.nSnps - 1))
    have r1 := Tmat_ss_row 1 (by norm_num) (by norm_num) (r_c t) (r_c (t + inp.nSnps - 1))
    have r2 := Tmat_ss_row 2 (by norm_num) (by norm_num) (r_c t) (r_c (t + inp.nSnps - 1))
    have r3 := Tmat_ss_row 3 (by norm_num) (by norm_num) (r_c t) (r_c (t + inp.nSnps - 1))
    linear_combination hprev
      + alphaTilde Qsel inp r_c ep_c fam ind t 0 * r0
      + alphaTilde Qsel inp r_c ep_c fam ind t 1 * r1
      + alphaTilde Qsel inp r_c ep_c fam ind t 2 * r2
      + alphaTilde Qsel inp r_c ep_c fam ind t 3 * r3
  refine ⟨hw, fun s2 h0 h3 => ?_⟩
  rw [alphaTilde_eq, hw, div_one, hd s2 h0 h3]

end ZeroDepth

section ZeroDepthTheorem

variable {α : Type} [LinearOrderedField α]

theorem zero_depth_marker_general (M : Libm α) (hlog1 : M.log 1 = 0)
    (Qsel : Int → α → α → α → Int → α) (Isel : Int → Int → Int) {hi : Int}
    (hT : TableOK Qsel Isel hi)
    (inp : EMInput α) (r_c : Nat → α) (ep_c : α) (fam ind snp : Nat)
    (hfam : fam < inp.noFam) (hind : ind < inp.nInd fam) (hsnp : snp < inp.nSnps)
    (hzero : inp.depth_Ref (ind + indSum inp fam + nTotal inp * snp) = 0 ∧
      inp.depth_Alt (ind + indSum inp fam + nTotal inp * snp) = 0)
    (hcode : 1 ≤ inp.OPGP (snp * inp.noFam + fam) ∧ inp.OPGP (snp * inp.noFam + fam) ≤ hi) :
    ((∀ s : Int, 0 ≤ s → s ≤ 3 → emis Qsel inp ep_c fam ind snp s = 1) ∧
      (snp = 0 →
        (forward Qsel inp r_c ep_c fam ind 0).w = 1 ∧
        log_w M Qsel inp r_c ep_c fam ind 0 = 0 ∧
        ∀ s : Int, 0 ≤ s → s ≤ 3 → alphaTilde Qsel inp r_c ep_c fam ind 0 s = 0.25) ∧
      (∀ t : Nat, snp = t + 1 →
        alphaTilde Qsel inp r_c ep_c fam ind t 0 + alphaTilde Qsel inp r_c ep_c fam ind t 1
          + alphaTilde Qsel inp r_c ep_c fam ind t 2
          + alphaTilde Qsel inp r_c ep_c fam ind t 3 = 1 →
        (forward Qsel inp r_c ep_c fam ind (t + 1)).w = 1 ∧
        log_w M Qsel inp r_c ep_c fam ind (t + 1) = 0 ∧
        ∀ s2 : Int, 0 ≤ s2 → s2 ≤ 3 →
          alphaTilde Qsel inp r_c ep_c fam ind (t + 1) s2 =
            Tmat_ss 0 s2 (r_c t) (r_c (t + inp.nSnps - 1))
              * alphaTilde Qsel inp r_c ep_c fam ind t 0
            + Tmat_ss 1 s2 (r_c t) (r_c (t + inp.nSnps - 1))
              * alphaTilde Qsel inp r_c ep_c fam ind t 1
            + Tmat_ss 2 s2 (r_c t) (r_c (t + inp.nSnps - 1))
              * alphaTilde Qsel inp r_c ep_c fam ind t 2
            + Tmat_ss 3 s2 (r_c t) (r_c (t + inp.nSnps - 1))
              * alphaTilde Qsel inp r_c ep_c fam ind t 3)) := by
  have hQ := emis_zero_depth Qsel Isel inp ep_c fam ind hT snp hfam hind hsnp hcode hzero
  refine ⟨hQ, ?_, ?_⟩
  · intro h0
    subst h0
    obtain ⟨hw, hA⟩ := forward_first_of_emis_one Qsel inp r_c ep_c fam ind hQ
    exact ⟨hw, by rw [log_w, hw, hlog1], hA⟩
  · intro t ht hprev
    subst ht
    obtain ⟨hw, hA⟩ := forward_succ_of_emis_one Qsel inp r_c ep_c fam ind t hQ hprev
    exact ⟨hw, by rw [log_w, hw, hlog1], hA⟩

/-- C19: for an individual `(fam, ind)` and a marker `snp` with zero reference
and zero alternate depth and a legal pattern code (`1..16` for `Qentry`, `1..5`
for `Qentry_up`; `bin_coef = 1`), the emission selected by `Qentry` /
`Qentry_up` is `1` in all four hidden states.  Consequently the forward
weight of that marker is exactly `1` and its log-likelihood contribution
`log_w` is `0` (given `log 1 = 0`): at the first marker the scaled forward
vector is `0.25` in each state, and at a later marker, when the previous scaled
forward vector sums to `1`, it is the previous vector propagated through the
transition matrix. -/
theorem zero_depth_marker (M : Libm α) (hlog1 : M.log 1 = 0)
    (inp : EMInput α) (r_c : Nat → α) (ep_c : α) (fam ind snp : Nat)
    (hfam : fam < inp.noFam) (hind : ind < inp.nInd fam) (hsnp : snp < inp.nSnps)
    (hzero : inp.depth_Ref (ind + indSum inp fam + nTotal inp * snp) = 0 ∧
      inp.depth_Alt (ind + indSum inp fam + nTotal inp * snp) = 0) :
    ((1 ≤ inp.OPGP (snp * inp.noFam + fam) ∧ inp.OPGP (snp * inp.noFam + fam) ≤ 16) →
      ((∀ s : Int, 0 ≤ s → s ≤ 3 → emis Qentry inp ep_c fam ind snp s = 1) ∧
      (snp = 0 →
        (forward Qentry inp r_c ep_c fam ind 0).w = 1 ∧
        log_w M Qentry inp r_c ep_c fam ind 0 = 0 ∧
        ∀ s : Int, 0 ≤ s → s ≤ 3 → alphaTilde Qentry inp r_c ep_c fam ind 0 s = 0.25) ∧
      (∀ t : Nat, snp = t + 1 →
        alphaTilde Qentry inp r_c ep_c fam ind t 0 + alphaTilde Qentry inp r_c ep_c fam ind t 1
          + alphaTilde Qentry inp r_c ep_c fam ind t 2
          + alphaTilde Qentry inp r_c ep_c fam ind t 3 = 1 →
        (forward Qentry inp r_c ep_c fam ind (t + 1)).w = 1 ∧
        log_w M Qentry inp r_c ep_c fam ind (t + 1) = 0 ∧
        ∀ s2 : Int, 0 ≤ s2 → s2 ≤ 3 →
          alphaTilde Qentry inp r_c ep_c fam ind (t + 1) s2 =
            Tmat_ss 0 s2 (r_c t) (r_c (t + inp.nSnps - 1))
              * alphaTilde Qentry inp r_c ep_c fam ind t 0
            + Tmat_ss 1 s2 (r_c t) (r_c (t + inp.nSnps - 1))
              * alphaTilde Qentry inp r_c ep_c fam ind t 1
            + Tmat_ss 2 s2 (r_c t) (r_c (t + inp.nSnps - 1))
              * alphaTilde Qentry inp r_c ep_c fam ind t 2
            + Tmat_ss 3 s2 (r_c t) (r_c (t + inp.nSnps - 1))
              * alphaTilde Qentry inp r_c ep_c fam ind t 3))) ∧
    ((1 ≤ inp.OPGP (snp * inp.noFam + fam) ∧ inp.OPGP (snp * inp.noFam + fam) ≤ 5) →
      ((∀ s : Int, 0 ≤ s → s ≤ 3 → emis Qentry_up inp ep_c fam ind snp s = 1) ∧
      (snp = 0 →
        (forward Qentry_up inp r_c ep_c fam ind 0).w = 1 ∧
        log_w M Qentry_up inp r_c ep_c fam ind 0 = 0 ∧
        ∀ s : Int, 0 ≤ s → s ≤ 3 → alphaTilde Qentry_up inp r_c ep_c fam ind 0 s = 0.25) ∧
      (∀ t : Nat, snp = t + 1 →
        alphaTilde Qentry_up inp r_c ep_c fam ind t 0 + alphaTilde Qentry_up inp r_c ep_c fam ind t 1
          + alphaTilde Qentry_up inp r_c ep_c fam ind t 2
          + alphaTilde Qentry_up inp r_c ep_c fam ind t 3 = 1 →
        (forward Qentry_up inp r_c ep_c fam ind (t + 1)).w = 1 ∧
        log_w M Qentry_up inp r_c ep_c fam ind (t + 1) = 0 ∧
        ∀ s2 : Int, 0 ≤ s2 → s2 ≤ 3 →
          alphaTilde Qentry_up inp r_c ep_c fam ind (t + 1) s2 =
            Tmat_ss 0 s2 (r_c t) (r_c (t + inp.nSnps - 1))
              * alphaTilde Qentry_up inp r_c ep_c fam ind t 0
            + Tmat_ss 1 s2 (r_c t) (r_c (t + inp.nSnps - 1))
              * alphaTilde Qentry_up inp r_c ep_c fam ind t 1
            + Tmat_ss 2 s2 (r_c t) (r_c (t + inp.nSnps - 1))
              * alphaTilde Qentry_up inp r_c ep_c fam ind t 2
            + Tmat_ss 3 s2 (r_c t) (r_c (t + inp.nSnps - 1))
              * alphaTilde Qentry_up inp r_c ep_c fam ind t 3))) :=
  ⟨fun hcode => zero_depth_marker_general M hlog1 Qentry Iindx tableOK_known inp r_c ep_c
      fam ind snp hfam hind hsnp hzero hcode,
    fun hcode => zero_depth_marker_general M hlog1 Qentry_up Iindx_up tableOK_unknown inp r_c
      ep_c fam ind snp hfam hind hsnp hzero hcode⟩

theorem zero_depth_marker_witness :
    (emis Qentry (demoInput ℝ) (1 / 10) 0 0 1 2 = 1 ∧
      (forward Qentry (demoInput ℝ) (fun _ => 1 / 4) (1 / 10) 0 0 (0 + 1)).w = 1) ∧
    (emis Qentry_up (demoInput ℝ) (1 / 10) 0 0 1 2 = 1 ∧
      (forward Qentry_up (demoInput ℝ) (fun _ => 1 / 4) (1 / 10) 0 0 (0 + 1)).w = 1) := by
  have h := zero_depth_marker ⟨Real.log, Real.exp⟩ Real.log_one (demoInput ℝ)
    (fun _ => 1 / 4) (1 / 10) 0 0 1 (by decide) (by decide) (by decide)
    ⟨by decide, by decide⟩
  have hr : ∀ i : Nat, (0 : ℝ) ≤ (fun _ => 1 / 4 : Nat → ℝ) i ∧ (fun _ => 1 / 4 : Nat → ℝ) i ≤ 1 :=
    fun _ => by norm_num
  have hw1 : (forward Qentry (demoInput ℝ) (fun _ => 1 / 4) (1 / 10) 0 0 0).w ≠ 0 :=
    (forward_w_pos Qentry (demoInput ℝ) _ _ 0 0 hr
      (fun t ht s hs0 hs3 =>
        demoInput_emisPos Qentry Iindx (tableOK_mono (by decide) tableOK_known) 0 0 t s
          (by decide) (by decide) ht hs0 hs3) 0 (by decide)).ne.symm
  have hw2 : (forward Qentry_up (demoInput ℝ) (fun _ => 1 / 4) (1 / 10) 0 0 0).w ≠ 0 :=
    (forward_w_pos Qentry_up (demoInput ℝ) _ _ 0 0 hr
      (fun t ht s hs0 hs3 =>
        demoInput_emisPos Qentry_up Iindx_up tableOK_unknown 0 0 t s
          (by decide) (by decide) ht hs0 hs3) 0 (by decide)).ne.symm
  obtain ⟨e1, _, s1⟩ := h.1 ⟨by decide, by decide⟩
  obtain ⟨e2, _, s2⟩ := h.2 ⟨by decide, by decide⟩
  exact ⟨⟨e1 2 (by norm_num) (by norm_num),
      (s1 0 rfl (alphaTilde_sum Qentry (demoInput ℝ) _ _ 0 0 0 hw1)).1⟩,
    ⟨e2 2 (by norm_num) (by norm_num),
      (s2 0 rfl (alphaTilde_sum Qentry_up (demoInput ℝ) _ _ 0 0 0 hw2)).1⟩⟩

end ZeroDepthTheorem

/-! ## The mask in pooled mode -/

section MaskIrrelevant

variable {α : Type} [LinearOrderedField α]
variable (M : Libm α) (Qsel : Int → α → α → α → Int → α) (Isel : Int → Int → Int)
variable (inp : EMInput α) (f : Nat → Int) (r_c : Nat → α) (ep_c : α)

theorem emis_mask (fam ind snp : Nat) (s : Int) :
    emis Qsel { inp with ss_rf := f } ep_c fam ind snp s = emis Qsel inp ep_c fam ind snp s :=
  rfl

theorem forward_mask (fam ind : Nat) : ∀ snp : Nat,
    forward Qsel { inp with ss_rf := f } r_c ep_c fam ind snp
      = forward Qsel inp r_c ep_c fam ind snp
  | 0 => rfl
  | snp + 1 => by
    simp only [forward]
    rw [forward_mask fam ind snp]
    rfl

theorem log_w_mask (fam ind snp : Nat) :
    log_w M Qsel { inp with ss_rf := f } r_c ep_c fam ind snp
      = log_w M Qsel inp r_c ep_c fam ind snp := by
  simp only [log_w, forward_mask]

theorem alphaTilde_mask (fam ind snp : Nat) (s : Int) :
    alphaTilde Qsel { inp with ss_rf := f } r_c ep_c fam ind snp s
      = alphaTilde Qsel inp r_c ep_c fam ind snp s := by
  simp only [alphaTilde, forward_mask]

theorem backward_mask (fam ind : Nat) : ∀ k : Nat,
    backward M Qsel { inp with ss_rf := f } r_c ep_c fam ind k
      = backward M Qsel inp r_c ep_c fam ind k
  | 0 => by
    simp only [backward, log_w_mask]
  | k + 1 => by
    simp only [backward, log_w_mask]
    rw [backward_mask fam ind k]
    rfl

theorem betaTilde_mask (fam ind snp : Nat) (s : Int) :
    betaTilde M Qsel { inp with ss_rf := f } r_c ep_c fam ind snp s
      = betaTilde M Qsel inp r_c ep_c fam ind snp s := by
  simp only [betaTilde, backward_mask]

theorem uProb_mask (fam ind snp : Nat) (s : Int) :
    uProb M Qsel { inp with ss_rf := f } r_c ep_c fam ind snp s
      = uProb M Qsel inp r_c ep_c fam ind snp s := by
  simp only [uProb, alphaTilde_mask, betaTilde_mask, log_w_mask]

theorem vProb_mask (fam ind snp : Nat) (s1 s2 : Int) :
    vProb M Qsel { inp with ss_rf := f } r_c ep_c fam ind snp s1 s2
      = vProb M Qsel inp r_c ep_c fam ind snp s1 s2 := by
  simp only [vProb, alphaTilde_mask, betaTilde_mask]
  rfl

theorem logLik_mask :
    logLik M Qsel { inp with ss_rf := f } r_c ep_c = logLik M Qsel inp r_c ep_c := by
  simp only [logLik, forward_mask]

theorem sumPooled_mask (snp : Nat) :
    sumPooled M Qsel { inp with ss_rf := f } r_c ep_c snp = sumPooled M Qsel inp r_c ep_c snp := by
  simp only [sumPooled, vProb_mask]

theorem mstep_r_mask :
    mstep_r M Qsel false { inp with ss_rf := f } r_c ep_c
      = mstep_r M Qsel false inp r_c ep_c := by
  simp only [mstep_r, sumPooled_mask]
  rfl

theorem sumAB_mask :
    sumAB M Qsel Isel { inp with ss_rf := f } r_c ep_c = sumAB M Qsel Isel inp r_c ep_c := by
  simp only [sumAB, uProb_mask]
  rfl

theorem mstep_ep_mask :
    mstep_ep M Qsel Isel { inp with ss_rf := f } r_c ep_c
      = mstep_ep M Qsel Isel inp r_c ep_c := by
  simp only [mstep_ep, sumAB_mask]

theorem emBody_mask (st : EMState α) :
    emBody M Qsel Isel false { inp with ss_rf := f } st = emBody M Qsel Isel false inp st := by
  simp only [emBody, logLik_mask, mstep_r_mask, mstep_ep_mask]

theorem emWhile_mask : ∀ (n : Nat) (st : EMState α), (max 2 inp.nIter - st.iter).toNat = n →
    emWhile M Qsel Isel false { inp with ss_rf := f } st = emWhile M Qsel Isel false inp st := by
  intro n
  induction n using Nat.strong_induction_on with
  | _ n ih =>
    intro st hst
    by_cases hc : st.iter < 2 ∨ (st.iter < inp.nIter ∧ st.llval - st.prellval > inp.delta)
    · have hlt : (max 2 inp.nIter - (emBody M Qsel Isel false inp st).iter).toNat < n := by
        rw [emBody_iter]
        rcases hc with h | ⟨h, _⟩ <;> omega
      have e1 : emWhile M Qsel Isel false { inp with ss_rf := f } st =
          emWhile M Qsel Isel false { inp with ss_rf := f }
            (emBody M Qsel Isel false { inp with ss_rf := f } st) := by
        rw [emWhile]
        exact if_pos hc
      have e2 : emWhile M Qsel Isel false inp st =
          emWhile M Qsel Isel false inp (emBody M Qsel Isel false inp st) := by
        rw [emWhile]
        exact if_pos hc
      rw [e1, e2, emBody_mask]
      exact ih _ hlt _ rfl
    · have e1 : emWhile M Qsel Isel false { inp with ss_rf := f } st = st := by
        rw [emWhile]
        exact if_neg hc
      have e2 : emWhile M Qsel Isel false inp st = st := by
        rw [emWhile]
        exact if_neg hc
      rw [e1, e2]

end MaskIrrelevant

/-! ## A run on data without reads -/

section NoReads

variable {α : Type} [LinearOrderedField α]
variable (M : Libm α) (Qsel : Int → α → α → α → Int → α)
variable (inp : EMInput α) (r_c : Nat → α) (ep_c : α) (fam ind : Nat)

/-- When every emission of an individual is `1`, all forward weights are `1`
and the scaled forward vector is uniform at every marker. -/
theorem forward_uniform
    (hQ : ∀ snp, snp < inp.nSnps → ∀ s : Int, 0 ≤ s → s ≤ 3 →
      emis Qsel inp ep_c fam ind snp s = 1) :
    ∀ snp, snp < inp.nSnps →
      (forward Qsel inp r_c ep_c fam ind snp).w = 1 ∧
      ∀ s : Int, 0 ≤ s → s ≤ 3 → alphaTilde Qsel inp r_c ep_c fam ind snp s = 1 / 4 := by
  intro snp
  induction snp with
  | zero =>
    intro h0
    obtain ⟨hw, hA⟩ := forward_first_of_emis_one Qsel inp r_c ep_c fam ind (hQ 0 h0)
    refine ⟨hw, fun s hs0 hs3 => ?_⟩
    rw [hA s hs0 hs3]
    norm_num
  | succ t ih =>
    intro ht
    obtain ⟨_, hA⟩ := ih (by omega)
    have a0 := hA 0 (by norm_num) (by norm_num)
    have a1 := hA 1 (by norm_num) (by norm_num)
    have a2 := hA 2 (by norm_num) (by norm_num)
    have a3 := hA 3 (by norm_num) (by norm_num)
    obtain ⟨hw, hA1⟩ := forward_succ_of_emis_one Qsel inp r_c ep_c fam ind t (hQ (t + 1) ht)
      (by rw [a0, a1, a2, a3]; norm_num)
    refine ⟨hw, fun s hs0 hs3 => ?_⟩
    rw [hA1 s hs0 hs3, a0, a1, a2, a3]
    have hc := Tmat_ss_col s hs0 hs3 (r_c t) (r_c (t + inp.nSnps - 1))
    linear_combination (1 / 4 : α) * hc

/-- When every emission of an individual is `1`, the scaled backward vector is
`1` at every marker. -/
theorem backward_uniform (hel1 : M.exp (M.log 1) = 1)
    (hQ : ∀ snp, snp < inp.nSnps → ∀ s : Int, 0 ≤ s → s ≤ 3 →
      emis Qsel inp ep_c fam ind snp s = 1) :
    ∀ (k snp : Nat), snp + k + 1 = inp.nSnps → ∀ s : Int, 0 ≤ s → s ≤ 3 →
      betaTilde M Qsel inp r_c ep_c fam ind snp s = 1 := by
  intro k
  induction k with
  | zero =>
    intro snp hsnp s _ _
    have hlast : snp = inp.nSnps - 1 := by omega
    have hw := (forward_uniform Qsel inp r_c ep_c fam ind hQ snp (by omega)).1
    rw [hlast, betaTilde_last, ← hlast, hw, hel1, div_one]
  | succ k ih =>
    intro snp hsnp s hs0 hs3
    have hw := (forward_uniform Qsel inp r_c ep_c fam ind hQ snp (by omega)).1
    have hB := ih (snp + 1) (by omega)
    have hq := hQ (snp + 1) (by omega)
    rw [betaTilde_step M Qsel inp r_c ep_c fam ind snp (by omega), hw, hel1, div_one,
      hq 0 (by norm_num) (by norm_num), hq 1 (by norm_num) (by norm_num),
      hq 2 (by norm_num) (by norm_num), hq 3 (by norm_num) (by norm_num),
      hB 0 (by norm_num) (by norm_num), hB 1 (by norm_num) (by norm_num),
      hB 2 (by norm_num) (by norm_num), hB 3 (by norm_num) (by norm_num)]
    have hrow := Tmat_ss_row s hs0 hs3 (r_c snp) (r_c (snp + inp.nSnps - 1))
    linear_combination hrow

/-- When every emission of an individual is `1`, the joint posterior of an
interval is a quarter of the transition matrix. -/
theorem vProb_uniform (hel1 : M.exp (M.log 1) = 1)
    (hQ : ∀ snp, snp < inp.nSnps → ∀ s : Int, 0 ≤ s → s ≤ 3 →
      emis Qsel inp ep_c fam ind snp s = 1)
    (snp : Nat) (hsnp : snp + 1 < inp.nSnps) (s1 s2 : Int)
    (h1 : 0 ≤ s1 ∧ s1 ≤ 3) (h2 : 0 ≤ s2 ∧ s2 ≤ 3) :
    vProb M Qsel inp r_c ep_c fam ind snp s1 s2 =
      1 / 4 * Tmat_ss s1 s2 (r_c snp) (r_c (snp + inp.nSnps - 1)) := by
  unfold vProb
  rw [(forward_uniform Qsel inp r_c ep_c fam ind hQ snp (by omega)).2 s1 h1.1 h1.2,
    hQ (snp + 1) hsnp s2 h2.1 h2.2,
    backward_uniform M Qsel inp r_c ep_c fam ind hel1 hQ (inp.nSnps - 1 - (snp + 1)) (snp + 1)
      (by omega) s2 h2.1 h2.2]
  ring

/-- When every emission of every individual is `1`, the pooled accumulation of
an interval is `nTotal * (r_f + r_m)`. -/
theorem sumPooled_uniform (hel1 : M.exp (M.log 1) = 1)
    (hQ : ∀ fam ind snp, fam < inp.noFam → ind < inp.nInd fam → snp < inp.nSnps →
      ∀ s : Int, 0 ≤ s → s ≤ 3 → emis Qsel inp ep_c fam ind snp s = 1)
    (snp : Nat) (hsnp : snp + 1 < inp.nSnps) :
    sumPooled M Qsel inp r_c ep_c snp =
      (nTotal inp : α) * (r_c snp + r_c (snp + inp.nSnps - 1)) := by
  rw [sumPooled_eq]
  have hterm : ∀ fam ∈ Finset.range inp.noFam, ∀ ind ∈ Finset.range (inp.nInd fam),
      (vProb M Qsel inp r_c ep_c fam ind snp 0 1 + vProb M Qsel inp r_c ep_c fam ind snp 0 2
          + vProb M Qsel inp r_c ep_c fam ind snp 0 3 * 2
          + vProb M Qsel inp r_c ep_c fam ind snp 1 0
          + vProb M Qsel inp r_c ep_c fam ind snp 1 2 * 2
          + vProb M Qsel inp r_c ep_c fam ind snp 1 3
          + vProb M Qsel inp r_c ep_c fam ind snp 2 0
          + vProb M Qsel inp r_c ep_c fam ind snp 2 1 * 2
          + vProb M Qsel inp r_c ep_c fam ind snp 2 3
          + vProb M Qsel inp r_c ep_c fam ind snp 3 0 * 2
          + vProb M Qsel inp r_c ep_c fam ind snp 3 1
          + vProb M Qsel inp r_c ep_c fam ind snp 3 2)
        = r_c snp + r_c (snp + inp.nSnps - 1) := by
    intro fam hfam ind hind
    rw [Finset.mem_range] at hfam hind
    have hv := vProb_uniform M Qsel inp r_c ep_c fam ind hel1
      (fun t ht s hs0 hs3 => hQ fam ind t hfam hind ht s hs0 hs3) snp hsnp
    rw [hv 0 1 (by norm_num) (by norm_num), hv 0 2 (by norm_num) (by norm_num),
      hv 0 3 (by norm_num) (by norm_num), hv 1 0 (by norm_num) (by norm_num),
      hv 1 2 (by norm_num) (by norm_num), hv 1 3 (by norm_num) (by norm_num),
      hv 2 0 (by norm_num) (by norm_num), hv 2 1 (by norm_num) (by norm_num),
      hv 2 3 (by norm_num) (by norm_num), hv 3 0 (by norm_num) (by norm_num),
      hv 3 1 (by norm_num) (by norm_num), hv 3 2 (by norm_num) (by norm_num)]
    simp [Tmat_ss]
    ring
  rw [Finset.sum_congr rfl (fun fam hfam => Finset.sum_congr rfl (hterm fam hfam))]
  simp only [Finset.sum_const, Finset.card_range, nsmul_eq_mul]
  rw [← Finset.sum_mul]
  congr 1
  unfold nTotal
  rw [nTotalUpTo_eq_sum, Nat.cast_sum]

end NoReads

section PooledMask

variable {α : Type} [LinearOrderedField α]

theorem noReadsInput_emis (ep_c : α) (fam ind snp : Nat)
    (hfam : fam < (noReadsInput α).noFam) (hind : ind < (noReadsInput α).nInd fam)
    (hsnp : snp < (noReadsInput α).nSnps) (s : Int) (hs0 : 0 ≤ s) (hs3 : s ≤ 3) :
    emis Qentry (noReadsInput α) ep_c fam ind snp s = 1 :=
  emis_zero_depth Qentry Iindx (noReadsInput α) ep_c fam ind tableOK_known snp hfam hind hsnp
    ⟨show (1 : Int) ≤ 1 by decide, show (1 : Int) ≤ 16 by decide⟩ ⟨rfl, rfl⟩ s hs0 hs3

/-- On the data set without reads every round of the pooled loop body writes
`1/4` into both entries of the only interval. -/
theorem noReadsInput_run (M : Libm α) (hel1 : M.exp (M.log 1) = 1) (j : Nat) :
    ((emBody M Qentry Iindx false (noReadsInput α))^[j] (emInit false (noReadsInput α))).r_c 0
        = 1 / 4 ∧
    ((emBody M Qentry Iindx false (noReadsInput α))^[j] (emInit false (noReadsInput α))).r_c 1
        = 1 / 4 := by
  induction j with
  | zero =>
    constructor
    · show copy_r 2 (fun _ => (1 / 4 : α)) 0 = 1 / 4
      rw [copy_r_eq 2 _ 0 (by decide)]
    · show copy_r 2 (fun _ => (1 / 4 : α)) 1 = 1 / 4
      rw [copy_r_eq 2 _ 1 (by decide)]
  | succ n ih =>
    obtain ⟨h0, h1⟩ := ih
    rw [Function.iterate_succ_apply']
    have hN : ((nTotal (noReadsInput α) : Nat) : α) = 1 := by
      have : nTotal (noReadsInput α) = 1 := rfl
      rw [this, Nat.cast_one]
    have hs := sumPooled_uniform M Qentry (noReadsInput α)
      ((emBody M Qentry Iindx false (noReadsInput α))^[n] (emInit false (noReadsInput α))).r_c
      ((emBody M Qentry Iindx false (noReadsInput α))^[n] (emInit false (noReadsInput α))).ep_c
      hel1 (fun fam ind snp hfam hind hsnp s hs0 hs3 =>
        noReadsInput_emis _ fam ind snp hfam hind hsnp s hs0 hs3) 0
      (show 0 + 1 < 2 by decide)
    have hidx : 0 + (noReadsInput α).nSnps - 1 = 1 := rfl
    rw [hidx, h0, h1, hN] at hs
    obtain ⟨e0, e1⟩ := mstep_r_pooled M Qentry (noReadsInput α)
      ((emBody M Qentry Iindx false (noReadsInput α))^[n] (emInit false (noReadsInput α))).r_c
      ((emBody M Qentry Iindx false (noReadsInput α))^[n] (emInit false (noReadsInput α))).ep_c
      0 (show 0 < 2 - 1 by decide)
    have hidx2 : 0 + ((noReadsInput α).nSnps - 1) = 1 := rfl
    rw [hidx2] at e1
    simp only [emBody]
    rw [e0, e1, hs, hN]
    norm_num

/-- C12 fails on the code: on a data set without reads, run in pooled mode
(`sexSpec = 0`) with every entry flagged as not estimated (`ss_rf = 0`), the
returned entry `0` is `1/4`, not `0`. -/
theorem pooled_mask_counterexample :
    (noReadsInput ℝ).sexSpec = 0 ∧ (noReadsInput ℝ).ss_rf 0 = 0 ∧
    (EM_HMM ⟨Real.log, Real.exp⟩ (noReadsInput ℝ)).rout 0 = 1 / 4 ∧
    (EM_HMM ⟨Real.log, Real.exp⟩ (noReadsInput ℝ)).rout 0 ≠ 0 := by
  have hval : (EM_HMM ⟨Real.log, Real.exp⟩ (noReadsInput ℝ)).rout 0 = 1 / 4 := by
    obtain ⟨k, _, hk⟩ := emWhile_eq_iterate ⟨Real.log, Real.exp⟩ Qentry Iindx (noReadsInput ℝ)
      false (emInit false (noReadsInput ℝ)) rfl
    have hfin : EM_HMM_final ⟨Real.log, Real.exp⟩ (noReadsInput ℝ) =
        emWhile ⟨Real.log, Real.exp⟩ Qentry Iindx false (noReadsInput ℝ)
          (emInit false (noReadsInput ℝ)) := rfl
    simp only [EM_HMM, emOut]
    rw [copy_r_eq _ _ 0 (by decide), hfin, hk]
    exact (noReadsInput_run ⟨Real.log, Real.exp⟩ (by simp) k).1
  refine ⟨rfl, rfl, hval, ?_⟩
  rw [hval]
  norm_num

/-- C12 as amended: in `EM_HMM` with sex-specific estimation disabled
(`sexSpec = 0`) the mask `ss_rf` is not consulted: the value returned is the
same for every mask, so an entry flagged as not estimated is re-estimated by
the pooled M-step like every other entry. -/
theorem pooled_mode_ignores_mask (M : Libm α) (inp : EMInput α) (hpool : inp.sexSpec = 0)
    (f : Nat → Int) :
    EM_HMM M { inp with ss_rf := f } = EM_HMM M inp := by
  have hd : decide (inp.sexSpec ≠ 0) = false := by simp [hpool]
  have h1 : EM_HMM_final M { inp with ss_rf := f } =
      emWhile M Qentry Iindx false { inp with ss_rf := f } (emInit false inp) := by
    show emWhile M Qentry Iindx (decide (inp.sexSpec ≠ 0)) { inp with ss_rf := f }
      (emInit (decide (inp.sexSpec ≠ 0)) { inp with ss_rf := f }) = _
    rw [hd]
    rfl
  have h2 : EM_HMM_final M inp = emWhile M Qentry Iindx false inp (emInit false inp) := by
    show emWhile M Qentry Iindx (decide (inp.sexSpec ≠ 0)) inp
      (emInit (decide (inp.sexSpec ≠ 0)) inp) = _
    rw [hd]
  show emOut { inp with ss_rf := f } (EM_HMM_final M { inp with ss_rf := f })
    = emOut inp (EM_HMM_final M inp)
  rw [h1, h2, emWhile_mask M Qentry Iindx inp f _ (emInit false inp) rfl]
  rfl

theorem pooled_mode_ignores_mask_witness :
    EM_HMM ⟨Real.log, Real.exp⟩ { demoPooled ℝ with ss_rf := fun _ => 1 }
      = EM_HMM ⟨Real.log, Real.exp⟩ (demoPooled ℝ) :=
  pooled_mode_ignores_mask ⟨Real.log, Real.exp⟩ (demoPooled ℝ) (by decide) (fun _ => 1)

end PooledMask

/-! ## The binomial coefficient -/

section BinomialFacts

theorem gcd_ui_loop_eq : ∀ (y x : Nat), gcd_ui_loop x y = Nat.gcd x y := by
  intro y
  induction y using Nat.strong_induction_on with
  | _ y ih =>
    intro x
    rw [gcd_ui_loop]
    split_ifs with h
    · rw [ih (x % y) (Nat.mod_lt x h) y, Nat.gcd_comm y (x % y), ← Nat.gcd_rec, Nat.gcd_comm]
    · have : y = 0 := by omega
      rw [this, Nat.gcd_zero_right]

theorem gcd_ui_eq (x y : Nat) : gcd_ui x y = Nat.gcd x y := by
  unfold gcd_ui
  split_ifs
  · rw [gcd_ui_loop_eq, Nat.gcd_comm]
  · rw [gcd_ui_loop_eq]

theorem mul_lt_word {x n : Nat} (hn : 0 < n) (h : x < ULONG_MAX / n) :
    x * n < ULONG_MAX + 1 := by
  have h1 : x + 1 ≤ ULONG_MAX / n := h
  have h2 : (x + 1) * n ≤ ULONG_MAX := (Nat.le_div_iff_mul_le hn).mp h1
  have h3 : x * n ≤ (x + 1) * n := Nat.mul_le_mul_right n (Nat.le_succ x)
  omega

/-- One multiplication / division step of the binomial recurrence. -/
theorem choose_step (n0 d : Nat) (hd : 1 ≤ d) :
    Nat.choose n0 (d - 1) * (n0 + 1 - d) = Nat.choose n0 d * d := by
  obtain ⟨j, rfl⟩ : ∃ j, d = j + 1 := ⟨d - 1, by omega⟩
  have h := Nat.choose_succ_right_eq n0 j
  have e1 : j + 1 - 1 = j := by omega
  have e2 : n0 + 1 - (j + 1) = n0 - j := by omega
  rw [e1, e2, h]

/-- The reduced-fraction branch computes the same exact quotient. -/
theorem reduced_step {r n d C : Nat} (hd : 0 < d) (hn : 0 < n) (h : r * n = C * d) :
    Nat.gcd r (d / Nat.gcd n d) = d / Nat.gcd n d ∧
    d / Nat.gcd n d / (d / Nat.gcd n d) = 1 ∧
    r / (d / Nat.gcd n d) * (n / Nat.gcd n d) = C ∧
    0 < n / Nat.gcd n d := by
  have hg : 0 < Nat.gcd n d := Nat.gcd_pos_of_pos_right n hd
  have hn' : n / Nat.gcd n d * Nat.gcd n d = n := Nat.div_mul_cancel (Nat.gcd_dvd_left n d)
  have hd' : d / Nat.gcd n d * Nat.gcd n d = d := Nat.div_mul_cancel (Nat.gcd_dvd_right n d)
  have hdr : 0 < d / Nat.gcd n d := Nat.div_pos (Nat.le_of_dvd hd (Nat.gcd_dvd_right n d)) hg
  have hnr : 0 < n / Nat.gcd n d := Nat.div_pos (Nat.le_of_dvd hn (Nat.gcd_dvd_left n d)) hg
  have hcop : Nat.Coprime (d / Nat.gcd n d) (n / Nat.gcd n d) :=
    (Nat.coprime_div_gcd_div_gcd hg).symm
  have hmul : r * (n / Nat.gcd n d) = C * (d / Nat.gcd n d) := by
    have h2 : r * (n / Nat.gcd n d) * Nat.gcd n d = C * (d / Nat.gcd n d) * Nat.gcd n d := by
      rw [Nat.mul_assoc, hn', Nat.mul_assoc, hd', h]
    exact Nat.eq_of_mul_eq_mul_right hg h2
  have hdvd : d / Nat.gcd n d ∣ r :=
    hcop.dvd_of_dvd_mul_right ⟨C, by rw [hmul, Nat.mul_comm]⟩
  refine ⟨Nat.gcd_eq_right hdvd, Nat.div_self hdr, ?_, hnr⟩
  have hr : r / (d / Nat.gcd n d) * (d / Nat.gcd n d) = r := Nat.div_mul_cancel hdvd
  have h3 : r / (d / Nat.gcd n d) * (n / Nat.gcd n d) * (d / Nat.gcd n d)
      = C * (d / Nat.gcd n d) := by
    rw [Nat.mul_right_comm, hr, hmul]
  exact Nat.eq_of_mul_eq_mul_right hdr h3

/-- The loop either reports overflow or returns the exact coefficient, which
then fits a word. -/
theorem binomial_loop_spec (n0 k : Nat) (hk : 2 * k ≤ n0) (hn0 : n0 < ULONG_MAX + 1) :
    ∀ (fuel d r n : Nat), 1 ≤ d → d ≤ k + 1 → k + 2 ≤ fuel + d → n = n0 + 1 - d →
      r = Nat.choose n0 (d - 1) → r < ULONG_MAX + 1 →
      binomial_loop k fuel n d r = 0 ∨
        (binomial_loop k fuel n d r = Nat.choose n0 k ∧ Nat.choose n0 k < ULONG_MAX + 1) := by
  intro fuel
  induction fuel with
  | zero =>
    intro d r n _ hd2 hf
    omega
  | succ fuel ih =>
    intro d r n hd1 hd2 hf hn hr hrW
    rw [binomial_loop]
    by_cases hdk : d ≤ k
    · rw [if_pos hdk]
      have hU : ULONG_MAX = 18446744073709551615 := rfl
      have hnpos : 0 < n := by omega
      have hnext_n : (n + ULONG_MAX) % (ULONG_MAX + 1) = n0 + 1 - (d + 1) := by
        have : n + ULONG_MAX = (n - 1) + (ULONG_MAX + 1) := by omega
        rw [this, Nat.add_mod_right, Nat.mod_eq_of_lt (by omega)]
        omega
      have hnext_d : (d + 1) % (ULONG_MAX + 1) = d + 1 := Nat.mod_eq_of_lt (by omega)
      have hstep : r * n = Nat.choose n0 d * d := by
        rw [hr, hn]
        exact choose_step n0 d hd1
      have hd1' : d + 1 - 1 = d := by omega
      by_cases hbig : r ≥ ULONG_MAX / n
      · rw [if_pos hbig]
        obtain ⟨e1, e2, e3, hnr⟩ := reduced_step (by omega : 0 < d) hnpos hstep
        simp only [gcd_ui_eq, e1, e2]
        by_cases hbig2 : r / (d / Nat.gcd n d) ≥ ULONG_MAX / (n / Nat.gcd n d)
        · rw [if_pos hbig2]
          exact Or.inl rfl
        · rw [if_neg hbig2]
          have hlt := mul_lt_word hnr (Nat.lt_of_not_ge hbig2)
          rw [e3] at hlt
          rw [hnext_n, hnext_d, e3, Nat.mod_eq_of_lt hlt, Nat.div_one]
          exact ih (d + 1) (Nat.choose n0 d) (n0 + 1 - (d + 1)) (by omega) (by omega) (by omega)
            rfl (by rw [hd1']) hlt
      · rw [if_neg hbig]
        have hlt := mul_lt_word hnpos (Nat.lt_of_not_ge hbig)
        have hC : Nat.choose n0 d < ULONG_MAX + 1 := by
          have : Nat.choose n0 d ≤ Nat.choose n0 d * d := Nat.le_mul_of_pos_right _ (by omega)
          rw [hstep] at hlt
          omega
        rw [hnext_n, hnext_d, Nat.mod_eq_of_lt hlt, hstep,
          Nat.mul_div_cancel _ (by omega : 0 < d)]
        exact ih (d + 1) (Nat.choose n0 d) (n0 + 1 - (d + 1)) (by omega) (by omega) (by omega)
          rfl (by rw [hd1']) hC
    · rw [if_neg hdk]
      have hdk1 : d = k + 1 := by omega
      right
      have : d - 1 = k := by omega
      rw [this] at hr
      rw [hr] at hrW ⊢
      exact ⟨rfl, hrW⟩

/-- The value returned by `binomial` is the overflow sentinel `0` or the exact
coefficient, which then fits a word. -/
theorem binomial_spec (a b : Nat) (ha : a < ULONG_MAX + 1) (hb : b < ULONG_MAX + 1) :
    binomial a b = 0 ∨
      (binomial a b = Nat.choose (a + b) a ∧ Nat.choose (a + b) a < ULONG_MAX + 1) := by
  have hU : ULONG_MAX = 18446744073709551615 := rfl
  unfold binomial
  simp only
  by_cases ha0 : a = 0
  · rw [if_pos ha0]
    right
    subst ha0
    simp [hU]
  rw [if_neg ha0]
  by_cases ha1 : a = 1
  · rw [if_pos ha1]
    subst ha1
    by_cases hwrap : 1 + b < ULONG_MAX + 1
    · right
      rw [Nat.mod_eq_of_lt hwrap, Nat.choose_one_right]
      exact ⟨rfl, hwrap⟩
    · left
      have : 1 + b = ULONG_MAX + 1 := by omega
      rw [this, Nat.mod_self]
  rw [if_neg ha1]
  by_cases hge : a ≥ (a + b) % (ULONG_MAX + 1)
  · rw [if_pos hge]
    by_cases heq : a = (a + b) % (ULONG_MAX + 1)
    · rw [if_pos heq]
      right
      have hb0 : b = 0 := by
        by_cases hwrap : a + b < ULONG_MAX + 1
        · rw [Nat.mod_eq_of_lt hwrap] at heq
          omega
        · exfalso
          have e : a + b = (a + b - (ULONG_MAX + 1)) + (ULONG_MAX + 1) := by omega
          rw [e, Nat.add_mod_right, Nat.mod_eq_of_lt (by omega)] at heq
          omega
      subst hb0
      simp [hU]
    · rw [if_neg heq]
      exact Or.inl rfl
  rw [if_neg hge]
  have hnowrap : a + b < ULONG_MAX + 1 := by
    by_contra hwrap
    have e : a + b = (a + b - (ULONG_MAX + 1)) + (ULONG_MAX + 1) := by omega
    rw [e, Nat.add_mod_right, Nat.mod_eq_of_lt (by omega)] at hge
    omega
  rw [Nat.mod_eq_of_lt hnowrap] at hge ⊢
  by_cases hhalf : a > (a + b) / 2
  · rw [if_pos hhalf]
    have hk : (a + b + (ULONG_MAX + 1 - a)) % (ULONG_MAX + 1) = b := by
      have e : a + b + (ULONG_MAX + 1 - a) = b + (ULONG_MAX + 1) := by omega
      rw [e, Nat.add_mod_right, Nat.mod_eq_of_lt hb]
    rw [hk]
    have hsym : Nat.choose (a + b) b = Nat.choose (a + b) a := by
      have := Nat.choose_symm (Nat.le_add_right a b)
      rw [Nat.add_sub_cancel_left] at this
      exact this
    rw [← hsym]
    exact binomial_loop_spec (a + b) b (by omega) hnowrap (b + 1) 1 1 (a + b) (by omega)
      (by omega) (by omega) (by omega) (by simp) (by omega)
  · rw [if_neg hhalf]
    exact binomial_loop_spec (a + b) a (by omega) hnowrap (a + 1) 1 1 (a + b) (by omega)
      (by omega) (by omega) (by omega) (by simp) (by omega)

end BinomialFacts

section BinomialTheorems

/-- Claim C16: on 64-bit words `a`, `b`, whenever the true coefficient
`C(a+b, a)` exceeds `ULONG_MAX` (the sum `a + b` may itself exceed the word),
`binomial a b` returns the overflow sentinel `0`. -/
theorem binomial_overflow_sentinel (a b : Nat) (ha : a < ULONG_MAX + 1)
    (hb : b < ULONG_MAX + 1) (hbig : ULONG_MAX < Nat.choose (a + b) a) :
    binomial a b = 0 := by
  rcases binomial_spec a b ha hb with h | ⟨_, h⟩
  · exact h
  · omega

theorem binomial_overflow_sentinel_witness :
    ULONG_MAX < Nat.choose (2 + 8589934592) 2 ∧ binomial 2 8589934592 = 0 :=
  ⟨by rw [Nat.choose_two_right]; decide,
   binomial_overflow_sentinel 2 8589934592 (by decide) (by decide)
    (by rw [Nat.choose_two_right]; decide)⟩

/-- Claim C17: on 64-bit words `a`, `b`, a non-zero value returned by
`binomial a b` is exactly the binomial coefficient `C(a+b, a)`. -/
theorem binomial_nonzero_exact (a b : Nat) (ha : a < ULONG_MAX + 1)
    (hb : b < ULONG_MAX + 1) (hnz : binomial a b ≠ 0) :
    binomial a b = Nat.choose (a + b) a := by
  rcases binomial_spec a b ha hb with h | ⟨h, _⟩
  · exact absurd h hnz
  · exact h

theorem binomial_nonzero_exact_witness :
    binomial 2 3 ≠ 0 ∧ binomial 2 3 = Nat.choose (2 + 3) 2 :=
  ⟨by decide, binomial_nonzero_exact 2 3 (by decide) (by decide) (by decide)⟩

end BinomialTheorems

/-! ## The score function -/

section ScoreFacts

variable {α : Type} [LinearOrderedField α]

/-- With at least one individual the returned entry is the contribution of the
last individual alone. -/
theorem score_eq_last_contribution (M : Libm α) (inp : ScoreInput α) (stack : ScoreState α)
    (k p : Nat) (hk : inp.nInd = k + 1) (hp : p < inp.nSnps) :
    score_fs_scaled_err_c M inp stack p = scoreContribution M inp stack k p := by
  unfold score_fs_scaled_err_c scoreContribution
  rw [hk]
  show (scoreInd M inp k (scoreAfter M inp stack k)).score_c p = _
  unfold scoreInd
  simp only [hp, if_true]

theorem twoIndInput_scoreQ (ind snp : Nat) (s : Int) (hs0 : 0 ≤ s) (hs3 : s ≤ 3) :
    scoreQ (twoIndInput α) ind snp s = 1 := by
  have hs : s = 0 ∨ s = 1 ∨ s = 2 ∨ s = 3 := by omega
  rcases hs with rfl | rfl | rfl | rfl <;>
    simp [scoreQ, twoIndInput, Qentry, switchFrom, Qentry_case]

theorem twoIndInput_phi (M : Libm α) (hexp0 : M.exp 0 = 1) (ind : Nat) (st : ScoreState α)
    (s2 : Int) (hs0 : 0 ≤ s2) (hs3 : s2 ≤ 3) :
    (scoreRecursions M (twoIndInput α) ind st).phi s2 0 = 3 / 32 := by
  have hQ : ∀ snp (s : Int), 0 ≤ s → s ≤ 3 → scoreQ (twoIndInput α) ind snp s = 1 :=
    fun snp s h0 h3 => twoIndInput_scoreQ ind snp s h0 h3
  have hs : s2 = 0 ∨ s2 = 1 ∨ s2 = 2 ∨ s2 = 3 := by omega
  show (scoreStep M (twoIndInput α) ind 1 (scoreFirst M (twoIndInput α) ind st)).phi s2 0 = _
  rcases hs with rfl | rfl | rfl | rfl <;>
    · simp only [scoreStep, scoreFirst, sum4_eq]
      simp only [hQ 0 0 (by norm_num) (by norm_num), hQ 0 1 (by norm_num) (by norm_num),
        hQ 0 2 (by norm_num) (by norm_num), hQ 0 3 (by norm_num) (by norm_num),
        hQ 1 0 (by norm_num) (by norm_num), hQ 1 1 (by norm_num) (by norm_num),
        hQ 1 2 (by norm_num) (by norm_num), hQ 1 3 (by norm_num) (by norm_num)]
      simp [twoIndInput, Tmat, der_rf, pow, hexp0]
      norm_num

end ScoreFacts

section ScoreTheorem

/-- Claim C18 fails in the code: on `twoIndInput` (two individuals, two markers)
each individual contributes `3/32` per state, so `3/8`, to the entry of the only
interval parameter; the two contributions add up to `3/4`, but the entry returned
by `score_fs_scaled_err_c` is `3/8`, the contribution of the last individual,
because `score_c[snp_der] = sum_der` overwrites the entry for every individual. -/
theorem score_keeps_last_individual_only :
    score_fs_scaled_err_c ⟨Real.log, Real.exp⟩ (twoIndInput ℝ) (zeroStack ℝ) 0 = 3 / 8 ∧
    scoreContribution ⟨Real.log, Real.exp⟩ (twoIndInput ℝ) (zeroStack ℝ) 0 0 +
      scoreContribution ⟨Real.log, Real.exp⟩ (twoIndInput ℝ) (zeroStack ℝ) 1 0 = 3 / 4 := by
  have hc : ∀ ind, scoreContribution ⟨Real.log, Real.exp⟩ (twoIndInput ℝ) (zeroStack ℝ) ind 0
      = 3 / 8 := by
    intro ind
    unfold scoreContribution
    rw [sum4_eq]
    rw [twoIndInput_phi ⟨Real.log, Real.exp⟩ Real.exp_zero ind _ 0 (by norm_num) (by norm_num),
      twoIndInput_phi ⟨Real.log, Real.exp⟩ Real.exp_zero ind _ 1 (by norm_num) (by norm_num),
      twoIndInput_phi ⟨Real.log, Real.exp⟩ Real.exp_zero ind _ 2 (by norm_num) (by norm_num),
      twoIndInput_phi ⟨Real.log, Real.exp⟩ Real.exp_zero ind _ 3 (by norm_num) (by norm_num)]
    norm_num
  refine ⟨?_, ?_⟩
  · rw [score_eq_last_contribution ⟨Real.log, Real.exp⟩ (twoIndInput ℝ) (zeroStack ℝ) 1 0 rfl
      (by decide)]
    exact hc 1
  · rw [hc 0, hc 1]
    norm_num

end ScoreTheorem

/-! ## Monotonicity of the EM iteration

The logarithm enters through two laws only: `log (x * y) = log x + log y` and
`log x ≤ x - 1` for positive arguments. -/

section LogToolkit

variable {α : Type} [LinearOrderedField α] (M : Libm α)

theorem log_one_of_mul
    (hmul : ∀ x y : α, 0 < x → 0 < y → M.log (x * y) = M.log x + M.log y) : M.log 1 = 0 := by
  have h := hmul 1 1 one_pos one_pos
  rw [mul_one] at h
  linarith

theorem log_div_of_mul
    (hmul : ∀ x y : α, 0 < x → 0 < y → M.log (x * y) = M.log x + M.log y)
    {x y : α} (hx : 0 < x) (hy : 0 < y) : M.log (x / y) = M.log x - M.log y := by
  have h := hmul (x / y) y (div_pos hx hy) hy
  rw [div_mul_cancel₀ _ hy.ne.symm] at h
  linarith

theorem log_pow_of_mul
    (hmul : ∀ x y : α, 0 < x → 0 < y → M.log (x * y) = M.log x + M.log y)
    {x : α} (hx : 0 < x) (n : Nat) : M.log (x ^ n) = (n : α) * M.log x := by
  induction n with
  | zero => simp [log_one_of_mul M hmul]
  | succ k ih =>
    rw [pow_succ, hmul _ _ (pow_pos hx k) hx, ih]
    push_cast
    ring

theorem log_diff_le
    (hmul : ∀ x y : α, 0 < x → 0 < y → M.log (x * y) = M.log x + M.log y)
    (hle : ∀ x : α, 0 < x → M.log x ≤ x - 1)
    {x z : α} (hx : 0 < x) (hz : 0 < z) : M.log x - M.log z ≤ x / z - 1 := by
  rw [← log_div_of_mul M hmul hx hz]
  exact hle _ (div_pos hx hz)

theorem pos_right_of_mul_pos {a b : α} (h : 0 < a * b) (ha : 0 ≤ a) : 0 < b := by
  by_contra hb
  have hb1 : 0 ≤ -b := by linarith
  have := mul_nonneg ha hb1
  linarith

theorem pos_left_of_mul_pos {a b : α} (h : 0 < a * b) (hb : 0 ≤ b) : 0 < a :=
  pos_right_of_mul_pos (by rwa [mul_comm] at h) hb

/-- The log-sum inequality for finitely many non-negative weights. -/
theorem log_sum_ineq
    (hmul : ∀ x y : α, 0 < x → 0 < y → M.log (x * y) = M.log x + M.log y)
    (hle : ∀ x : α, 0 < x → M.log x ≤ x - 1)
    {ι : Type} (S : Finset ι) (p q : ι → α)
    (hp : ∀ i ∈ S, 0 ≤ p i) (hq : ∀ i ∈ S, 0 ≤ q i) (hpq : ∀ i ∈ S, 0 < p i → 0 < q i)
    (hP : 0 < ∑ i in S, p i) (hQ : 0 < ∑ i in S, q i) :
    ∑ i in S, p i * (M.log (q i) - M.log (p i)) ≤
      (∑ i in S, p i) * (M.log (∑ i in S, q i) - M.log (∑ i in S, p i)) := by
  have hterm : ∀ i ∈ S, p i * (M.log (q i) - M.log (p i)) ≤
      p i * (M.log (∑ i in S, q i) - M.log (∑ i in S, p i))
        + (q i * ((∑ i in S, p i) / (∑ i in S, q i)) - p i) := by
    intro i hi
    rcases eq_or_lt_of_le (hp i hi) with hz | hpos
    · rw [← hz]
      have : 0 ≤ q i * ((∑ i in S, p i) / (∑ i in S, q i)) :=
        mul_nonneg (hq i hi) (div_pos hP hQ).le
      simpa using this
    · have hqi := hpq i hi hpos
      have h1 := log_diff_le M hmul hle (mul_pos hqi hP) (mul_pos hpos hQ)
      rw [hmul _ _ hqi hP, hmul _ _ hpos hQ] at h1
      have h2 := mul_le_mul_of_nonneg_left h1 hpos.le
      have e : p i * (q i * (∑ i in S, p i) / (p i * ∑ i in S, q i) - 1) =
          q i * ((∑ i in S, p i) / (∑ i in S, q i)) - p i := by
        field_simp
        ring
      rw [e] at h2
      linarith
  have hsum := Finset.sum_le_sum hterm
  rw [Finset.sum_add_distrib, ← Finset.sum_mul, Finset.sum_sub_distrib, ← Finset.sum_mul,
    mul_div_cancel₀ _ hQ.ne.symm, sub_self, add_zero] at hsum
  exact hsum

/-- Two-point Gibbs inequality in the form used by the M-steps: the weighted
mean `A / (A + B)` maximises `A log x + B log (1 - x)`. -/
theorem two_point_gibbs
    (hmul : ∀ x y : α, 0 < x → 0 < y → M.log (x * y) = M.log x + M.log y)
    (hle : ∀ x : α, 0 < x → M.log x ≤ x - 1)
    {A B x y x' y' : α} (hA : 0 ≤ A) (hB : 0 ≤ B) (hx0 : 0 ≤ x) (hy0 : 0 ≤ y)
    (hxy : x + y ≤ 1) (hxA : 0 < A → 0 < x) (hyB : 0 < B → 0 < y)
    (hx' : 0 < A → x' = A / (A + B)) (hy' : 0 < B → y' = B / (A + B)) :
    0 ≤ A * (M.log x' - M.log x) + B * (M.log y' - M.log y) := by
  have key : ∀ {A B x x' : α}, 0 ≤ A → 0 ≤ B → 0 ≤ x → (0 < A → 0 < x) →
      (0 < A → x' = A / (A + B)) → A * (M.log x - M.log x') ≤ (A + B) * x - A := by
    intro A B x x' hA hB hx0 hxA hx'
    rcases eq_or_lt_of_le hA with hz | hpos
    · rw [← hz]
      have := mul_nonneg hB hx0
      simpa using this
    · have hx := hxA hpos
      have hAB : 0 < A + B := by linarith
      have hxp : 0 < x' := by
        rw [hx' hpos]
        exact div_pos hpos hAB
      have h1 := mul_le_mul_of_nonneg_left (log_diff_le M hmul hle hx hxp) hpos.le
      have e : A * (x / x' - 1) = (A + B) * x - A := by
        rw [hx' hpos]
        field_simp
        ring
      rw [e] at h1
      exact h1
  have h1 := key hA hB hx0 hxA hx'
  have h2 : B * (M.log y - M.log y') ≤ (B + A) * y - B :=
    key hB hA hy0 hyB (fun h => by rw [hy' h, add_comm])
  have h3 : (A + B) * (x + y) ≤ (A + B) * 1 :=
    mul_le_mul_of_nonneg_left hxy (add_nonneg hA hB)
  nlinarith

end LogToolkit

section Marginals

variable {α : Type} [LinearOrderedField α]
variable (M : Libm α) (Qsel : Int → α → α → α → Int → α)
variable (inp : EMInput α) (r_c : Nat → α) (ep_c : α) (fam ind : Nat)

theorem sum_range4 {β : Type} [AddCommMonoid β] (f : Nat → β) :
    ∑ s in Finset.range 4, f s = f 0 + f 1 + f 2 + f 3 := by
  simp [Finset.sum_range_succ]

theorem alphaTilde_zero_mul_w (hr : ∀ i, 0 ≤ r_c i ∧ r_c i ≤ 1)
    (hQ : ∀ snp, snp < inp.nSnps → ∀ s : Int, 0 ≤ s → s ≤ 3 →
      0 < emis Qsel inp ep_c fam ind snp s)
    (hL : 0 < inp.nSnps) (s : Int) :
    alphaTilde Qsel inp r_c ep_c fam ind 0 s * (forward Qsel inp r_c ep_c fam ind 0).w
      = 0.25 * emis Qsel inp ep_c fam ind 0 s := by
  have hw := forward_w_pos Qsel inp r_c ep_c fam ind hr hQ 0 hL
  rw [← alphaDot_eq_mul Qsel inp r_c ep_c fam ind 0 s hw.ne.symm]
  rfl

/-- The scaled forward value times its weight is the emission times the mass
that the previous forward vector sends into the state. -/
theorem alphaTilde_succ_mul_w (hr : ∀ i, 0 ≤ r_c i ∧ r_c i ≤ 1)
    (hQ : ∀ snp, snp < inp.nSnps → ∀ s : Int, 0 ≤ s → s ≤ 3 →
      0 < emis Qsel inp ep_c fam ind snp s)
    (snp : Nat) (hsnp : snp + 1 < inp.nSnps) (s2 : Int) :
    alphaTilde Qsel inp r_c ep_c fam ind (snp + 1) s2
        * (forward Qsel inp r_c ep_c fam ind (snp + 1)).w
      = emis Qsel inp ep_c fam ind (snp + 1) s2 *
        ∑ s1 in Finset.range 4, Tmat_ss (s1 : Int) s2 (r_c snp) (r_c (snp + inp.nSnps - 1))
          * alphaTilde Qsel inp r_c ep_c fam ind snp (s1 : Int) := by
  have hw := forward_w_pos Qsel inp r_c ep_c fam ind hr hQ (snp + 1) hsnp
  rw [← alphaDot_eq_mul Qsel inp r_c ep_c fam ind (snp + 1) s2 hw.ne.symm, alphaDot_succ,
    sum_range4]
  simp only [Nat.cast_zero, Nat.cast_one, Nat.cast_ofNat]

theorem uProb_succ_eq (hel : ∀ x : α, 0 < x → M.exp (M.log x) = x)
    (hen : ∀ x : α, M.exp (-x) = (M.exp x)⁻¹)
    (hr : ∀ i, 0 ≤ r_c i ∧ r_c i ≤ 1)
    (hQ : ∀ snp, snp < inp.nSnps → ∀ s : Int, 0 ≤ s → s ≤ 3 →
      0 < emis Qsel inp ep_c fam ind snp s)
    (snp : Nat) (hsnp : snp + 1 < inp.nSnps) (s2 : Int) :
    uProb M Qsel inp r_c ep_c fam ind (snp + 1) s2
      = emis Qsel inp ep_c fam ind (snp + 1) s2
          * betaTilde M Qsel inp r_c ep_c fam ind (snp + 1) s2 *
        ∑ s1 in Finset.range 4, Tmat_ss (s1 : Int) s2 (r_c snp) (r_c (snp + inp.nSnps - 1))
          * alphaTilde Qsel inp r_c ep_c fam ind snp (s1 : Int) := by
  have hw := forward_w_pos Qsel inp r_c ep_c fam ind hr hQ (snp + 1) hsnp
  rw [uProb_eq M Qsel inp r_c ep_c fam ind hen (snp + 1) s2 (hel _ hw)]
  have h := alphaTilde_succ_mul_w Qsel inp r_c ep_c fam ind hr hQ snp hsnp s2
  linear_combination betaTilde M Qsel inp r_c ep_c fam ind (snp + 1) s2 * h

theorem vProb_eq_weight (snp : Nat) (s1 s2 : Int) :
    vProb M Qsel inp r_c ep_c fam ind snp s1 s2
      = emis Qsel inp ep_c fam ind (snp + 1) s2
          * betaTilde M Qsel inp r_c ep_c fam ind (snp + 1) s2 *
        (Tmat_ss s1 s2 (r_c snp) (r_c (snp + inp.nSnps - 1))
          * alphaTilde Qsel inp r_c ep_c fam ind snp s1) := by
  unfold vProb
  ring

/-- Summing the joint posterior over the target state gives the occupation
posterior of the source state. -/
theorem vProb_row_sum (hel : ∀ x : α, 0 < x → M.exp (M.log x) = x)
    (hen : ∀ x : α, M.exp (-x) = (M.exp x)⁻¹)
    (hr : ∀ i, 0 ≤ r_c i ∧ r_c i ≤ 1)
    (hQ : ∀ snp, snp < inp.nSnps → ∀ s : Int, 0 ≤ s → s ≤ 3 →
      0 < emis Qsel inp ep_c fam ind snp s)
    (snp : Nat) (hsnp : snp + 1 < inp.nSnps) (s1 : Int) :
    ∑ s2 in Finset.range 4, vProb M Qsel inp r_c ep_c fam ind snp s1 (s2 : Int)
      = uProb M Qsel inp r_c ep_c fam ind snp s1 := by
  have hw := forward_w_pos Qsel inp r_c ep_c fam ind hr hQ snp (by omega)
  rw [uProb_eq M Qsel inp r_c ep_c fam ind hen snp s1 (hel _ hw),
    betaTilde_step M Qsel inp r_c ep_c fam ind snp hsnp s1, hel _ hw, sum_range4]
  simp only [Nat.cast_zero, Nat.cast_one, Nat.cast_ofNat, vProb]
  field_simp
  ring

/-- Summing the joint posterior over the source state gives the occupation
posterior of the target state. -/
theorem vProb_col_sum (hel : ∀ x : α, 0 < x → M.exp (M.log x) = x)
    (hen : ∀ x : α, M.exp (-x) = (M.exp x)⁻¹)
    (hr : ∀ i, 0 ≤ r_c i ∧ r_c i ≤ 1)
    (hQ : ∀ snp, snp < inp.nSnps → ∀ s : Int, 0 ≤ s → s ≤ 3 →
      0 < emis Qsel inp ep_c fam ind snp s)
    (snp : Nat) (hsnp : snp + 1 < inp.nSnps) (s2 : Int) :
    ∑ s1 in Finset.range 4, vProb M Qsel inp r_c ep_c fam ind snp (s1 : Int) s2
      = uProb M Qsel inp r_c ep_c fam ind (snp + 1) s2 := by
  rw [uProb_succ_eq M Qsel inp r_c ep_c fam ind hel hen hr hQ snp hsnp s2, Finset.mul_sum]
  exact Finset.sum_congr rfl (fun s1 _ => vProb_eq_weight M Qsel inp r_c ep_c fam ind snp _ s2)

theorem uProb_last (hel : ∀ x : α, 0 < x → M.exp (M.log x) = x)
    (hen : ∀ x : α, M.exp (-x) = (M.exp x)⁻¹)
    (hr : ∀ i, 0 ≤ r_c i ∧ r_c i ≤ 1)
    (hQ : ∀ snp, snp < inp.nSnps → ∀ s : Int, 0 ≤ s → s ≤ 3 →
      0 < emis Qsel inp ep_c fam ind snp s)
    (hL : 0 < inp.nSnps) (s : Int) :
    uProb M Qsel inp r_c ep_c fam ind (inp.nSnps - 1) s
      = alphaTilde Qsel inp r_c ep_c fam ind (inp.nSnps - 1) s := by
  have hw := forward_w_pos Qsel inp r_c ep_c fam ind hr hQ (inp.nSnps - 1) (by omega)
  rw [uProb_eq M Qsel inp r_c ep_c fam ind hen _ s (hel _ hw), betaTilde_last, hel _ hw]
  field_simp

end Marginals

section AuxiliaryInequality

variable {α : Type} [LinearOrderedField α]
variable (M : Libm α) (Qsel : Int → α → α → α → Int → α)
variable (inp : EMInput α) (r_c : Nat → α) (ep_c : α) (r_n : Nat → α) (ep_n : α)
variable (fam ind : Nat)

/-- One column of the forward recursion, compared between the old parameters
`(r_c, ep_c)` and the new parameters `(r_n, ep_n)`: the log-sum inequality applied
to the mass entering state `s2`. -/
theorem em_column_step
    (hel : ∀ x : α, 0 < x → M.exp (M.log x) = x)
    (hen : ∀ x : α, M.exp (-x) = (M.exp x)⁻¹)
    (hmul : ∀ x y : α, 0 < x → 0 < y → M.log (x * y) = M.log x + M.log y)
    (hle : ∀ x : α, 0 < x → M.log x ≤ x - 1)
    (hr : ∀ i, 0 ≤ r_c i ∧ r_c i ≤ 1) (hrn : ∀ i, 0 ≤ r_n i ∧ r_n i ≤ 1)
    (hQ : ∀ snp, snp < inp.nSnps → ∀ s : Int, 0 ≤ s → s ≤ 3 →
      0 < emis Qsel inp ep_c fam ind snp s)
    (hQn : ∀ snp, snp < inp.nSnps → ∀ s : Int, 0 ≤ s → s ≤ 3 →
      0 < emis Qsel inp ep_n fam ind snp s)
    (snp : Nat) (hsnp : snp + 1 < inp.nSnps)
    (hsupp : ∀ s1 s2 : Int, 0 ≤ s1 → s1 ≤ 3 → 0 ≤ s2 → s2 ≤ 3 →
      0 < Tmat_ss s1 s2 (r_c snp) (r_c (snp + inp.nSnps - 1)) →
      0 < Tmat_ss s1 s2 (r_n snp) (r_n (snp + inp.nSnps - 1)))
    (s2 : Int) (hs0 : 0 ≤ s2) (hs3 : s2 ≤ 3) :
    uProb M Qsel inp r_c ep_c fam ind (snp + 1) s2 *
        (M.log (emis Qsel inp ep_n fam ind (snp + 1) s2)
          - M.log (emis Qsel inp ep_c fam ind (snp + 1) s2))
      + ∑ s1 in Finset.range 4, vProb M Qsel inp r_c ep_c fam ind snp (s1 : Int) s2 *
          ((M.log (Tmat_ss (s1 : Int) s2 (r_n snp) (r_n (snp + inp.nSnps - 1)))
              - M.log (Tmat_ss (s1 : Int) s2 (r_c snp) (r_c (snp + inp.nSnps - 1))))
            + (M.log (alphaTilde Qsel inp r_n ep_n fam ind snp (s1 : Int))
              - M.log (alphaTilde Qsel inp r_c ep_c fam ind snp (s1 : Int))))
      ≤ uProb M Qsel inp r_c ep_c fam ind (snp + 1) s2 *
        ((M.log (alphaTilde Qsel inp r_n ep_n fam ind (snp + 1) s2)
            - M.log (alphaTilde Qsel inp r_c ep_c fam ind (snp + 1) s2))
          + (M.log (forward Qsel inp r_n ep_n fam ind (snp + 1)).w
            - M.log (forward Qsel inp r_c ep_c fam ind (snp + 1)).w)) := by
  -- positivity
  have ha : ∀ s : Nat, s ∈ Finset.range 4 →
      0 < alphaTilde Qsel inp r_c ep_c fam ind snp (s : Int) := fun s hs =>
    alphaTilde_pos Qsel inp r_c ep_c fam ind hr hQ snp (by omega) _
      (by omega) (by have := Finset.mem_range.mp hs; omega)
  have han : ∀ s : Nat, s ∈ Finset.range 4 →
      0 < alphaTilde Qsel inp r_n ep_n fam ind snp (s : Int) := fun s hs =>
    alphaTilde_pos Qsel inp r_n ep_n fam ind hrn hQn snp (by omega) _
      (by omega) (by have := Finset.mem_range.mp hs; omega)
  have hT : ∀ s : Nat, 0 ≤ Tmat_ss (s : Int) s2 (r_c snp) (r_c (snp + inp.nSnps - 1)) :=
    fun s => Tmat_ss_nonneg _ _ (hr _) (hr _)
  have hTn : ∀ s : Nat, 0 ≤ Tmat_ss (s : Int) s2 (r_n snp) (r_n (snp + inp.nSnps - 1)) :=
    fun s => Tmat_ss_nonneg _ _ (hrn _) (hrn _)
  have hw := forward_w_pos Qsel inp r_c ep_c fam ind hr hQ (snp + 1) hsnp
  have hwn := forward_w_pos Qsel inp r_n ep_n fam ind hrn hQn (snp + 1) hsnp
  have ha1 := alphaTilde_pos Qsel inp r_c ep_c fam ind hr hQ (snp + 1) hsnp s2 hs0 hs3
  have ha1n := alphaTilde_pos Qsel inp r_n ep_n fam ind hrn hQn (snp + 1) hsnp s2 hs0 hs3
  have hq := hQ (snp + 1) hsnp s2 hs0 hs3
  have hqn := hQn (snp + 1) hsnp s2 hs0 hs3
  have hb := betaTilde_pos M Qsel inp r_c ep_c fam ind hel hr hQ (inp.nSnps - 1 - (snp + 1))
    (snp + 1) (by omega) s2 hs0 hs3
  have e := alphaTilde_succ_mul_w Qsel inp r_c ep_c fam ind hr hQ snp hsnp s2
  have en := alphaTilde_succ_mul_w Qsel inp r_n ep_n fam ind hrn hQn snp hsnp s2
  have hD : 0 < ∑ s1 in Finset.range 4,
      Tmat_ss (s1 : Int) s2 (r_c snp) (r_c (snp + inp.nSnps - 1))
        * alphaTilde Qsel inp r_c ep_c fam ind snp (s1 : Int) := by
    have h := mul_pos ha1 hw
    rw [e] at h
    exact pos_right_of_mul_pos h hq.le
  have hDn : 0 < ∑ s1 in Finset.range 4,
      Tmat_ss (s1 : Int) s2 (r_n snp) (r_n (snp + inp.nSnps - 1))
        * alphaTilde Qsel inp r_n ep_n fam ind snp (s1 : Int) := by
    have h := mul_pos ha1n hwn
    rw [en] at h
    exact pos_right_of_mul_pos h hqn.le
  -- logarithms of the two factorisations
  have l := congrArg M.log e
  have ln := congrArg M.log en
  rw [hmul _ _ ha1 hw, hmul _ _ hq hD] at l
  rw [hmul _ _ ha1n hwn, hmul _ _ hqn hDn] at ln
  -- the log-sum inequality
  have hls := log_sum_ineq M hmul hle (Finset.range 4)
    (fun s1 : Nat => Tmat_ss (s1 : Int) s2 (r_c snp) (r_c (snp + inp.nSnps - 1))
        * alphaTilde Qsel inp r_c ep_c fam ind snp (s1 : Int))
    (fun s1 : Nat => Tmat_ss (s1 : Int) s2 (r_n snp) (r_n (snp + inp.nSnps - 1))
        * alphaTilde Qsel inp r_n ep_n fam ind snp (s1 : Int))
    (fun s hs => mul_nonneg (hT s) (ha s hs).le)
    (fun s hs => mul_nonneg (hTn s) (han s hs).le)
    (fun s hs hpos => by
      have hTpos : 0 < Tmat_ss (s : Int) s2 (r_c snp) (r_c (snp + inp.nSnps - 1)) :=
        pos_left_of_mul_pos hpos (ha s hs).le
      exact mul_pos (hsupp _ _ (by omega) (by have := Finset.mem_range.mp hs; omega)
        hs0 hs3 hTpos) (han s hs))
    hD hDn
  have hterm : ∀ s1 ∈ Finset.range 4,
      vProb M Qsel inp r_c ep_c fam ind snp ((s1 : Nat) : Int) s2 *
          ((M.log (Tmat_ss (s1 : Int) s2 (r_n snp) (r_n (snp + inp.nSnps - 1)))
              - M.log (Tmat_ss (s1 : Int) s2 (r_c snp) (r_c (snp + inp.nSnps - 1))))
            + (M.log (alphaTilde Qsel inp r_n ep_n fam ind snp (s1 : Int))
              - M.log (alphaTilde Qsel inp r_c ep_c fam ind snp (s1 : Int))))
        = emis Qsel inp ep_c fam ind (snp + 1) s2
            * betaTilde M Qsel inp r_c ep_c fam ind (snp + 1) s2 *
          ((fun s1 : Nat => Tmat_ss (s1 : Int) s2 (r_c snp) (r_c (snp + inp.nSnps - 1))
              * alphaTilde Qsel inp r_c ep_c fam ind snp (s1 : Int)) s1 *
            (M.log ((fun s1 : Nat => Tmat_ss (s1 : Int) s2 (r_n snp)
                (r_n (snp + inp.nSnps - 1))
                * alphaTilde Qsel inp r_n ep_n fam ind snp (s1 : Int)) s1)
              - M.log ((fun s1 : Nat => Tmat_ss (s1 : Int) s2 (r_c snp)
                (r_c (snp + inp.nSnps - 1))
                * alphaTilde Qsel inp r_c ep_c fam ind snp (s1 : Int)) s1))) := by
    intro s1 hs1
    rw [vProb_eq_weight]
    simp only
    rcases eq_or_lt_of_le (hT s1) with hz | hpos
    · rw [← hz]
      simp
    · have hposn := hsupp _ _ (by omega) (by have := Finset.mem_range.mp hs1; omega)
        hs0 hs3 hpos
      rw [hmul _ _ hposn (han s1 hs1), hmul _ _ hpos (ha s1 hs1)]
      ring
  rw [Finset.sum_congr rfl hterm, ← Finset.mul_sum,
    uProb_succ_eq M Qsel inp r_c ep_c fam ind hel hen hr hQ snp hsnp s2]
  have hk : 0 ≤ emis Qsel inp ep_c fam ind (snp + 1) s2
      * betaTilde M Qsel inp r_c ep_c fam ind (snp + 1) s2 := (mul_pos hq hb).le
  have h2 := mul_le_mul_of_nonneg_left hls hk
  simp only at h2
  have e3 : (M.log (alphaTilde Qsel inp r_n ep_n fam ind (snp + 1) s2)
            - M.log (alphaTilde Qsel inp r_c ep_c fam ind (snp + 1) s2))
          + (M.log (forward Qsel inp r_n ep_n fam ind (snp + 1)).w
            - M.log (forward Qsel inp r_c ep_c fam ind (snp + 1)).w)
      = (M.log (emis Qsel inp ep_n fam ind (snp + 1) s2)
          - M.log (emis Qsel inp ep_c fam ind (snp + 1) s2))
        + (M.log (∑ s1 in Finset.range 4,
              Tmat_ss (s1 : Int) s2 (r_n snp) (r_n (snp + inp.nSnps - 1))
                * alphaTilde Qsel inp r_n ep_n fam ind snp (s1 : Int))
          - M.log (∑ s1 in Finset.range 4,
              Tmat_ss (s1 : Int) s2 (r_c snp) (r_c (snp + inp.nSnps - 1))
                * alphaTilde Qsel inp r_c ep_c fam ind snp (s1 : Int))) := by
    linear_combination ln - l
  rw [e3]
  linear_combination h2

/-- Induction over the markers: the expected complete-data gain up to marker
`t` is bounded by the gain in the partial log-likelihood plus the potential
`∑ u_t (log a'_t - log a_t)`. -/
theorem em_individual_induction
    (hel : ∀ x : α, 0 < x → M.exp (M.log x) = x)
    (hen : ∀ x : α, M.exp (-x) = (M.exp x)⁻¹)
    (hmul : ∀ x y : α, 0 < x → 0 < y → M.log (x * y) = M.log x + M.log y)
    (hle : ∀ x : α, 0 < x → M.log x ≤ x - 1)
    (hr : ∀ i, 0 ≤ r_c i ∧ r_c i ≤ 1) (hrn : ∀ i, 0 ≤ r_n i ∧ r_n i ≤ 1)
    (hQ : ∀ snp, snp < inp.nSnps → ∀ s : Int, 0 ≤ s → s ≤ 3 →
      0 < emis Qsel inp ep_c fam ind snp s)
    (hQn : ∀ snp, snp < inp.nSnps → ∀ s : Int, 0 ≤ s → s ≤ 3 →
      0 < emis Qsel inp ep_n fam ind snp s)
    (hsupp : ∀ snp, snp + 1 < inp.nSnps → ∀ s1 s2 : Int, 0 ≤ s1 → s1 ≤ 3 → 0 ≤ s2 → s2 ≤ 3 →
      0 < Tmat_ss s1 s2 (r_c snp) (r_c (snp + inp.nSnps - 1)) →
      0 < Tmat_ss s1 s2 (r_n snp) (r_n (snp + inp.nSnps - 1))) :
    ∀ t, t < inp.nSnps →
      (∑ j in Finset.range (t + 1), ∑ s in Finset.range 4,
          uProb M Qsel inp r_c ep_c fam ind j (s : Int) *
            (M.log (emis Qsel inp ep_n fam ind j (s : Int))
              - M.log (emis Qsel inp ep_c fam ind j (s : Int))))
        + (∑ j in Finset.range t, ∑ s2 in Finset.range 4, ∑ s1 in Finset.range 4,
          vProb M Qsel inp r_c ep_c fam ind j (s1 : Int) (s2 : Int) *
            (M.log (Tmat_ss (s1 : Int) (s2 : Int) (r_n j) (r_n (j + inp.nSnps - 1)))
              - M.log (Tmat_ss (s1 : Int) (s2 : Int) (r_c j) (r_c (j + inp.nSnps - 1)))))
      ≤ (∑ s in Finset.range 4, uProb M Qsel inp r_c ep_c fam ind t (s : Int) *
            (M.log (alphaTilde Qsel inp r_n ep_n fam ind t (s : Int))
              - M.log (alphaTilde Qsel inp r_c ep_c fam ind t (s : Int))))
        + ∑ j in Finset.range (t + 1),
            (M.log (forward Qsel inp r_n ep_n fam ind j).w
              - M.log (forward Qsel inp r_c ep_c fam ind j).w) := by
  have hwpos : ∀ t, t < inp.nSnps → 0 < (forward Qsel inp r_c ep_c fam ind t).w :=
    fun t ht => forward_w_pos Qsel inp r_c ep_c fam ind hr hQ t ht
  have husum : ∀ t, t < inp.nSnps →
      ∑ s in Finset.range 4, uProb M Qsel inp r_c ep_c fam ind t (s : Int) = 1 := by
    intro t ht
    rw [sum_range4]
    simp only [Nat.cast_zero, Nat.cast_one, Nat.cast_ofNat]
    exact uProb_sum M Qsel inp r_c ep_c fam ind hen (fun j hj => (hwpos j hj).ne.symm)
      (fun j hj => hel _ (hwpos j hj)) t ht
  intro t
  induction t with
  | zero =>
    intro ht
    rw [Finset.sum_range_one, Finset.sum_range_one, Finset.sum_range_zero, add_zero]
    have hw := hwpos 0 ht
    have hwn := forward_w_pos Qsel inp r_n ep_n fam ind hrn hQn 0 ht
    have hterm : ∀ s ∈ Finset.range 4,
        uProb M Qsel inp r_c ep_c fam ind 0 ((s : Nat) : Int) *
            (M.log (alphaTilde Qsel inp r_n ep_n fam ind 0 (s : Int))
              - M.log (alphaTilde Qsel inp r_c ep_c fam ind 0 (s : Int)))
          = uProb M Qsel inp r_c ep_c fam ind 0 (s : Int) *
              (M.log (emis Qsel inp ep_n fam ind 0 (s : Int))
                - M.log (emis Qsel inp ep_c fam ind 0 (s : Int)))
            - uProb M Qsel inp r_c ep_c fam ind 0 (s : Int) *
              (M.log (forward Qsel inp r_n ep_n fam ind 0).w
                - M.log (forward Qsel inp r_c ep_c fam ind 0).w) := by
      intro s hs
      have hs3 : ((s : Nat) : Int) ≤ 3 := by have := Finset.mem_range.mp hs; omega
      have hs0 : (0 : Int) ≤ (s : Nat) := by omega
      have l := congrArg M.log
        (alphaTilde_zero_mul_w Qsel inp r_c ep_c fam ind hr hQ ht (s : Int))
      have ln := congrArg M.log
        (alphaTilde_zero_mul_w Qsel inp r_n ep_n fam ind hrn hQn ht (s : Int))
      rw [hmul _ _ (alphaTilde_pos Qsel inp r_c ep_c fam ind hr hQ 0 ht _ hs0 hs3) hw,
        hmul _ _ (by norm_num) (hQ 0 ht _ hs0 hs3)] at l
      rw [hmul _ _ (alphaTilde_pos Qsel inp r_n ep_n fam ind hrn hQn 0 ht _ hs0 hs3) hwn,
        hmul _ _ (by norm_num) (hQn 0 ht _ hs0 hs3)] at ln
      linear_combination uProb M Qsel inp r_c ep_c fam ind 0 (s : Int) * (ln - l)
    rw [Finset.sum_congr rfl hterm, Finset.sum_sub_distrib, ← Finset.sum_mul, husum 0 ht]
    linarith
  | succ t ih =>
    intro ht
    have ih1 := ih (by omega)
    have hcol := Finset.sum_le_sum (fun (s2 : Nat) (hs2 : s2 ∈ Finset.range 4) =>
      em_column_step M Qsel inp r_c ep_c r_n ep_n fam ind hel hen hmul hle hr hrn hQ hQn t ht
        (hsupp t ht) (s2 : Int) (by omega) (by have := Finset.mem_range.mp hs2; omega))
    simp only [Finset.sum_add_distrib, mul_add, ← Finset.sum_mul] at hcol
    rw [husum (t + 1) ht, one_mul] at hcol
    have hswap : ∑ s2 in Finset.range 4, ∑ s1 in Finset.range 4,
        vProb M Qsel inp r_c ep_c fam ind t (s1 : Int) (s2 : Int) *
          (M.log (alphaTilde Qsel inp r_n ep_n fam ind t (s1 : Int))
            - M.log (alphaTilde Qsel inp r_c ep_c fam ind t (s1 : Int)))
        = ∑ s in Finset.range 4, uProb M Qsel inp r_c ep_c fam ind t (s : Int) *
            (M.log (alphaTilde Qsel inp r_n ep_n fam ind t (s : Int))
              - M.log (alphaTilde Qsel inp r_c ep_c fam ind t (s : Int))) := by
      rw [Finset.sum_comm]
      refine Finset.sum_congr rfl (fun s1 _ => ?_)
      rw [← Finset.sum_mul, vProb_row_sum M Qsel inp r_c ep_c fam ind hel hen hr hQ t ht]
    rw [hswap] at hcol
    rw [Finset.sum_range_succ (fun j => ∑ s in Finset.range 4,
        uProb M Qsel inp r_c ep_c fam ind j (s : Int) *
          (M.log (emis Qsel inp ep_n fam ind j (s : Int))
            - M.log (emis Qsel inp ep_c fam ind j (s : Int)))) (t + 1),
      Finset.sum_range_succ (fun j => ∑ s2 in Finset.range 4, ∑ s1 in Finset.range 4,
          vProb M Qsel inp r_c ep_c fam ind j (s1 : Int) (s2 : Int) *
            (M.log (Tmat_ss (s1 : Int) (s2 : Int) (r_n j) (r_n (j + inp.nSnps - 1)))
              - M.log (Tmat_ss (s1 : Int) (s2 : Int) (r_c j) (r_c (j + inp.nSnps - 1))))) t,
      Finset.sum_range_succ (fun j => M.log (forward Qsel inp r_n ep_n fam ind j).w
              - M.log (forward Qsel inp r_c ep_c fam ind j).w) (t + 1)]
    linarith

/-- Auxiliary inequality of the EM argument for one individual: the gain in
log-likelihood is at least the expected gain in complete-data log-likelihood
under the old posterior. -/
theorem em_individual
    (hel : ∀ x : α, 0 < x → M.exp (M.log x) = x)
    (hen : ∀ x : α, M.exp (-x) = (M.exp x)⁻¹)
    (hmul : ∀ x y : α, 0 < x → 0 < y → M.log (x * y) = M.log x + M.log y)
    (hle : ∀ x : α, 0 < x → M.log x ≤ x - 1)
    (hr : ∀ i, 0 ≤ r_c i ∧ r_c i ≤ 1) (hrn : ∀ i, 0 ≤ r_n i ∧ r_n i ≤ 1)
    (hQ : ∀ snp, snp < inp.nSnps → ∀ s : Int, 0 ≤ s → s ≤ 3 →
      0 < emis Qsel inp ep_c fam ind snp s)
    (hQn : ∀ snp, snp < inp.nSnps → ∀ s : Int, 0 ≤ s → s ≤ 3 →
      0 < emis Qsel inp ep_n fam ind snp s)
    (hsupp : ∀ snp, snp + 1 < inp.nSnps → ∀ s1 s2 : Int, 0 ≤ s1 → s1 ≤ 3 → 0 ≤ s2 → s2 ≤ 3 →
      0 < Tmat_ss s1 s2 (r_c snp) (r_c (snp + inp.nSnps - 1)) →
      0 < Tmat_ss s1 s2 (r_n snp) (r_n (snp + inp.nSnps - 1)))
    (hL : 0 < inp.nSnps) :
    (∑ j in Finset.range inp.nSnps, ∑ s in Finset.range 4,
          uProb M Qsel inp r_c ep_c fam ind j (s : Int) *
            (M.log (emis Qsel inp ep_n fam ind j (s : Int))
              - M.log (emis Qsel inp ep_c fam ind j (s : Int))))
        + (∑ j in Finset.range (inp.nSnps - 1), ∑ s2 in Finset.range 4,
            ∑ s1 in Finset.range 4,
          vProb M Qsel inp r_c ep_c fam ind j (s1 : Int) (s2 : Int) *
            (M.log (Tmat_ss (s1 : Int) (s2 : Int) (r_n j) (r_n (j + inp.nSnps - 1)))
              - M.log (Tmat_ss (s1 : Int) (s2 : Int) (r_c j) (r_c (j + inp.nSnps - 1)))))
      ≤ ∑ j in Finset.range inp.nSnps,
            (M.log (forward Qsel inp r_n ep_n fam ind j).w
              - M.log (forward Qsel inp r_c ep_c fam ind j).w) := by
  have h := em_individual_induction M Qsel inp r_c ep_c r_n ep_n fam ind hel hen hmul hle hr hrn
    hQ hQn hsupp (inp.nSnps - 1) (by omega)
  have e : inp.nSnps - 1 + 1 = inp.nSnps := by omega
  rw [e] at h
  -- the potential at the last marker is a relative entropy
  have hw := forward_w_pos Qsel inp r_c ep_c fam ind hr hQ (inp.nSnps - 1) (by omega)
  have hwn := forward_w_pos Qsel inp r_n ep_n fam ind hrn hQn (inp.nSnps - 1) (by omega)
  have hs1 : ∑ s in Finset.range 4,
      alphaTilde Qsel inp r_c ep_c fam ind (inp.nSnps - 1) (s : Int) = 1 := by
    rw [sum_range4]
    simp only [Nat.cast_zero, Nat.cast_one, Nat.cast_ofNat]
    exact alphaTilde_sum Qsel inp r_c ep_c fam ind _ hw.ne.symm
  have hs1n : ∑ s in Finset.range 4,
      alphaTilde Qsel inp r_n ep_n fam ind (inp.nSnps - 1) (s : Int) = 1 := by
    rw [sum_range4]
    simp only [Nat.cast_zero, Nat.cast_one, Nat.cast_ofNat]
    exact alphaTilde_sum Qsel inp r_n ep_n fam ind _ hwn.ne.symm
  have hg := log_sum_ineq M hmul hle (Finset.range 4)
    (fun s : Nat => alphaTilde Qsel inp r_c ep_c fam ind (inp.nSnps - 1) (s : Int))
    (fun s : Nat => alphaTilde Qsel inp r_n ep_n fam ind (inp.nSnps - 1) (s : Int))
    (fun s hs => (alphaTilde_pos Qsel inp r_c ep_c fam ind hr hQ _ (by omega) _ (by omega)
      (by have := Finset.mem_range.mp hs; omega)).le)
    (fun s hs => (alphaTilde_pos Qsel inp r_n ep_n fam ind hrn hQn _ (by omega) _ (by omega)
      (by have := Finset.mem_range.mp hs; omega)).le)
    (fun s hs _ => alphaTilde_pos Qsel inp r_n ep_n fam ind hrn hQn _ (by omega) _ (by omega)
      (by have := Finset.mem_range.mp hs; omega))
    (by rw [hs1]; exact one_pos) (by rw [hs1n]; exact one_pos)
  rw [hs1, hs1n, sub_self, mul_zero] at hg
  have hphi : ∑ s in Finset.range 4,
      uProb M Qsel inp r_c ep_c fam ind (inp.nSnps - 1) (s : Int) *
        (M.log (alphaTilde Qsel inp r_n ep_n fam ind (inp.nSnps - 1) (s : Int))
          - M.log (alphaTilde Qsel inp r_c ep_c fam ind (inp.nSnps - 1) (s : Int))) ≤ 0 := by
    refine le_trans (le_of_eq ?_) hg
    refine Finset.sum_congr rfl (fun s _ => ?_)
    rw [uProb_last M Qsel inp r_c ep_c fam ind hel hen hr hQ hL]
  linarith

end AuxiliaryInequality

section TransitionGain

variable {α : Type} [LinearOrderedField α] (M : Libm α)

theorem pair_gain
    (hmul : ∀ x y : α, 0 < x → 0 < y → M.log (x * y) = M.log x + M.log y)
    (v : α) {F G Fn Gn T Tn : α} (hT : T = F * G) (hTn : Tn = Fn * Gn)
    (hF : 0 ≤ F) (hG : 0 ≤ G) (hFn : 0 ≤ Fn) (hGn : 0 ≤ Gn)
    (hv : T = 0 → v = 0) (hs : 0 < T → 0 < Tn) :
    v * (M.log Tn - M.log T) = v * ((M.log Fn - M.log F) + (M.log Gn - M.log G)) := by
  have hT0 : 0 ≤ T := by rw [hT]; exact mul_nonneg hF hG
  rcases eq_or_lt_of_le hT0 with hz | hpos
  · rw [hv hz.symm, zero_mul, zero_mul]
  · have hposn := hs hpos
    rw [hT] at hpos
    rw [hTn] at hposn
    rw [hT, hTn, hmul _ _ (pos_left_of_mul_pos hpos hG) (pos_right_of_mul_pos hpos hF),
      hmul _ _ (pos_left_of_mul_pos hposn hGn) (pos_right_of_mul_pos hposn hFn)]
    ring

/-- The expected gain of the transition part over one interval, split into the
paternal and the maternal coordinate. -/
theorem transition_gain_eq
    (hmul : ∀ x y : α, 0 < x → 0 < y → M.log (x * y) = M.log x + M.log y)
    (v : Int → Int → α) (rf rm rnf rnm : α)
    (hf : 0 ≤ rf ∧ rf ≤ 1) (hm : 0 ≤ rm ∧ rm ≤ 1)
    (hnf : 0 ≤ rnf ∧ rnf ≤ 1) (hnm : 0 ≤ rnm ∧ rnm ≤ 1)
    (hv : ∀ s1 s2 : Int, Tmat_ss s1 s2 rf rm = 0 → v s1 s2 = 0)
    (hs : ∀ s1 s2 : Int, 0 ≤ s1 → s1 ≤ 3 → 0 ≤ s2 → s2 ≤ 3 →
      0 < Tmat_ss s1 s2 rf rm → 0 < Tmat_ss s1 s2 rnf rnm)
    (htot : totMass v = 1) :
    ∑ s2 in Finset.range 4, ∑ s1 in Finset.range 4,
        v (s1 : Int) (s2 : Int) *
          (M.log (Tmat_ss (s1 : Int) (s2 : Int) rnf rnm)
            - M.log (Tmat_ss (s1 : Int) (s2 : Int) rf rm))
      = patMass v * (M.log rnf - M.log rf)
        + (1 - patMass v) * (M.log (1 - rnf) - M.log (1 - rf))
        + matMass v * (M.log rnm - M.log rm)
        + (1 - matMass v) * (M.log (1 - rnm) - M.log (1 - rm)) := by
  have T00 : ∀ rf rm : α, Tmat_ss 0 0 rf rm = (1 - rf) * (1 - rm) := by
    intro rf rm
    simp [Tmat_ss]
  have T01 : ∀ rf rm : α, Tmat_ss 0 1 rf rm = (1 - rf) * rm := by
    intro rf rm
    simp [Tmat_ss]
  have T02 : ∀ rf rm : α, Tmat_ss 0 2 rf rm = rf * (1 - rm) := by
    intro rf rm
    simp [Tmat_ss]
  have T03 : ∀ rf rm : α, Tmat_ss 0 3 rf rm = rf * rm := by
    intro rf rm
    simp [Tmat_ss]
  have T10 : ∀ rf rm : α, Tmat_ss 1 0 rf rm = (1 - rf) * rm := by
    intro rf rm
    simp [Tmat_ss]
  have T11 : ∀ rf rm : α, Tmat_ss 1 1 rf rm = (1 - rf) * (1 - rm) := by
    intro rf rm
    simp [Tmat_ss]
  have T12 : ∀ rf rm : α, Tmat_ss 1 2 rf rm = rf * rm := by
    intro rf rm
    simp [Tmat_ss]
  have T13 : ∀ rf rm : α, Tmat_ss 1 3 rf rm = rf * (1 - rm) := by
    intro rf rm
    simp [Tmat_ss]
  have T20 : ∀ rf rm : α, Tmat_ss 2 0 rf rm = rf * (1 - rm) := by
    intro rf rm
    simp [Tmat_ss]
  have T21 : ∀ rf rm : α, Tmat_ss 2 1 rf rm = rf * rm := by
    intro rf rm
    simp [Tmat_ss]
  have T22 : ∀ rf rm : α, Tmat_ss 2 2 rf rm = (1 - rf) * (1 - rm) := by
    intro rf rm
    simp [Tmat_ss]
  have T23 : ∀ rf rm : α, Tmat_ss 2 3 rf rm = (1 - rf) * rm := by
    intro rf rm
    simp [Tmat_ss]
  have T30 : ∀ rf rm : α, Tmat_ss 3 0 rf rm = rf * rm := by
    intro rf rm
    simp [Tmat_ss]
  have T31 : ∀ rf rm : α, Tmat_ss 3 1 rf rm = rf * (1 - rm) := by
    intro rf rm
    simp [Tmat_ss]
  have T32 : ∀ rf rm : α, Tmat_ss 3 2 rf rm = (1 - rf) * rm := by
    intro rf rm
    simp [Tmat_ss]
  have T33 : ∀ rf rm : α, Tmat_ss 3 3 rf rm = (1 - rf) * (1 - rm) := by
    intro rf rm
    simp [Tmat_ss]
  have p00 := pair_gain M hmul (v 0 0) (T00 rf rm) (T00 rnf rnm) (sub_nonneg.mpr hf.2) (sub_nonneg.mpr hm.2) (sub_nonneg.mpr hnf.2) (sub_nonneg.mpr hnm.2)
    (hv 0 0) (hs 0 0 (by norm_num) (by norm_num) (by norm_num) (by norm_num))
  have p01 := pair_gain M hmul (v 0 1) (T01 rf rm) (T01 rnf rnm) (sub_nonneg.mpr hf.2) hm.1 (sub_nonneg.mpr hnf.2) hnm.1
    (hv 0 1) (hs 0 1 (by norm_num) (by norm_num) (by norm_num) (by norm_num))
  have p02 := pair_gain M hmul (v 0 2) (T02 rf rm) (T02 rnf rnm) hf.1 (sub_nonneg.mpr hm.2) hnf.1 (sub_nonneg.mpr hnm.2)
    (hv 0 2) (hs 0 2 (by norm_num) (by norm_num) (by norm_num) (by norm_num))
  have p03 := pair_gain M hmul (v 0 3) (T03 rf rm) (T03 rnf rnm) hf.1 hm.1 hnf.1 hnm.1
    (hv 0 3) (hs 0 3 (by norm_num) (by norm_num) (by norm_num) (by norm_num))
  have p10 := pair_gain M hmul (v 1 0) (T10 rf rm) (T10 rnf rnm) (sub_nonneg.mpr hf.2) hm.1 (sub_nonneg.mpr hnf.2) hnm.1
    (hv 1 0) (hs 1 0 (by norm_num) (by norm_num) (by norm_num) (by norm_num))
  have p11 := pair_gain M hmul (v 1 1) (T11 rf rm) (T11 rnf rnm) (sub_nonneg.mpr hf.2) (sub_nonneg.mpr hm.2) (sub_nonneg.mpr hnf.2) (sub_nonneg.mpr hnm.2)
    (hv 1 1) (hs 1 1 (by norm_num) (by norm_num) (by norm_num) (by norm_num))
  have p12 := pair_gain M hmul (v 1 2) (T12 rf rm) (T12 rnf rnm) hf.1 hm.1 hnf.1 hnm.1
    (hv 1 2) (hs 1 2 (by norm_num) (by norm_num) (by norm_num) (by norm_num))
  have p13 := pair_gain M hmul (v 1 3) (T13 rf rm) (T13 rnf rnm) hf.1 (sub_nonneg.mpr hm.2) hnf.1 (sub_nonneg.mpr hnm.2)
    (hv 1 3) (hs 1 3 (by norm_num) (by norm_num) (by norm_num) (by norm_num))
  have p20 := pair_gain M hmul (v 2 0) (T20 rf rm) (T20 rnf rnm) hf.1 (sub_nonneg.mpr hm.2) hnf.1 (sub_nonneg.mpr hnm.2)
    (hv 2 0) (hs 2 0 (by norm_num) (by norm_num) (by norm_num) (by norm_num))
  have p21 := pair_gain M hmul (v 2 1) (T21 rf rm) (T21 rnf rnm) hf.1 hm.1 hnf.1 hnm.1
    (hv 2 1) (hs 2 1 (by norm_num) (by norm_num) (by norm_num) (by norm_num))
  have p22 := pair_gain M hmul (v 2 2) (T22 rf rm) (T22 rnf rnm) (sub_nonneg.mpr hf.2) (sub_nonneg.mpr hm.2) (sub_nonneg.mpr hnf.2) (sub_nonneg.mpr hnm.2)
    (hv 2 2) (hs 2 2 (by norm_num) (by norm_num) (by norm_num) (by norm_num))
  have p23 := pair_gain M hmul (v 2 3) (T23 rf rm) (T23 rnf rnm) (sub_nonneg.mpr hf.2) hm.1 (sub_nonneg.mpr hnf.2) hnm.1
    (hv 2 3) (hs 2 3 (by norm_num) (by norm_num) (by norm_num) (by norm_num))
  have p30 := pair_gain M hmul (v 3 0) (T30 rf rm) (T30 rnf rnm) hf.1 hm.1 hnf.1 hnm.1
    (hv 3 0) (hs 3 0 (by norm_num) (by norm_num) (by norm_num) (by norm_num))
  have p31 := pair_gain M hmul (v 3 1) (T31 rf rm) (T31 rnf rnm) hf.1 (sub_nonneg.mpr hm.2) hnf.1 (sub_nonneg.mpr hnm.2)
    (hv 3 1) (hs 3 1 (by norm_num) (by norm_num) (by norm_num) (by norm_num))
  have p32 := pair_gain M hmul (v 3 2) (T32 rf rm) (T32 rnf rnm) (sub_nonneg.mpr hf.2) hm.1 (sub_nonneg.mpr hnf.2) hnm.1
    (hv 3 2) (hs 3 2 (by norm_num) (by norm_num) (by norm_num) (by norm_num))
  have p33 := pair_gain M hmul (v 3 3) (T33 rf rm) (T33 rnf rnm) (sub_nonneg.mpr hf.2) (sub_nonneg.mpr hm.2) (sub_nonneg.mpr hnf.2) (sub_nonneg.mpr hnm.2)
    (hv 3 3) (hs 3 3 (by norm_num) (by norm_num) (by norm_num) (by norm_num))
  simp only [sum_range4, Nat.cast_zero, Nat.cast_one, Nat.cast_ofNat]
  rw [p00, p01, p02, p03, p10, p11, p12, p13, p20, p21, p22, p23, p30, p31, p32, p33]
  unfold totMass at htot
  unfold patMass matMass
  linear_combination
    ((M.log (1 - rnf) - M.log (1 - rf)) + (M.log (1 - rnm) - M.log (1 - rm))) * htot

end TransitionGain

section MassSupport

variable {α : Type} [LinearOrderedField α]

/-- How the paternal and maternal masses of a joint table, supported exactly
where the transition matrix is positive, reflect the position of the two
recombination fractions in `[0,1]`. -/
theorem mass_support (v : Int → Int → α) (rf rm : α)
    (hf : 0 ≤ rf ∧ rf ≤ 1) (hm : 0 ≤ rm ∧ rm ≤ 1)
    (hv0 : ∀ s1 s2 : Int, Tmat_ss s1 s2 rf rm = 0 → v s1 s2 = 0)
    (hvpos : ∀ s1 s2 : Int, 0 ≤ s1 → s1 ≤ 3 → 0 ≤ s2 → s2 ≤ 3 →
      0 < Tmat_ss s1 s2 rf rm → 0 < v s1 s2)
    (hvnn : ∀ s1 s2 : Int, 0 ≤ s1 → s1 ≤ 3 → 0 ≤ s2 → s2 ≤ 3 → 0 ≤ v s1 s2)
    (htot : totMass v = 1) :
    (0 ≤ patMass v ∧ patMass v ≤ 1 ∧ 0 ≤ matMass v ∧ matMass v ≤ 1) ∧
    (rf = 0 → patMass v = 0) ∧ (rf = 1 → patMass v = 1) ∧
    (0 < rf → 0 < patMass v) ∧ (rf < 1 → patMass v < 1) ∧
    (rm = 0 → matMass v = 0) ∧ (rm = 1 → matMass v = 1) ∧
    (0 < rm → 0 < matMass v) ∧ (rm < 1 → matMass v < 1) := by
  have T00 : Tmat_ss 0 0 rf rm = (1 - rf) * (1 - rm) := by simp [Tmat_ss]
  have T01 : Tmat_ss 0 1 rf rm = (1 - rf) * rm := by simp [Tmat_ss]
  have T02 : Tmat_ss 0 2 rf rm = rf * (1 - rm) := by simp [Tmat_ss]
  have T03 : Tmat_ss 0 3 rf rm = rf * rm := by simp [Tmat_ss]
  have T10 : Tmat_ss 1 0 rf rm = (1 - rf) * rm := by simp [Tmat_ss]
  have T11 : Tmat_ss 1 1 rf rm = (1 - rf) * (1 - rm) := by simp [Tmat_ss]
  have T12 : Tmat_ss 1 2 rf rm = rf * rm := by simp [Tmat_ss]
  have T13 : Tmat_ss 1 3 rf rm = rf * (1 - rm) := by simp [Tmat_ss]
  have T20 : Tmat_ss 2 0 rf rm = rf * (1 - rm) := by simp [Tmat_ss]
  have T21 : Tmat_ss 2 1 rf rm = rf * rm := by simp [Tmat_ss]
  have T22 : Tmat_ss 2 2 rf rm = (1 - rf) * (1 - rm) := by simp [Tmat_ss]
  have T23 : Tmat_ss 2 3 rf rm = (1 - rf) * rm := by simp [Tmat_ss]
  have T30 : Tmat_ss 3 0 rf rm = rf * rm := by simp [Tmat_ss]
  have T31 : Tmat_ss 3 1 rf rm = rf * (1 - rm) := by simp [Tmat_ss]
  have T32 : Tmat_ss 3 2 rf rm = (1 - rf) * rm := by simp [Tmat_ss]
  have T33 : Tmat_ss 3 3 rf rm = (1 - rf) * (1 - rm) := by simp [Tmat_ss]
  have n00 := hvnn 0 0 (by norm_num) (by norm_num) (by norm_num) (by norm_num)
  have n01 := hvnn 0 1 (by norm_num) (by norm_num) (by norm_num) (by norm_num)
  have n02 := hvnn 0 2 (by norm_num) (by norm_num) (by norm_num) (by norm_num)
  have n03 := hvnn 0 3 (by norm_num) (by norm_num) (by norm_num) (by norm_num)
  have n10 := hvnn 1 0 (by norm_num) (by norm_num) (by norm_num) (by norm_num)
  have n11 := hvnn 1 1 (by norm_num) (by norm_num) (by norm_num) (by norm_num)
  have n12 := hvnn 1 2 (by norm_num) (by norm_num) (by norm_num) (by norm_num)
  have n13 := hvnn 1 3 (by norm_num) (by norm_num) (by norm_num) (by norm_num)
  have n20 := hvnn 2 0 (by norm_num) (by norm_num) (by norm_num) (by norm_num)
  have n21 := hvnn 2 1 (by norm_num) (by norm_num) (by norm_num) (by norm_num)
  have n22 := hvnn 2 2 (by norm_num) (by norm_num) (by norm_num) (by norm_num)
  have n23 := hvnn 2 3 (by norm_num) (by norm_num) (by norm_num) (by norm_num)
  have n30 := hvnn 3 0 (by norm_num) (by norm_num) (by norm_num) (by norm_num)
  have n31 := hvnn 3 1 (by norm_num) (by norm_num) (by norm_num) (by norm_num)
  have n32 := hvnn 3 2 (by norm_num) (by norm_num) (by norm_num) (by norm_num)
  have n33 := hvnn 3 3 (by norm_num) (by norm_num) (by norm_num) (by norm_num)
  unfold totMass at htot
  unfold patMass matMass
  refine ⟨⟨by linarith, by linarith, by linarith, by linarith⟩, ?_, ?_, ?_, ?_, ?_, ?_, ?_, ?_⟩
  · intro h
    have z02 := hv0 0 2 (by rw [T02, h]; simp)
    have z03 := hv0 0 3 (by rw [T03, h]; simp)
    have z12 := hv0 1 2 (by rw [T12, h]; simp)
    have z13 := hv0 1 3 (by rw [T13, h]; simp)
    have z20 := hv0 2 0 (by rw [T20, h]; simp)
    have z21 := hv0 2 1 (by rw [T21, h]; simp)
    have z30 := hv0 3 0 (by rw [T30, h]; simp)
    have z31 := hv0 3 1 (by rw [T31, h]; simp)
    rw [z02, z20, z03, z21, z12, z30, z13, z31]
    simp
  · intro h
    have z00 := hv0 0 0 (by rw [T00, h]; simp)
    have z01 := hv0 0 1 (by rw [T01, h]; simp)
    have z10 := hv0 1 0 (by rw [T10, h]; simp)
    have z11 := hv0 1 1 (by rw [T11, h]; simp)
    have z22 := hv0 2 2 (by rw [T22, h]; simp)
    have z23 := hv0 2 3 (by rw [T23, h]; simp)
    have z32 := hv0 3 2 (by rw [T32, h]; simp)
    have z33 := hv0 3 3 (by rw [T33, h]; simp)
    linarith
  · intro h
    rcases eq_or_lt_of_le hm.2 with h1 | h1
    · have := hvpos 0 3 (by norm_num) (by norm_num) (by norm_num) (by norm_num) (by rw [T03]; exact mul_pos h (by rw [h1]; exact one_pos))
      linarith
    · have := hvpos 0 2 (by norm_num) (by norm_num) (by norm_num) (by norm_num) (by rw [T02]; exact mul_pos h (sub_pos.mpr h1))
      linarith
  · intro h
    rcases eq_or_lt_of_le hm.2 with h1 | h1
    · have := hvpos 0 1 (by norm_num) (by norm_num) (by norm_num) (by norm_num) (by rw [T01]; exact mul_pos (sub_pos.mpr h) (by rw [h1]; exact one_pos))
      linarith
    · have := hvpos 0 0 (by norm_num) (by norm_num) (by norm_num) (by norm_num) (by rw [T00]; exact mul_pos (sub_pos.mpr h) (sub_pos.mpr h1))
      linarith
  · intro h
    have z01 := hv0 0 1 (by rw [T01, h]; simp)
    have z03 := hv0 0 3 (by rw [T03, h]; simp)
    have z10 := hv0 1 0 (by rw [T10, h]; simp)
    have z12 := hv0 1 2 (by rw [T12, h]; simp)
    have z21 := hv0 2 1 (by rw [T21, h]; simp)
    have z23 := hv0 2 3 (by rw [T23, h]; simp)
    have z30 := hv0 3 0 (by rw [T30, h]; simp)
    have z32 := hv0 3 2 (by rw [T32, h]; simp)
    rw [z01, z10, z03, z12, z21, z30, z23, z32]
    simp
  · intro h
    have z00 := hv0 0 0 (by rw [T00, h]; simp)
    have z02 := hv0 0 2 (by rw [T02, h]; simp)
    have z11 := hv0 1 1 (by rw [T11, h]; simp)
    have z13 := hv0 1 3 (by rw [T13, h]; simp)
    have z20 := hv0 2 0 (by rw [T20, h]; simp)
    have z22 := hv0 2 2 (by rw [T22, h]; simp)
    have z31 := hv0 3 1 (by rw [T31, h]; simp)
    have z33 := hv0 3 3 (by rw [T33, h]; simp)
    linarith
  · intro h
    rcases eq_or_lt_of_le hf.2 with h1 | h1
    · have := hvpos 0 3 (by norm_num) (by norm_num) (by norm_num) (by norm_num) (by rw [T03]; exact mul_pos (by rw [h1]; exact one_pos) h)
      linarith
    · have := hvpos 0 1 (by norm_num) (by norm_num) (by norm_num) (by norm_num) (by rw [T01]; exact mul_pos (sub_pos.mpr h1) h)
      linarith
  · intro h
    rcases eq_or_lt_of_le hf.2 with h1 | h1
    · have := hvpos 0 2 (by norm_num) (by norm_num) (by norm_num) (by norm_num) (by rw [T02]; exact mul_pos (by rw [h1]; exact one_pos) (sub_pos.mpr h))
      linarith
    · have := hvpos 0 0 (by norm_num) (by norm_num) (by norm_num) (by norm_num) (by rw [T00]; exact mul_pos (sub_pos.mpr h1) (sub_pos.mpr h))
      linarith

end MassSupport

section MassSums

variable {α : Type} [LinearOrderedField α]
variable (M : Libm α) (Qsel : Int → α → α → α → Int → α)
variable (inp : EMInput α) (r_c : Nat → α) (ep_c : α)

theorem famSum_one :
    ∑ fam in Finset.range inp.noFam, ∑ _ind in Finset.range (inp.nInd fam), (1 : α)
      = (nTotal inp : α) := by
  unfold nTotal
  rw [nTotalUpTo_eq_sum]
  simp

theorem famSum_pos (hN : 1 ≤ nTotal inp) (g : Nat → Nat → α)
    (hg : ∀ fam ind, fam < inp.noFam → ind < inp.nInd fam → 0 < g fam ind) :
    0 < ∑ fam in Finset.range inp.noFam, ∑ ind in Finset.range (inp.nInd fam), g fam ind := by
  have hex : ∃ fam ∈ Finset.range inp.noFam, 0 < inp.nInd fam := by
    by_contra hne
    push_neg at hne
    have hz : nTotal inp = 0 := by
      unfold nTotal
      rw [nTotalUpTo_eq_sum]
      exact Finset.sum_eq_zero (fun fam hfam => Nat.le_zero.mp (hne fam hfam))
    omega
  obtain ⟨fam0, hfam0, hpos0⟩ := hex
  refine Finset.sum_pos' (fun fam hfam => Finset.sum_nonneg (fun ind hind =>
    (hg fam ind (Finset.mem_range.mp hfam) (Finset.mem_range.mp hind)).le)) ⟨fam0, hfam0, ?_⟩
  exact Finset.sum_pos (fun ind hind => hg fam0 ind (Finset.mem_range.mp hfam0)
    (Finset.mem_range.mp hind)) ⟨0, Finset.mem_range.mpr hpos0⟩

theorem sumPat_eq_mass (snp : Nat) :
    sumPat M Qsel inp r_c ep_c snp =
      ∑ fam in Finset.range inp.noFam, ∑ ind in Finset.range (inp.nInd fam),
        patMass (vProb M Qsel inp r_c ep_c fam ind snp) :=
  sumPat_eq M Qsel inp r_c ep_c snp

theorem sumMat_eq_mass (snp : Nat) :
    sumMat M Qsel inp r_c ep_c snp =
      ∑ fam in Finset.range inp.noFam, ∑ ind in Finset.range (inp.nInd fam),
        matMass (vProb M Qsel inp r_c ep_c fam ind snp) :=
  sumMat_eq M Qsel inp r_c ep_c snp

theorem sumPooled_eq_add (snp : Nat) :
    sumPooled M Qsel inp r_c ep_c snp =
      sumPat M Qsel inp r_c ep_c snp + sumMat M Qsel inp r_c ep_c snp := by
  rw [sumPooled_eq, sumPat_eq, sumMat_eq, ← Finset.sum_add_distrib]
  refine Finset.sum_congr rfl (fun fam _ => ?_)
  rw [← Finset.sum_add_distrib]
  refine Finset.sum_congr rfl (fun ind _ => ?_)
  ring

variable (hel : ∀ x : α, 0 < x → M.exp (M.log x) = x)
variable (hr : ∀ i, 0 ≤ r_c i ∧ r_c i ≤ 1) (hE : EmisPos Qsel inp ep_c)

include hel hr hE

/-- The joint posterior of a valid individual on an interval satisfies the
hypotheses of `mass_support` and `transition_gain_eq`. -/
theorem vProb_mass_facts (fam ind snp : Nat) (hfam : fam < inp.noFam)
    (hind : ind < inp.nInd fam) (hsnp : snp + 1 < inp.nSnps) :
    (∀ s1 s2 : Int, Tmat_ss s1 s2 (r_c snp) (r_c (snp + inp.nSnps - 1)) = 0 →
      vProb M Qsel inp r_c ep_c fam ind snp s1 s2 = 0) ∧
    (∀ s1 s2 : Int, 0 ≤ s1 → s1 ≤ 3 → 0 ≤ s2 → s2 ≤ 3 →
      0 < Tmat_ss s1 s2 (r_c snp) (r_c (snp + inp.nSnps - 1)) →
      0 < vProb M Qsel inp r_c ep_c fam ind snp s1 s2) ∧
    (∀ s1 s2 : Int, 0 ≤ s1 → s1 ≤ 3 → 0 ≤ s2 → s2 ≤ 3 →
      0 ≤ vProb M Qsel inp r_c ep_c fam ind snp s1 s2) ∧
    totMass (vProb M Qsel inp r_c ep_c fam ind snp) = 1 := by
  have hQ : ∀ t, t < inp.nSnps → ∀ s : Int, 0 ≤ s → s ≤ 3 →
      0 < emis Qsel inp ep_c fam ind t s :=
    fun t ht s hs0 hs3 => hE fam ind t s hfam hind ht hs0 hs3
  refine ⟨?_, ?_, ?_, ?_⟩
  · intro s1 s2 hz
    unfold vProb
    rw [hz]
    simp
  · intro s1 s2 h10 h13 h20 h23 hpos
    unfold vProb
    exact mul_pos (mul_pos (mul_pos
      (alphaTilde_pos Qsel inp r_c ep_c fam ind hr hQ snp (by omega) s1 h10 h13) hpos)
      (hQ (snp + 1) hsnp s2 h20 h23))
      (betaTilde_pos M Qsel inp r_c ep_c fam ind hel hr hQ (inp.nSnps - 1 - (snp + 1)) (snp + 1)
        (by omega) s2 h20 h23)
  · intro s1 s2 h10 h13 h20 h23
    exact vProb_nonneg M Qsel inp r_c ep_c fam ind hel hr hQ snp hsnp s1 s2 ⟨h10, h13⟩ ⟨h20, h23⟩
  · exact vProb_total_valid M Qsel inp r_c ep_c hel hr hE fam ind snp hfam hind hsnp

/-- Position of the two accumulated sums of the sex-specific M-step relative to
`0` and `nTotal`, as a function of the current recombination fractions. -/
theorem sumPat_sumMat_support (hN : 1 ≤ nTotal inp) (snp : Nat) (hsnp : snp + 1 < inp.nSnps) :
    (0 ≤ sumPat M Qsel inp r_c ep_c snp ∧ sumPat M Qsel inp r_c ep_c snp ≤ (nTotal inp : α)) ∧
    (0 ≤ sumMat M Qsel inp r_c ep_c snp ∧ sumMat M Qsel inp r_c ep_c snp ≤ (nTotal inp : α)) ∧
    (r_c snp = 0 → sumPat M Qsel inp r_c ep_c snp = 0) ∧
    (r_c snp = 1 → sumPat M Qsel inp r_c ep_c snp = (nTotal inp : α)) ∧
    (0 < r_c snp → 0 < sumPat M Qsel inp r_c ep_c snp) ∧
    (r_c snp < 1 → sumPat M Qsel inp r_c ep_c snp < (nTotal inp : α)) ∧
    (r_c (snp + inp.nSnps - 1) = 0 → sumMat M Qsel inp r_c ep_c snp = 0) ∧
    (r_c (snp + inp.nSnps - 1) = 1 → sumMat M Qsel inp r_c ep_c snp = (nTotal inp : α)) ∧
    (0 < r_c (snp + inp.nSnps - 1) → 0 < sumMat M Qsel inp r_c ep_c snp) ∧
    (r_c (snp + inp.nSnps - 1) < 1 → sumMat M Qsel inp r_c ep_c snp < (nTotal inp : α)) := by
  have hms : ∀ fam ind, fam < inp.noFam → ind < inp.nInd fam → _ :=
    fun fam ind hfam hind =>
      mass_support (vProb M Qsel inp r_c ep_c fam ind snp) (r_c snp) (r_c (snp + inp.nSnps - 1))
        (hr _) (hr _)
        (vProb_mass_facts M Qsel inp r_c ep_c hel hr hE fam ind snp hfam hind hsnp).1
        (vProb_mass_facts M Qsel inp r_c ep_c hel hr hE fam ind snp hfam hind hsnp).2.1
        (vProb_mass_facts M Qsel inp r_c ep_c hel hr hE fam ind snp hfam hind hsnp).2.2.1
        (vProb_mass_facts M Qsel inp r_c ep_c hel hr hE fam ind snp hfam hind hsnp).2.2.2
  have hone := famSum_one inp (α := α)
  have hsub : ∀ g : Nat → Nat → α,
      (nTotal inp : α) - ∑ fam in Finset.range inp.noFam,
          ∑ ind in Finset.range (inp.nInd fam), g fam ind
        = ∑ fam in Finset.range inp.noFam, ∑ ind in Finset.range (inp.nInd fam),
            (1 - g fam ind) := by
    intro g
    rw [← hone, ← Finset.sum_sub_distrib]
    refine Finset.sum_congr rfl (fun fam _ => ?_)
    rw [← Finset.sum_sub_distrib]
  have hbP := famSum_bounds inp (fun fam ind => patMass (vProb M Qsel inp r_c ep_c fam ind snp)) 1
    (fun fam ind hfam hind => ⟨(hms fam ind hfam hind).1.1, (hms fam ind hfam hind).1.2.1⟩)
  have hbM := famSum_bounds inp (fun fam ind => matMass (vProb M Qsel inp r_c ep_c fam ind snp)) 1
    (fun fam ind hfam hind => ⟨(hms fam ind hfam hind).1.2.2.1, (hms fam ind hfam hind).1.2.2.2⟩)
  rw [one_mul] at hbP hbM
  rw [sumPat_eq_mass, sumMat_eq_mass]
  refine ⟨hbP, hbM, ?_, ?_, ?_, ?_, ?_, ?_, ?_, ?_⟩
  · intro h
    exact Finset.sum_eq_zero (fun fam hfam => Finset.sum_eq_zero (fun ind hind =>
      (hms fam ind (Finset.mem_range.mp hfam) (Finset.mem_range.mp hind)).2.1 h))
  · intro h
    rw [← hone]
    exact Finset.sum_congr rfl (fun fam hfam => Finset.sum_congr rfl (fun ind hind =>
      (hms fam ind (Finset.mem_range.mp hfam) (Finset.mem_range.mp hind)).2.2.1 h))
  · intro h
    exact famSum_pos inp hN _ (fun fam ind hfam hind => (hms fam ind hfam hind).2.2.2.1 h)
  · intro h
    have := famSum_pos inp hN
      (fun fam ind => 1 - patMass (vProb M Qsel inp r_c ep_c fam ind snp))
      (fun fam ind hfam hind => sub_pos.mpr ((hms fam ind hfam hind).2.2.2.2.1 h))
    rw [← hsub] at this
    linarith
  · intro h
    exact Finset.sum_eq_zero (fun fam hfam => Finset.sum_eq_zero (fun ind hind =>
      (hms fam ind (Finset.mem_range.mp hfam) (Finset.mem_range.mp hind)).2.2.2.2.2.1 h))
  · intro h
    rw [← hone]
    exact Finset.sum_congr rfl (fun fam hfam => Finset.sum_congr rfl (fun ind hind =>
      (hms fam ind (Finset.mem_range.mp hfam) (Finset.mem_range.mp hind)).2.2.2.2.2.2.1 h))
  · intro h
    exact famSum_pos inp hN _
      (fun fam ind hfam hind => (hms fam ind hfam hind).2.2.2.2.2.2.2.1 h)
  · intro h
    have := famSum_pos inp hN
      (fun fam ind => 1 - matMass (vProb M Qsel inp r_c ep_c fam ind snp))
      (fun fam ind hfam hind => sub_pos.mpr ((hms fam ind hfam hind).2.2.2.2.2.2.2.2 h))
    rw [← hsub] at this
    linarith

end MassSums

section MStepOptimal

variable {α : Type} [LinearOrderedField α]

/-- The transition matrix stays positive where it was positive when neither
recombination fraction moves onto a boundary of `[0,1]` it was not on. -/
theorem Tmat_ss_pos_of_support {rf rm rnf rnm : α}
    (hf : 0 ≤ rf ∧ rf ≤ 1) (hm : 0 ≤ rm ∧ rm ≤ 1)
    (hfp : 0 < rf → 0 < rnf) (hfl : rf < 1 → rnf < 1)
    (hmp : 0 < rm → 0 < rnm) (hml : rm < 1 → rnm < 1)
    (s1 s2 : Int) (h10 : 0 ≤ s1) (h13 : s1 ≤ 3) (h20 : 0 ≤ s2) (h23 : s2 ≤ 3)
    (h : 0 < Tmat_ss s1 s2 rf rm) : 0 < Tmat_ss s1 s2 rnf rnm := by
  have T00 : ∀ a b : α, Tmat_ss 0 0 a b = (1 - a) * (1 - b) := by
    intro a b
    simp [Tmat_ss]
  have T01 : ∀ a b : α, Tmat_ss 0 1 a b = (1 - a) * b := by
    intro a b
    simp [Tmat_ss]
  have T02 : ∀ a b : α, Tmat_ss 0 2 a b = a * (1 - b) := by
    intro a b
    simp [Tmat_ss]
  have T03 : ∀ a b : α, Tmat_ss 0 3 a b = a * b := by
    intro a b
    simp [Tmat_ss]
  have T10 : ∀ a b : α, Tmat_ss 1 0 a b = (1 - a) * b := by
    intro a b
    simp [Tmat_ss]
  have T11 : ∀ a b : α, Tmat_ss 1 1 a b = (1 - a) * (1 - b) := by
    intro a b
    simp [Tmat_ss]
  have T12 : ∀ a b : α, Tmat_ss 1 2 a b = a * b := by
    intro a b
    simp [Tmat_ss]
  have T13 : ∀ a b : α, Tmat_ss 1 3 a b = a * (1 - b) := by
    intro a b
    simp [Tmat_ss]
  have T20 : ∀ a b : α, Tmat_ss 2 0 a b = a * (1 - b) := by
    intro a b
    simp [Tmat_ss]
  have T21 : ∀ a b : α, Tmat_ss 2 1 a b = a * b := by
    intro a b
    simp [Tmat_ss]
  have T22 : ∀ a b : α, Tmat_ss 2 2 a b = (1 - a) * (1 - b) := by
    intro a b
    simp [Tmat_ss]
  have T23 : ∀ a b : α, Tmat_ss 2 3 a b = (1 - a) * b := by
    intro a b
    simp [Tmat_ss]
  have T30 : ∀ a b : α, Tmat_ss 3 0 a b = a * b := by
    intro a b
    simp [Tmat_ss]
  have T31 : ∀ a b : α, Tmat_ss 3 1 a b = a * (1 - b) := by
    intro a b
    simp [Tmat_ss]
  have T32 : ∀ a b : α, Tmat_ss 3 2 a b = (1 - a) * b := by
    intro a b
    simp [Tmat_ss]
  have T33 : ∀ a b : α, Tmat_ss 3 3 a b = (1 - a) * (1 - b) := by
    intro a b
    simp [Tmat_ss]
  interval_cases s1 <;> interval_cases s2
  · rw [T00] at h ⊢
    exact mul_pos (sub_pos.mpr (hfl (sub_pos.mp (pos_left_of_mul_pos h (sub_nonneg.mpr hm.2))))) (sub_pos.mpr (hml (sub_pos.mp (pos_right_of_mul_pos h (sub_nonneg.mpr hf.2)))))
  · rw [T01] at h ⊢
    exact mul_pos (sub_pos.mpr (hfl (sub_pos.mp (pos_left_of_mul_pos h hm.1)))) (hmp (pos_right_of_mul_pos h (sub_nonneg.mpr hf.2)))
  · rw [T02] at h ⊢
    exact mul_pos (hfp (pos_left_of_mul_pos h (sub_nonneg.mpr hm.2))) (sub_pos.mpr (hml (sub_pos.mp (pos_right_of_mul_pos h hf.1))))
  · rw [T03] at h ⊢
    exact mul_pos (hfp (pos_left_of_mul_pos h hm.1)) (hmp (pos_right_of_mul_pos h hf.1))
  · rw [T10] at h ⊢
    exact mul_pos (sub_pos.mpr (hfl (sub_pos.mp (pos_left_of_mul_pos h hm.1)))) (hmp (pos_right_of_mul_pos h (sub_nonneg.mpr hf.2)))
  · rw [T11] at h ⊢
    exact mul_pos (sub_pos.mpr (hfl (sub_pos.mp (pos_left_of_mul_pos h (sub_nonneg.mpr hm.2))))) (sub_pos.mpr (hml (sub_pos.mp (pos_right_of_mul_pos h (sub_nonneg.mpr hf.2)))))
  · rw [T12] at h ⊢
    exact mul_pos (hfp (pos_left_of_mul_pos h hm.1)) (hmp (pos_right_of_mul_pos h hf.1))
  · rw [T13] at h ⊢
    exact mul_pos (hfp (pos_left_of_mul_pos h (sub_nonneg.mpr hm.2))) (sub_pos.mpr (hml (sub_pos.mp (pos_right_of_mul_pos h hf.1))))
  · rw [T20] at h ⊢
    exact mul_pos (hfp (pos_left_of_mul_pos h (sub_nonneg.mpr hm.2))) (sub_pos.mpr (hml (sub_pos.mp (pos_right_of_mul_pos h hf.1))))
  · rw [T21] at h ⊢
    exact mul_pos (hfp (pos_left_of_mul_pos h hm.1)) (hmp (pos_right_of_mul_pos h hf.1))
  · rw [T22] at h ⊢
    exact mul_pos (sub_pos.mpr (hfl (sub_pos.mp (pos_left_of_mul_pos h (sub_nonneg.mpr hm.2))))) (sub_pos.mpr (hml (sub_pos.mp (pos_right_of_mul_pos h (sub_nonneg.mpr hf.2)))))
  · rw [T23] at h ⊢
    exact mul_pos (sub_pos.mpr (hfl (sub_pos.mp (pos_left_of_mul_pos h hm.1)))) (hmp (pos_right_of_mul_pos h (sub_nonneg.mpr hf.2)))
  · rw [T30] at h ⊢
    exact mul_pos (hfp (pos_left_of_mul_pos h hm.1)) (hmp (pos_right_of_mul_pos h hf.1))
  · rw [T31] at h ⊢
    exact mul_pos (hfp (pos_left_of_mul_pos h (sub_nonneg.mpr hm.2))) (sub_pos.mpr (hml (sub_pos.mp (pos_right_of_mul_pos h hf.1))))
  · rw [T32] at h ⊢
    exact mul_pos (sub_pos.mpr (hfl (sub_pos.mp (pos_left_of_mul_pos h hm.1)))) (hmp (pos_right_of_mul_pos h (sub_nonneg.mpr hf.2)))
  · rw [T33] at h ⊢
    exact mul_pos (sub_pos.mpr (hfl (sub_pos.mp (pos_left_of_mul_pos h (sub_nonneg.mpr hm.2))))) (sub_pos.mpr (hml (sub_pos.mp (pos_right_of_mul_pos h (sub_nonneg.mpr hf.2)))))

variable (M : Libm α)

/-- One coordinate of the M-step does not lower its part of the expected
complete-data log-likelihood: either the coordinate is kept, or it is replaced
by the posterior mean `A / N`. -/
theorem coord_gain_nonneg
    (hmul : ∀ x y : α, 0 < x → 0 < y → M.log (x * y) = M.log x + M.log y)
    (hle : ∀ x : α, 0 < x → M.log x ≤ x - 1)
    {A N x x' : α} (hN : 0 < N) (hA0 : 0 ≤ A) (hAN : A ≤ N) (hx0 : 0 ≤ x) (hx1 : x ≤ 1)
    (hz : x = 0 → A = 0) (ho : x = 1 → A = N) (hx' : x' = 1 / N * A ∨ x' = x) :
    0 ≤ A * (M.log x' - M.log x) + (N - A) * (M.log (1 - x') - M.log (1 - x)) := by
  rcases hx' with hx' | hx'
  · refine two_point_gibbs M hmul hle hA0 (sub_nonneg.mpr hAN) hx0 (sub_nonneg.mpr hx1)
      (by linarith) ?_ ?_ ?_ ?_
    · intro hA
      rcases eq_or_lt_of_le hx0 with h | h
      · rw [hz h.symm] at hA
        exact absurd hA (lt_irrefl _)
      · exact h
    · intro hB
      rcases eq_or_lt_of_le hx1 with h | h
      · rw [ho h, sub_self] at hB
        exact absurd hB (lt_irrefl _)
      · exact sub_pos.mpr h
    · intro _
      rw [hx']
      field_simp
    · intro _
      rw [hx']
      field_simp
  · rw [hx', sub_self, sub_self, mul_zero, mul_zero, add_zero]

end MStepOptimal

section MStepValues

variable {α : Type} [LinearOrderedField α]
variable (M : Libm α) (Qsel : Int → α → α → α → Int → α)
variable (inp : EMInput α) (r_c : Nat → α) (ep_c : α)

/-- The sex-specific M-step writes the paternal and maternal posterior means
into the entries whose flag is `1`. -/
theorem mstep_r_sexspec (snp : Nat) (hsnp : snp < inp.nSnps - 1) :
    (inp.ss_rf snp = 1 → mstep_r M Qsel true inp r_c ep_c snp
        = 1.0 / (nTotal inp : α) * sumPat M Qsel inp r_c ep_c snp) ∧
    (inp.ss_rf (snp + inp.nSnps - 1) = 1 → mstep_r M Qsel true inp r_c ep_c (snp + inp.nSnps - 1)
        = 1.0 / (nTotal inp : α) * sumMat M Qsel inp r_c ep_c snp) := by
  have key : ∀ t, t < inp.nSnps - 1 →
      (inp.ss_rf t = 1 → mstep_r M Qsel true inp r_c ep_c t
          = 1.0 / (nTotal inp : α) * sumPat M Qsel inp r_c ep_c t) ∧
      (inp.ss_rf (t + inp.nSnps - 1) = 1 →
        mstep_r M Qsel true inp r_c ep_c (t + inp.nSnps - 1)
          = 1.0 / (nTotal inp : α) * sumMat M Qsel inp r_c ep_c t) := by
    unfold mstep_r
    simp only [if_true]
    refine forLoop_inv
      (fun k (buf : Nat → α) => ∀ t, t < k →
        (inp.ss_rf t = 1 → buf t = 1.0 / (nTotal inp : α) * sumPat M Qsel inp r_c ep_c t) ∧
        (inp.ss_rf (t + inp.nSnps - 1) = 1 → buf (t + inp.nSnps - 1)
          = 1.0 / (nTotal inp : α) * sumMat M Qsel inp r_c ep_c t)) _ _ _ ?_ ?_
    · intro t ht
      omega
    · intro k buf hk hb t ht
      by_cases htk : t = k
      · subst htk
        constructor
        · intro h1
          have hne : t ≠ t + inp.nSnps - 1 := by omega
          split_ifs
          · rw [Function.update_noteq hne, Function.update_same]
          · rw [Function.update_same]
        · intro h2
          rw [if_pos h2, Function.update_same]
      · obtain ⟨h1, h2⟩ := hb t (by omega)
        have n1 : t ≠ k := htk
        have n2 : t ≠ k + inp.nSnps - 1 := by omega
        have n3 : t + inp.nSnps - 1 ≠ k := by omega
        have n4 : t + inp.nSnps - 1 ≠ k + inp.nSnps - 1 := by omega
        constructor
        · intro hf
          split_ifs <;>
            simp only [Function.update_noteq n1, Function.update_noteq n2, h1 hf]
        · intro hf
          split_ifs <;>
            simp only [Function.update_noteq n3, Function.update_noteq n4, h2 hf]
  exact key snp hsnp

end MStepValues

section MStepGain

variable {α : Type} [LinearOrderedField α]
variable (M : Libm α) (Qsel : Int → α → α → α → Int → α)
variable (inp : EMInput α) (r_c : Nat → α) (ep_c : α)
variable (hel : ∀ x : α, 0 < x → M.exp (M.log x) = x)
variable (hr : ∀ i, 0 ≤ r_c i ∧ r_c i ≤ 1) (hE : EmisPos Qsel inp ep_c)

include hel hr hE

/-- Shape of the two entries of an interval after the M-step: in sex-specific
mode each is the posterior mean or unchanged; in pooled mode both are the pooled
posterior mean. -/
theorem mstep_r_shape (sexSpec : Bool) (snp : Nat) (hsnp : snp + 1 < inp.nSnps) :
    (sexSpec = true →
      (mstep_r M Qsel sexSpec inp r_c ep_c snp
          = 1 / (nTotal inp : α) * sumPat M Qsel inp r_c ep_c snp ∨
        mstep_r M Qsel sexSpec inp r_c ep_c snp = r_c snp) ∧
      (mstep_r M Qsel sexSpec inp r_c ep_c (snp + inp.nSnps - 1)
          = 1 / (nTotal inp : α) * sumMat M Qsel inp r_c ep_c snp ∨
        mstep_r M Qsel sexSpec inp r_c ep_c (snp + inp.nSnps - 1)
          = r_c (snp + inp.nSnps - 1))) ∧
    (sexSpec = false →
      mstep_r M Qsel sexSpec inp r_c ep_c snp
          = 1 / (2 * (nTotal inp : α)) *
            (sumPat M Qsel inp r_c ep_c snp + sumMat M Qsel inp r_c ep_c snp) ∧
      mstep_r M Qsel sexSpec inp r_c ep_c (snp + inp.nSnps - 1)
          = 1 / (2 * (nTotal inp : α)) *
            (sumPat M Qsel inp r_c ep_c snp + sumMat M Qsel inp r_c ep_c snp)) := by
  have e1 : (1.0 : α) = 1 := by norm_num
  have e2 : (2.0 : α) = 2 := by norm_num
  constructor
  · intro hs
    subst hs
    obtain ⟨h1, h2⟩ := mstep_r_sexspec M Qsel inp r_c ep_c snp (by omega)
    constructor
    · by_cases hf : inp.ss_rf snp = 1
      · left
        rw [h1 hf, e1]
      · right
        exact mstep_r_frame M Qsel inp r_c ep_c snp hf
    · by_cases hf : inp.ss_rf (snp + inp.nSnps - 1) = 1
      · left
        rw [h2 hf, e1]
      · right
        exact mstep_r_frame M Qsel inp r_c ep_c _ hf
  · intro hs
    subst hs
    obtain ⟨h1, h2⟩ := mstep_r_pooled M Qsel inp r_c ep_c snp (by omega)
    have e : snp + inp.nSnps - 1 = snp + (inp.nSnps - 1) := by omega
    rw [e, h1, h2, e1, e2, sumPooled_eq_add]
    exact ⟨rfl, rfl⟩

/-- The M-step moves no recombination fraction onto a boundary of `[0,1]` it
was not on (in pooled mode, provided the two halves of the current vector
agree). -/
theorem mstep_r_support (hN : 1 ≤ nTotal inp) (sexSpec : Bool)
    (hmode : sexSpec = false → ∀ t, t + 1 < inp.nSnps → r_c t = r_c (t + inp.nSnps - 1))
    (snp : Nat) (hsnp : snp + 1 < inp.nSnps) :
    (0 < r_c snp → 0 < mstep_r M Qsel sexSpec inp r_c ep_c snp) ∧
    (r_c snp < 1 → mstep_r M Qsel sexSpec inp r_c ep_c snp < 1) ∧
    (0 < r_c (snp + inp.nSnps - 1) →
      0 < mstep_r M Qsel sexSpec inp r_c ep_c (snp + inp.nSnps - 1)) ∧
    (r_c (snp + inp.nSnps - 1) < 1 →
      mstep_r M Qsel sexSpec inp r_c ep_c (snp + inp.nSnps - 1) < 1) := by
  have hNα : (0 : α) < (nTotal inp : α) := by exact_mod_cast hN
  obtain ⟨⟨hP0, hPN⟩, ⟨hM0, hMN⟩, -, -, hPp, hPl, -, -, hMp, hMl⟩ :=
    sumPat_sumMat_support M Qsel inp r_c ep_c hel hr hE hN snp hsnp
  obtain ⟨hS, hP⟩ := mstep_r_shape M Qsel inp r_c ep_c hel hr hE sexSpec snp hsnp
  have mean_pos : ∀ {c S : α}, 0 < c → 0 < S → 0 < 1 / c * S :=
    fun hc hS => mul_pos (div_pos one_pos hc) hS
  have mean_lt : ∀ {c S : α}, 0 < c → S < c → 1 / c * S < 1 := by
    intro c S hc hS
    rw [one_div, inv_mul_lt_iff₀ hc, mul_one]
    exact hS
  cases sexSpec
  · obtain ⟨h1, h2⟩ := hP rfl
    have heq := hmode rfl snp hsnp
    rw [h1, h2, ← heq]
    have h2N : (0 : α) < 2 * (nTotal inp : α) := by linarith
    refine ⟨fun h => mean_pos h2N (by linarith [hPp h]),
      fun h => mean_lt h2N (by linarith [hPl h]),
      fun h => mean_pos h2N (by linarith [hPp h]),
      fun h => mean_lt h2N (by linarith [hPl h])⟩
  · obtain ⟨h1, h2⟩ := hS rfl
    refine ⟨?_, ?_, ?_, ?_⟩
    · intro h
      rcases h1 with h1 | h1
      · rw [h1]
        exact mean_pos hNα (hPp h)
      · rw [h1]
        exact h
    · intro h
      rcases h1 with h1 | h1
      · rw [h1]
        exact mean_lt hNα (hPl h)
      · rw [h1]
        exact h
    · intro h
      rcases h2 with h2 | h2
      · rw [h2]
        exact mean_pos hNα (hMp h)
      · rw [h2]
        exact h
    · intro h
      rcases h2 with h2 | h2
      · rw [h2]
        exact mean_lt hNα (hMl h)
      · rw [h2]
        exact h

/-- The M-step does not lower the transition part of the expected
complete-data log-likelihood on any interval. -/
theorem mstep_r_gain
    (hmul : ∀ x y : α, 0 < x → 0 < y → M.log (x * y) = M.log x + M.log y)
    (hle : ∀ x : α, 0 < x → M.log x ≤ x - 1)
    (hN : 1 ≤ nTotal inp) (sexSpec : Bool)
    (hmode : sexSpec = false → ∀ t, t + 1 < inp.nSnps → r_c t = r_c (t + inp.nSnps - 1))
    (snp : Nat) (hsnp : snp + 1 < inp.nSnps) :
    0 ≤ sumPat M Qsel inp r_c ep_c snp *
          (M.log (mstep_r M Qsel sexSpec inp r_c ep_c snp) - M.log (r_c snp))
        + ((nTotal inp : α) - sumPat M Qsel inp r_c ep_c snp) *
          (M.log (1 - mstep_r M Qsel sexSpec inp r_c ep_c snp) - M.log (1 - r_c snp))
        + sumMat M Qsel inp r_c ep_c snp *
          (M.log (mstep_r M Qsel sexSpec inp r_c ep_c (snp + inp.nSnps - 1))
            - M.log (r_c (snp + inp.nSnps - 1)))
        + ((nTotal inp : α) - sumMat M Qsel inp r_c ep_c snp) *
          (M.log (1 - mstep_r M Qsel sexSpec inp r_c ep_c (snp + inp.nSnps - 1))
            - M.log (1 - r_c (snp + inp.nSnps - 1))) := by
  have hNα : (0 : α) < (nTotal inp : α) := by exact_mod_cast hN
  obtain ⟨⟨hP0, hPN⟩, ⟨hM0, hMN⟩, hPz, hPo, -, -, hMz, hMo, -, -⟩ :=
    sumPat_sumMat_support M Qsel inp r_c ep_c hel hr hE hN snp hsnp
  obtain ⟨hS, hP⟩ := mstep_r_shape M Qsel inp r_c ep_c hel hr hE sexSpec snp hsnp
  cases sexSpec
  · obtain ⟨h1, h2⟩ := hP rfl
    have heq := hmode rfl snp hsnp
    have h2N : (0 : α) < 2 * (nTotal inp : α) := by linarith
    have hg := coord_gain_nonneg M hmul hle h2N
      (add_nonneg hP0 hM0) (by linarith) (hr snp).1 (hr snp).2
      (fun hz => by rw [hPz hz, hMz (by rw [← heq]; exact hz), add_zero])
      (fun ho => by rw [hPo ho, hMo (by rw [← heq]; exact ho)]; ring)
      (Or.inl h1)
    rw [h2, ← heq, ← h1]
    linarith
  · obtain ⟨h1, h2⟩ := hS rfl
    have hgP := coord_gain_nonneg M hmul hle hNα hP0 hPN (hr snp).1 (hr snp).2 hPz hPo h1
    have hgM := coord_gain_nonneg M hmul hle hNα hM0 hMN (hr (snp + inp.nSnps - 1)).1
      (hr (snp + inp.nSnps - 1)).2 hMz hMo h2
    linarith

end MStepGain

section EmissionGain

variable {α : Type} [LinearOrderedField α]
variable (M : Libm α) (Qsel : Int → α → α → α → Int → α) (Isel : Int → Int → Int)
variable (inp : EMInput α)

/-- As a function of the error rate every emission is a positive constant times
`(1 - ep) ^ mtch * ep ^ mism`. -/
theorem emis_shape {hi : Int} (hV : ValidData hi inp) (hT : TableOK Qsel Isel hi)
    (fam ind snp : Nat) (hfam : fam < inp.noFam) (hind : ind < inp.nInd fam)
    (hsnp : snp < inp.nSnps) (s : Int) (hs0 : 0 ≤ s) (hs3 : s ≤ 3) :
    ∃ K : α, 0 < K ∧ ∀ ep : α, emis Qsel inp ep fam ind snp s =
      K * ((1 - ep) ^ (mtch Isel inp fam ind snp s) * ep ^ (mism Isel inp fam ind snp s)) := by
  obtain ⟨hcode, hdepth⟩ := hV
  obtain ⟨hc1, hc2⟩ := hcode _ (code_index_lt inp fam snp hfam hsnp)
  obtain ⟨ha, hb⟩ := hdepth _ (depth_index_lt inp fam ind snp hfam hind hsnp)
  have hI := (hT (inp.OPGP (snp * inp.noFam + fam)) (s + 1) 0 0 0 hc1 hc2
    (by omega) (by omega)).1
  have hQ : ∀ ep : α, emis Qsel inp ep fam ind snp s =
      (if Isel (inp.OPGP (snp * inp.noFam + fam)) (s + 1) = 0
        then pAB inp (ind + indSum inp fam) snp
        else if Isel (inp.OPGP (snp * inp.noFam + fam)) (s + 1) = 1
          then pAA inp ep (ind + indSum inp fam) snp
          else pBB inp ep (ind + indSum inp fam) snp) := fun ep =>
    (hT (inp.OPGP (snp * inp.noFam + fam)) (s + 1)
      (pAA inp ep (ind + indSum inp fam) snp) (pAB inp (ind + indSum inp fam) snp)
      (pBB inp ep (ind + indSum inp fam) snp) hc1 hc2 (by omega) (by omega)).2
  rcases hI with h | h | h
  · refine ⟨pAB inp (ind + indSum inp fam) snp, ?_, fun ep => ?_⟩
    · unfold pAB
      rw [one_mul]
      exact zpow_pos (by norm_num) _
    · have e1 : mism Isel inp fam ind snp s = 0 := by simp [mism, Iaa, Ibb, h]
      have e2 : mtch Isel inp fam ind snp s = 0 := by simp [mtch, Iaa, Ibb, h]
      rw [hQ, if_pos h, e1, e2]
      simp
  · refine ⟨1, one_pos, fun ep => ?_⟩
    have e1 : mism Isel inp fam ind snp s
        = inp.depth_Alt (ind + indSum inp fam + nTotal inp * snp) := by
      simp [mism, Iaa, Ibb, h]
    have e2 : mtch Isel inp fam ind snp s
        = inp.depth_Ref (ind + indSum inp fam + nTotal inp * snp) := by
      simp [mtch, Iaa, Ibb, h]
    rw [hQ, if_neg (by rw [h]; decide), if_pos h,
      (pAA_cell inp ep fam ind snp hfam hind hsnp).1, e1, e2]
    unfold cellAA
    split_ifs with hd
    · have hz1 : inp.depth_Ref (ind + indSum inp fam + nTotal inp * snp) = 0 := by omega
      have hz2 : inp.depth_Alt (ind + indSum inp fam + nTotal inp * snp) = 0 := by omega
      rw [hz1, hz2]
      simp
    · ring
  · refine ⟨1, one_pos, fun ep => ?_⟩
    have e1 : mism Isel inp fam ind snp s
        = inp.depth_Ref (ind + indSum inp fam + nTotal inp * snp) := by
      simp [mism, Iaa, Ibb, h]
    have e2 : mtch Isel inp fam ind snp s
        = inp.depth_Alt (ind + indSum inp fam + nTotal inp * snp) := by
      simp [mtch, Iaa, Ibb, h]
    rw [hQ, if_neg (by rw [h]; decide), if_neg (by rw [h]; decide),
      (pAA_cell inp ep fam ind snp hfam hind hsnp).2, e1, e2]
    unfold cellBB
    split_ifs with hd
    · have hz1 : inp.depth_Ref (ind + indSum inp fam + nTotal inp * snp) = 0 := by omega
      have hz2 : inp.depth_Alt (ind + indSum inp fam + nTotal inp * snp) = 0 := by omega
      rw [hz1, hz2]
      simp
    · ring

theorem log_zpow_gain
    (hmul : ∀ x y : α, 0 < x → 0 < y → M.log (x * y) = M.log x + M.log y)
    (n : Int) (hn : 0 ≤ n) (x y : α) (hx : n ≠ 0 → 0 < x) (hy : n ≠ 0 → 0 < y) :
    0 < x ^ n ∧ 0 < y ^ n ∧
      M.log (y ^ n) - M.log (x ^ n) = (n : α) * (M.log y - M.log x) := by
  by_cases h0 : n = 0
  · subst h0
    simp
  · obtain ⟨k, rfl⟩ := Int.eq_ofNat_of_zero_le hn
    have hxp := hx h0
    have hyp := hy h0
    refine ⟨zpow_pos hxp _, zpow_pos hyp _, ?_⟩
    rw [zpow_natCast, zpow_natCast, log_pow_of_mul M hmul hxp, log_pow_of_mul M hmul hyp]
    push_cast
    ring

/-- Gain of one emission when the error rate moves from `ep_c` to `ep_n`. -/
theorem emis_log_gain
    (hmul : ∀ x y : α, 0 < x → 0 < y → M.log (x * y) = M.log x + M.log y)
    {hi : Int} (hV : ValidData hi inp) (hT : TableOK Qsel Isel hi)
    (ep_c ep_n : α) (hE : EpOK Isel inp ep_c) (hEn : EpOK Isel inp ep_n)
    (fam ind snp : Nat) (hfam : fam < inp.noFam) (hind : ind < inp.nInd fam)
    (hsnp : snp < inp.nSnps) (s : Int) (hs0 : 0 ≤ s) (hs3 : s ≤ 3) :
    M.log (emis Qsel inp ep_n fam ind snp s) - M.log (emis Qsel inp ep_c fam ind snp s)
      = ((mtch Isel inp fam ind snp s : Int) : α) * (M.log (1 - ep_n) - M.log (1 - ep_c))
        + ((mism Isel inp fam ind snp s : Int) : α) * (M.log ep_n - M.log ep_c) := by
  obtain ⟨K, hK, hshape⟩ := emis_shape Qsel Isel inp hV hT fam ind snp hfam hind hsnp s hs0 hs3
  obtain ⟨hmi, hmt⟩ := mism_mtch_nonneg Isel inp hV fam ind snp s hfam hind hsnp
  obtain ⟨h0, h1, hc⟩ := hE
  obtain ⟨h0n, h1n, hcn⟩ := hEn
  obtain ⟨c1, c2⟩ := hc fam ind snp s hfam hind hsnp hs0 hs3
  obtain ⟨c1n, c2n⟩ := hcn fam ind snp s hfam hind hsnp hs0 hs3
  obtain ⟨pX, pXn, eX⟩ := log_zpow_gain M hmul (mtch Isel inp fam ind snp s) hmt
    (1 - ep_c) (1 - ep_n)
    (fun hne => sub_pos.mpr (lt_of_le_of_ne h1 (fun h => hne (c2 h))))
    (fun hne => sub_pos.mpr (lt_of_le_of_ne h1n (fun h => hne (c2n h))))
  obtain ⟨pY, pYn, eY⟩ := log_zpow_gain M hmul (mism Isel inp fam ind snp s) hmi ep_c ep_n
    (fun hne => lt_of_le_of_ne h0 (fun h => hne (c1 h.symm)))
    (fun hne => lt_of_le_of_ne h0n (fun h => hne (c1n h.symm)))
  rw [hshape ep_n, hshape ep_c, hmul _ _ hK (mul_pos pXn pYn), hmul _ _ hK (mul_pos pX pY),
    hmul _ _ pXn pYn, hmul _ _ pX pY]
  linear_combination eX + eY

end EmissionGain

section ErrorRateGain

variable {α : Type} [LinearOrderedField α]
variable (M : Libm α) (Qsel : Int → α → α → α → Int → α) (Isel : Int → Int → Int)
variable (inp : EMInput α) (r_c : Nat → α) (ep_c : α)

theorem cellSum_comm (f : Nat → Nat → Nat → α) :
    ∑ fam in Finset.range inp.noFam, ∑ ind in Finset.range (inp.nInd fam),
        ∑ snp in Finset.range inp.nSnps, f fam ind snp
      = ∑ snp in Finset.range inp.nSnps, ∑ fam in Finset.range inp.noFam,
          ∑ ind in Finset.range (inp.nInd fam), f fam ind snp := by
  rw [Finset.sum_comm]
  refine Finset.sum_congr rfl (fun fam _ => ?_)
  rw [Finset.sum_comm]

/-- The M-step for the error rate does not lower the emission part of the
expected complete-data log-likelihood. -/
theorem mstep_ep_gain {hi : Int} (hV : ValidData hi inp) (hT : TableOK Qsel Isel hi)
    (hel : ∀ x : α, 0 < x → M.exp (M.log x) = x) (hen : ∀ x : α, M.exp (-x) = (M.exp x)⁻¹)
    (hmul : ∀ x y : α, 0 < x → 0 < y → M.log (x * y) = M.log x + M.log y)
    (hle : ∀ x : α, 0 < x → M.log x ≤ x - 1)
    (hr : ∀ i, 0 ≤ r_c i ∧ r_c i ≤ 1) (hE : EpOK Isel inp ep_c) :
    0 ≤ ∑ fam in Finset.range inp.noFam, ∑ ind in Finset.range (inp.nInd fam),
        ∑ snp in Finset.range inp.nSnps, ∑ s in Finset.range 4,
          uProb M Qsel inp r_c ep_c fam ind snp (s : Int) *
            (M.log (emis Qsel inp (mstep_ep M Qsel Isel inp r_c ep_c) fam ind snp (s : Int))
              - M.log (emis Qsel inp ep_c fam ind snp (s : Int))) := by
  have hEn := epOK_step M Qsel Isel inp r_c ep_c hV hT hel hen hr hE
  have hPos := emisPos_of_epOK Qsel Isel inp ep_c hV hT hE
  have hu : ∀ fam ind snp (s : Int), fam < inp.noFam → ind < inp.nInd fam →
      snp < inp.nSnps → 0 ≤ s → s ≤ 3 → 0 < uProb M Qsel inp r_c ep_c fam ind snp s :=
    fun fam ind snp s hfam hind hsnp hs0 hs3 =>
      uProb_pos M Qsel inp r_c ep_c fam ind hel hen hr
        (fun t ht q hq0 hq3 => hPos fam ind t q hfam hind ht hq0 hq3) snp hsnp s hs0 hs3
  -- rewrite every term through the shape of the emission
  have hterm : ∀ fam ∈ Finset.range inp.noFam, ∀ ind ∈ Finset.range (inp.nInd fam),
      ∀ snp ∈ Finset.range inp.nSnps, ∀ s ∈ Finset.range 4,
      uProb M Qsel inp r_c ep_c fam ind snp ((s : Nat) : Int) *
          (M.log (emis Qsel inp (mstep_ep M Qsel Isel inp r_c ep_c) fam ind snp (s : Int))
            - M.log (emis Qsel inp ep_c fam ind snp (s : Int)))
        = uProb M Qsel inp r_c ep_c fam ind snp (s : Int)
              * ((mism Isel inp fam ind snp (s : Int) : Int) : α)
            * (M.log (mstep_ep M Qsel Isel inp r_c ep_c) - M.log ep_c)
          + uProb M Qsel inp r_c ep_c fam ind snp (s : Int)
              * ((mtch Isel inp fam ind snp (s : Int) : Int) : α)
            * (M.log (1 - mstep_ep M Qsel Isel inp r_c ep_c) - M.log (1 - ep_c)) := by
    intro fam hfam ind hind snp hsnp s hs
    rw [Finset.mem_range] at hfam hind hsnp hs
    rw [emis_log_gain M Qsel Isel inp hmul hV hT ep_c _ hE hEn fam ind snp hfam hind hsnp _
      (by omega) (by omega)]
    ring
  rw [Finset.sum_congr rfl (fun fam hfam => Finset.sum_congr rfl (fun ind hind =>
    Finset.sum_congr rfl (fun snp hsnp => Finset.sum_congr rfl (fun s hs =>
      hterm fam hfam ind hind snp hsnp s hs))))]
  simp only [Finset.sum_add_distrib, ← Finset.sum_mul]
  rw [cellSum_comm inp (fun fam ind snp => ∑ s in Finset.range 4,
      uProb M Qsel inp r_c ep_c fam ind snp (s : Int)
        * ((mism Isel inp fam ind snp (s : Int) : Int) : α)),
    cellSum_comm inp (fun fam ind snp => ∑ s in Finset.range 4,
      uProb M Qsel inp r_c ep_c fam ind snp (s : Int)
        * ((mtch Isel inp fam ind snp (s : Int) : Int) : α))]
  have hAB := sumAB_eq M Qsel Isel inp r_c ep_c
  have hA1 := congrArg Prod.fst hAB
  have hB1 := congrArg Prod.snd hAB
  simp only at hA1 hB1
  rw [← hA1, ← hB1]
  obtain ⟨hA0, hAz⟩ := cellSum_zero inp
    (fun fam ind snp s => uProb M Qsel inp r_c ep_c fam ind snp s)
    (fun fam ind snp s => mism Isel inp fam ind snp s) hu
    (fun fam ind snp s hfam hind hsnp =>
      (mism_mtch_nonneg Isel inp hV fam ind snp s hfam hind hsnp).1)
  obtain ⟨hB0, hBz⟩ := cellSum_zero inp
    (fun fam ind snp s => uProb M Qsel inp r_c ep_c fam ind snp s)
    (fun fam ind snp s => mtch Isel inp fam ind snp s) hu
    (fun fam ind snp s hfam hind hsnp =>
      (mism_mtch_nonneg Isel inp hV fam ind snp s hfam hind hsnp).2)
  rw [← hA1] at hA0 hAz
  rw [← hB1] at hB0 hBz
  obtain ⟨h0, h1, hc⟩ := hE
  by_cases hseq : inp.seqError ≠ 0
  · have hval : mstep_ep M Qsel Isel inp r_c ep_c =
        (sumAB M Qsel Isel inp r_c ep_c).1 /
          ((sumAB M Qsel Isel inp r_c ep_c).1 + (sumAB M Qsel Isel inp r_c ep_c).2) := by
      unfold mstep_ep
      rw [if_pos hseq]
    -- a vanishing exponent sum forces a vanishing accumulated sum
    have hAzero : ep_c = 0 → (sumAB M Qsel Isel inp r_c ep_c).1 = 0 := by
      intro hz
      rw [hA1]
      refine Finset.sum_eq_zero (fun snp hsnp => Finset.sum_eq_zero (fun fam hfam =>
        Finset.sum_eq_zero (fun ind hind => Finset.sum_eq_zero (fun s hs => ?_))))
      rw [Finset.mem_range] at hsnp hfam hind hs
      rw [(hc fam ind snp s hfam hind hsnp (by omega) (by omega)).1 hz]
      simp
    have hBzero : ep_c = 1 → (sumAB M Qsel Isel inp r_c ep_c).2 = 0 := by
      intro ho
      rw [hB1]
      refine Finset.sum_eq_zero (fun snp hsnp => Finset.sum_eq_zero (fun fam hfam =>
        Finset.sum_eq_zero (fun ind hind => Finset.sum_eq_zero (fun s hs => ?_))))
      rw [Finset.mem_range] at hsnp hfam hind hs
      rw [(hc fam ind snp s hfam hind hsnp (by omega) (by omega)).2 ho]
      simp
    refine two_point_gibbs M hmul hle hA0 hB0 h0 (sub_nonneg.mpr h1) (by linarith) ?_ ?_ ?_ ?_
    · intro hA
      rcases eq_or_lt_of_le h0 with h | h
      · rw [hAzero h.symm] at hA
        exact absurd hA (lt_irrefl _)
      · exact h
    · intro hB
      rcases eq_or_lt_of_le h1 with h | h
      · rw [hBzero h] at hB
        exact absurd hB (lt_irrefl _)
      · exact sub_pos.mpr h
    · intro _
      exact hval
    · intro hB
      rw [hval]
      have hpos : 0 < (sumAB M Qsel Isel inp r_c ep_c).1 + (sumAB M Qsel Isel inp r_c ep_c).2 := by
        linarith
      field_simp
  · have hval : mstep_ep M Qsel Isel inp r_c ep_c = ep_c := by
      unfold mstep_ep
      rw [if_neg hseq]
    rw [hval, sub_self, sub_self, mul_zero, mul_zero, add_zero]

end ErrorRateGain

section StepMonotone

variable {α : Type} [LinearOrderedField α]
variable (M : Libm α) (Qsel : Int → α → α → α → Int → α) (Isel : Int → Int → Int)
variable (inp : EMInput α) (r_c : Nat → α) (ep_c : α)

theorem logLik_eq_sum (hL : 0 < inp.nSnps) :
    logLik M Qsel inp r_c ep_c =
      ∑ fam in Finset.range inp.noFam, ∑ ind in Finset.range (inp.nInd fam),
        ∑ j in Finset.range inp.nSnps, M.log (forward Qsel inp r_c ep_c fam ind j).w := by
  have inner : ∀ (fam ind : Nat) (ll : α),
      forLoop (inp.nSnps - 1)
          (fun j ll => ll + M.log (forward Qsel inp r_c ep_c fam ind (j + 1)).w)
          (ll + M.log (forward Qsel inp r_c ep_c fam ind 0).w)
        = ll + ∑ j in Finset.range inp.nSnps,
            M.log (forward Qsel inp r_c ep_c fam ind j).w := by
    intro fam ind ll
    obtain ⟨n, hn⟩ : ∃ n, inp.nSnps = n + 1 := ⟨inp.nSnps - 1, by omega⟩
    rw [forLoop_add_eq_sum, hn, Nat.add_sub_cancel,
      Finset.sum_range_succ' (fun j => M.log (forward Qsel inp r_c ep_c fam ind j).w) n]
    ring
  unfold logLik
  simp only [inner, forLoop_add_eq_sum, zero_add]

theorem intervalSum_comm (n : Nat) (f : Nat → Nat → Nat → α) :
    ∑ fam in Finset.range inp.noFam, ∑ ind in Finset.range (inp.nInd fam),
        ∑ snp in Finset.range n, f fam ind snp
      = ∑ snp in Finset.range n, ∑ fam in Finset.range inp.noFam,
          ∑ ind in Finset.range (inp.nInd fam), f fam ind snp := by
  rw [Finset.sum_comm]
  refine Finset.sum_congr rfl (fun fam _ => ?_)
  rw [Finset.sum_comm]

/-- The transition part of the expected gain on one interval, summed over all
individuals, in terms of the two accumulated sums of the M-step. -/
theorem transition_gain_total
    (hel : ∀ x : α, 0 < x → M.exp (M.log x) = x)
    (hmul : ∀ x y : α, 0 < x → 0 < y → M.log (x * y) = M.log x + M.log y)
    (hr : ∀ i, 0 ≤ r_c i ∧ r_c i ≤ 1) (hE : EmisPos Qsel inp ep_c)
    (r_n : Nat → α) (hrn : ∀ i, 0 ≤ r_n i ∧ r_n i ≤ 1)
    (snp : Nat) (hsnp : snp + 1 < inp.nSnps)
    (hsupp : ∀ s1 s2 : Int, 0 ≤ s1 → s1 ≤ 3 → 0 ≤ s2 → s2 ≤ 3 →
      0 < Tmat_ss s1 s2 (r_c snp) (r_c (snp + inp.nSnps - 1)) →
      0 < Tmat_ss s1 s2 (r_n snp) (r_n (snp + inp.nSnps - 1))) :
    ∑ fam in Finset.range inp.noFam, ∑ ind in Finset.range (inp.nInd fam),
        ∑ s2 in Finset.range 4, ∑ s1 in Finset.range 4,
          vProb M Qsel inp r_c ep_c fam ind snp (s1 : Int) (s2 : Int) *
            (M.log (Tmat_ss (s1 : Int) (s2 : Int) (r_n snp) (r_n (snp + inp.nSnps - 1)))
              - M.log (Tmat_ss (s1 : Int) (s2 : Int) (r_c snp) (r_c (snp + inp.nSnps - 1))))
      = sumPat M Qsel inp r_c ep_c snp * (M.log (r_n snp) - M.log (r_c snp))
        + ((nTotal inp : α) - sumPat M Qsel inp r_c ep_c snp) *
          (M.log (1 - r_n snp) - M.log (1 - r_c snp))
        + sumMat M Qsel inp r_c ep_c snp *
          (M.log (r_n (snp + inp.nSnps - 1)) - M.log (r_c (snp + inp.nSnps - 1)))
        + ((nTotal inp : α) - sumMat M Qsel inp r_c ep_c snp) *
          (M.log (1 - r_n (snp + inp.nSnps - 1)) - M.log (1 - r_c (snp + inp.nSnps - 1))) := by
  have hterm : ∀ fam ∈ Finset.range inp.noFam, ∀ ind ∈ Finset.range (inp.nInd fam),
      ∑ s2 in Finset.range 4, ∑ s1 in Finset.range 4,
          vProb M Qsel inp r_c ep_c fam ind snp (s1 : Int) (s2 : Int) *
            (M.log (Tmat_ss (s1 : Int) (s2 : Int) (r_n snp) (r_n (snp + inp.nSnps - 1)))
              - M.log (Tmat_ss (s1 : Int) (s2 : Int) (r_c snp) (r_c (snp + inp.nSnps - 1))))
        = patMass (vProb M Qsel inp r_c ep_c fam ind snp) * (M.log (r_n snp) - M.log (r_c snp))
          + (1 - patMass (vProb M Qsel inp r_c ep_c fam ind snp)) *
            (M.log (1 - r_n snp) - M.log (1 - r_c snp))
          + matMass (vProb M Qsel inp r_c ep_c fam ind snp) *
            (M.log (r_n (snp + inp.nSnps - 1)) - M.log (r_c (snp + inp.nSnps - 1)))
          + (1 - matMass (vProb M Qsel inp r_c ep_c fam ind snp)) *
            (M.log (1 - r_n (snp + inp.nSnps - 1))
              - M.log (1 - r_c (snp + inp.nSnps - 1))) := by
    intro fam hfam ind hind
    rw [Finset.mem_range] at hfam hind
    obtain ⟨hv0, -, -, htot⟩ :=
      vProb_mass_facts M Qsel inp r_c ep_c hel hr hE fam ind snp hfam hind hsnp
    exact transition_gain_eq M hmul (vProb M Qsel inp r_c ep_c fam ind snp) _ _ _ _
      (hr _) (hr _) (hrn _) (hrn _) hv0 hsupp htot
  rw [Finset.sum_congr rfl (fun fam hfam => Finset.sum_congr rfl (fun ind hind =>
    hterm fam hfam ind hind))]
  simp only [Finset.sum_add_distrib, ← Finset.sum_mul, Finset.sum_sub_distrib]
  rw [famSum_one, ← sumPat_eq_mass, ← sumMat_eq_mass]

/-- One round of the EM loop does not lower the log-likelihood: the value at
the parameters written by the M-step is at least the value at the parameters the
round started from.  In pooled mode the two halves of the current vector must
agree. -/
theorem em_step_monotone {hi : Int} (hV : ValidData hi inp) (hT : TableOK Qsel Isel hi)
    (hel : ∀ x : α, 0 < x → M.exp (M.log x) = x) (hen : ∀ x : α, M.exp (-x) = (M.exp x)⁻¹)
    (hmul : ∀ x y : α, 0 < x → 0 < y → M.log (x * y) = M.log x + M.log y)
    (hle : ∀ x : α, 0 < x → M.log x ≤ x - 1)
    (hN : 1 ≤ nTotal inp) (hL : 0 < inp.nSnps)
    (hr : ∀ i, 0 ≤ r_c i ∧ r_c i ≤ 1) (hE : EpOK Isel inp ep_c) (sexSpec : Bool)
    (hmode : sexSpec = false → ∀ t, t + 1 < inp.nSnps → r_c t = r_c (t + inp.nSnps - 1)) :
    logLik M Qsel inp r_c ep_c ≤
      logLik M Qsel inp (mstep_r M Qsel sexSpec inp r_c ep_c)
        (mstep_ep M Qsel Isel inp r_c ep_c) := by
  have hPos := emisPos_of_epOK Qsel Isel inp ep_c hV hT hE
  have hEn := epOK_step M Qsel Isel inp r_c ep_c hV hT hel hen hr hE
  have hPosn := emisPos_of_epOK Qsel Isel inp _ hV hT hEn
  have hrn := mstep_r_bounds M Qsel inp r_c ep_c hel hr hPos sexSpec hN
  have hsupp : ∀ snp, snp + 1 < inp.nSnps → ∀ s1 s2 : Int, 0 ≤ s1 → s1 ≤ 3 → 0 ≤ s2 → s2 ≤ 3 →
      0 < Tmat_ss s1 s2 (r_c snp) (r_c (snp + inp.nSnps - 1)) →
      0 < Tmat_ss s1 s2 (mstep_r M Qsel sexSpec inp r_c ep_c snp)
        (mstep_r M Qsel sexSpec inp r_c ep_c (snp + inp.nSnps - 1)) := by
    intro snp hsnp s1 s2 h10 h13 h20 h23 hpos
    obtain ⟨a, b, c, d⟩ :=
      mstep_r_support M Qsel inp r_c ep_c hel hr hPos hN sexSpec hmode snp hsnp
    exact Tmat_ss_pos_of_support (hr _) (hr _) a b c d s1 s2 h10 h13 h20 h23 hpos
  -- per individual
  have hind : ∀ fam ∈ Finset.range inp.noFam, ∀ ind ∈ Finset.range (inp.nInd fam),
      (∑ j in Finset.range inp.nSnps, ∑ s in Finset.range 4,
          uProb M Qsel inp r_c ep_c fam ind j (s : Int) *
            (M.log (emis Qsel inp (mstep_ep M Qsel Isel inp r_c ep_c) fam ind j (s : Int))
              - M.log (emis Qsel inp ep_c fam ind j (s : Int))))
        + (∑ j in Finset.range (inp.nSnps - 1), ∑ s2 in Finset.range 4,
            ∑ s1 in Finset.range 4,
          vProb M Qsel inp r_c ep_c fam ind j (s1 : Int) (s2 : Int) *
            (M.log (Tmat_ss (s1 : Int) (s2 : Int) (mstep_r M Qsel sexSpec inp r_c ep_c j)
                (mstep_r M Qsel sexSpec inp r_c ep_c (j + inp.nSnps - 1)))
              - M.log (Tmat_ss (s1 : Int) (s2 : Int) (r_c j) (r_c (j + inp.nSnps - 1)))))
      ≤ ∑ j in Finset.range inp.nSnps,
          (M.log (forward Qsel inp (mstep_r M Qsel sexSpec inp r_c ep_c)
              (mstep_ep M Qsel Isel inp r_c ep_c) fam ind j).w
            - M.log (forward Qsel inp r_c ep_c fam ind j).w) := by
    intro fam hfam ind hi2
    rw [Finset.mem_range] at hfam hi2
    exact em_individual M Qsel inp r_c ep_c _ _ fam ind hel hen hmul hle hr hrn
      (fun t ht s hs0 hs3 => hPos fam ind t s hfam hi2 ht hs0 hs3)
      (fun t ht s hs0 hs3 => hPosn fam ind t s hfam hi2 ht hs0 hs3) hsupp hL
  have htotal := Finset.sum_le_sum (fun fam hfam =>
    Finset.sum_le_sum (fun ind hi2 => hind fam hfam ind hi2))
  simp only [Finset.sum_add_distrib, Finset.sum_sub_distrib] at htotal
  rw [← logLik_eq_sum M Qsel inp _ _ hL, ← logLik_eq_sum M Qsel inp _ _ hL] at htotal
  have hgE := mstep_ep_gain M Qsel Isel inp r_c ep_c hV hT hel hen hmul hle hr hE
  have hgT : 0 ≤ ∑ fam in Finset.range inp.noFam, ∑ ind in Finset.range (inp.nInd fam),
      ∑ j in Finset.range (inp.nSnps - 1), ∑ s2 in Finset.range 4, ∑ s1 in Finset.range 4,
        vProb M Qsel inp r_c ep_c fam ind j (s1 : Int) (s2 : Int) *
          (M.log (Tmat_ss (s1 : Int) (s2 : Int) (mstep_r M Qsel sexSpec inp r_c ep_c j)
              (mstep_r M Qsel sexSpec inp r_c ep_c (j + inp.nSnps - 1)))
            - M.log (Tmat_ss (s1 : Int) (s2 : Int) (r_c j) (r_c (j + inp.nSnps - 1)))) := by
    rw [intervalSum_comm]
    refine Finset.sum_nonneg (fun j hj => ?_)
    rw [Finset.mem_range] at hj
    rw [transition_gain_total M Qsel inp r_c ep_c hel hmul hr hPos _ hrn j (by omega)
      (hsupp j (by omega))]
    exact mstep_r_gain M Qsel inp r_c ep_c hel hr hPos hmul hle hN sexSpec hmode j (by omega)
  linarith

end StepMonotone

section MonotoneTheorem

variable {α : Type} [LinearOrderedField α]

/-- In pooled mode the two halves of the current vector agree from the second
round on, and already in the first round when the initial halves agree. -/
theorem pooled_halves_agree (M : Libm α) (Qsel : Int → α → α → α → Int → α)
    (Isel : Int → Int → Int) (inp : EMInput α) (j : Nat)
    (h : 1 ≤ j ∨ ∀ t, t + 1 < inp.nSnps → inp.r t = inp.r (t + inp.nSnps - 1))
    (t : Nat) (ht : t + 1 < inp.nSnps) :
    ((emBody M Qsel Isel false inp)^[j] (emInit false inp)).r_c t =
      ((emBody M Qsel Isel false inp)^[j] (emInit false inp)).r_c (t + inp.nSnps - 1) := by
  cases j with
  | zero =>
    rcases h with h | h
    · omega
    · show copy_r inp.nSnps inp.r t = copy_r inp.nSnps inp.r (t + inp.nSnps - 1)
      rw [copy_r_eq _ _ _ (by omega), copy_r_eq _ _ _ (by omega)]
      exact h t ht
  | succ n =>
    rw [Function.iterate_succ_apply']
    show mstep_r M Qsel false inp _ _ t = mstep_r M Qsel false inp _ _ (t + inp.nSnps - 1)
    have e : t + inp.nSnps - 1 = t + (inp.nSnps - 1) := by omega
    rw [e]
    obtain ⟨h1, h2⟩ := mstep_r_pooled M Qsel inp
      ((emBody M Qsel Isel false inp)^[n] (emInit false inp)).r_c
      ((emBody M Qsel Isel false inp)^[n] (emInit false inp)).ep_c t (by omega)
    rw [h1, h2]

/-- Claim C20, amended: for a valid data set (pattern codes in `1..16`,
non-negative depths, at least one individual, `L ≥ 2`) and valid initial
parameters (recombination fractions in `[0,1]`, error rate in `(0,1)`), in exact
arithmetic with a logarithm satisfying `log (x y) = log x + log y` and
`log x ≤ x - 1`, the log-likelihood computed by `EM_HMM` in round `k + 1` is at
least the one computed in round `k`, for every `k ≥ 1` when sex-specific
estimation is enabled, and when it is disabled for every `k ≥ 2`, and for
`k = 1` as well if the paternal and maternal halves of the initial vector
agree. -/
theorem loglik_nondecreasing (M : Libm α)
    (hel : ∀ x : α, 0 < x → M.exp (M.log x) = x) (hen : ∀ x : α, M.exp (-x) = (M.exp x)⁻¹)
    (hmul : ∀ x y : α, 0 < x → 0 < y → M.log (x * y) = M.log x + M.log y)
    (hle : ∀ x : α, 0 < x → M.log x ≤ x - 1)
    (inp : EMInput α) (hL : 2 ≤ inp.nSnps) (hN : 1 ≤ nTotal inp)
    (hr : ∀ i, i < 2 * (inp.nSnps - 1) → 0 ≤ inp.r i ∧ inp.r i ≤ 1)
    (hep : 0 < inp.ep ∧ inp.ep < 1) (hV : ValidData 16 inp)
    (k : Nat) (hk : 1 ≤ k)
    (hmode : inp.sexSpec ≠ 0 ∨ 2 ≤ k ∨
      ∀ t, t + 1 < inp.nSnps → inp.r t = inp.r (t + inp.nSnps - 1)) :
    (EM_HMM_after M inp k).llval ≤ (EM_HMM_after M inp (k + 1)).llval := by
  obtain ⟨j, rfl⟩ : ∃ j, k = j + 1 := ⟨k - 1, by omega⟩
  unfold EM_HMM_after
  rw [Function.iterate_succ_apply' _ (j + 1), Function.iterate_succ_apply' _ j]
  obtain ⟨hrj, hEj⟩ := emBody_iterate_good M Qentry Iindx inp hV tableOK_known hel hen hN
    (decide (inp.sexSpec ≠ 0)) _ (emInit_bounds inp (decide (inp.sexSpec ≠ 0)) hr)
    (epOK_of_interior Iindx inp inp.ep hep.1 hep.2) j
  refine em_step_monotone M Qentry Iindx inp _ _ hV tableOK_known hel hen hmul hle hN (by omega)
    hrj hEj (decide (inp.sexSpec ≠ 0)) ?_
  intro hb t ht
  have hs : inp.sexSpec = 0 := by
    by_contra hne
    rw [decide_eq_true hne] at hb
    exact absurd hb (by decide)
  have hd : decide (inp.sexSpec ≠ 0) = false := hb
  rw [hd]
  refine pooled_halves_agree M Qentry Iindx inp j ?_ t ht
  rcases hmode with h | h | h
  · exact absurd hs h
  · left
    omega
  · right
    exact h

theorem loglik_nondecreasing_witness :
    (EM_HMM_after ⟨Real.log, Real.exp⟩ (demoInput ℝ) 1).llval ≤
      (EM_HMM_after ⟨Real.log, Real.exp⟩ (demoInput ℝ) (1 + 1)).llval :=
  loglik_nondecreasing ⟨Real.log, Real.exp⟩
    (fun _ hx => Real.exp_log hx) Real.exp_neg
    (fun _ _ hx hy => Real.log_mul hx.ne.symm hy.ne.symm)
    (fun _ hx => Real.log_le_sub_one_of_pos hx)
    (demoInput ℝ) (by decide) (by decide)
    (fun _ _ => by norm_num [demoInput]) (by norm_num [demoInput])
    (validData_mono (demoInput ℝ) (by decide) demoInput_valid) 1 (by decide)
    (Or.inl (by decide))

end MonotoneTheorem

/-! ## A pooled run whose second log-likelihood is lower than its first -/

section PooledDrop

variable {α : Type} [LinearOrderedField α]

theorem dropInput_valid : ValidData 16 (dropInput α) := by
  refine ⟨fun i _ => ?_, fun i _ => ?_⟩
  · simp only [dropInput]
    decide
  · simp only [dropInput]
    constructor <;> split_ifs <;> decide

theorem dropInput_emis (ep : α) :
    (emis Qentry (dropInput α) ep 0 0 0 0 = 1 / 2 ∧ emis Qentry (dropInput α) ep 0 0 0 1 = 1 / 2 ∧
      emis Qentry (dropInput α) ep 0 0 0 2 = 1 - ep ∧
      emis Qentry (dropInput α) ep 0 0 0 3 = 1 - ep) ∧
    (emis Qentry (dropInput α) ep 0 0 1 0 = 1 / 2 ∧ emis Qentry (dropInput α) ep 0 0 1 1 = 1 / 2 ∧
      emis Qentry (dropInput α) ep 0 0 1 2 = ep ∧ emis Qentry (dropInput α) ep 0 0 1 3 = ep) := by
  have hfam : 0 < (dropInput α).noFam := show 0 < 1 by decide
  have hind : 0 < (dropInput α).nInd 0 := show 0 < 1 by decide
  have h0 := (pAA_cell (dropInput α) ep 0 0 0 hfam hind (show 0 < 2 by decide)).1
  have h1 := (pAA_cell (dropInput α) ep 0 0 1 hfam hind (show 1 < 2 by decide)).1
  have hS : indSum (dropInput α) 0 = 0 := rfl
  have hT : nTotal (dropInput α) = 1 := rfl
  have hhalf : (0.5 : α) = 1 / 2 := by norm_num
  refine ⟨⟨?_, ?_, ?_, ?_⟩, ⟨?_, ?_, ?_, ?_⟩⟩
  · simp only [emis, pAB, hS, hT]
    simp [dropInput, Qentry, switchFrom, Qentry_case, hhalf]
  · simp only [emis, pAB, hS, hT]
    simp [dropInput, Qentry, switchFrom, Qentry_case, hhalf]
  · simp only [emis]
    rw [h0]
    simp only [cellAA, hS, hT]
    simp [dropInput, Qentry, switchFrom, Qentry_case]
  · simp only [emis]
    rw [h0]
    simp only [cellAA, hS, hT]
    simp [dropInput, Qentry, switchFrom, Qentry_case]
  · simp only [emis, pAB, hS, hT]
    simp [dropInput, Qentry, switchFrom, Qentry_case, hhalf]
  · simp only [emis, pAB, hS, hT]
    simp [dropInput, Qentry, switchFrom, Qentry_case, hhalf]
  · simp only [emis]
    rw [h1]
    simp only [cellAA, hS, hT]
    simp [dropInput, Qentry, switchFrom, Qentry_case]
  · simp only [emis]
    rw [h1]
    simp only [cellAA, hS, hT]
    simp [dropInput, Qentry, switchFrom, Qentry_case]

theorem dropInput_forward0 (r_c : Nat → α) :
    (forward Qentry (dropInput α) r_c (1 / 10) 0 0 0).w = 7 / 10 ∧
    (forward Qentry (dropInput α) r_c (1 / 10) 0 0 0).alphaTilde 0 = 5 / 28 ∧
    (forward Qentry (dropInput α) r_c (1 / 10) 0 0 0).alphaTilde 1 = 5 / 28 ∧
    (forward Qentry (dropInput α) r_c (1 / 10) 0 0 0).alphaTilde 2 = 9 / 28 ∧
    (forward Qentry (dropInput α) r_c (1 / 10) 0 0 0).alphaTilde 3 = 9 / 28 := by
  obtain ⟨⟨e0, e1, e2, e3⟩, -⟩ := dropInput_emis (1 / 10 : α)
  simp only [forward, sum4_eq, e0, e1, e2, e3]
  norm_num

/-- The second forward weight of the only individual of `dropInput` as a
function of the two recombination fractions of the only interval. -/
theorem dropInput_forward1 (r_c : Nat → α) :
    (forward Qentry (dropInput α) r_c (1 / 10) 0 0 1).w =
      1 / 2 * (Tmat_ss 0 0 (r_c 0) (r_c 1) * (5 / 28) + Tmat_ss 1 0 (r_c 0) (r_c 1) * (5 / 28)
          + Tmat_ss 2 0 (r_c 0) (r_c 1) * (9 / 28) + Tmat_ss 3 0 (r_c 0) (r_c 1) * (9 / 28))
        + 1 / 2 * (Tmat_ss 0 1 (r_c 0) (r_c 1) * (5 / 28) + Tmat_ss 1 1 (r_c 0) (r_c 1) * (5 / 28)
          + Tmat_ss 2 1 (r_c 0) (r_c 1) * (9 / 28) + Tmat_ss 3 1 (r_c 0) (r_c 1) * (9 / 28))
        + 1 / 10 * (Tmat_ss 0 2 (r_c 0) (r_c 1) * (5 / 28) + Tmat_ss 1 2 (r_c 0) (r_c 1) * (5 / 28)
          + Tmat_ss 2 2 (r_c 0) (r_c 1) * (9 / 28) + Tmat_ss 3 2 (r_c 0) (r_c 1) * (9 / 28))
        + 1 / 10 * (Tmat_ss 0 3 (r_c 0) (r_c 1) * (5 / 28) + Tmat_ss 1 3 (r_c 0) (r_c 1) * (5 / 28)
          + Tmat_ss 2 3 (r_c 0) (r_c 1) * (9 / 28) + Tmat_ss 3 3 (r_c 0) (r_c 1) * (9 / 28)) := by
  obtain ⟨-, e0, e1, e2, e3⟩ := dropInput_emis (1 / 10 : α)
  obtain ⟨-, a0, a1, a2, a3⟩ := dropInput_forward0 r_c
  have hidx : 0 + (dropInput α).nSnps - 1 = 1 := rfl
  have hstep : forward Qentry (dropInput α) r_c (1 / 10) 0 0 1 =
      forward Qentry (dropInput α) r_c (1 / 10) 0 0 (0 + 1) := rfl
  rw [hstep]
  simp only [forward, sum4_eq, hidx, zero_add]
  simp only [forward, sum4_eq] at a0 a1 a2 a3
  rw [a0, a1, a2, a3, e0, e1, e2, e3]
  rfl

theorem dropInput_logLik (M : Libm α) (r_c : Nat → α) :
    logLik M Qentry (dropInput α) r_c (1 / 10) =
      M.log (7 / 10) + M.log (forward Qentry (dropInput α) r_c (1 / 10) 0 0 1).w := by
  have hw0 := (dropInput_forward0 r_c).1
  show forLoop 1 (fun fam ll => forLoop 1 (fun ind ll => forLoop 1
      (fun j ll => ll + M.log (forward Qentry (dropInput α) r_c (1 / 10) fam ind (j + 1)).w)
      (ll + M.log (forward Qentry (dropInput α) r_c (1 / 10) fam ind 0).w)) ll) 0 = _
  simp only [forLoop, zero_add, hw0]

end PooledDrop

section PooledDropRounds

variable {α : Type} [LinearOrderedField α]

theorem dropInput_init :
    (emInit false (dropInput α)).r_c 0 = 1 ∧ (emInit false (dropInput α)).r_c 1 = 0 ∧
    (∀ i, 0 ≤ (emInit false (dropInput α)).r_c i ∧ (emInit false (dropInput α)).r_c i ≤ 1) := by
  refine ⟨?_, ?_, ?_⟩
  · show copy_r 2 (dropInput α).r 0 = 1
    rw [copy_r_eq 2 _ 0 (by decide)]
    simp [dropInput]
  · show copy_r 2 (dropInput α).r 1 = 0
    rw [copy_r_eq 2 _ 1 (by decide)]
    simp [dropInput]
  · refine emInit_bounds (dropInput α) false (fun i _ => ?_)
    simp only [dropInput]
    split_ifs <;> norm_num

theorem dropInput_round1 (M : Libm α) :
    (EM_HMM_after M (dropInput α) 1).llval = M.log (7 / 10) + M.log (5 / 14) := by
  obtain ⟨h0, h1, -⟩ := dropInput_init (α := α)
  show logLik M Qentry (dropInput α) (emInit false (dropInput α)).r_c (1 / 10) = _
  rw [dropInput_logLik, dropInput_forward1, h0, h1]
  simp only [Tmat_ss]
  norm_num

theorem dropInput_mstep (M : Libm α) (hel : ∀ x : α, 0 < x → M.exp (M.log x) = x) :
    mstep_r M Qentry false (dropInput α) (emInit false (dropInput α)).r_c (1 / 10) 0 = 1 / 2 ∧
    mstep_r M Qentry false (dropInput α) (emInit false (dropInput α)).r_c (1 / 10) 1 = 1 / 2 := by
  obtain ⟨h0, h1, hb⟩ := dropInput_init (α := α)
  have hE : EmisPos Qentry (dropInput α) (1 / 10) :=
    emisPos_of_epOK Qentry Iindx (dropInput α) (1 / 10) dropInput_valid tableOK_known
      (epOK_of_interior Iindx (dropInput α) (1 / 10) (by norm_num) (by norm_num))
  obtain ⟨-, -, -, hP, -, -, hM, -, -, -⟩ :=
    sumPat_sumMat_support M Qentry (dropInput α) (emInit false (dropInput α)).r_c (1 / 10)
      hel hb hE (show 1 ≤ 1 by decide) 0 (show 0 + 1 < 2 by decide)
  have hidx : 0 + (dropInput α).nSnps - 1 = 1 := rfl
  rw [hidx] at hM
  have hN : ((nTotal (dropInput α) : Nat) : α) = 1 := by
    have : nTotal (dropInput α) = 1 := rfl
    rw [this, Nat.cast_one]
  obtain ⟨m0, m1⟩ :=
    mstep_r_pooled M Qentry (dropInput α) (emInit false (dropInput α)).r_c (1 / 10) 0
      (show 0 < 2 - 1 by decide)
  have hidx2 : 0 + ((dropInput α).nSnps - 1) = 1 := rfl
  rw [hidx2] at m1
  rw [m0, m1, sumPooled_eq_add, hP h0, hM h1, hN]
  norm_num

theorem dropInput_round2 (M : Libm α) (hel : ∀ x : α, 0 < x → M.exp (M.log x) = x) :
    (EM_HMM_after M (dropInput α) 2).llval = M.log (7 / 10) + M.log (3 / 10) := by
  obtain ⟨m0, m1⟩ := dropInput_mstep M hel
  show logLik M Qentry (dropInput α)
    (mstep_r M Qentry false (dropInput α) (emInit false (dropInput α)).r_c (1 / 10))
    (mstep_ep M Qentry Iindx (dropInput α) (emInit false (dropInput α)).r_c (1 / 10)) = _
  have hep : mstep_ep M Qentry Iindx (dropInput α) (emInit false (dropInput α)).r_c (1 / 10)
      = 1 / 10 := by
    unfold mstep_ep
    rw [if_neg (by simp [dropInput])]
  rw [hep, dropInput_logLik, dropInput_forward1, m0, m1]
  simp only [Tmat_ss]
  norm_num

end PooledDropRounds

section PooledDropTheorem

/-- Claim C20 fails as stated: `dropInput` is a valid data set with valid
initial parameters (codes `5`, non-negative depths, one individual, two
markers, fractions `1` and `0`, error rate `1/10`), run in pooled mode, and the
log-likelihood computed in round 2, `log (7/10) + log (3/10)`, is strictly
smaller than the one computed in round 1, `log (7/10) + log (5/14)`. -/
theorem pooled_loglik_drop :
    ValidData 16 (dropInput ℝ) ∧ 1 ≤ nTotal (dropInput ℝ) ∧ 2 ≤ (dropInput ℝ).nSnps ∧
    (∀ i, i < 2 * ((dropInput ℝ).nSnps - 1) → 0 ≤ (dropInput ℝ).r i ∧ (dropInput ℝ).r i ≤ 1) ∧
    (0 < (dropInput ℝ).ep ∧ (dropInput ℝ).ep < 1) ∧
    (EM_HMM_after ⟨Real.log, Real.exp⟩ (dropInput ℝ) 1).llval
      = Real.log (7 / 10) + Real.log (5 / 14) ∧
    (EM_HMM_after ⟨Real.log, Real.exp⟩ (dropInput ℝ) 2).llval
      = Real.log (7 / 10) + Real.log (3 / 10) ∧
    (EM_HMM_after ⟨Real.log, Real.exp⟩ (dropInput ℝ) 2).llval
      < (EM_HMM_after ⟨Real.log, Real.exp⟩ (dropInput ℝ) 1).llval := by
  have h1 := dropInput_round1 (⟨Real.log, Real.exp⟩ : Libm ℝ)
  have h2 := dropInput_round2 (⟨Real.log, Real.exp⟩ : Libm ℝ) (fun _ hx => Real.exp_log hx)
  refine ⟨dropInput_valid, by decide, by decide, ?_, ?_, h1, h2, ?_⟩
  · intro i _
    simp only [dropInput]
    split_ifs <;> norm_num
  · constructor <;> norm_num [dropInput]
  · rw [h1, h2]
    have : Real.log (3 / 10) < Real.log (5 / 14) :=
      Real.log_lt_log (by norm_num) (by norm_num)
    linarith

end PooledDropTheorem

/-! ## Further statements about the tables -/

section MoreTableTheorems

variable {α : Type} [LinearOrderedField α]

/-- Claim C21: for states `s1`, `s2` in `{0,1,2,3}`, `Tcount(s1, s2)` is the
Hamming distance between the 2-bit codes of `s1` and `s2`: it is `0` when
`s1 = s2`, `2` when `s1 XOR s2 = 3`, and `1` otherwise. -/
theorem Tcount_hamming (s1 s2 : Nat) (h1 : s1 < 4) (h2 : s2 < 4) :
    Tcount (s1 : Int) (s2 : Int) =
      ((hammingDist (fun i : Fin 2 => s1.testBit i) (fun i : Fin 2 => s2.testBit i) : Nat) : Int) ∧
    Tcount (s1 : Int) (s2 : Int) = (if s1 = s2 then 0 else if s1 ^^^ s2 = 3 then 2 else 1) := by
  interval_cases s1 <;> interval_cases s2 <;> decide

theorem Tcount_hamming_witness :
    Tcount ((1 : Nat) : Int) ((2 : Nat) : Int) =
      ((hammingDist (fun i : Fin 2 => (1 : Nat).testBit i)
        (fun i : Fin 2 => (2 : Nat).testBit i) : Nat) : Int) ∧
    Tcount ((1 : Nat) : Int) ((2 : Nat) : Int) =
      (if (1 : Nat) = 2 then 0 else if (1 : Nat) ^^^ 2 = 3 then 2 else 1) :=
  Tcount_hamming 1 2 (by decide) (by decide)

/-- Claim C29: the unknown-phase tables are the restriction of the known-phase
tables to the codes `1, 5, 7, 9, 11`: for `config` in `1..5` and `state` in
`1..4`, `Iindx_up(config, state) = Iindx(m(config), state)` and
`Qentry_up(config, Kaa, Kab, Kbb, state) = Qentry(m(config), Kaa, Kab, Kbb, state)`
with `m = upCode`. -/
theorem unknown_phase_tables_restrict (config state : Int) (Kaa Kab Kbb : α)
    (hc : 1 ≤ config ∧ config ≤ 5) (hs : 1 ≤ state ∧ state ≤ 4) :
    Iindx_up config state = Iindx (upCode config) state ∧
    Qentry_up config Kaa Kab Kbb state = Qentry (upCode config) Kaa Kab Kbb state := by
  obtain ⟨hc1, hc2⟩ := hc
  obtain ⟨hs1, hs2⟩ := hs
  interval_cases config <;> interval_cases state <;>
    simp [Iindx_up, Iindx, Qentry_up, Qentry, upCode, switchFrom, Iindx_up_case, Iindx_case,
      Qentry_up_case, Qentry_case]

theorem unknown_phase_tables_restrict_witness :
    Iindx_up 3 2 = Iindx (upCode 3) 2 ∧
    Qentry_up 3 (7 : ℚ) 8 9 2 = Qentry (upCode 3) (7 : ℚ) 8 9 2 :=
  unknown_phase_tables_restrict 3 2 7 8 9 (by decide) (by decide)

/-- Claim C30: `der_epsilon` differentiates the genotype class that `Qentry`
selects: for a code in `1..16`, a state in `1..4` and depths `a, b ≥ 0`,
`der_epsilon(code, x, a, b, state)` is `0` when `a = b = 0` and otherwise
`partial_der_epsilon(g, x, a, a + b)`, where `g` is what `Qentry` returns on the
arguments `Kaa = 1`, `Kab = 2`, `Kbb = 3`. -/
theorem der_epsilon_follows_Qentry (M : Libm α) (code state : Int) (x : α) (a b : Int)
    (hc : 1 ≤ code ∧ code ≤ 16) (hs : 1 ≤ state ∧ state ≤ 4) (ha : 0 ≤ a) (hb : 0 ≤ b) :
    der_epsilon M code x a b state =
      (if a = 0 ∧ b = 0 then 0
       else partial_der_epsilon M (Qentry code (1 : Int) 2 3 state) x a (a + b)) := by
  have _ := ha
  have _ := hb
  obtain ⟨hc1, hc2⟩ := hc
  obtain ⟨hs1, hs2⟩ := hs
  unfold der_epsilon
  by_cases h0 : a = 0 ∧ b = 0
  · rw [if_pos h0, if_pos h0]
  · rw [if_neg h0, if_neg h0]
    interval_cases code <;> interval_cases state <;>
      simp [Qentry, switchFrom, der_epsilon_case, Qentry_case]

theorem der_epsilon_follows_Qentry_witness :
    der_epsilon ⟨Real.log, Real.exp⟩ 5 0 2 1 3 =
      (if (2 : Int) = 0 ∧ (1 : Int) = 0 then 0
       else partial_der_epsilon ⟨Real.log, Real.exp⟩ (Qentry 5 (1 : Int) 2 3 3) 0 2 (2 + 1)) :=
  der_epsilon_follows_Qentry ⟨Real.log, Real.exp⟩ 5 3 0 2 1 (by decide) (by decide)
    (by decide) (by decide)

end MoreTableTheorems

/-! ## The index sets of the M-step -/

section MStepPairs

variable {α : Type} [LinearOrderedField α]

theorem accPat_eq_mass (inp : EMInput α) (v : Nat → Nat → Int → Int → α) :
    accPat inp v =
      ∑ fam in Finset.range inp.noFam, ∑ ind in Finset.range (inp.nInd fam),
        patMass (v fam ind) := by
  simp only [accPat, patMass, forLoop, Nat.cast_zero, Nat.cast_one, zero_add, Nat.cast_ofNat,
    add_assoc, forLoop_add_eq_sum]
  norm_num

theorem accMat_eq_mass (inp : EMInput α) (v : Nat → Nat → Int → Int → α) :
    accMat inp v =
      ∑ fam in Finset.range inp.noFam, ∑ ind in Finset.range (inp.nInd fam),
        matMass (v fam ind) := by
  simp only [accMat, matMass, forLoop, Nat.cast_zero, Nat.cast_one, zero_add, Nat.cast_ofNat,
    add_assoc, forLoop_add_eq_sum]
  norm_num

theorem accPooled_eq_mass (inp : EMInput α) (v : Nat → Nat → Int → Int → α) :
    accPooled inp v =
      ∑ fam in Finset.range inp.noFam, ∑ ind in Finset.range (inp.nInd fam),
        (patMass (v fam ind) + matMass (v fam ind)) := by
  simp only [accPooled, forLoop, Nat.cast_zero, Nat.cast_one, zero_add, Nat.cast_ofNat,
    add_assoc, forLoop_add_eq_sum]
  refine Finset.sum_congr rfl (fun fam _ => Finset.sum_congr rfl (fun ind _ => ?_))
  norm_num [Tcount, patMass, matMass]
  ring

theorem patPairs_sum (f : Int → Int → α) :
    ∑ p in (Finset.range 4 ×ˢ Finset.range 4).filter (fun p : Nat × Nat => p.1 / 2 ≠ p.2 / 2),
        f (p.1 : Int) (p.2 : Int) = patMass f := by
  have hset : (Finset.range 4 ×ˢ Finset.range 4).filter (fun p : Nat × Nat => p.1 / 2 ≠ p.2 / 2)
      = {(0, 2), (0, 3), (1, 2), (1, 3), (2, 0), (2, 1), (3, 0), (3, 1)} := by decide
  rw [hset]
  simp [patMass]
  ring

theorem matPairs_sum (f : Int → Int → α) :
    ∑ p in (Finset.range 4 ×ˢ Finset.range 4).filter (fun p : Nat × Nat => p.1 % 2 ≠ p.2 % 2),
        f (p.1 : Int) (p.2 : Int) = matMass f := by
  have hset : (Finset.range 4 ×ˢ Finset.range 4).filter (fun p : Nat × Nat => p.1 % 2 ≠ p.2 % 2)
      = {(0, 1), (0, 3), (1, 0), (1, 2), (2, 1), (2, 3), (3, 0), (3, 2)} := by decide
  rw [hset]
  simp [matMass]
  ring

end MStepPairs

section MStepPairTheorems

variable {α : Type} [LinearOrderedField α]

/-- Claim C22: in the sex-specific M-step (the branch `if(sexSpec_c)` of
`EM_HMM` and the M-step of `EM_HMM_UP`), for every table `v` the paternal loop
sums `v` over exactly the pairs of states in `{0,1,2,3}` whose high bits differ
and the maternal loop over exactly the pairs whose low bits differ, each pair
once (there are `8` of each); the accumulated sums of the drivers are these
loops on `vProb`, and the value written into a flagged entry is the sum times
`1.0 / nTotal`. -/
theorem sexspec_mstep_pairs (M : Libm α) (Qsel : Int → α → α → α → Int → α)
    (inp : EMInput α) (r_c : Nat → α) (ep_c : α) (v : Nat → Nat → Int → Int → α)
    (snp : Nat) (hsnp : snp < inp.nSnps - 1) :
    (accPat inp v = ∑ fam in Finset.range inp.noFam, ∑ ind in Finset.range (inp.nInd fam),
        ∑ p in (Finset.range 4 ×ˢ Finset.range 4).filter
            (fun p : Nat × Nat => p.1 / 2 ≠ p.2 / 2), v fam ind (p.1 : Int) (p.2 : Int)) ∧
    ((Finset.range 4 ×ˢ Finset.range 4).filter
        (fun p : Nat × Nat => p.1 / 2 ≠ p.2 / 2)).card = 8 ∧
    (accMat inp v = ∑ fam in Finset.range inp.noFam, ∑ ind in Finset.range (inp.nInd fam),
        ∑ p in (Finset.range 4 ×ˢ Finset.range 4).filter
            (fun p : Nat × Nat => p.1 % 2 ≠ p.2 % 2), v fam ind (p.1 : Int) (p.2 : Int)) ∧
    ((Finset.range 4 ×ˢ Finset.range 4).filter
        (fun p : Nat × Nat => p.1 % 2 ≠ p.2 % 2)).card = 8 ∧
    sumPat M Qsel inp r_c ep_c snp =
      accPat inp (fun fam ind s1 s2 => vProb M Qsel inp r_c ep_c fam ind snp s1 s2) ∧
    sumMat M Qsel inp r_c ep_c snp =
      accMat inp (fun fam ind s1 s2 => vProb M Qsel inp r_c ep_c fam ind snp s1 s2) ∧
    (inp.ss_rf snp = 1 → mstep_r M Qsel true inp r_c ep_c snp
        = 1.0 / (nTotal inp : α) * sumPat M Qsel inp r_c ep_c snp) ∧
    (inp.ss_rf (snp + inp.nSnps - 1) = 1 →
      mstep_r M Qsel true inp r_c ep_c (snp + inp.nSnps - 1)
        = 1.0 / (nTotal inp : α) * sumMat M Qsel inp r_c ep_c snp) := by
  refine ⟨?_, by decide, ?_, by decide, rfl, rfl,
    (mstep_r_sexspec M Qsel inp r_c ep_c snp hsnp).1,
    (mstep_r_sexspec M Qsel inp r_c ep_c snp hsnp).2⟩
  · rw [accPat_eq_mass]
    exact Finset.sum_congr rfl (fun fam _ => Finset.sum_congr rfl (fun ind _ =>
      (patPairs_sum (v fam ind)).symm))
  · rw [accMat_eq_mass]
    exact Finset.sum_congr rfl (fun fam _ => Finset.sum_congr rfl (fun ind _ =>
      (matPairs_sum (v fam ind)).symm))

theorem sexspec_mstep_pairs_witness :
    (demoInput ℝ).ss_rf 0 = 1 ∧
    mstep_r ⟨Real.log, Real.exp⟩ Qentry true (demoInput ℝ) (fun _ => 1 / 4) (1 / 10) 0
      = 1.0 / (nTotal (demoInput ℝ) : ℝ) *
        sumPat ⟨Real.log, Real.exp⟩ Qentry (demoInput ℝ) (fun _ => 1 / 4) (1 / 10) 0 :=
  ⟨rfl, (sexspec_mstep_pairs ⟨Real.log, Real.exp⟩ Qentry (demoInput ℝ) (fun _ => 1 / 4)
    (1 / 10) (fun _ _ _ _ => 0) 0 (by decide)).2.2.2.2.2.2.1 rfl⟩

/-- Claim C27: for every table `v`, the value of the pooled M-step,
`1.0 / (2.0 * nTotal)` times the loop `sum + v[s1][s2] * Tcount(s1,s2)`, is the
arithmetic mean of the paternal and maternal values `1.0 / nTotal * sum` that
the sex-specific loops compute from the same table; the accumulated sum of the
pooled branch is this loop on `vProb`. -/
theorem pooled_value_is_mean (M : Libm α) (Qsel : Int → α → α → α → Int → α)
    (inp : EMInput α) (r_c : Nat → α) (ep_c : α) (v : Nat → Nat → Int → Int → α) (snp : Nat) :
    1.0 / (2.0 * (nTotal inp : α)) * accPooled inp v =
      (1.0 / (nTotal inp : α) * accPat inp v + 1.0 / (nTotal inp : α) * accMat inp v) / 2 ∧
    sumPooled M Qsel inp r_c ep_c snp =
      accPooled inp (fun fam ind s1 s2 => vProb M Qsel inp r_c ep_c fam ind snp s1 s2) := by
  refine ⟨?_, rfl⟩
  rw [accPooled_eq_mass, accPat_eq_mass, accMat_eq_mass]
  simp only [Finset.sum_add_distrib]
  have e1 : (1.0 : α) = 1 := by norm_num
  have e2 : (2.0 : α) = 2 := by norm_num
  rw [e1, e2, one_div, one_div, mul_inv]
  ring

end MStepPairTheorems

section MarginalTheorem

variable {α : Type} [LinearOrderedField α]

/-- Claim C26: after an E-step in exact arithmetic with strictly positive
forward weights, the joint posterior of every individual marginalises to the
occupation posteriors on every interval `t` with `t + 1 < L`: for every `s1`
the sum over `s2` of `vProb[s1][s2]` at interval `t` is `uProb[s1]` at marker
`t`, and for every `s2` the sum over `s1` of `vProb[s1][s2]` at interval `t` is
`uProb[s2]` at marker `t + 1`. -/
theorem joint_posterior_marginals (M : Libm α) (Qsel : Int → α → α → α → Int → α)
    (inp : EMInput α) (r_c : Nat → α) (ep_c : α) (fam ind : Nat)
    (hel : ∀ x : α, 0 < x → M.exp (M.log x) = x) (hen : ∀ x : α, M.exp (-x) = (M.exp x)⁻¹)
    (hw : ∀ t, t < inp.nSnps → 0 < (forward Qsel inp r_c ep_c fam ind t).w)
    (t : Nat) (ht : t + 1 < inp.nSnps) :
    (∀ s1 : Int,
      vProb M Qsel inp r_c ep_c fam ind t s1 0 + vProb M Qsel inp r_c ep_c fam ind t s1 1
        + vProb M Qsel inp r_c ep_c fam ind t s1 2 + vProb M Qsel inp r_c ep_c fam ind t s1 3
      = uProb M Qsel inp r_c ep_c fam ind t s1) ∧
    (∀ s2 : Int,
      vProb M Qsel inp r_c ep_c fam ind t 0 s2 + vProb M Qsel inp r_c ep_c fam ind t 1 s2
        + vProb M Qsel inp r_c ep_c fam ind t 2 s2 + vProb M Qsel inp r_c ep_c fam ind t 3 s2
      = uProb M Qsel inp r_c ep_c fam ind (t + 1) s2) := by
  have hw0 := hw t (by omega)
  have hw1 := hw (t + 1) ht
  constructor
  · intro s1
    rw [uProb_eq M Qsel inp r_c ep_c fam ind hen t s1 (hel _ hw0),
      betaTilde_step M Qsel inp r_c ep_c fam ind t ht s1, hel _ hw0]
    simp only [vProb]
    field_simp
    ring
  · intro s2
    rw [uProb_eq M Qsel inp r_c ep_c fam ind hen (t + 1) s2 (hel _ hw1)]
    simp only [vProb]
    have e : alphaTilde Qsel inp r_c ep_c fam ind (t + 1) s2
          * betaTilde M Qsel inp r_c ep_c fam ind (t + 1) s2
          * (forward Qsel inp r_c ep_c fam ind (t + 1)).w
        = alphaDot Qsel inp r_c ep_c fam ind (t + 1) s2
          * betaTilde M Qsel inp r_c ep_c fam ind (t + 1) s2 := by
      rw [alphaDot_eq_mul Qsel inp r_c ep_c fam ind (t + 1) s2 hw1.ne.symm]
      ring
    rw [e, alphaDot_succ]
    ring

theorem joint_posterior_marginals_witness :
    vProb ⟨Real.log, Real.exp⟩ Qentry (demoInput ℝ) (fun _ => 1 / 4) (1 / 10) 0 1 0 2 0
      + vProb ⟨Real.log, Real.exp⟩ Qentry (demoInput ℝ) (fun _ => 1 / 4) (1 / 10) 0 1 0 2 1
      + vProb ⟨Real.log, Real.exp⟩ Qentry (demoInput ℝ) (fun _ => 1 / 4) (1 / 10) 0 1 0 2 2
      + vProb ⟨Real.log, Real.exp⟩ Qentry (demoInput ℝ) (fun _ => 1 / 4) (1 / 10) 0 1 0 2 3
      = uProb ⟨Real.log, Real.exp⟩ Qentry (demoInput ℝ) (fun _ => 1 / 4) (1 / 10) 0 1 0 2 :=
  (joint_posterior_marginals ⟨Real.log, Real.exp⟩ Qentry (demoInput ℝ) (fun _ => 1 / 4)
    (1 / 10) 0 1 (fun _ hx => Real.exp_log hx) Real.exp_neg
    (fun t ht => forward_w_pos Qentry (demoInput ℝ) (fun _ => 1 / 4) (1 / 10) 0 1
      (fun _ => by norm_num)
      (fun t ht s hs0 hs3 =>
        demoInput_emisPos Qentry Iindx (tableOK_mono (by decide) tableOK_known) 0 1 t s
          (by decide) (by decide) ht hs0 hs3) t ht)
    0 (by decide)).1 2

end MarginalTheorem

/-! ## Forward weights lie in the unit interval -/

section UnitWeights

variable {α : Type} [LinearOrderedField α]
variable (M : Libm α) (Qsel : Int → α → α → α → Int → α) (Isel : Int → Int → Int)
variable (inp : EMInput α)

theorem zpow_unit_le_one {x : α} (h0 : 0 ≤ x) (h1 : x ≤ 1) (n : Int) (hn : 0 ≤ n) :
    x ^ n ≤ 1 := by
  obtain ⟨k, rfl⟩ := Int.eq_ofNat_of_zero_le hn
  rw [zpow_natCast]
  exact pow_le_one₀ h0 h1

theorem zpow_unit_nonneg {x : α} (h0 : 0 ≤ x) (n : Int) (hn : 0 ≤ n) : 0 ≤ x ^ n := by
  obtain ⟨k, rfl⟩ := Int.eq_ofNat_of_zero_le hn
  rw [zpow_natCast]
  exact pow_nonneg h0 k

/-- With the binomial constant `1` every emission is at most one. -/
theorem emis_le_one {hi : Int} (hV : ValidData hi inp) (hT : TableOK Qsel Isel hi)
    (ep_c : α) (h0 : 0 ≤ ep_c) (h1 : ep_c ≤ 1)
    (fam ind snp : Nat) (hfam : fam < inp.noFam) (hind : ind < inp.nInd fam)
    (hsnp : snp < inp.nSnps) (s : Int) (hs0 : 0 ≤ s) (hs3 : s ≤ 3) :
    emis Qsel inp ep_c fam ind snp s ≤ 1 := by
  obtain ⟨hcode, hdepth⟩ := hV
  obtain ⟨hc1, hc2⟩ := hcode _ (code_index_lt inp fam snp hfam hsnp)
  obtain ⟨ha, hb⟩ := hdepth _ (depth_index_lt inp fam ind snp hfam hind hsnp)
  obtain ⟨hI, hQ⟩ := hT (inp.OPGP (snp * inp.noFam + fam)) (s + 1)
    (pAA inp ep_c (ind + indSum inp fam) snp) (pAB inp (ind + indSum inp fam) snp)
    (pBB inp ep_c (ind + indSum inp fam) snp) hc1 hc2 (by omega) (by omega)
  obtain ⟨hA, hB⟩ := pAA_cell inp ep_c fam ind snp hfam hind hsnp
  have h1e : 0 ≤ 1 - ep_c := sub_nonneg.mpr h1
  have h1e' : 1 - ep_c ≤ 1 := by linarith
  simp only [emis]
  rw [hQ]
  rcases hI with h | h | h
  · rw [if_pos h]
    unfold pAB
    rw [one_mul]
    exact zpow_unit_le_one (by norm_num) (by norm_num) _ (add_nonneg ha hb)
  · rw [if_neg (by rw [h]; decide), if_pos h, hA]
    unfold cellAA
    split_ifs with hd
    · exact le_refl 1
    · rw [one_mul]
      calc (1 - ep_c) ^ inp.depth_Ref (ind + indSum inp fam + nTotal inp * snp)
            * ep_c ^ inp.depth_Alt (ind + indSum inp fam + nTotal inp * snp)
          ≤ 1 * 1 := mul_le_mul (zpow_unit_le_one h1e h1e' _ ha)
            (zpow_unit_le_one h0 h1 _ hb) (zpow_unit_nonneg h0 _ hb) zero_le_one
        _ = 1 := one_mul 1
  · rw [if_neg (by rw [h]; decide), if_neg (by rw [h]; decide), hB]
    unfold cellBB
    split_ifs with hd
    · exact le_refl 1
    · rw [one_mul]
      calc ep_c ^ inp.depth_Ref (ind + indSum inp fam + nTotal inp * snp)
            * (1 - ep_c) ^ inp.depth_Alt (ind + indSum inp fam + nTotal inp * snp)
          ≤ 1 * 1 := mul_le_mul (zpow_unit_le_one h0 h1 _ ha)
            (zpow_unit_le_one h1e h1e' _ hb) (zpow_unit_nonneg h1e _ hb) zero_le_one
        _ = 1 := one_mul 1

/-- With emissions in `(0,1]` every forward weight is at most one. -/
theorem forward_w_le_one (r_c : Nat → α) (ep_c : α) (fam ind : Nat)
    (hr : ∀ i, 0 ≤ r_c i ∧ r_c i ≤ 1)
    (hQ : ∀ snp, snp < inp.nSnps → ∀ s : Int, 0 ≤ s → s ≤ 3 →
      0 < emis Qsel inp ep_c fam ind snp s)
    (hQ1 : ∀ snp, snp < inp.nSnps → ∀ s : Int, 0 ≤ s → s ≤ 3 →
      emis Qsel inp ep_c fam ind snp s ≤ 1)
    (snp : Nat) (hsnp : snp < inp.nSnps) :
    (forward Qsel inp r_c ep_c fam ind snp).w ≤ 1 := by
  rw [forward_w]
  cases snp with
  | zero =>
    have q0 := hQ1 0 hsnp 0 (by norm_num) (by norm_num)
    have q1 := hQ1 0 hsnp 1 (by norm_num) (by norm_num)
    have q2 := hQ1 0 hsnp 2 (by norm_num) (by norm_num)
    have q3 := hQ1 0 hsnp 3 (by norm_num) (by norm_num)
    simp only [alphaDot]
    norm_num
    linarith
  | succ t =>
    have hw := forward_w_pos Qsel inp r_c ep_c fam ind hr hQ t (by omega)
    have hs := alphaTilde_sum Qsel inp r_c ep_c fam ind t hw.ne.symm
    have ha : ∀ s : Int, 0 ≤ s → s ≤ 3 → 0 ≤ alphaTilde Qsel inp r_c ep_c fam ind t s :=
      fun s h0 h3 => (alphaTilde_pos Qsel inp r_c ep_c fam ind hr hQ t (by omega) s h0 h3).le
    have a0 := ha 0 (by norm_num) (by norm_num)
    have a1 := ha 1 (by norm_num) (by norm_num)
    have a2 := ha 2 (by norm_num) (by norm_num)
    have a3 := ha 3 (by norm_num) (by norm_num)
    have hT : ∀ s1 s2 : Int, 0 ≤ Tmat_ss s1 s2 (r_c t) (r_c (t + inp.nSnps - 1)) :=
      fun s1 s2 => Tmat_ss_nonneg s1 s2 (hr _) (hr _)
    have col : ∀ s2 : Int, 0 ≤ s2 → s2 ≤ 3 →
        alphaDot Qsel inp r_c ep_c fam ind (t + 1) s2 ≤
          Tmat_ss 0 s2 (r_c t) (r_c (t + inp.nSnps - 1))
              * alphaTilde Qsel inp r_c ep_c fam ind t 0
            + Tmat_ss 1 s2 (r_c t) (r_c (t + inp.nSnps - 1))
              * alphaTilde Qsel inp r_c ep_c fam ind t 1
            + Tmat_ss 2 s2 (r_c t) (r_c (t + inp.nSnps - 1))
              * alphaTilde Qsel inp r_c ep_c fam ind t 2
            + Tmat_ss 3 s2 (r_c t) (r_c (t + inp.nSnps - 1))
              * alphaTilde Qsel inp r_c ep_c fam ind t 3 := by
      intro s2 h0 h3
      rw [alphaDot_succ]
      have hD : 0 ≤ Tmat_ss 0 s2 (r_c t) (r_c (t + inp.nSnps - 1))
              * alphaTilde Qsel inp r_c ep_c fam ind t 0
            + Tmat_ss 1 s2 (r_c t) (r_c (t + inp.nSnps - 1))
              * alphaTilde Qsel inp r_c ep_c fam ind t 1
            + Tmat_ss 2 s2 (r_c t) (r_c (t + inp.nSnps - 1))
              * alphaTilde Qsel inp r_c ep_c fam ind t 2
            + Tmat_ss 3 s2 (r_c t) (r_c (t + inp.nSnps - 1))
              * alphaTilde Qsel inp r_c ep_c fam ind t 3 :=
        add_nonneg (add_nonneg (add_nonneg (mul_nonneg (hT 0 s2) a0) (mul_nonneg (hT 1 s2) a1))
          (mul_nonneg (hT 2 s2) a2)) (mul_nonneg (hT 3 s2) a3)
      exact mul_le_of_le_one_left hD (hQ1 (t + 1) hsnp s2 h0 h3)
    have c0 := col 0 (by norm_num) (by norm_num)
    have c1 := col 1 (by norm_num) (by norm_num)
    have c2 := col 2 (by norm_num) (by norm_num)
    have c3 := col 3 (by norm_num) (by norm_num)
    have r0 := Tmat_ss_row 0 (by norm_num) (by norm_num) (r_c t) (r_c (t + inp.nSnps - 1))
    have r1 := Tmat_ss_row 1 (by norm_num) (by norm_num) (r_c t) (r_c (t + inp.nSnps - 1))
    have r2 := Tmat_ss_row 2 (by norm_num) (by norm_num) (r_c t) (r_c (t + inp.nSnps - 1))
    have r3 := Tmat_ss_row 3 (by norm_num) (by norm_num) (r_c t) (r_c (t + inp.nSnps - 1))
    have key : (Tmat_ss 0 0 (r_c t) (r_c (t + inp.nSnps - 1))
            * alphaTilde Qsel inp r_c ep_c fam ind t 0
          + Tmat_ss 1 0 (r_c t) (r_c (t + inp.nSnps - 1))
            * alphaTilde Qsel inp r_c ep_c fam ind t 1
          + Tmat_ss 2 0 (r_c t) (r_c (t + inp.nSnps - 1))
            * alphaTilde Qsel inp r_c ep_c fam ind t 2
          + Tmat_ss 3 0 (r_c t) (r_c (t + inp.nSnps - 1))
            * alphaTilde Qsel inp r_c ep_c fam ind t 3)
        + (Tmat_ss 0 1 (r_c t) (r_c (t + inp.nSnps - 1))
            * alphaTilde Qsel inp r_c ep_c fam ind t 0
          + Tmat_ss 1 1 (r_c t) (r_c (t + inp.nSnps - 1))
            * alphaTilde Qsel inp r_c ep_c fam ind t 1
          + Tmat_ss 2 1 (r_c t) (r_c (t + inp.nSnps - 1))
            * alphaTilde Qsel inp r_c ep_c fam ind t 2
          + Tmat_ss 3 1 (r_c t) (r_c (t + inp.nSnps - 1))
            * alphaTilde Qsel inp r_c ep_c fam ind t 3)
        + (Tmat_ss 0 2 (r_c t) (r_c (t + inp.nSnps - 1))
            * alphaTilde Qsel inp r_c ep_c fam ind t 0
          + Tmat_ss 1 2 (r_c t) (r_c (t + inp.nSnps - 1))
            * alphaTilde Qsel inp r_c ep_c fam ind t 1
          + Tmat_ss 2 2 (r_c t) (r_c (t + inp.nSnps - 1))
            * alphaTilde Qsel inp r_c ep_c fam ind t 2
          + Tmat_ss 3 2 (r_c t) (r_c (t + inp.nSnps - 1))
            * alphaTilde Qsel inp r_c ep_c fam ind t 3)
        + (Tmat_ss 0 3 (r_c t) (r_c (t + inp.nSnps - 1))
            * alphaTilde Qsel inp r_c ep_c fam ind t 0
          + Tmat_ss 1 3 (r_c t) (r_c (t + inp.nSnps - 1))
            * alphaTilde Qsel inp r_c ep_c fam ind t 1
          + Tmat_ss 2 3 (r_c t) (r_c (t + inp.nSnps - 1))
            * alphaTilde Qsel inp r_c ep_c fam ind t 2
          + Tmat_ss 3 3 (r_c t) (r_c (t + inp.nSnps - 1))
            * alphaTilde Qsel inp r_c ep_c fam ind t 3) = 1 := by
      linear_combination alphaTilde Qsel inp r_c ep_c fam ind t 0 * r0
        + alphaTilde Qsel inp r_c ep_c fam ind t 1 * r1
        + alphaTilde Qsel inp r_c ep_c fam ind t 2 * r2
        + alphaTilde Qsel inp r_c ep_c fam ind t 3 * r3 + hs
    linarith

end UnitWeights

section UnitWeightRounds

variable {α : Type} [LinearOrderedField α]
variable (M : Libm α) (Qsel : Int → α → α → α → Int → α) (Isel : Int → Int → Int)
variable (inp : EMInput α)

theorem logLik_nonpos (hlog : ∀ x : α, 0 < x → x ≤ 1 → M.log x ≤ 0) (hL : 0 < inp.nSnps)
    (r_c : Nat → α) (ep_c : α)
    (hw : ∀ fam ind snp, fam < inp.noFam → ind < inp.nInd fam → snp < inp.nSnps →
      0 < (forward Qsel inp r_c ep_c fam ind snp).w ∧
        (forward Qsel inp r_c ep_c fam ind snp).w ≤ 1) :
    logLik M Qsel inp r_c ep_c ≤ 0 := by
  rw [logLik_eq_sum M Qsel inp r_c ep_c hL]
  refine Finset.sum_nonpos (fun fam hfam => Finset.sum_nonpos (fun ind hind =>
    Finset.sum_nonpos (fun snp hsnp => ?_)))
  rw [Finset.mem_range] at hfam hind hsnp
  exact hlog _ (hw fam ind snp hfam hind hsnp).1 (hw fam ind snp hfam hind hsnp).2

theorem no_individuals (hN : ¬ 1 ≤ nTotal inp) (fam ind : Nat) (hfam : fam < inp.noFam)
    (hind : ind < inp.nInd fam) : False := by
  have h := indx_lt_nTotal inp fam ind hfam hind
  omega

/-- Every round of the loop computes forward weights in `(0,1]` and a
log-likelihood that is not positive. -/
theorem rounds_unit_weights {hi : Int} (hV : ValidData hi inp) (hT : TableOK Qsel Isel hi)
    (hel : ∀ x : α, 0 < x → M.exp (M.log x) = x) (hen : ∀ x : α, M.exp (-x) = (M.exp x)⁻¹)
    (hlog : ∀ x : α, 0 < x → x ≤ 1 → M.log x ≤ 0) (hL : 0 < inp.nSnps)
    (sexSpec : Bool) (st : EMState α)
    (hr : ∀ i, 0 ≤ st.r_c i ∧ st.r_c i ≤ 1) (hE : EpOK Isel inp st.ep_c)
    (hll : st.llval ≤ 0) (j : Nat) :
    (∀ fam ind snp, fam < inp.noFam → ind < inp.nInd fam → snp < inp.nSnps →
      0 < (forward Qsel inp ((emBody M Qsel Isel sexSpec inp)^[j] st).r_c
            ((emBody M Qsel Isel sexSpec inp)^[j] st).ep_c fam ind snp).w ∧
        (forward Qsel inp ((emBody M Qsel Isel sexSpec inp)^[j] st).r_c
            ((emBody M Qsel Isel sexSpec inp)^[j] st).ep_c fam ind snp).w ≤ 1) ∧
    ((emBody M Qsel Isel sexSpec inp)^[j] st).llval ≤ 0 := by
  have hW : ∀ n, ∀ fam ind snp, fam < inp.noFam → ind < inp.nInd fam → snp < inp.nSnps →
      0 < (forward Qsel inp ((emBody M Qsel Isel sexSpec inp)^[n] st).r_c
            ((emBody M Qsel Isel sexSpec inp)^[n] st).ep_c fam ind snp).w ∧
        (forward Qsel inp ((emBody M Qsel Isel sexSpec inp)^[n] st).r_c
            ((emBody M Qsel Isel sexSpec inp)^[n] st).ep_c fam ind snp).w ≤ 1 := by
    intro n fam ind snp hfam hind hsnp
    by_cases hN : 1 ≤ nTotal inp
    · obtain ⟨hrn, hEn⟩ := emBody_iterate_good M Qsel Isel inp hV hT hel hen hN sexSpec st hr hE n
      have hPos := emisPos_of_epOK Qsel Isel inp _ hV hT hEn
      have hQ : ∀ t, t < inp.nSnps → ∀ s : Int, 0 ≤ s → s ≤ 3 →
          0 < emis Qsel inp ((emBody M Qsel Isel sexSpec inp)^[n] st).ep_c fam ind t s :=
        fun t ht s hs0 hs3 => hPos fam ind t s hfam hind ht hs0 hs3
      have hQ1 : ∀ t, t < inp.nSnps → ∀ s : Int, 0 ≤ s → s ≤ 3 →
          emis Qsel inp ((emBody M Qsel Isel sexSpec inp)^[n] st).ep_c fam ind t s ≤ 1 :=
        fun t ht s hs0 hs3 => emis_le_one Qsel Isel inp hV hT _ hEn.1 hEn.2.1 fam ind t hfam hind
          ht s hs0 hs3
      exact ⟨forward_w_pos Qsel inp _ _ fam ind hrn hQ snp hsnp,
        forward_w_le_one Qsel inp _ _ fam ind hrn hQ hQ1 snp hsnp⟩
    · exact absurd (no_individuals inp hN fam ind hfam hind) not_false
  refine ⟨hW j, ?_⟩
  cases j with
  | zero => exact hll
  | succ n =>
    rw [Function.iterate_succ_apply']
    exact logLik_nonpos M Qsel inp hlog hL _ _ (hW n)

end UnitWeightRounds

section UnitWeightTheorem

variable {α : Type} [LinearOrderedField α]

/-- Claim C28: for an input with at least one marker, error rate strictly
between `0` and `1`, recombination fractions in `[0,1]`, legal pattern codes
(`1..16` for `EM_HMM`, `1..5` for `EM_HMM_UP`) and non-negative depths, in exact
arithmetic with the binomial constant `1`, every forward weight computed in any
round of `EM_HMM` and of `EM_HMM_UP` lies in `(0,1]`, the log-likelihood
computed in every round is `≤ 0`, and so is the returned one. -/
theorem forward_weights_in_unit_interval (M : Libm α)
    (hel : ∀ x : α, 0 < x → M.exp (M.log x) = x) (hen : ∀ x : α, M.exp (-x) = (M.exp x)⁻¹)
    (hlog : ∀ x : α, 0 < x → x ≤ 1 → M.log x ≤ 0)
    (inp : EMInput α) (hL : 1 ≤ inp.nSnps)
    (hr : ∀ i, i < 2 * (inp.nSnps - 1) → 0 ≤ inp.r i ∧ inp.r i ≤ 1)
    (hep : 0 < inp.ep ∧ inp.ep < 1)
    (hdepth : ∀ i, i < nTotal inp * inp.nSnps → 0 ≤ inp.depth_Ref i ∧ 0 ≤ inp.depth_Alt i) :
    ((∀ c, c < inp.nSnps * inp.noFam → 1 ≤ inp.OPGP c ∧ inp.OPGP c ≤ 16) →
      (∀ j fam ind snp, fam < inp.noFam → ind < inp.nInd fam → snp < inp.nSnps →
        0 < (forward Qentry inp (EM_HMM_after M inp j).r_c (EM_HMM_after M inp j).ep_c
              fam ind snp).w ∧
          (forward Qentry inp (EM_HMM_after M inp j).r_c (EM_HMM_after M inp j).ep_c
              fam ind snp).w ≤ 1) ∧
      (∀ j, (EM_HMM_after M inp j).llval ≤ 0) ∧ (EM_HMM M inp).llout ≤ 0) ∧
    ((∀ c, c < inp.nSnps * inp.noFam → 1 ≤ inp.OPGP c ∧ inp.OPGP c ≤ 5) →
      (∀ j fam ind snp, fam < inp.noFam → ind < inp.nInd fam → snp < inp.nSnps →
        0 < (forward Qentry_up inp (EM_HMM_UP_after M inp j).r_c
              (EM_HMM_UP_after M inp j).ep_c fam ind snp).w ∧
          (forward Qentry_up inp (EM_HMM_UP_after M inp j).r_c
              (EM_HMM_UP_after M inp j).ep_c fam ind snp).w ≤ 1) ∧
      (∀ j, (EM_HMM_UP_after M inp j).llval ≤ 0) ∧ (EM_HMM_UP M inp).llout ≤ 0) := by
  constructor
  · intro hcode
    have key := rounds_unit_weights M Qentry Iindx inp ⟨hcode, hdepth⟩ tableOK_known hel hen hlog
      (by omega) (decide (inp.sexSpec ≠ 0)) (emInit (decide (inp.sexSpec ≠ 0)) inp)
      (emInit_bounds inp _ hr) (epOK_of_interior Iindx inp inp.ep hep.1 hep.2) (le_refl 0)
    refine ⟨fun j => (key j).1, fun j => (key j).2, ?_⟩
    obtain ⟨k, -, hk⟩ := emWhile_eq_iterate M Qentry Iindx inp (decide (inp.sexSpec ≠ 0))
      (emInit (decide (inp.sexSpec ≠ 0)) inp) rfl
    show (emWhile M Qentry Iindx (decide (inp.sexSpec ≠ 0)) inp
      (emInit (decide (inp.sexSpec ≠ 0)) inp)).llval ≤ 0
    rw [hk]
    exact (key k).2
  · intro hcode
    have key := rounds_unit_weights M Qentry_up Iindx_up inp ⟨hcode, hdepth⟩ tableOK_unknown
      hel hen hlog (by omega) true (emInit true inp)
      (emInit_bounds inp _ hr) (epOK_of_interior Iindx_up inp inp.ep hep.1 hep.2) (le_refl 0)
    refine ⟨fun j => (key j).1, fun j => (key j).2, ?_⟩
    obtain ⟨k, -, hk⟩ := emWhile_eq_iterate M Qentry_up Iindx_up inp true (emInit true inp) rfl
    show (emWhile M Qentry_up Iindx_up true inp (emInit true inp)).llval ≤ 0
    rw [hk]
    exact (key k).2

theorem forward_weights_in_unit_interval_witness :
    (EM_HMM ⟨Real.log, Real.exp⟩ (demoInput ℝ)).llout ≤ 0 ∧
    (EM_HMM_UP ⟨Real.log, Real.exp⟩ (demoInput ℝ)).llout ≤ 0 :=
  have h := forward_weights_in_unit_interval ⟨Real.log, Real.exp⟩
    (fun _ hx => Real.exp_log hx) Real.exp_neg
    (fun _ hx h1 => Real.log_nonpos hx.le h1) (demoInput ℝ) (by decide)
    (fun _ _ => by norm_num [demoInput]) (by norm_num [demoInput])
    (demoInput_valid (α := ℝ)).2
  ⟨(h.1 (validData_mono (demoInput ℝ) (by decide) demoInput_valid).1).2.2,
    (h.2 (demoInput_valid (α := ℝ)).1).2.2⟩

end UnitWeightTheorem

/-! ## The derivative tables of `score.c` against the derivatives they stand for -/

section DerivativeFacts

theorem exp_neg_hasDerivAt (x : ℝ) :
    HasDerivAt (fun y : ℝ => Real.exp (-y)) (-Real.exp (-x)) x := by
  have h := (Real.hasDerivAt_exp (-x)).comp x (hasDerivAt_neg x)
  simpa using h

/-- Derivative of the link `rho`. -/
theorem rho_link_hasDerivAt (M : Libm ℝ) (hM : M.exp = Real.exp) (x : ℝ) :
    HasDerivAt (rho_link M) (Real.exp (-x) / (2 * (1 + Real.exp (-x)) ^ 2)) x := by
  have h2 : HasDerivAt (fun y : ℝ => 2 * (1 + Real.exp (-y))) (2 * (-Real.exp (-x))) x :=
    ((exp_neg_hasDerivAt x).const_add 1).const_mul 2
  have hpos : 0 < 1 + Real.exp (-x) := by positivity
  have hne : 2 * (1 + Real.exp (-x)) ≠ 0 := by positivity
  have h3 := (hasDerivAt_const x (1 : ℝ)).div h2 hne
  have e : rho_link M = fun y : ℝ => 1 / (2 * (1 + Real.exp (-y))) := by
    funext y
    simp only [rho_link, hM]
  rw [e]
  convert h3 using 1
  field_simp
  ring

/-- Derivative of the link `eps`. -/
theorem eps_link_hasDerivAt (M : Libm ℝ) (hM : M.exp = Real.exp) (x : ℝ) :
    HasDerivAt (eps_link M) (Real.exp (-x) / (1 + Real.exp (-x)) ^ 2) x := by
  have h2 : HasDerivAt (fun y : ℝ => 1 + Real.exp (-y)) (-Real.exp (-x)) x :=
    (exp_neg_hasDerivAt x).const_add 1
  have hne : 1 + Real.exp (-x) ≠ 0 := by positivity
  have h3 := (hasDerivAt_const x (1 : ℝ)).div h2 hne
  have e : eps_link M = fun y : ℝ => 1 / (1 + Real.exp (-y)) := by
    funext y
    simp only [eps_link, hM]
  rw [e]
  convert h3 using 1
  field_simp

/-- No-recombination class: `der_rf` is the negative of the derivative of
`(1 - rho)^2`. -/
theorem der_rf_diag (M : Libm ℝ) (hM : M.exp = Real.exp) (x : ℝ) :
    HasDerivAt (fun y : ℝ => (1 - rho_link M y) * (1 - rho_link M y))
      (-(M.exp x * (2 + M.exp x) / (2 * pow (1 + M.exp x) 3))) x := by
  have hr := rho_link_hasDerivAt M hM x
  have h1 := (hasDerivAt_const x (1 : ℝ)).sub hr
  have h := h1.mul h1
  convert h using 1
  have hp : 0 < Real.exp x := Real.exp_pos x
  simp only [rho_link, hM, pow, Real.exp_neg]
  have e3 : (1 + Real.exp x) ^ (3 : Int) = (1 + Real.exp x) ^ 3 := by norm_cast
  rw [e3]
  field_simp
  ring

/-- Double-recombination class: `der_rf` is the derivative of `rho^2`. -/
theorem der_rf_double (M : Libm ℝ) (hM : M.exp = Real.exp) (x : ℝ) :
    HasDerivAt (fun y : ℝ => rho_link M y * rho_link M y)
      (M.exp (-x) / (2 * pow (1 + M.exp (-x)) 3)) x := by
  have hr := rho_link_hasDerivAt M hM x
  have h := hr.mul hr
  convert h using 1
  have hp : 0 < Real.exp x := Real.exp_pos x
  simp only [rho_link, hM, pow, Real.exp_neg]
  have e3 : (1 + (Real.exp x)⁻¹) ^ (3 : Int) = (1 + (Real.exp x)⁻¹) ^ 3 := by norm_cast
  rw [e3]
  field_simp
  ring

/-- Single-recombination class: `der_rf` is the derivative of `(1 - rho) * rho`. -/
theorem der_rf_single (M : Libm ℝ) (hM : M.exp = Real.exp) (x : ℝ) :
    HasDerivAt (fun y : ℝ => (1 - rho_link M y) * rho_link M y)
      (pow (M.exp (-x)) 2 / (2 * pow (1 + M.exp (-x)) 3)) x := by
  have hr := rho_link_hasDerivAt M hM x
  have h1 := (hasDerivAt_const x (1 : ℝ)).sub hr
  have h := h1.mul hr
  convert h using 1
  have hp : 0 < Real.exp x := Real.exp_pos x
  simp only [rho_link, hM, pow, Real.exp_neg]
  have e3 : (1 + (Real.exp x)⁻¹) ^ (3 : Int) = (1 + (Real.exp x)⁻¹) ^ 3 := by norm_cast
  have e2 : ((Real.exp x)⁻¹) ^ (2 : Int) = ((Real.exp x)⁻¹) ^ 2 := by norm_cast
  rw [e3, e2]
  field_simp
  ring

end DerivativeFacts

section DerRfTheorems

/-- On every pair of states `der_rf` is the derivative of the transition entry
through the link `rho`, except that on the diagonal it is its negative. -/
theorem der_rf_vs_derivative (M : Libm ℝ) (hM : M.exp = Real.exp) (s1 s2 : Int)
    (h1 : 0 ≤ s1 ∧ s1 ≤ 3) (h2 : 0 ≤ s2 ∧ s2 ≤ 3) (x : ℝ) :
    HasDerivAt (fun y : ℝ => Tmat s1 s2 (rho_link M y))
      (if s1 = s2 then -der_rf M s1 s2 x else der_rf M s1 s2 x) x := by
  obtain ⟨h1a, h1b⟩ := h1
  obtain ⟨h2a, h2b⟩ := h2
  interval_cases s1 <;> interval_cases s2 <;>
    first
    | exact der_rf_diag M hM x
    | exact der_rf_double M hM x
    | exact der_rf_single M hM x

theorem der_rf_pos (M : Libm ℝ) (hM : M.exp = Real.exp) (s1 s2 : Int) (x : ℝ) :
    0 < der_rf M s1 s2 x := by
  unfold der_rf
  simp only [pow, hM]
  split_ifs <;> positivity

theorem der_rf_at_zero (M : Libm ℝ) (hM : M.exp = Real.exp) :
    der_rf M 0 0 0 = 3 / 16 ∧ der_rf M 0 1 0 = 1 / 16 ∧ der_rf M 0 2 0 = 1 / 16 ∧
      der_rf M 0 3 0 = 1 / 16 := by
  refine ⟨?_, ?_, ?_, ?_⟩ <;>
    · simp [der_rf, pow, hM]
      norm_num

/-- Claim C23 fails in the code: every entry of `der_rf` is strictly positive,
so no row sums to `0`; for `s1 = 0` and `x = 0` the four entries are `3/16`,
`1/16`, `1/16`, `1/16` and add up to `3/8`. -/
theorem der_rf_row_sum_positive :
    (∀ (s1 : Fin 4) (x : ℝ),
      0 < der_rf ⟨Real.log, Real.exp⟩ ((s1 : Nat) : Int) 0 x
        + der_rf ⟨Real.log, Real.exp⟩ ((s1 : Nat) : Int) 1 x
        + der_rf ⟨Real.log, Real.exp⟩ ((s1 : Nat) : Int) 2 x
        + der_rf ⟨Real.log, Real.exp⟩ ((s1 : Nat) : Int) 3 x) ∧
    der_rf ⟨Real.log, Real.exp⟩ 0 0 0 + der_rf ⟨Real.log, Real.exp⟩ 0 1 0
      + der_rf ⟨Real.log, Real.exp⟩ 0 2 0 + der_rf ⟨Real.log, Real.exp⟩ 0 3 0 = 3 / 8 := by
  constructor
  · intro s1 x
    have p := fun s2 => der_rf_pos ⟨Real.log, Real.exp⟩ rfl ((s1 : Nat) : Int) s2 x
    linarith [p 0, p 1, p 2, p 3]
  · obtain ⟨a, b, c, d⟩ := der_rf_at_zero ⟨Real.log, Real.exp⟩ rfl
    rw [a, b, c, d]
    norm_num

/-- Claim C24 fails in the code on the diagonal: `der_rf(0,0,0) = 3/16`, while
the derivative at `0` of `x ↦ Tmat(0,0,rho(x))` is `-3/16`, so `der_rf(0,0,0)`
is not that derivative; on every pair of states `der_rf` is the derivative when
`s1 ≠ s2` and its negative when `s1 = s2`. -/
theorem der_rf_diagonal_sign :
    der_rf ⟨Real.log, Real.exp⟩ 0 0 0 = 3 / 16 ∧
    HasDerivAt (fun x : ℝ => Tmat 0 0 (rho_link ⟨Real.log, Real.exp⟩ x)) (-(3 / 16)) 0 ∧
    ¬ HasDerivAt (fun x : ℝ => Tmat 0 0 (rho_link ⟨Real.log, Real.exp⟩ x))
        (der_rf ⟨Real.log, Real.exp⟩ 0 0 0) 0 ∧
    (∀ (s1 s2 : Fin 4) (x : ℝ),
      HasDerivAt
        (fun y : ℝ => Tmat ((s1 : Nat) : Int) ((s2 : Nat) : Int) (rho_link ⟨Real.log, Real.exp⟩ y))
        (if ((s1 : Nat) : Int) = ((s2 : Nat) : Int)
          then -der_rf ⟨Real.log, Real.exp⟩ ((s1 : Nat) : Int) ((s2 : Nat) : Int) x
          else der_rf ⟨Real.log, Real.exp⟩ ((s1 : Nat) : Int) ((s2 : Nat) : Int) x) x) := by
  have hval := (der_rf_at_zero ⟨Real.log, Real.exp⟩ rfl).1
  have hd : HasDerivAt (fun x : ℝ => Tmat 0 0 (rho_link ⟨Real.log, Real.exp⟩ x))
      (-(3 / 16)) 0 := by
    have h := der_rf_vs_derivative ⟨Real.log, Real.exp⟩ rfl 0 0 (by norm_num) (by norm_num) 0
    rw [if_pos rfl, hval] at h
    exact h
  refine ⟨hval, hd, ?_, ?_⟩
  · intro hc
    have := hc.unique hd
    rw [hval] at this
    norm_num at this
  · intro s1 s2 x
    exact der_rf_vs_derivative ⟨Real.log, Real.exp⟩ rfl _ _
      ⟨by omega, by have := s1.isLt; omega⟩ ⟨by omega, by have := s2.isLt; omega⟩ x

end DerRfTheorems

section PartialDerEpsilonTheorems

theorem eps_link_deriv_zero (M : Libm ℝ) (hM : M.exp = Real.exp) :
    HasDerivAt (eps_link M) (1 / 4) 0 := by
  have h := eps_link_hasDerivAt M hM 0
  convert h using 1
  norm_num [Real.exp_zero]

theorem partial_der_epsilon_depth_one (M : Libm ℝ) (hM : M.exp = Real.exp) :
    partial_der_epsilon M 1 0 0 1 = -(1 / 4) ∧ partial_der_epsilon M 1 0 1 1 = -(1 / 4) ∧
    partial_der_epsilon M 3 0 0 1 = -(1 / 4) ∧ partial_der_epsilon M 3 0 1 1 = -(1 / 4) ∧
    partial_der_epsilon M 2 0 0 1 = 0 := by
  refine ⟨?_, ?_, ?_, ?_, ?_⟩ <;>
    · simp [partial_der_epsilon, pow, hM]
      try norm_num

/-- The branch `a == 0` of genotype `1` is, for every depth `d ≥ 1` and every
`x`, the negative of the derivative of the homozygous-reference emission
`eps^d`. -/
theorem partial_der_epsilon_ref_zero (M : Libm ℝ) (hM : M.exp = Real.exp) (k : Nat) (x : ℝ) :
    HasDerivAt (homRefEmission M (k + 1) 0)
      (-(partial_der_epsilon M 1 x 0 ((k + 1 : Nat) : Int))) x := by
  have he := (eps_link_hasDerivAt M hM x).pow (k + 1)
  have e1 : homRefEmission M (k + 1) 0 = fun y => eps_link M y ^ (k + 1) := by
    funext y
    simp [homRefEmission]
  rw [e1]
  convert he using 1
  have ht : 0 < 1 + Real.exp (-x) := by positivity
  have hz : (1 + Real.exp (-x)) ^ (-((k + 1 : Nat) : Int) - 1)
      = ((1 + Real.exp (-x)) ^ (k + 2))⁻¹ := by
    have : (-((k + 1 : Nat) : Int) - 1) = -((k + 2 : Nat) : Int) := by push_cast; ring
    rw [this, zpow_neg, zpow_natCast]
  simp only [partial_der_epsilon, if_true, pow, hM, eps_link, hz]
  push_cast
  field_simp
  ring

/-- The branch `a == d` of genotype `3` is, for every depth `d ≥ 1` and every
`x`, the negative of the derivative of the homozygous-alternate emission
`eps^d`. -/
theorem partial_der_epsilon_alt_full (M : Libm ℝ) (hM : M.exp = Real.exp) (k : Nat) (x : ℝ) :
    HasDerivAt (homAltEmission M (k + 1) (k + 1))
      (-(partial_der_epsilon M 3 x ((k + 1 : Nat) : Int) ((k + 1 : Nat) : Int))) x := by
  have he := (eps_link_hasDerivAt M hM x).pow (k + 1)
  have e1 : homAltEmission M (k + 1) (k + 1) = fun y => eps_link M y ^ (k + 1) := by
    funext y
    simp [homAltEmission]
  rw [e1]
  convert he using 1
  have ht : 0 < 1 + Real.exp (-x) := by positivity
  have hz : (1 + Real.exp (-x)) ^ (-((k + 1 : Nat) : Int) - 1)
      = ((1 + Real.exp (-x)) ^ (k + 2))⁻¹ := by
    have : (-((k + 1 : Nat) : Int) - 1) = -((k + 2 : Nat) : Int) := by push_cast; ring
    rw [this, zpow_neg, zpow_natCast]
  have hk : ((k + 1 : Nat) : Int) ≠ 0 := by omega
  have h31 : ¬ ((3 : Int) = 1) := by decide
  have h32 : ¬ ((3 : Int) = 2) := by decide
  simp only [partial_der_epsilon, if_neg h31, if_neg h32, if_true, if_neg hk, pow, hM, eps_link,
    hz]
  push_cast
  field_simp
  ring

/-- Claim C25 fails in the code at two of the four boundary branches: with total
depth `d = 1`, at `x = 0`, `partial_der_epsilon(1, 0, a = 0, 1) = -1/4` while the
derivative of the homozygous-reference emission `C(1,0) * eps^1 = eps` is
`+1/4`, and `partial_der_epsilon(3, 0, a = 1, 1) = -1/4` while the derivative of
the homozygous-alternate emission `C(1,1) * eps^1 = eps` is `+1/4`.  The other
two boundary branches agree with the derivative (`-1/4`, of `1 - eps`), and
genotype `2` gives `0`. -/
theorem partial_der_epsilon_boundary_sign :
    (partial_der_epsilon ⟨Real.log, Real.exp⟩ 1 0 0 1 = -(1 / 4) ∧
      HasDerivAt (homRefEmission ⟨Real.log, Real.exp⟩ 1 0) (1 / 4) 0 ∧
      ¬ HasDerivAt (homRefEmission ⟨Real.log, Real.exp⟩ 1 0)
          (partial_der_epsilon ⟨Real.log, Real.exp⟩ 1 0 0 1) 0) ∧
    (partial_der_epsilon ⟨Real.log, Real.exp⟩ 3 0 1 1 = -(1 / 4) ∧
      HasDerivAt (homAltEmission ⟨Real.log, Real.exp⟩ 1 1) (1 / 4) 0 ∧
      ¬ HasDerivAt (homAltEmission ⟨Real.log, Real.exp⟩ 1 1)
          (partial_der_epsilon ⟨Real.log, Real.exp⟩ 3 0 1 1) 0) ∧
    (partial_der_epsilon ⟨Real.log, Real.exp⟩ 1 0 1 1 = -(1 / 4) ∧
      HasDerivAt (homRefEmission ⟨Real.log, Real.exp⟩ 1 1) (-(1 / 4)) 0) ∧
    (partial_der_epsilon ⟨Real.log, Real.exp⟩ 3 0 0 1 = -(1 / 4) ∧
      HasDerivAt (homAltEmission ⟨Real.log, Real.exp⟩ 1 0) (-(1 / 4)) 0) ∧
    partial_der_epsilon ⟨Real.log, Real.exp⟩ 2 0 0 1 = 0 := by
  obtain ⟨p1, p2, p3, p4, p5⟩ := partial_der_epsilon_depth_one ⟨Real.log, Real.exp⟩ rfl
  have he := eps_link_deriv_zero ⟨Real.log, Real.exp⟩ rfl
  have hne := (hasDerivAt_const (0 : ℝ) (1 : ℝ)).sub he
  have e1 : homRefEmission ⟨Real.log, Real.exp⟩ 1 0 = eps_link ⟨Real.log, Real.exp⟩ := by
    funext x
    simp [homRefEmission]
  have e2 : homAltEmission ⟨Real.log, Real.exp⟩ 1 1 = eps_link ⟨Real.log, Real.exp⟩ := by
    funext x
    simp [homAltEmission]
  have e3 : homRefEmission ⟨Real.log, Real.exp⟩ 1 1
      = fun x => 1 - eps_link ⟨Real.log, Real.exp⟩ x := by
    funext x
    simp [homRefEmission]
  have e4 : homAltEmission ⟨Real.log, Real.exp⟩ 1 0
      = fun x => 1 - eps_link ⟨Real.log, Real.exp⟩ x := by
    funext x
    simp [homAltEmission]
  have hneg : HasDerivAt (fun x => 1 - eps_link ⟨Real.log, Real.exp⟩ x) (-(1 / 4)) 0 := by
    convert hne using 1
    norm_num
  refine ⟨⟨p1, by rw [e1]; exact he, ?_⟩, ⟨p4, by rw [e2]; exact he, ?_⟩,
    ⟨p2, by rw [e3]; exact hneg⟩, ⟨p3, by rw [e4]; exact hneg⟩, p5⟩
  · intro hc
    rw [e1, p1] at hc
    have := hc.unique he
    norm_num at this
  · intro hc
    rw [e2, p4] at hc
    have := hc.unique he
    norm_num at this

end PartialDerEpsilonTheorems

/-! ## What the drivers return -/

section ReturnedValues

variable {α : Type} [LinearOrderedField α]

theorem emWhile_last_round (M : Libm α) (Qsel : Int → α → α → α → Int → α)
    (Isel : Int → Int → Int) (sexSpec : Bool) (inp : EMInput α) (st : EMState α)
    (h0 : st.iter = 0) :
    ∃ k : Nat, 2 ≤ k ∧ (emWhile M Qsel Isel sexSpec inp st).iter = k ∧
      emWhile M Qsel Isel sexSpec inp st =
        emBody M Qsel Isel sexSpec inp ((emBody M Qsel Isel sexSpec inp)^[k - 1] st) := by
  obtain ⟨k, h1, h2, h3, -⟩ := emWhile_least M Qsel Isel sexSpec inp st h0
  refine ⟨k, h3, h2, ?_⟩
  obtain ⟨j, rfl⟩ : ∃ j, k = j + 1 := ⟨k - 1, by omega⟩
  rw [h1, Function.iterate_succ_apply', Nat.add_sub_cancel]

/-- Claim C31: let `k` be the number of rounds performed by `EM_HMM`
(respectively `EM_HMM_UP`), which is at least `2`, and let `theta_(k-1)` be the
parameters held after `k - 1` rounds, the ones that enter the last round.  The
returned log-likelihood is `logLik(theta_(k-1))`, evaluated before the last
M-step, while the returned error rate and the returned recombination fractions
are the values written by the last M-step from `theta_(k-1)`. -/
theorem returned_loglik_lags_parameters (M : Libm α) (inp : EMInput α) :
    (∃ k : Nat, 2 ≤ k ∧ (EM_HMM_final M inp).iter = k ∧
      (EM_HMM M inp).llout =
        logLik M Qentry inp (EM_HMM_after M inp (k - 1)).r_c (EM_HMM_after M inp (k - 1)).ep_c ∧
      (EM_HMM M inp).epout =
        mstep_ep M Qentry Iindx inp (EM_HMM_after M inp (k - 1)).r_c
          (EM_HMM_after M inp (k - 1)).ep_c ∧
      (EM_HMM M inp).rout =
        copy_r inp.nSnps (mstep_r M Qentry (decide (inp.sexSpec ≠ 0)) inp
          (EM_HMM_after M inp (k - 1)).r_c (EM_HMM_after M inp (k - 1)).ep_c) ∧
      ∀ i, i < 2 * (inp.nSnps - 1) →
        (EM_HMM M inp).rout i =
          mstep_r M Qentry (decide (inp.sexSpec ≠ 0)) inp
            (EM_HMM_after M inp (k - 1)).r_c (EM_HMM_after M inp (k - 1)).ep_c i) ∧
    (∃ k : Nat, 2 ≤ k ∧ (EM_HMM_UP_final M inp).iter = k ∧
      (EM_HMM_UP M inp).llout =
        logLik M Qentry_up inp (EM_HMM_UP_after M inp (k - 1)).r_c
          (EM_HMM_UP_after M inp (k - 1)).ep_c ∧
      (EM_HMM_UP M inp).epout =
        mstep_ep M Qentry_up Iindx_up inp (EM_HMM_UP_after M inp (k - 1)).r_c
          (EM_HMM_UP_after M inp (k - 1)).ep_c ∧
      (EM_HMM_UP M inp).rout =
        copy_r inp.nSnps (mstep_r M Qentry_up true inp
          (EM_HMM_UP_after M inp (k - 1)).r_c (EM_HMM_UP_after M inp (k - 1)).ep_c) ∧
      ∀ i, i < 2 * (inp.nSnps - 1) →
        (EM_HMM_UP M inp).rout i =
          mstep_r M Qentry_up true inp
            (EM_HMM_UP_after M inp (k - 1)).r_c (EM_HMM_UP_after M inp (k - 1)).ep_c i) := by
  constructor
  · obtain ⟨k, hk, hit, hfin⟩ := emWhile_last_round M Qentry Iindx (decide (inp.sexSpec ≠ 0)) inp
      (emInit (decide (inp.sexSpec ≠ 0)) inp) rfl
    have hf : EM_HMM_final M inp =
        emBody M Qentry Iindx (decide (inp.sexSpec ≠ 0)) inp (EM_HMM_after M inp (k - 1)) := hfin
    refine ⟨k, hk, hit, ?_, ?_, ?_, ?_⟩
    · show (EM_HMM_final M inp).llval = _
      rw [hf]
      rfl
    · show (EM_HMM_final M inp).ep_c = _
      rw [hf]
      rfl
    · show copy_r inp.nSnps (EM_HMM_final M inp).r_c = _
      rw [hf]
      rfl
    · intro i hi
      show copy_r inp.nSnps (EM_HMM_final M inp).r_c i = _
      rw [copy_r_eq _ _ i hi, hf]
      rfl
  · obtain ⟨k, hk, hit, hfin⟩ := emWhile_last_round M Qentry_up Iindx_up true inp
      (emInit true inp) rfl
    have hf : EM_HMM_UP_final M inp =
        emBody M Qentry_up Iindx_up true inp (EM_HMM_UP_after M inp (k - 1)) := hfin
    refine ⟨k, hk, hit, ?_, ?_, ?_, ?_⟩
    · show (EM_HMM_UP_final M inp).llval = _
      rw [hf]
      rfl
    · show (EM_HMM_UP_final M inp).ep_c = _
      rw [hf]
      rfl
    · show copy_r inp.nSnps (EM_HMM_UP_final M inp).r_c = _
      rw [hf]
      rfl
    · intro i hi
      show copy_r inp.nSnps (EM_HMM_UP_final M inp).r_c i = _
      rw [copy_r_eq _ _ i hi, hf]
      rfl

end ReturnedValues

/-! ## Layout of the flat individual index -/

section FlatIndex

variable {α : Type} [LinearOrderedField α]

theorem indx_family_order (inp : EMInput α) (fam ind fam2 ind2 : Nat)
    (hind : ind < inp.nInd fam) (hlt : fam < fam2) :
    ind + indSum inp fam < ind2 + indSum inp fam2 := by
  have h1 : nTotalUpTo inp.nInd (fam + 1) ≤ nTotalUpTo inp.nInd fam2 :=
    nTotalUpTo_mono inp.nInd hlt
  rw [indSum_eq, indSum_eq]
  rw [nTotalUpTo_succ] at h1
  omega

theorem indx_cover (nInd : Nat → Nat) (n i : Nat) (hi : i < nTotalUpTo nInd n) :
    ∃ fam ind, fam < n ∧ ind < nInd fam ∧ ind + nTotalUpTo nInd fam = i := by
  induction n with
  | zero => exact absurd hi (Nat.not_lt_zero _)
  | succ n ih =>
    rcases Nat.lt_or_ge i (nTotalUpTo nInd n) with hlt | hge
    · obtain ⟨fam, ind, h1, h2, h3⟩ := ih hlt
      exact ⟨fam, ind, Nat.lt_succ_of_lt h1, h2, h3⟩
    · rw [nTotalUpTo_succ] at hi
      exact ⟨n, i - nTotalUpTo nInd n, Nat.lt_succ_self n, by omega, by omega⟩

/-- Claim C32: for every table of per-family individual counts, `indSum[fam]`
is the sum of the counts of the earlier families and `nTotal` is the sum of all
counts; the flat index `ind + indSum[fam]`, taken over `fam < noFam` and
`ind < nInd[fam]`, is injective, takes exactly the values `0 .. nTotal - 1`,
and places every individual of an earlier family before every individual of a
later one (and keeps the order of individuals inside a family). -/
theorem flat_index_layout (inp : EMInput α) :
    (∀ fam, fam < inp.noFam →
      indSum inp fam = ∑ f in Finset.range fam, inp.nInd f) ∧
    nTotal inp = ∑ f in Finset.range inp.noFam, inp.nInd f ∧
    (∀ fam ind fam2 ind2, fam < inp.noFam → ind < inp.nInd fam →
      fam2 < inp.noFam → ind2 < inp.nInd fam2 →
      ind + indSum inp fam = ind2 + indSum inp fam2 → fam = fam2 ∧ ind = ind2) ∧
    (∀ fam ind, fam < inp.noFam → ind < inp.nInd fam → ind + indSum inp fam < nTotal inp) ∧
    (∀ i, i < nTotal inp →
      ∃ fam ind, fam < inp.noFam ∧ ind < inp.nInd fam ∧ ind + indSum inp fam = i) ∧
    (∀ fam ind fam2 ind2, fam < inp.noFam → ind < inp.nInd fam →
      fam2 < inp.noFam → ind2 < inp.nInd fam2 →
      (ind + indSum inp fam < ind2 + indSum inp fam2 ↔
        fam < fam2 ∨ (fam = fam2 ∧ ind < ind2))) := by
  refine ⟨?_, ?_, ?_, ?_, ?_, ?_⟩
  · intro fam _
    rw [indSum_eq, nTotalUpTo_eq_sum]
  · unfold nTotal
    rw [nTotalUpTo_eq_sum]
  · intro fam ind fam2 ind2 _ hind _ hind2 heq
    rcases Nat.lt_trichotomy fam fam2 with h | h | h
    · have := indx_family_order inp fam ind fam2 ind2 hind h
      omega
    · subst h
      exact ⟨rfl, by omega⟩
    · have := indx_family_order inp fam2 ind2 fam ind hind2 h
      omega
  · intro fam ind hfam hind
    exact indx_lt_nTotal inp fam ind hfam hind
  · intro i hi
    obtain ⟨fam, ind, h1, h2, h3⟩ := indx_cover inp.nInd inp.noFam i hi
    exact ⟨fam, ind, h1, h2, by rw [indSum_eq]; exact h3⟩
  · intro fam ind fam2 ind2 _ hind _ hind2
    rcases Nat.lt_trichotomy fam fam2 with h | h | h
    · have := indx_family_order inp fam ind fam2 ind2 hind h
      constructor
      · intro _
        exact Or.inl h
      · intro _
        exact this
    · subst h
      constructor
      · intro hlt
        exact Or.inr ⟨rfl, by omega⟩
      · rintro (h | ⟨-, h⟩)
        · exact absurd h (Nat.lt_irrefl _)
        · omega
    · have := indx_family_order inp fam2 ind2 fam ind hind2 h
      constructor
      · intro hlt
        omega
      · rintro (h2 | ⟨h2, -⟩)
        · omega
        · omega

end FlatIndex

/-! ## The overflow sentinel of `binomial` on large words -/

section BinomialSentinel

theorem binomial_large_one (a : Nat) (h1 : 9223372036854775808 ≤ a)
    (h2 : a < 18446744073709551615) :
    binomial a 1 = 0 ∧ binomial 1 a = a + 1 := by
  have hn : (a + 1) % (ULONG_MAX + 1) = a + 1 := Nat.mod_eq_of_lt (by unfold ULONG_MAX; omega)
  have hn2 : (1 + a) % (ULONG_MAX + 1) = a + 1 := by rw [Nat.add_comm 1 a, hn]
  have hdiv : ULONG_MAX / (a + 1) = 1 :=
    Nat.div_eq_of_lt_le (by unfold ULONG_MAX; omega) (by unfold ULONG_MAX; omega)
  have ha1 : (a + 1 + (ULONG_MAX + 1 - a)) % (ULONG_MAX + 1) = 1 := by
    unfold ULONG_MAX
    omega
  constructor
  · unfold binomial
    simp only [hn]
    rw [if_neg (by omega), if_neg (by omega), if_neg (by omega), if_pos (by omega)]
    simp only [ha1]
    simp [binomial_loop, gcd_ui_eq, hdiv]
  · unfold binomial
    simp only [hn2]
    simp

/-- Claim C33 (refuted): `binomial(2^63, 1)` returns the sentinel `0` although
the true coefficient `C(2^63 + 1, 2^63) = 2^63 + 1` is below `ULONG_MAX`, and
the swapped call `binomial(1, 2^63)` returns that coefficient, so the two
argument orders disagree.  The test `r >= ULONG_MAX/nr` commented
"Unavoidable overflow" also fires when `r * nr` still fits in a word. -/
theorem binomial_spurious_sentinel :
    binomial 9223372036854775808 1 = 0 ∧
    Nat.choose (9223372036854775808 + 1) 9223372036854775808 = 9223372036854775808 + 1 ∧
    9223372036854775808 + 1 ≤ ULONG_MAX ∧
    binomial 1 9223372036854775808 = 9223372036854775808 + 1 ∧
    binomial 9223372036854775808 1 ≠ binomial 1 9223372036854775808 := by
  have h := binomial_large_one 9223372036854775808 (Nat.le_refl _) (by norm_num)
  refine ⟨h.1, Nat.choose_succ_self_right _, by unfold ULONG_MAX; norm_num, h.2, ?_⟩
  rw [h.1, h.2]
  norm_num

end BinomialSentinel

end GUSMap
